import Mathlib

/-!
# GraphAlg: a shallow embedding of `graphalg.cpp` / `graphalg.h`

Node identifiers are natural numbers (they index the adjacency matrix), the
adjacency matrix `int **adjMat` is a function `Nat → Nat → Int` of which only
the entries with both indices below `numNodes` are ever read, `std::list<int>`
is `List`, `std::set<int>` is a strictly increasing duplicate-free `List Nat`
(the iteration order of the set), and the `hash_set` of lists is a
duplicate-free `List (List Nat)` (only membership, insertion of an absent
element and the size are used by the source).
-/

namespace GraphAlg

/-! ## List utilities of `graphalg.cpp` -/

/-- `isInList`: 1 if `x` occurs in `myList`, else 0. -/
def isInList (x : Nat) (myList : List Nat) : Int :=
  if x ∈ myList then 1 else 0

/-- `revList`: a list of size at most 1 is returned as is, otherwise the
elements are pushed from the last one down to the first one. -/
def revList {α : Type} (myList : List α) : List α :=
  if myList.length ≤ 1 then myList else myList.reverse

/-- The scan `for (;lit!=myList.end();lit++) if (*lit < curMin) ...` of
`uniqueCycle` and `uniqueBiDirCycle`: `curMin` is the least value seen so far,
`minVal` its position, `pos` the position of the next element scanned. -/
def minScan {α : Type} [LinearOrder α] (curMin : α) (minVal pos : Nat) : List α → Nat
  | [] => minVal
  | x :: xs =>
    if x < curMin then minScan x pos (pos + 1) xs
    else minScan curMin minVal (pos + 1) xs

/-- Position of the iterator `minVal` after the scan (first occurrence of the
minimum). -/
def minValPos {α : Type} [LinearOrder α] : List α → Nat
  | [] => 0
  | x :: xs => minScan x 0 0 (x :: xs)

/-- `uniqueCycle`: a list of size at most 1 is returned as is; otherwise
`myList.size()` elements are copied, starting at `minVal` and wrapping from the
end to the beginning. -/
def uniqueCycle {α : Type} [LinearOrder α] (myList : List α) : List α :=
  if myList.length ≤ 1 then myList
  else myList.drop (minValPos myList) ++ myList.take (minValPos myList)

/-! ## Arrays, matrices and `std::set<int>` -/

/-- Assignment `a[i] = v` to an `int` array. -/
def setAt (a : Nat → Int) (i : Nat) (v : Int) : Nat → Int :=
  fun k => if k = i then v else a k

/-- Assignment `m[i][j] = v` to an `int` matrix. -/
def setAt2 (m : Nat → Nat → Int) (i j : Nat) (v : Int) : Nat → Nat → Int :=
  fun a b => if a = i ∧ b = j then v else m a b

/-- `std::set<int>::insert` on the increasing list of the elements. -/
def setInsert (x : Nat) : List Nat → List Nat
  | [] => [x]
  | y :: ys =>
    if x < y then x :: y :: ys
    else if x = y then y :: ys
    else y :: setInsert x ys

/-- `mySet.erase(mySet.find(x))` for an element `x` of the set. -/
def setErase (x : Nat) (s : List Nat) : List Nat := s.erase x

/-! ## `tarjan` and `strongConnect` -/

/-- The variables shared by the calls of `strongConnect`. -/
structure TarjanState where
  nodeIndex : Nat → Int
  nodeLowlink : Nat → Int
  index : Int
  myQueue : List Nat
  myQueueContents : List Nat
  strongConComps : List (List Nat)

/-- The two pop loops at the end of `strongConnect`: pops `myQueue` down to and
including `curNode`, moving the popped nodes into `newStrongConComp`; `none`
when `myQueue` runs empty before `curNode` is met. -/
def popComponent (curNode : Nat) :
    List Nat → List Nat → List Nat → Option (List Nat × List Nat × List Nat)
  | [], _, _ => none
  | tempInt :: rest, myQueueContents, newStrongConComp =>
    if tempInt ≠ curNode then
      popComponent curNode rest (setErase tempInt myQueueContents)
        (setInsert tempInt newStrongConComp)
    else some (rest, setErase tempInt myQueueContents, setInsert tempInt newStrongConComp)

/-- The end of `strongConnect`: when `nodeLowlink[curNode] == nodeIndex[curNode]`
a new component is popped off `myQueue` and appended to `strongConComps`. -/
def closeComponent (curNode : Nat) (s : TarjanState) : Option TarjanState :=
  if s.nodeLowlink curNode = s.nodeIndex curNode then
    match popComponent curNode s.myQueue s.myQueueContents [] with
    | none => none
    | some (q, qc, comp) =>
      some { s with myQueue := q, myQueueContents := qc,
                    strongConComps := s.strongConComps ++ [comp] }
  else some s

/-- The beginning of `strongConnect`: `curNode` gets the next index, its
lowlink is set to it, and it is pushed on `myQueue`. -/
def pushNode (curNode : Nat) (st : TarjanState) : TarjanState :=
  { st with nodeIndex := setAt st.nodeIndex curNode st.index,
            nodeLowlink := setAt st.nodeLowlink curNode st.index,
            index := st.index + 1,
            myQueue := curNode :: st.myQueue,
            myQueueContents := setInsert curNode st.myQueueContents }

/-- `strongConnect`, with the recursion depth bounded by the first argument
(`none`: the bound is too small, or `popComponent` is undefined). -/
def strongConnect (adjMatrix : Nat → Nat → Int) (numNodes : Nat) :
    Nat → Nat → TarjanState → Option TarjanState
  | 0, _, _ => none
  | fuel + 1, curNode, st =>
    ((List.range numNodes).foldl (fun (acc : Option TarjanState) (i : Nat) =>
      acc.bind (fun s =>
        if adjMatrix curNode i = 1 ∧ i ≠ curNode then
          if s.nodeIndex i = -1 then
            (strongConnect adjMatrix numNodes fuel i s).map (fun s' =>
              { s' with nodeLowlink := setAt s'.nodeLowlink curNode
                          (min (s'.nodeLowlink curNode) (s'.nodeLowlink i)) })
          else if i ∈ s.myQueueContents then
            some { s with nodeLowlink := setAt s.nodeLowlink curNode
                            (min (s.nodeLowlink curNode) (s.nodeIndex i)) }
          else some s
        else some s)) (some (pushNode curNode st))).bind (closeComponent curNode)

/-- The state of `tarjan` before its main loop. -/
def tarjanInit : TarjanState where
  nodeIndex := fun _ => -1
  nodeLowlink := fun _ => -1
  index := 0
  myQueue := []
  myQueueContents := []
  strongConComps := []

/-- The main loop of `tarjan` with recursion depth bounded by `fuel`. -/
def tarjanLoop (adjMatrix : Nat → Nat → Int) (numNodes fuel : Nat) : Option TarjanState :=
  (List.range numNodes).foldl (fun (acc : Option TarjanState) (i : Nat) =>
    acc.bind (fun s =>
      if s.nodeIndex i = -1 then strongConnect adjMatrix numNodes fuel i s else some s))
    (some tarjanInit)

/-- `tarjan`: the list of strongly connected components. The recursion of
`strongConnect` is bounded by `numNodes`, which is always enough
(`tarjan_spec`). -/
def tarjan (adjMatrix : Nat → Nat → Int) (numNodes : Nat) : Option (List (List Nat)) :=
  (tarjanLoop adjMatrix numNodes numNodes).map (fun s => s.strongConComps)

/-! ## `getMinCycles` and its helpers -/

/-- `getSubAdjMat`. -/
def getSubAdjMat (adjMat : Nat → Nat → Int) (mySet : List Nat) : Nat → Nat → Int :=
  fun i j => if i ∈ mySet ∧ j ∈ mySet then adjMat i j else 0

/-- `stripNeg`. -/
def stripNeg (adjMat : Nat → Nat → Int) : Nat → Nat → Int :=
  fun i j => if adjMat i j = -1 then 0 else adjMat i j

/-- The arrays written by `STWBE_DFS`. -/
structure SpanState where
  spanTreeAndBackEdges : Nat → Nat → Int
  visited : Nat → Int

/-- `STWBE_DFS`, with the recursion depth bounded by the first argument. -/
def STWBE_DFS (adjMat : Nat → Nat → Int) (numNodes : Nat) :
    Nat → Nat → SpanState → Option SpanState
  | 0, _, _ => none
  | fuel + 1, curNode, st =>
    (List.range numNodes).foldl (fun (acc : Option SpanState) (i : Nat) =>
      acc.bind (fun s =>
        if adjMat curNode i = 1 ∧ i ≠ curNode then
          if s.visited i = 0 then
            STWBE_DFS adjMat numNodes fuel i
              { s with spanTreeAndBackEdges := setAt2 s.spanTreeAndBackEdges curNode i 1 }
          else some { s with spanTreeAndBackEdges := setAt2 s.spanTreeAndBackEdges curNode i (-1) }
        else some s)) (some { st with visited := setAt st.visited curNode 1 })

/-- The search for `startNode` in `spanTreeWithBackEdges`: the first row with an
entry equal to 1 (`none`: `startNode` stays uninitialised). -/
def findStartNode (adjMat : Nat → Nat → Int) (numNodes : Nat) : Option Nat :=
  (List.range numNodes).find? (fun i => (List.range numNodes).any (fun j => adjMat i j = 1))

/-- `spanTreeWithBackEdges`: the matrix it fills in. -/
def spanTreeWithBackEdges (adjMat : Nat → Nat → Int) (numNodes : Nat) :
    Option (Nat → Nat → Int) :=
  match findStartNode adjMat numNodes with
  | none => none
  | some startNode =>
    (STWBE_DFS adjMat numNodes numNodes startNode
      { spanTreeAndBackEdges := fun _ _ => 0, visited := fun _ => 0 }).map
      (fun s => s.spanTreeAndBackEdges)

/-- The `for` loop of `pathInSpanningTreeDFS` over the candidates `i`, given the
recursive call `rec i path`: the first success pushes `i` to the front of the
path and returns 1. -/
def pathLoop (adjMat : Nat → Nat → Int) (curNode : Nat)
    (recCall : Nat → List Nat → Option (Int × List Nat)) :
    List Nat → List Nat → Option (Int × List Nat)
  | [], path => some (0, path)
  | i :: is, path =>
    if adjMat curNode i = 1 ∧ i ≠ curNode then
      match recCall i path with
      | none => none
      | some (r, path') =>
        if r = 1 then some (1, i :: path') else pathLoop adjMat curNode recCall is path'
    else pathLoop adjMat curNode recCall is path

/-- `pathInSpanningTreeDFS`, with the recursion depth bounded by the first
argument: the returned `int` and the new value of `path`. -/
def pathInSpanningTreeDFS (adjMat : Nat → Nat → Int) (numNodes : Nat) :
    Nat → Nat → Nat → List Nat → Option (Int × List Nat)
  | 0, _, _, _ => none
  | fuel + 1, curNode, endNode, path =>
    if curNode = endNode then some (1, path)
    else
      pathLoop adjMat curNode
        (fun i p => pathInSpanningTreeDFS adjMat numNodes fuel i endNode p)
        (List.range numNodes) path

/-- `pathInSpanningTree`. -/
def pathInSpanningTree (adjMat : Nat → Nat → Int) (numNodes startNode endNode : Nat) :
    Option (List Nat) :=
  match pathInSpanningTreeDFS adjMat numNodes (numNodes + 1) startNode endNode [] with
  | none => none
  | some (r, path) => if r = 1 then some (startNode :: path) else some path

/-- `getBackEdges`: the pairs `(i, j)` with `adjMat[i][j] == -1`, row by row. -/
def getBackEdges (adjMat : Nat → Nat → Int) (numNodes : Nat) : List (Nat × Nat) :=
  (List.range numNodes).flatMap (fun i =>
    ((List.range numNodes).filter (fun j => adjMat i j = -1)).map (fun j => (i, j)))

/-- Sequencing of a loop body that may be undefined over a list, collecting
the results in order. -/
def collect {α β : Type} (f : α → Option β) : List α → Option (List β)
  | [] => some []
  | a :: as =>
    match f a with
    | none => none
    | some b =>
      match collect f as with
      | none => none
      | some bs => some (b :: bs)

/-- The body of the main loop of `getMinCycles` for one component: the paths
pushed to `minCycles`. -/
def cyclesOfComponent (adjMat : Nat → Nat → Int) (numNodes : Nat) (comp : List Nat) :
    Option (List (List Nat)) :=
  if comp.length > 1 then
    match spanTreeWithBackEdges (getSubAdjMat adjMat comp) numNodes with
    | none => none
    | some spanTreeBackEdges =>
      collect (fun e => pathInSpanningTree (stripNeg spanTreeBackEdges) numNodes e.2 e.1)
        (getBackEdges spanTreeBackEdges numNodes)
  else some []

/-- `getMinCycles`. -/
def getMinCycles (adjMat : Nat → Nat → Int) (numNodes : Nat) : Option (List (List Nat)) :=
  match tarjan adjMat numNodes with
  | none => none
  | some strongConComps =>
    (collect (cyclesOfComponent adjMat numNodes) strongConComps).map List.flatten

/-! ## `getPath` and `getAllPaths` -/

/-- The variables shared by the calls of `getPathDFS`. -/
structure PathState where
  curPath : List Nat
  markedNodes : List Nat

/-- `getPathDFS`, with the recursion depth bounded by the first argument: the
returned `int` and the new values of `curPath` and `markedNodes`. The loop
state carries `foundEndNode`. -/
def getPathDFS (adjMat : Nat → Nat → Int) (numNodes : Nat) (directed : Int) :
    Nat → Nat → Nat → PathState → Option (Int × PathState)
  | 0, _, _, _ => none
  | fuel + 1, curNode, endNode, st =>
    if curNode = endNode then
      some (1, { st with markedNodes := setInsert curNode st.markedNodes })
    else
      (List.range numNodes).foldl (fun (acc : Option (Int × PathState)) (i : Nat) =>
        acc.bind (fun p =>
          if adjMat curNode i = 1 ∧ (adjMat i curNode = 1 ∨ directed = 1) ∧
              i ∉ p.2.markedNodes then
            (getPathDFS adjMat numNodes directed fuel i endNode p.2).map (fun q =>
              if q.1 = 1 then ((1 : Int), { q.2 with curPath := i :: q.2.curPath })
              else (p.1, q.2))
          else some p))
        (some (0, { st with markedNodes := setInsert curNode st.markedNodes }))

/-- `getPath`. The recursion of `getPathDFS` is bounded by `numNodes + 1`,
which is always enough (`getPathDFS_spec`). -/
def getPath (adjMat : Nat → Nat → Int) (numNodes a b : Nat) (directed : Int) :
    Option (List Nat) :=
  if a = b then some []
  else
    (getPathDFS adjMat numNodes directed (numNodes + 1) a b
      { curPath := [], markedNodes := [] }).map
      (fun q => if q.1 = 1 then a :: q.2.curPath else q.2.curPath)

/-- The variables shared by the calls of `getAllPathsDFS`. -/
structure AllPathsState where
  curPath : List Nat
  allPaths : List (List Nat)
  markedNodes : List Nat

/-- `getAllPathsDFS`, with the recursion depth bounded by the first `Nat`
argument: the new values of `curPath`, `allPaths` and `markedNodes`. At
`endNode` the source returns 1 and no caller reads the value, so the `int` is
dropped. On the other path the source removes the mark and reaches the closing
brace of a function declared `int` without a `return` statement, which C++
leaves undefined: with `braceReturns = false` such a call has no result, with
`braceReturns = true` it returns to its caller (what a compiler does that emits
a plain return there). -/
def getAllPathsDFS (adjMat : Nat → Nat → Int) (numNodes : Nat) (directed : Int)
    (braceReturns : Bool) : Nat → Nat → Nat → AllPathsState → Option AllPathsState
  | 0, _, _, _ => none
  | fuel + 1, curNode, endNode, st =>
    if curNode = endNode then
      some { st with allPaths := st.allPaths ++ [st.curPath],
                     markedNodes := setErase curNode (setInsert curNode st.markedNodes) }
    else
      (((List.range numNodes).foldl (fun (acc : Option AllPathsState) (i : Nat) =>
        acc.bind (fun s =>
          if adjMat curNode i = 1 ∧ (adjMat i curNode = 1 ∨ directed = 1) ∧
              i ∉ s.markedNodes then
            (getAllPathsDFS adjMat numNodes directed braceReturns fuel i endNode
              { s with curPath := s.curPath ++ [i] }).map
              (fun s' => { s' with curPath := s'.curPath.dropLast })
          else some s))
        (some { st with markedNodes := setInsert curNode st.markedNodes })).map
        (fun s => { s with markedNodes := setErase curNode s.markedNodes })).bind
        (fun s => if braceReturns then some s else none)

/-- `getAllPaths`. The recursion of `getAllPathsDFS` is bounded by
`numNodes + 1`, which is always enough (`getAllPathsDFS_spec`). -/
def getAllPaths (adjMat : Nat → Nat → Int) (numNodes a b : Nat) (directed : Int)
    (braceReturns : Bool) : Option (List (List Nat)) :=
  if a = b then some [[a]]
  else
    (getAllPathsDFS adjMat numNodes directed braceReturns (numNodes + 1) a b
      { curPath := [a], allPaths := [], markedNodes := [] }).map (fun s => s.allPaths)

/-- A step `x → y` between nodes below `n` that the path searches follow:
`adjMat[x][y] == 1` and, unless `directed` is 1, also `adjMat[y][x] == 1`. -/
def Trav (adjMat : Nat → Nat → Int) (n : Nat) (directed : Int) (x y : Nat) : Prop :=
  x < n ∧ y < n ∧ adjMat x y = 1 ∧ (adjMat y x = 1 ∨ directed = 1)

/-- The list `p` is a simple path from `a` to `b` along traversable steps. -/
def IsSimplePath (adjMat : Nat → Nat → Int) (n : Nat) (directed : Int) (a b : Nat)
    (p : List Nat) : Prop :=
  p.head? = some a ∧ p.getLast? = some b ∧ p.Nodup ∧ (∀ x ∈ p, x < n) ∧
  p.Chain' (Trav adjMat n directed)

/-- Number of nodes below `n` that are not in the list `m` of marked nodes. -/
def unmarkedCount (n : Nat) (m : List Nat) : Nat :=
  ((List.range n).filter (fun v => decide (v ∉ m))).length

/-! ## `listToString` -/

/-- The value of `(int)pow(10.0, (double)i)`: the power of ten while it fits an
`int`; for `i ≥ 10` the conversion is out of range and the value taken is the
one the x86 conversion instruction delivers, `INT_MIN`. -/
def powTenInt (i : Nat) : Int :=
  if 10 ^ i < 2 ^ 31 then ((10 ^ i : Nat) : Int) else -(2 ^ 31)

/-- The loop `while (*lit < (int)pow(10.0,(double)i)) i++` of `listToString`,
started at `i` and run for at most `fuel` iterations: the final value of `i`. -/
def digitLoop (x : Int) : Nat → Nat → Nat
  | 0, i => i
  | fuel + 1, i => if x < powTenInt i then digitLoop x fuel (i + 1) else i

/-- The value of `length` after the first loop of `listToString`: every element
adds `i - 1 + 1` for its final `i` (ten iterations always end the inner loop,
since `powTenInt 10` is `INT_MIN`). -/
def stringLength (myList : List Int) : Nat :=
  (myList.map (fun x => digitLoop x 10 1 - 1 + 1)).sum

/-- One `sprintf(retString + curIndex, ...)` followed by
`curIndex = strlen(retString) - curIndex`, on the text of `retString` before
its terminating NUL: the text is cut at `curIndex`, the new text is appended,
and `curIndex` becomes the new length minus the old `curIndex`. `none` when the
write starts beyond the text or does not fit the `cap` allocated bytes. -/
def sprintfStep (cap : Nat) (st : List Char × Nat) (text : List Char) :
    Option (List Char × Nat) :=
  if st.2 ≤ st.1.length ∧ st.2 + text.length + 1 ≤ cap then
    some (st.1.take st.2 ++ text, (st.1.take st.2 ++ text).length - st.2)
  else none

/-- The second loop of `listToString`: every element but the last is printed
with `"%d,"`, the last one with `"%d"`. -/
def renderLoop (cap : Nat) : List Int → List Char × Nat → Option (List Char × Nat)
  | [], st => some st
  | [x], st => sprintfStep cap st (toString x).toList
  | x :: y :: rest, st =>
    match sprintfStep cap st ((toString x).toList ++ [',']) with
    | none => none
    | some st' => renderLoop cap (y :: rest) st'

/-- `listToString`: the text of the returned buffer (`none` for the empty list,
whose buffer is returned uninitialised, and when a write leaves the buffer). -/
def listToString (myList : List Int) : Option String :=
  if myList = [] then none
  else (renderLoop (stringLength myList + 1) myList ([], 0)).map (fun st => String.mk st.1)

/-- The library hash of a C string (`hash <const char *>` of `ext/hash_set`):
`h = 5*h + c` over the characters, in an unsigned 64-bit word. -/
def stlHashString (text : String) : Nat :=
  text.toList.foldl (fun h c => (5 * h + c.toNat) % 2 ^ 64) 0

/-- `hashListInt::operator()`: the key is rendered by `listToString` and the
text is hashed; `none` when `listToString` writes outside its buffer. -/
def hashListInt (myList : List Nat) : Option Nat :=
  (listToString (myList.map Int.ofNat)).map stlHashString

/-! ## The class `cycleGenerator` -/

/-- Conversion of an `int` to the unsigned `size_t` (64 bit) that the
comparison `cycleLengthMin <= curPath.size()` performs. -/
def toSizeT (x : Int) : Nat := (x % 2 ^ 64).toNat

/-- The value that a 32-bit `int` holds after an arithmetic result `x`: the
result itself when it fits, and the two's complement wrap-around otherwise
(the C++ standard leaves the overflow undefined; the compiled increment
wraps). -/
def wrapInt (x : Int) : Int := (x + 2 ^ 31) % 2 ^ 32 - 2 ^ 31

/-- The data members of `cycleGenerator`. -/
structure cycleGenerator where
  adjMat : Nat → Nat → Int
  numNodes : Nat
  oneStepCalls : Int
  cycleLengthMin : Int
  hashBiDirectedCycles : Int
  pathQueue : List (List Nat)
  cyclesFound : List (List Nat)
  uniqBiDirectedCycles : List (List Nat)

/-- `cycleGenerator::init` (the default constructor); the containers start
empty. -/
def cycleGenerator.init : cycleGenerator where
  adjMat := fun _ _ => 0
  numNodes := 0
  oneStepCalls := 0
  cycleLengthMin := 1
  hashBiDirectedCycles := 0
  pathQueue := []
  cyclesFound := []
  uniqBiDirectedCycles := []

/-- `cycleGenerator::addVertToPathQueue`: one singleton path per node is
appended to the frontier. -/
def cycleGenerator.addVertToPathQueue (g : cycleGenerator) : cycleGenerator :=
  { g with pathQueue := g.pathQueue ++ (List.range g.numNodes).map (fun i => [i]) }

/-- `cycleGenerator::copyAdjMatInt`. -/
def cycleGenerator.copyAdjMatInt (g : cycleGenerator) (someAdjMat : Nat → Nat → Int)
    (someNumNodes : Nat) : cycleGenerator :=
  cycleGenerator.addVertToPathQueue { g with adjMat := someAdjMat, numNodes := someNumNodes }

/-- The constructor `cycleGenerator(someAdjMat, someNumNodes)`. -/
def cycleGenerator.new (someAdjMat : Nat → Nat → Int) (someNumNodes : Nat) : cycleGenerator :=
  cycleGenerator.copyAdjMatInt cycleGenerator.init someAdjMat someNumNodes

/-- `cycleGenerator::clear`. -/
def cycleGenerator.clear (g : cycleGenerator) : cycleGenerator :=
  { g with numNodes := 0, pathQueue := [], cyclesFound := [], uniqBiDirectedCycles := [],
           oneStepCalls := 0 }

/-- `cycleGenerator::setHashBiDirectedCycles`. -/
def cycleGenerator.setHashBiDirectedCycles (g : cycleGenerator) (x : Int) : cycleGenerator :=
  { g with hashBiDirectedCycles := x }

/-- `cycleGenerator::setCycleLengthMin`. -/
def cycleGenerator.setCycleLengthMin (g : cycleGenerator) (x : Int) : cycleGenerator :=
  { g with cycleLengthMin := x }

/-- `cycleGenerator::numOneStepCall`. -/
def cycleGenerator.numOneStepCall (g : cycleGenerator) : Int := g.oneStepCalls

/-- `cycleGenerator::sizeUniqBiDirectedCycles`. -/
def cycleGenerator.sizeUniqBiDirectedCycles (g : cycleGenerator) : Nat :=
  g.uniqBiDirectedCycles.length

/-- The `for` loop of `isCycleBiDirected` over the consecutive pairs
`(*lit, *tempLit)`: false as soon as `adjMat[*tempLit][*lit] == 0`. -/
def revArcsPresent (adjMat : Nat → Nat → Int) : List Nat → Bool
  | x :: y :: rest => if adjMat y x = 0 then false else revArcsPresent adjMat (y :: rest)
  | _ => true

/-- `cycleGenerator::isCycleBiDirected`. -/
def cycleGenerator.isCycleBiDirected (g : cycleGenerator) (myCycle : List Nat) : Int :=
  if myCycle.length ≤ 1 ∨ g.numNodes = 0 then 0
  else if revArcsPresent g.adjMat myCycle = false then 0
  else if g.adjMat (myCycle.headD 0) (myCycle.getLastD 0) = 0 then 0
  else 1

/-- `cycleGenerator::uniqueBiDirCycle`. The three branches compute `minPlus`
and `minMinus` from the position of `minVal`; in the last branch the source
does `lit++; minPlus = *lit; lit--; minMinus = *lit;`, so `minMinus` is the
element at `minVal` itself. -/
def cycleGenerator.uniqueBiDirCycle (g : cycleGenerator) (myList : List Nat) : List Nat :=
  if myList.length ≤ 1 ∨ g.isCycleBiDirected myList = 0 then myList
  else
    let m := minValPos myList
    let minPlus : Nat :=
      if m = 0 then myList.getD 1 0
      else if m + 1 = myList.length then myList.getD 0 0
      else myList.getD (m + 1) 0
    let minMinus : Nat :=
      if m = 0 then myList.getLastD 0
      else if m + 1 = myList.length then myList.getD (m - 1) 0
      else myList.getD m 0
    if minPlus > minMinus then uniqueCycle (revList myList) else uniqueCycle myList

/-- The part of `oneStep` that handles a closed path `curPath`: the lists it
pushes to the back of `cyclesFound` (none or `curPath`) and the new contents
of `uniqBiDirectedCycles`. The dedup set is a `hash_set` with the hash
`hashListInt`: `find(uniqCycle)` hashes the key, so the result is `none` when
that call writes outside its buffer; `insert(uniqCycle)` hashes the same key
again, and the keys already in the set when the table grows. -/
def cycleGenerator.recordCycle (g : cycleGenerator) (curPath : List Nat) :
    Option (List (List Nat) × List (List Nat)) :=
  if g.hashBiDirectedCycles = 1 ∧ g.isCycleBiDirected curPath = 1 ∧ curPath.length > 2 then
    let uniqCycle := g.uniqueBiDirCycle curPath
    match hashListInt uniqCycle with
    | none => none
    | some _ =>
      if uniqCycle ∉ g.uniqBiDirectedCycles then
        some (if toSizeT g.cycleLengthMin ≤ curPath.length then [curPath] else [],
              g.uniqBiDirectedCycles ++ [uniqCycle])
      else some ([], g.uniqBiDirectedCycles)
  else
    some (if toSizeT g.cycleLengthMin ≤ curPath.length then [curPath] else [],
          g.uniqBiDirectedCycles)

/-- The last `for` loop of `oneStep`: the paths `curPath + [i]` pushed to the
back of the frontier, for `i = head+1, ..., numNodes-1`. -/
def cycleGenerator.newPaths (g : cycleGenerator) (head tail : Nat) (curPath : List Nat) :
    List (List Nat) :=
  ((List.range' (head + 1) (g.numNodes - (head + 1))).filter
    (fun i => g.adjMat tail i = 1 ∧ i ≠ head ∧ isInList i curPath = 0)).map
    (fun i => curPath ++ [i])

/-- `cycleGenerator::oneStep`: the returned `int` and the new state. The result
is `none` when the path at the front of the frontier is empty (the source then
dereferences `begin()` of an empty list; no path pushed by the class is
empty), and when the hashing of the dedup key writes outside its buffer. -/
def cycleGenerator.oneStep (g : cycleGenerator) : Option (Int × cycleGenerator) :=
  let g1 := { g with oneStepCalls := wrapInt (g.oneStepCalls + 1) }
  match g1.pathQueue with
  | [] => some (0, g1)
  | curPath :: rest =>
    match curPath with
    | [] => none
    | head :: more =>
      let tail := (head :: more).getLast (List.cons_ne_nil head more)
      let g2 := { g1 with pathQueue := rest }
      match (if curPath.length > 1 ∧ g2.adjMat tail head = 1 then g2.recordCycle curPath
             else some ([], g2.uniqBiDirectedCycles)) with
      | none => none
      | some found =>
        some (1, { g2 with cyclesFound := g2.cyclesFound ++ found.1,
                           uniqBiDirectedCycles := found.2,
                           pathQueue := rest ++ g2.newPaths head tail curPath })

/-- The loop `while (cyclesFound.size() == 0 && oneStep() == 1) {}` of
`nextCycle`, run for at most `fuel` iterations (`none`: more iterations are
needed, or `oneStep` is undefined). -/
def cycleGenerator.stepLoop : Nat → cycleGenerator → Option cycleGenerator
  | 0, _ => none
  | fuel + 1, g =>
    if g.cyclesFound.length = 0 then
      match g.oneStep with
      | none => none
      | some (r, g') => if r = 1 then cycleGenerator.stepLoop fuel g' else some g'
    else some g

/-- `cycleGenerator::nextCycle` with the inner loop bounded by `fuel`: the
returned list and the new state. When the first two `if`s both fail (the
ready buffer and the frontier are both non-empty) control reaches the end of
the function without a `return`; that is `none`. -/
def cycleGenerator.nextCycleFuel (fuel : Nat) (g : cycleGenerator) :
    Option (List Nat × cycleGenerator) :=
  if g.numNodes = 0 ∨ g.pathQueue.length = 0 then some ([], g)
  else if g.cyclesFound.length = 0 ∧ g.numNodes ≠ 0 then
    match cycleGenerator.stepLoop fuel g with
    | none => none
    | some g' =>
      if g'.cyclesFound.length = 0 ∧ g'.pathQueue.length = 0 then some ([], g')
      else
        match g'.cyclesFound with
        | [] => none
        | c :: rest => some (c, { g' with cyclesFound := rest })
  else none

/-- Number of nodes below `n` that do not occur in the path `p`; each
path pushed by `oneStep` for `p` has one such node less. -/
def freeNodes (n : Nat) (p : List Nat) : Nat :=
  ((List.range n).filter (fun i => i ∉ p)).length

/-- A bound on the number of `oneStep` calls that find the frontier non-empty:
a path with `c` free nodes counts `(numNodes+1)^c`. -/
def cycleGenerator.stepBound (g : cycleGenerator) : Nat :=
  (g.pathQueue.map (fun p => (g.numNodes + 1) ^ freeNodes g.numNodes p)).sum

/-- `cycleGenerator::nextCycle`: the inner loop is given `stepBound + 1`
iterations, which it never exceeds (`stepLoop_spec`). -/
def cycleGenerator.nextCycle (g : cycleGenerator) : Option (List Nat × cycleGenerator) :=
  g.nextCycleFuel (g.stepBound + 1)

/-- The lists returned by `k` successive calls of `nextCycle`, and the state
after them. -/
def cycleGenerator.nextCycles : Nat → cycleGenerator → Option (List (List Nat) × cycleGenerator)
  | 0, g => some ([], g)
  | k + 1, g =>
    match g.nextCycle with
    | none => none
    | some (c, g') =>
      match cycleGenerator.nextCycles k g' with
      | none => none
      | some (cs, gf) => some (c :: cs, gf)

/-- The state after `k` direct calls of `oneStep` (the returned `int`s are
dropped). -/
def cycleGenerator.oneSteps : Nat → cycleGenerator → Option cycleGenerator
  | 0, g => some g
  | k + 1, g =>
    match g.oneStep with
    | none => none
    | some (_, g') => cycleGenerator.oneSteps k g'

/-- The driver loop `myCycle = nextCycle(); while (myCycle.size() != 0) ...`:
`nextCycle` is called until it returns the empty list, at most `k` times; the
result is the sequence of the non-empty lists returned (`none` when none of
the `k` calls returns the empty list). -/
def cycleGenerator.drain : Nat → cycleGenerator → Option (List (List Nat))
  | 0, _ => none
  | k + 1, g =>
    match g.nextCycle with
    | none => none
    | some (c, g') =>
      if c.length = 0 then some []
      else
        match cycleGenerator.drain k g' with
        | none => none
        | some cs => some (c :: cs)

/-! ## Graphs used as concrete inputs -/

/-- The adjacency matrix whose rows are the given lists (0 elsewhere). -/
def ofRows (rows : List (List Int)) : Nat → Nat → Int :=
  fun i j => (rows.getD i []).getD j 0

/-- The complete directed graph on the nodes 0, 1, 2 (no self-loops). -/
def completeThree : Nat → Nat → Int := ofRows [[0, 1, 1], [1, 0, 1], [1, 1, 0]]

/-- The directed triangle 0 → 1 → 2 → 0 with the chord 0 → 2. -/
def triangleWithChord : Nat → Nat → Int := ofRows [[0, 1, 1], [0, 0, 1], [1, 0, 0]]

/-- The graph on the nodes 0, 1 with the single arc 0 → 1. -/
def singleArc : Nat → Nat → Int := ofRows [[0, 1], [0, 0]]

/-- The state of the generator of `singleArc` after its frontier ran empty:
four calls of `oneStep`, no path and no cycle left. -/
def exhaustedSingleArc : cycleGenerator :=
  { adjMat := singleArc, numNodes := 2, oneStepCalls := 4, cycleLengthMin := 1,
    hashBiDirectedCycles := 0, pathQueue := [], cyclesFound := [],
    uniqBiDirectedCycles := [] }

/-- The graph on the nodes 0, 1 with the arcs 0 → 1 and 1 → 0. -/
def twoCycle : Nat → Nat → Int := ofRows [[0, 1], [1, 0]]

/-- The directed triangle 0 → 2 → 1 → 0 (the triangle 0 → 1 → 2 → 0 with every
arc turned around). -/
def reversedTriangle : Nat → Nat → Int := ofRows [[0, 0, 1], [1, 0, 0], [0, 1, 0]]

/-- The state of the fresh generator of `twoCycle` after three direct calls of
`oneStep`: the frontier is empty and the cycle `[0, 1]` waits in `cyclesFound`. -/
def readyTwoCycle : cycleGenerator :=
  { adjMat := twoCycle, numNodes := 2, oneStepCalls := 3, cycleLengthMin := 1,
    hashBiDirectedCycles := 0, pathQueue := [], cyclesFound := [[0, 1]],
    uniqBiDirectedCycles := [] }

/-- The state of the fresh generator of `triangleWithChord` after five direct
calls of `oneStep`: the cycle `[0, 2]` waits in `cyclesFound` and two paths are
left in the frontier. -/
def readyTriangle : cycleGenerator :=
  { adjMat := triangleWithChord, numNodes := 3, oneStepCalls := 5, cycleLengthMin := 1,
    hashBiDirectedCycles := 0, pathQueue := [[1, 2], [0, 1, 2]], cyclesFound := [[0, 2]],
    uniqBiDirectedCycles := [] }

/-- The state of the generator of `twoCycle` with dedup enabled after its first
`nextCycle` call, which returned `[0, 1]`. -/
def dedupTwoCycle : cycleGenerator :=
  { adjMat := twoCycle, numNodes := 2, oneStepCalls := 3, cycleLengthMin := 1,
    hashBiDirectedCycles := 1, pathQueue := [], cyclesFound := [],
    uniqBiDirectedCycles := [] }

/-- The state of the generator of `completeThree` with dedup enabled and
minimum length 4 after its first `nextCycle` call, which returned the empty
list. -/
def filteredCompleteThree : cycleGenerator :=
  { adjMat := completeThree, numNodes := 3, oneStepCalls := 9, cycleLengthMin := 4,
    hashBiDirectedCycles := 1, pathQueue := [], cyclesFound := [],
    uniqBiDirectedCycles := [[0, 1, 2]] }

/-- The state of the generator of `completeThree` with dedup enabled and
minimum length 2 after four `nextCycle` calls, which returned `[0, 1]`,
`[0, 2]`, `[1, 2]` and `[0, 1, 2]`. -/
def dedupedCompleteThree : cycleGenerator :=
  { adjMat := completeThree, numNodes := 3, oneStepCalls := 7, cycleLengthMin := 2,
    hashBiDirectedCycles := 1, pathQueue := [[0, 2, 1]], cyclesFound := [],
    uniqBiDirectedCycles := [[0, 1, 2]] }

/-- The state of the generator of `completeThree` with dedup enabled and
minimum length -1 after its first `nextCycle` call, which returned the empty
list. -/
def negativeMinCompleteThree : cycleGenerator :=
  { adjMat := completeThree, numNodes := 3, oneStepCalls := 9, cycleLengthMin := -1,
    hashBiDirectedCycles := 1, pathQueue := [], cyclesFound := [],
    uniqBiDirectedCycles := [[0, 1, 2]] }

/-- The graph on the nodes 0, ..., 12 whose arcs join the nodes 10, 11 and 12
in both directions; the nodes 0, ..., 9 have no arc. -/
def farTriangle : Nat → Nat → Int :=
  fun i j => if i ≠ j ∧ 10 ≤ i ∧ i < 13 ∧ 10 ≤ j ∧ j < 13 then 1 else 0

/-- The state of the generator of `farTriangle` with dedup enabled after three
`nextCycle` calls, which returned `[10, 11]`, `[10, 12]` and `[11, 12]`: the
closed path `[10, 11, 12]` is at the front of the frontier. -/
def farTriangleAtKey : cycleGenerator :=
  { adjMat := farTriangle, numNodes := 13, oneStepCalls := 16, cycleLengthMin := 1,
    hashBiDirectedCycles := 1, pathQueue := [[10, 11, 12], [10, 12, 11]], cyclesFound := [],
    uniqBiDirectedCycles := [] }

/-- The exhausted generator of `singleArc` after so many more `oneStep` calls
that its step counter is `INT_MAX`. -/
def saturatedSingleArc : cycleGenerator :=
  { exhaustedSingleArc with oneStepCalls := 2147483647 }

/-- The tree with the arcs 0 → 1, 1 → 2 and 0 → 3 on the nodes 0, 1, 2, 3. -/
def smallTree : Nat → Nat → Int :=
  ofRows [[0, 1, 0, 1], [0, 0, 1, 0], [0, 0, 0, 0], [0, 0, 0, 0]]

/-- The triangle 0 → 1 → 2 → 0 with the chord 0 → 2 and a self-loop at every
node. -/
def triangleWithLoops : Nat → Nat → Int := ofRows [[1, 1, 1], [0, 1, 1], [1, 0, 1]]

/-- A matrix with an entry outside `{0, 1}`: the arc 1 → 0 and the entry 2 at
`(0, 1)`. -/
def invalidMatrix : Nat → Nat → Int := ofRows [[0, 2], [1, 0]]

/-- What `recordCycle` yields when the hashing of the key is defined: the
lists pushed to `cyclesFound` and the new dedup set. -/
def cycleGenerator.recordEffect (g : cycleGenerator) (curPath : List Nat) :
    List (List Nat) × List (List Nat) :=
  if g.hashBiDirectedCycles = 1 ∧ g.isCycleBiDirected curPath = 1 ∧ curPath.length > 2 then
    let uniqCycle := g.uniqueBiDirCycle curPath
    if uniqCycle ∉ g.uniqBiDirectedCycles then
      (if toSizeT g.cycleLengthMin ≤ curPath.length then [curPath] else [],
       g.uniqBiDirectedCycles ++ [uniqCycle])
    else ([], g.uniqBiDirectedCycles)
  else
    (if toSizeT g.cycleLengthMin ≤ curPath.length then [curPath] else [],
     g.uniqBiDirectedCycles)

/-- The hashing that `oneStep` performs for the head `P` of the frontier is
defined: when `P` is closed and goes through the dedup set, `hashListInt` of
its representative stays inside its buffer. -/
def cycleGenerator.HashDefined (g : cycleGenerator) (P : List Nat) : Prop :=
  P.length > 1 ∧ g.adjMat (P.getLastD 0) (P.headD 0) = 1 →
  g.hashBiDirectedCycles = 1 ∧ g.isCycleBiDirected P = 1 ∧ P.length > 2 →
  hashListInt (g.uniqueBiDirCycle P) ≠ none

/-- A state in which no `oneStep` call can leave the buffer of `listToString`:
dedup is disabled, or there are at most 10 nodes (all keys have one-digit
elements) and the frontier holds valid nodes only. -/
def cycleGenerator.HashSafe (g : cycleGenerator) : Prop :=
  g.hashBiDirectedCycles ≠ 1 ∨
  (g.numNodes ≤ 10 ∧ ∀ P ∈ g.pathQueue, ∀ x ∈ P, x < g.numNodes)

/-- The hypotheses under which a predicate `Inv out g` on the lists handed
out so far (returned or waiting in `cyclesFound`) and the state is an
invariant of the generator. -/
structure IsInvariant (Inv : List (List Nat) → cycleGenerator → Prop) : Prop where
  step : ∀ out g r g', Inv (out ++ g.cyclesFound) g → g.oneStep = some (r, g') →
    Inv (out ++ g'.cyclesFound) g'
  pop : ∀ out g cf, Inv out g → Inv out { g with cyclesFound := cf }
  wf : ∀ out g, Inv out g → (∀ P ∈ g.pathQueue, P ≠ []) ∧ (g.numNodes = 0 → g.pathQueue = [])

/-- Invariant behind the length order: the handed-out lists followed by the
frontier are in nondecreasing order of length, and the lengths in the frontier
differ by at most one. -/
def LenInv (out : List (List Nat)) (g : cycleGenerator) : Prop :=
  (∀ P ∈ g.pathQueue, P ≠ []) ∧ (g.numNodes = 0 → g.pathQueue = []) ∧
  (out ++ g.pathQueue).Pairwise (fun a b => a.length ≤ b.length) ∧
  (∀ P ∈ g.pathQueue, ∀ Q ∈ g.pathQueue, Q.length ≤ P.length + 1)

/-! ## Cycles of a graph (specification side) -/

/-- The matrix has only the entries 0 and 1 (for indices below `n`). -/
def IsZeroOne (adjMat : Nat → Nat → Int) (n : Nat) : Prop :=
  ∀ i < n, ∀ j < n, adjMat i j = 0 ∨ adjMat i j = 1

/-- A simple directed cycle of the graph, as a list of nodes in any rotation:
at least 2 nodes, all distinct and below `n`, an arc between every
consecutive pair and the arc from the last node back to the first. -/
def IsSimpleCycle (adjMat : Nat → Nat → Int) (n : Nat) (c : List Nat) : Prop :=
  2 ≤ c.length ∧ c.Nodup ∧ (∀ x ∈ c, x < n) ∧
  c.Chain' (fun x y => adjMat x y = 1) ∧ adjMat (c.getLastD 0) (c.headD 0) = 1

/-- Every cyclically consecutive pair `(x, y)` of the list, the wrap from the
last element to the first included, satisfies `R x y`. -/
def CyclicPairs (R : Nat → Nat → Prop) (l : List Nat) : Prop :=
  l.Chain' R ∧ R (l.getLastD 0) (l.headD 0)

/-- A path of the kind the frontier holds: non-empty, simple, along arcs, and
every node after the first is larger than the first. -/
def IsRootedPath (adjMat : Nat → Nat → Int) (n : Nat) (P : List Nat) : Prop :=
  P ≠ [] ∧ P.Nodup ∧ (∀ x ∈ P, x < n) ∧ (∀ x ∈ P.tail, P.headD 0 < x) ∧
  P.Chain' (fun x y => adjMat x y = 1)

/-- The test of `oneStep` for a found cycle: more than one node and an arc from
the last node to the first. -/
def ClosesCycle (adjMat : Nat → Nat → Int) (P : List Nat) : Prop :=
  P.length > 1 ∧ adjMat (P.getLastD 0) (P.headD 0) = 1

/-- The other orientation of a cycle, started at the same node. -/
def mirror : List Nat → List Nat
  | [] => []
  | h :: t => h :: t.reverse

/-- Number of paths of the frontier that are a prefix of `C`. -/
def pending (q : List (List Nat)) (C : List Nat) : Nat :=
  q.countP (fun P => decide (P <+: C))

/-- The test of `oneStep` that sends a found cycle through the dedup set. -/
def cycleGenerator.Dedups (g : cycleGenerator) (C : List Nat) : Prop :=
  g.hashBiDirectedCycles = 1 ∧ g.isCycleBiDirected C = 1 ∧ C.length > 2

/-- Invariant of the enumeration for minimum length at most 2. A cycle that
does not go through the dedup set is handed out or still has exactly one
prefix in the frontier; of a cycle that does and its mirror, one is handed
out once the representative is in the dedup set, which is the case as soon as
one of the two has left the frontier. -/
def CycInv (adjMat : Nat → Nat → Int) (n : Nat) (h : Int) (out : List (List Nat))
    (g : cycleGenerator) : Prop :=
  g.adjMat = adjMat ∧ g.numNodes = n ∧ g.hashBiDirectedCycles = h ∧
  toSizeT g.cycleLengthMin ≤ 2 ∧
  (∀ P ∈ g.pathQueue, IsRootedPath adjMat n P) ∧
  (∀ c ∈ out, IsRootedPath adjMat n c ∧ ClosesCycle adjMat c) ∧
  (∀ C, IsRootedPath adjMat n C → ClosesCycle adjMat C →
    (¬ g.Dedups C → out.count C + pending g.pathQueue C = 1) ∧
    (g.Dedups C →
      pending g.pathQueue C ≤ 1 ∧ pending g.pathQueue (mirror C) ≤ 1 ∧
      (g.uniqueBiDirCycle C ∈ g.uniqBiDirectedCycles ↔
        pending g.pathQueue C = 0 ∨ pending g.pathQueue (mirror C) = 0) ∧
      out.count C + out.count (mirror C) =
        if g.uniqueBiDirCycle C ∈ g.uniqBiDirectedCycles then 1 else 0))

/-! ## Reachability and the invariants of `strongConnect` (specification side) -/

/-- The arc `u → v` of the graph: an entry equal to 1. -/
def Arc (adjMat : Nat → Nat → Int) (n : Nat) (u v : Nat) : Prop :=
  u < n ∧ v < n ∧ adjMat u v = 1

/-- Node `v` is reachable from `u` along arcs (in zero or more steps). -/
def Reach (adjMat : Nat → Nat → Int) (n : Nat) : Nat → Nat → Prop :=
  Relation.ReflTransGen (Arc adjMat n)

/-- Number of nodes that `strongConnect` has not yet visited. -/
def unvisitedCount (n : Nat) (s : TarjanState) : Nat :=
  ((Finset.range n).filter (fun v => s.nodeIndex v = -1)).card

/-- Invariant of the state of `tarjan` while the calls of `strongConnect` for
the nodes of `G` are active. -/
structure TInv (adjMat : Nat → Nat → Int) (n : Nat) (s : TarjanState) (G : List Nat) :
    Prop where
  nodupQ : s.myQueue.Nodup
  nodupC : s.myQueueContents.Nodup
  memC : ∀ v, v ∈ s.myQueueContents ↔ v ∈ s.myQueue
  idxNonneg : 0 ≤ s.index
  idxRange : ∀ v, s.nodeIndex v ≠ -1 → 0 ≤ s.nodeIndex v ∧ s.nodeIndex v < s.index
  idxInj : ∀ u v, s.nodeIndex u ≠ -1 → s.nodeIndex u = s.nodeIndex v → u = v
  visLt : ∀ v, s.nodeIndex v ≠ -1 → v < n
  visIff : ∀ v, s.nodeIndex v ≠ -1 ↔ (v ∈ s.myQueue ∨ ∃ c ∈ s.strongConComps, v ∈ c)
  stackDisj : ∀ v ∈ s.myQueue, ∀ c ∈ s.strongConComps, v ∉ c
  compsDisj : s.strongConComps.Pairwise List.Disjoint
  compsNodup : ∀ c ∈ s.strongConComps, c.Nodup
  closed : ∀ c ∈ s.strongConComps, ∀ u ∈ c, ∀ v, Arc adjMat n u v →
    ∃ c' ∈ s.strongConComps, v ∈ c'
  isScc : ∀ c ∈ s.strongConComps, c ≠ [] ∧
    ∀ u ∈ c, ∀ v, v ∈ c ↔ (Reach adjMat n u v ∧ Reach adjMat n v u)
  chain : ∀ x ∈ s.myQueue, ∀ y ∈ s.myQueue, s.nodeIndex x ≤ s.nodeIndex y → Reach adjMat n x y
  grayStack : ∀ g ∈ G, g ∈ s.myQueue
  toGray : ∀ v ∈ s.myQueue, ∃ g ∈ G, s.nodeIndex g ≤ s.nodeIndex v ∧ Reach adjMat n v g

/-- What a state `s` keeps from an earlier state `s0`. -/
structure Frame (s0 s : TarjanState) : Prop where
  idx : ∀ v, s0.nodeIndex v ≠ -1 → s.nodeIndex v = s0.nodeIndex v
  low : ∀ v, s0.nodeIndex v ≠ -1 → s.nodeLowlink v = s0.nodeLowlink v
  idxLe : s0.index ≤ s.index
  newIdx : ∀ v, s0.nodeIndex v = -1 → s.nodeIndex v ≠ -1 → s0.index ≤ s.nodeIndex v
  comps : ∃ new, s.strongConComps = s0.strongConComps ++ new

/-- Postcondition of `strongConnect` for `cur`, called in state `s0` with the
calls for `G` active, returning in state `s`. -/
structure Post (adjMat : Nat → Nat → Int) (n : Nat) (s0 s : TarjanState) (G : List Nat)
    (cur : Nat) : Prop where
  inv : TInv adjMat n s G
  frame : Frame s0 s
  idxCur : s.nodeIndex cur = s0.index
  stack : ∃ T, s.myQueue = T ++ s0.myQueue ∧ ∀ v ∈ T, s0.nodeIndex v = -1
  lowCases : (s.nodeLowlink cur = s0.index ∧ s.myQueue = s0.myQueue) ∨
    (s.nodeLowlink cur < s0.index ∧
      ∃ y ∈ s0.myQueue, s0.nodeIndex y = s.nodeLowlink cur ∧ Reach adjMat n cur y)
  edges : ∀ y ∈ s.myQueue, s0.nodeIndex y = -1 → ∀ z, Arc adjMat n y z →
    s.nodeIndex z ≠ -1 ∧ (z ∈ s0.myQueue → s.nodeLowlink cur ≤ s0.nodeIndex z)

/-- Invariant of the `for` loop of `strongConnect` for `cur` before the
iteration for node `i`. -/
structure LoopInv (adjMat : Nat → Nat → Int) (n : Nat) (s0 : TarjanState) (G : List Nat)
    (cur i : Nat) (s : TarjanState) : Prop where
  inv0 : TInv adjMat n s0 G
  inv : TInv adjMat n s (cur :: G)
  frame : Frame s0 s
  idxCur : s.nodeIndex cur = s0.index
  stackCur : ∃ T, s.myQueue = T ++ cur :: s0.myQueue ∧ ∀ v ∈ T, s0.nodeIndex v = -1 ∧ v ≠ cur
  low : s.nodeLowlink cur ≤ s0.index ∧
    ∃ y ∈ s.myQueue, s.nodeIndex y = s.nodeLowlink cur ∧ Reach adjMat n cur y
  edges : ∀ y ∈ s.myQueue, s0.nodeIndex y = -1 → y ≠ cur → ∀ z, Arc adjMat n y z →
    s.nodeIndex z ≠ -1 ∧ (z ∈ s0.myQueue → s.nodeLowlink cur ≤ s0.nodeIndex z)
  edgesCur : ∀ z < i, Arc adjMat n cur z →
    s.nodeIndex z ≠ -1 ∧ (z ∈ s0.myQueue → s.nodeLowlink cur ≤ s0.nodeIndex z)

/-! ## The spanning-tree search (specification side) -/

/-- The nodes marked in the array `visited`. -/
def visitedSet (n : Nat) (visited : Nat → Int) : Finset Nat :=
  (Finset.range n).filter (fun v => visited v ≠ 0)

/-- The positions of the entries of an `n × n` matrix that equal `val`. -/
def entrySet (n : Nat) (m : Nat → Nat → Int) (val : Int) : Finset (Nat × Nat) :=
  (Finset.range n ×ˢ Finset.range n).filter (fun p => m p.1 p.2 = val)

/-- Number of arcs `i → j`, `i ≠ j`, with both ends in the set `c`. -/
def numArcsWithin (adjMat : Nat → Nat → Int) (n : Nat) (c : List Nat) : Nat :=
  ((Finset.range n ×ˢ Finset.range n).filter
    (fun p => p.1 ≠ p.2 ∧ p.1 ∈ c ∧ p.2 ∈ c ∧ adjMat p.1 p.2 = 1)).card

/-- Invariant of the arrays of `STWBE_DFS`: only arcs out of visited nodes are
marked, and the tree entries go upwards along a numbering `d` of the nodes
(the discovery order; unvisited nodes count `n`). -/
structure SpanInv (adjMat : Nat → Nat → Int) (n : Nat) (st : SpanState) : Prop where
  vals : ∀ u v, st.spanTreeAndBackEdges u v = 0 ∨ st.spanTreeAndBackEdges u v = 1 ∨
    st.spanTreeAndBackEdges u v = -1
  nz : ∀ u v, st.spanTreeAndBackEdges u v ≠ 0 →
    st.visited u ≠ 0 ∧ u < n ∧ v < n ∧ adjMat u v = 1 ∧ u ≠ v
  visLt : ∀ v, st.visited v ≠ 0 → v < n
  rank : ∃ d : Nat → Nat,
    (∀ v, st.visited v ≠ 0 → d v < (visitedSet n st.visited).card) ∧
    (∀ v, st.visited v = 0 → d v = n) ∧
    (∀ u v, st.spanTreeAndBackEdges u v = 1 → d u < d v)

/-- Postcondition of `STWBE_DFS` for `cur`, called in state `st0` and returning
in state `st`. -/
structure SpanPost (adjMat : Nat → Nat → Int) (n : Nat) (st0 st : SpanState) (cur : Nat) :
    Prop where
  inv : SpanInv adjMat n st
  mono : ∀ v, st0.visited v ≠ 0 → st.visited v ≠ 0
  curVis : st.visited cur ≠ 0
  rows : ∀ u, st0.visited u ≠ 0 → ∀ v,
    st.spanTreeAndBackEdges u v = st0.spanTreeAndBackEdges u v
  complete : ∀ u, st0.visited u = 0 → st.visited u ≠ 0 → ∀ v < n, adjMat u v = 1 → u ≠ v →
    st.spanTreeAndBackEdges u v ≠ 0 ∧ st.visited v ≠ 0
  reach : ∀ u, st0.visited u = 0 → st.visited u ≠ 0 → Reach adjMat n cur u
  ones : (entrySet n st.spanTreeAndBackEdges 1).card + (visitedSet n st0.visited).card + 1 =
    (entrySet n st0.spanTreeAndBackEdges 1).card + (visitedSet n st.visited).card

/-- Invariant of the `for` loop of `STWBE_DFS` for `cur` before the iteration
for node `i`. -/
structure SpanLoop (adjMat : Nat → Nat → Int) (n : Nat) (st0 : SpanState) (cur i : Nat)
    (st : SpanState) : Prop where
  inv : SpanInv adjMat n st
  mono : ∀ v, st0.visited v ≠ 0 → st.visited v ≠ 0
  curVis : st.visited cur ≠ 0
  rows : ∀ u, st0.visited u ≠ 0 → ∀ v,
    st.spanTreeAndBackEdges u v = st0.spanTreeAndBackEdges u v
  rowCur : ∀ v, i ≤ v → st.spanTreeAndBackEdges cur v = 0
  rowDone : ∀ v < i, adjMat cur v = 1 → cur ≠ v →
    st.spanTreeAndBackEdges cur v ≠ 0 ∧ st.visited v ≠ 0
  complete : ∀ u, st0.visited u = 0 → st.visited u ≠ 0 → u ≠ cur → ∀ v < n, adjMat u v = 1 →
    u ≠ v → st.spanTreeAndBackEdges u v ≠ 0 ∧ st.visited v ≠ 0
  reach : ∀ u, st0.visited u = 0 → st.visited u ≠ 0 → Reach adjMat n cur u
  ones : (entrySet n st.spanTreeAndBackEdges 1).card + (visitedSet n st0.visited).card + 1 =
    (entrySet n st0.spanTreeAndBackEdges 1).card + (visitedSet n st.visited).card

/-- A set of nodes that is a class of mutual reachability. -/
def IsReachClass (adjMat : Nat → Nat → Int) (n : Nat) (c : List Nat) : Prop :=
  ∀ u ∈ c, ∀ v, v ∈ c ↔ (Reach adjMat n u v ∧ Reach adjMat n v u)

/-- The lists that the calls of `oneStep` put into `cyclesFound` from the
state `g` on, until the frontier is empty (at most `fuel` calls); what
`cyclesFound` holds in `g` is not counted. -/
def cycleGenerator.allFound : Nat → cycleGenerator → List (List Nat)
  | 0, _ => []
  | fuel + 1, g =>
    match ({ g with cyclesFound := [] } : cycleGenerator).oneStep with
    | some (r, g') => if r = 1 then g'.cyclesFound ++ cycleGenerator.allFound fuel g' else []
    | none => []

/-- The states that calls of `oneStep` and `nextCycle` reach from the state
`g0`, each with the sequence of the non-empty lists that the `nextCycle` calls
have returned on the way. -/
inductive cycleGenerator.Reachable (g0 : cycleGenerator) :
    List (List Nat) → cycleGenerator → Prop
  | start : cycleGenerator.Reachable g0 [] g0
  | oneStep {ret : List (List Nat)} {g g' : cycleGenerator} {r : Int} :
      cycleGenerator.Reachable g0 ret g → g.oneStep = some (r, g') →
      cycleGenerator.Reachable g0 ret g'
  | nextCycle {ret : List (List Nat)} {g g' : cycleGenerator} {c : List Nat} :
      cycleGenerator.Reachable g0 ret g → g.nextCycle = some (c, g') →
      cycleGenerator.Reachable g0 (if c = [] then ret else ret ++ [c]) g'

/-- An arc of the matrix `T` between two different nodes below `n`: the
entries that `pathInSpanningTreeDFS` follows. -/
def TreeArc (T : Nat → Nat → Int) (n : Nat) (u v : Nat) : Prop :=
  u < n ∧ v < n ∧ T u v = 1 ∧ u ≠ v

/-- A path from `s` to `e` along the arcs `R`, as the list of its nodes. -/
def IsPathFromTo (R : Nat → Nat → Prop) (s e : Nat) (p : List Nat) : Prop :=
  p.head? = some s ∧ p.getLast? = some e ∧ p.Chain' R

/-- The 0/1 matrix of the arcs of a matrix: 1 where the entry is 1, 0
elsewhere. -/
def zeroOneOf (adjMat : Nat → Nat → Int) : Nat → Nat → Int :=
  fun i j => if adjMat i j = 1 then 1 else 0

/-- Postcondition of a call of `getPathDFS` at `cur`. -/
def PathPost (adjMat : Nat → Nat → Int) (n : Nat) (d : Int) (endNode cur : Nat)
    (st : PathState) (r : Int) (st' : PathState) : Prop :=
  (∀ v ∈ st.markedNodes, v ∈ st'.markedNodes) ∧ cur ∈ st'.markedNodes ∧
  (∀ v ∈ st'.markedNodes, v ∉ st.markedNodes → v < n) ∧
  (∀ x ∈ st'.markedNodes, x ∉ st.markedNodes → x ≠ endNode →
    ∀ y, Trav adjMat n d x y → y ∈ st'.markedNodes) ∧
  (r = 1 ∨ r = 0) ∧ (r = 1 ↔ endNode ∈ st'.markedNodes ∧ endNode ∉ st.markedNodes) ∧
  (r = 1 → ∃ S, st'.curPath = S ++ st.curPath ∧ List.Chain (Trav adjMat n d) cur S ∧
    (cur :: S).getLast? = some endNode ∧ (cur :: S).Nodup ∧
    ∀ x ∈ cur :: S, x ∈ st'.markedNodes ∧ x ∉ st.markedNodes) ∧
  (r ≠ 1 → st'.curPath = st.curPath)

/-- Invariant of the loop of `getPathDFS` at `cur` before index `i`. -/
def PathLoop (adjMat : Nat → Nat → Int) (n : Nat) (d : Int) (endNode cur : Nat)
    (st : PathState) (i : Nat) (f : Int) (s : PathState) : Prop :=
  (∀ v ∈ st.markedNodes, v ∈ s.markedNodes) ∧ cur ∈ s.markedNodes ∧
  (∀ v ∈ s.markedNodes, v ∉ st.markedNodes → v < n) ∧
  (∀ x ∈ s.markedNodes, x ∉ st.markedNodes → x ≠ cur → x ≠ endNode →
    ∀ y, Trav adjMat n d x y → y ∈ s.markedNodes) ∧
  (∀ j < i, Trav adjMat n d cur j → j ∈ s.markedNodes) ∧
  (f = 1 ∨ f = 0) ∧ (f = 1 ↔ endNode ∈ s.markedNodes ∧ endNode ∉ st.markedNodes) ∧
  (f = 1 → ∃ S, s.curPath = S ++ st.curPath ∧ List.Chain (Trav adjMat n d) cur S ∧
    (cur :: S).getLast? = some endNode ∧ (cur :: S).Nodup ∧
    ∀ x ∈ cur :: S, x ∈ s.markedNodes ∧ x ∉ st.markedNodes) ∧
  (f ≠ 1 → s.curPath = st.curPath)

/-- The list `Q` is a simple path along traversable steps that starts with the
list `P` and ends at `endNode`. -/
def ExtendsTo (adjMat : Nat → Nat → Int) (n : Nat) (d : Int) (endNode : Nat)
    (P Q : List Nat) : Prop :=
  P <+: Q ∧ Q.getLast? = some endNode ∧ Q.Nodup ∧ (∀ x ∈ Q, x < n) ∧
  Q.Chain' (Trav adjMat n d)

/-- Postcondition of a call of `getAllPathsDFS` that returns. -/
def AllPathsPost (adjMat : Nat → Nat → Int) (n : Nat) (d : Int) (endNode : Nat)
    (st st' : AllPathsState) : Prop :=
  st'.curPath = st.curPath ∧ (∀ v, v ∈ st'.markedNodes ↔ v ∈ st.markedNodes) ∧
  st'.markedNodes.Nodup ∧
  ∃ R, st'.allPaths = st.allPaths ++ R ∧ R.Nodup ∧
    ∀ Q, Q ∈ R ↔ ExtendsTo adjMat n d endNode st.curPath Q

/-- Invariant of the loop of `getAllPathsDFS` before index `i`. -/
def AllPathsLoop (adjMat : Nat → Nat → Int) (n : Nat) (d : Int) (endNode : Nat)
    (st : AllPathsState) (i : Nat) (s : AllPathsState) : Prop :=
  s.curPath = st.curPath ∧ (∀ v, v ∈ s.markedNodes ↔ v ∈ st.curPath) ∧
  s.markedNodes.Nodup ∧
  ∃ R, s.allPaths = st.allPaths ++ R ∧ R.Nodup ∧
    ∀ Q, Q ∈ R ↔ (ExtendsTo adjMat n d endNode st.curPath Q ∧
      ∃ j < i, (st.curPath ++ [j]) <+: Q)

/-- The `while` loop of `ltlistint::operator()`: the two lists are compared
element by element; `false` when one of them ends first. -/
def ltlistintLoop {α : Type} [LinearOrder α] : List α → List α → Bool
  | x :: xs, y :: ys =>
    if x > y then false else if x < y then true else ltlistintLoop xs ys
  | _, _ => false

/-- `ltlistint::operator()`. The three size tests exclude each other, so the
end of the function after the last `else if` is never reached. -/
def ltlistint {α : Type} [LinearOrder α] (listOne listTwo : List α) : Bool :=
  if listOne.length = 0 ∧ listTwo.length = 0 then false
  else if listOne.length < listTwo.length then true
  else if listOne.length > listTwo.length then false
  else if listOne.length = listTwo.length then ltlistintLoop listOne listTwo
  else false

/-- Order of two paths `A`, `B` with `A` before `B` in the frontier: of equal
length and `A` first in the element-wise comparison, or `B` one node longer
and made from a path that comes before `A`. -/
def QueueOrd (A B : List Nat) : Prop :=
  (A.length = B.length ∧ ltlistintLoop A B = true) ∨
  (B.length = A.length + 1 ∧ ltlistintLoop B.dropLast A = true)

/-- Invariant behind the order of the returned cycles: the handed-out lists are
increasing for `ltlistint`, each of them is below every path of the frontier,
and the frontier is in the order `QueueOrd`. -/
def OrdInv (out : List (List Nat)) (g : cycleGenerator) : Prop :=
  (∀ P ∈ g.pathQueue, P ≠ []) ∧ (g.numNodes = 0 → g.pathQueue = []) ∧
  out.Pairwise (fun a b => ltlistint a b = true) ∧
  (∀ c ∈ out, ∀ Q ∈ g.pathQueue, ltlistint c Q = true) ∧
  g.pathQueue.Pairwise QueueOrd

/-- Every initial segment of the list of components is closed under leaving
arcs: an arc out of one of its sets ends in one of its sets. -/
def PrefClosed (adjMat : Nat → Nat → Int) (n : Nat) (comps : List (List Nat)) : Prop :=
  ∀ k, ∀ c ∈ comps.take k, ∀ u ∈ c, ∀ v, Arc adjMat n u v → ∃ d ∈ comps.take k, v ∈ d

/-- Invariant behind the orientation that the dedup set keeps: the frontier is
ordered (`OrdInv`), and a cycle that goes through the dedup set has its
representative in the set as soon as it or its mirror image has left the
frontier; so a handed-out cycle of this kind, found before its mirror image,
has its second node below its last node. -/
def CanonInv (adjMat : Nat → Nat → Int) (n : Nat) (h : Int) (out : List (List Nat))
    (g : cycleGenerator) : Prop :=
  OrdInv out g ∧ g.adjMat = adjMat ∧ g.numNodes = n ∧ g.hashBiDirectedCycles = h ∧
  (∀ P ∈ g.pathQueue, IsRootedPath adjMat n P) ∧
  (∀ c ∈ out, IsRootedPath adjMat n c ∧ ClosesCycle adjMat c) ∧
  (∀ C, IsRootedPath adjMat n C → ClosesCycle adjMat C → g.Dedups C →
    (pending g.pathQueue C = 0 ∨ pending g.pathQueue (mirror C) = 0) →
    g.uniqueBiDirCycle C ∈ g.uniqBiDirectedCycles) ∧
  (∀ c ∈ out, g.Dedups c → c.getD 1 0 < c.getLastD 0)

/-! ## Theorems -/

/-! ### `oneStep`: the shape of a step -/

/-- The closed-path part of `oneStep` when the hashing of the key is defined. -/
theorem found_of_defined (g : cycleGenerator) (P : List Nat) (hs : g.HashDefined P) :
    (if P.length > 1 ∧ g.adjMat (P.getLastD 0) (P.headD 0) = 1 then g.recordCycle P
       else some ([], g.uniqBiDirectedCycles)) =
    some (if P.length > 1 ∧ g.adjMat (P.getLastD 0) (P.headD 0) = 1 then g.recordEffect P
       else ([], g.uniqBiDirectedCycles)) := by
  by_cases hc : P.length > 1 ∧ g.adjMat (P.getLastD 0) (P.headD 0) = 1
  · rw [if_pos hc, if_pos hc]
    unfold cycleGenerator.recordCycle cycleGenerator.recordEffect
    by_cases hd : g.hashBiDirectedCycles = 1 ∧ g.isCycleBiDirected P = 1 ∧ P.length > 2
    · rw [if_pos hd, if_pos hd]
      obtain ⟨v, hh⟩ := Option.ne_none_iff_exists'.1 (hs hc hd)
      simp only [hh]
      split_ifs <;> rfl
    · rw [if_neg hd, if_neg hd]
  · rw [if_neg hc, if_neg hc]

/-- The closed-path part of `oneStep` when the hashing of the key is not
defined. -/
theorem found_of_not_defined (g : cycleGenerator) (P : List Nat) (hs : ¬ g.HashDefined P) :
    (if P.length > 1 ∧ g.adjMat (P.getLastD 0) (P.headD 0) = 1 then g.recordCycle P
       else some ([], g.uniqBiDirectedCycles)) = none := by
  unfold cycleGenerator.HashDefined at hs
  push_neg at hs
  obtain ⟨hc, hd, hh⟩ := hs
  rw [if_pos hc]
  unfold cycleGenerator.recordCycle
  rw [if_pos hd]
  simp only [hh]

/-- The body of `oneStep` on a frontier whose head is `head :: more`. -/
theorem oneStep_eq (g : cycleGenerator) (head : Nat) (more : List Nat) (rest : List (List Nat))
    (hq : g.pathQueue = (head :: more) :: rest) :
    g.oneStep =
      match (if (head :: more).length > 1 ∧ g.adjMat ((head :: more).getLastD 0) head = 1
             then g.recordCycle (head :: more) else some ([], g.uniqBiDirectedCycles)) with
      | none => none
      | some found =>
        some (1, { g with oneStepCalls := wrapInt (g.oneStepCalls + 1),
                          cyclesFound := g.cyclesFound ++ found.1,
                          uniqBiDirectedCycles := found.2,
                          pathQueue := rest ++
                            g.newPaths head ((head :: more).getLastD 0) (head :: more) }) := by
  unfold cycleGenerator.oneStep
  simp only [hq]
  rfl

/-- What `oneStep` does on a frontier `P :: rest` with `P` non-empty when the
hashing of the key of `P` is defined. -/
theorem oneStep_cons (g : cycleGenerator) (P : List Nat) (rest : List (List Nat))
    (hq : g.pathQueue = P :: rest) (hP : P ≠ []) (hs : g.HashDefined P) :
    ∃ g', g.oneStep = some (1, g') ∧ g'.adjMat = g.adjMat ∧ g'.numNodes = g.numNodes ∧
      g'.cycleLengthMin = g.cycleLengthMin ∧
      g'.hashBiDirectedCycles = g.hashBiDirectedCycles ∧
      g'.oneStepCalls = wrapInt (g.oneStepCalls + 1) ∧
      g'.pathQueue = rest ++ g.newPaths (P.headD 0) (P.getLastD 0) P ∧
      g'.cyclesFound = g.cyclesFound ++
        (if P.length > 1 ∧ g.adjMat (P.getLastD 0) (P.headD 0) = 1 then g.recordEffect P
         else ([], g.uniqBiDirectedCycles)).1 ∧
      g'.uniqBiDirectedCycles =
        (if P.length > 1 ∧ g.adjMat (P.getLastD 0) (P.headD 0) = 1 then g.recordEffect P
         else ([], g.uniqBiDirectedCycles)).2 := by
  have hfound := found_of_defined g P hs
  cases P with
  | nil => exact absurd rfl hP
  | cons head more =>
    simp only [List.headD_cons] at hfound ⊢
    rw [oneStep_eq g head more rest hq, hfound]
    exact ⟨_, rfl, rfl, rfl, rfl, rfl, rfl, rfl, rfl, rfl⟩

/-- When the hashing of the key of the head `P` is not defined, `oneStep` has
no result. -/
theorem oneStep_cons_none (g : cycleGenerator) (P : List Nat) (rest : List (List Nat))
    (hq : g.pathQueue = P :: rest) (hs : ¬ g.HashDefined P) : g.oneStep = none := by
  have hfound := found_of_not_defined g P hs
  cases P with
  | nil =>
    unfold cycleGenerator.oneStep
    simp only [hq]
  | cons head more =>
    simp only [List.headD_cons] at hfound
    rw [oneStep_eq g head more rest hq, hfound]

/-- A call of `oneStep` that returns had the hashing of the key of its head
defined. -/
theorem hashDefined_of_oneStep (g : cycleGenerator) (P : List Nat) (rest : List (List Nat))
    (hq : g.pathQueue = P :: rest) (r : Int) (g' : cycleGenerator)
    (h : g.oneStep = some (r, g')) : g.HashDefined P := by
  by_contra hs
  rw [oneStep_cons_none g P rest hq hs] at h
  exact absurd h (by simp)

theorem oneStep_nil (g : cycleGenerator) (hq : g.pathQueue = []) :
    g.oneStep = some (0, { g with oneStepCalls := wrapInt (g.oneStepCalls + 1) }) := by
  unfold cycleGenerator.oneStep
  simp only [hq]


theorem found_cases (g : cycleGenerator) (P : List Nat) :
    (if P.length > 1 ∧ g.adjMat (P.getLastD 0) (P.headD 0) = 1 then g.recordEffect P
         else ([], g.uniqBiDirectedCycles)).1 = [] ∨
    (if P.length > 1 ∧ g.adjMat (P.getLastD 0) (P.headD 0) = 1 then g.recordEffect P
         else ([], g.uniqBiDirectedCycles)).1 = [P] := by
  unfold cycleGenerator.recordEffect
  simp only
  split_ifs <;> simp

/-! ### `nextCycle` after exhaustion -/

theorem oneStep_cyclesFound_ne_nil (g : cycleGenerator) (r : Int) (g' : cycleGenerator)
    (h : g.oneStep = some (r, g')) (hne : ∀ c ∈ g.cyclesFound, c ≠ []) :
    ∀ c ∈ g'.cyclesFound, c ≠ [] := by
  by_cases hq : g.pathQueue = []
  · rw [oneStep_nil g hq] at h
    simp only [Option.some.injEq, Prod.mk.injEq] at h
    obtain ⟨_, rfl⟩ := h
    exact hne
  · obtain ⟨P, rest, hq⟩ := List.exists_cons_of_ne_nil hq
    by_cases hP : P = []
    · exfalso
      subst hP
      unfold cycleGenerator.oneStep at h
      simp only [hq] at h
      exact absurd h (by simp)
    · obtain ⟨g1, h1, _, _, _, _, _, _, hcf, _⟩ :=
        oneStep_cons g P rest hq hP (hashDefined_of_oneStep g P rest hq r g' h)
      rw [h1] at h
      simp only [Option.some.injEq, Prod.mk.injEq] at h
      obtain ⟨_, rfl⟩ := h
      intro c hc
      rw [hcf, List.mem_append] at hc
      rcases hc with hc | hc
      · exact hne c hc
      · rcases found_cases g P with hf | hf <;> rw [hf] at hc
        · simp at hc
        · simp only [List.mem_singleton] at hc
          rw [hc]
          exact hP

theorem stepLoop_cyclesFound_ne_nil (fuel : Nat) :
    ∀ (g g' : cycleGenerator), cycleGenerator.stepLoop fuel g = some g' →
      (∀ c ∈ g.cyclesFound, c ≠ []) → ∀ c ∈ g'.cyclesFound, c ≠ [] := by
  induction fuel with
  | zero => intro g g' h; simp [cycleGenerator.stepLoop] at h
  | succ fuel ih =>
    intro g g' h hne
    unfold cycleGenerator.stepLoop at h
    split at h
    · split at h
      · exact absurd h (by simp)
      · rename_i r g1 hstep
        have h1 := oneStep_cyclesFound_ne_nil g r g1 hstep hne
        split at h
        · exact ih g1 g' h h1
        · simp only [Option.some.injEq] at h
          subst h
          exact h1
    · simp only [Option.some.injEq] at h
      subst h
      exact hne

theorem nextCycleFuel_empty_fixed (fuel : Nat) (g g' : cycleGenerator)
    (h : g.nextCycleFuel fuel = some ([], g')) :
    g'.numNodes = 0 ∨ g'.pathQueue.length = 0 := by
  unfold cycleGenerator.nextCycleFuel at h
  split at h
  · rename_i hc
    simp only [Option.some.injEq, Prod.mk.injEq, true_and] at h
    subst h
    exact hc
  · split at h
    · rename_i hcf
      split at h
      · exact absurd h (by simp)
      · rename_i g1 hloop
        split at h
        · rename_i hc
          simp only [Option.some.injEq, Prod.mk.injEq, true_and] at h
          subst h
          exact Or.inr hc.2
        · split at h
          · exact absurd h (by simp)
          · rename_i c rest hcs
            simp only [Option.some.injEq, Prod.mk.injEq] at h
            have hne := stepLoop_cyclesFound_ne_nil fuel g g1 hloop
              (by intro c hc; rw [List.length_eq_zero.mp hcf.1] at hc; simp at hc)
            exact absurd h.1 (hne c (by rw [hcs]; simp))
    · exact absurd h (by simp)

theorem nextCycle_of_exhausted (g : cycleGenerator)
    (h : g.numNodes = 0 ∨ g.pathQueue.length = 0) : g.nextCycle = some ([], g) := by
  unfold cycleGenerator.nextCycle cycleGenerator.nextCycleFuel
  rw [if_pos h]

theorem nextCycles_after_empty (g g' : cycleGenerator)
    (h : g.nextCycle = some ([], g')) (k : Nat) :
    g'.nextCycles k = some (List.replicate k [], g') := by
  have hex := nextCycleFuel_empty_fixed _ g g' h
  have hfix := nextCycle_of_exhausted g' hex
  induction k with
  | zero => rfl
  | succ k ih =>
    unfold cycleGenerator.nextCycles
    rw [hfix]
    simp only [ih, List.replicate_succ]

/-- C10: once a `nextCycle` call has returned the empty list (the frontier is
exhausted), any number `k` of further `nextCycle` calls all return the empty
list and leave the whole state, step counter included, unchanged. -/
theorem nextCycle_idempotent_after_empty (g g' : cycleGenerator)
    (h : g.nextCycle = some ([], g')) (k : Nat) :
    g'.nextCycles k = some (List.replicate k [], g') ∧
      (g'.nextCycles k).map (fun r => r.2.numOneStepCall) = some g'.numOneStepCall := by
  have key := nextCycles_after_empty g g' h k
  exact ⟨key, by rw [key]; rfl⟩

/-- Witness for C10 on the graph with the single arc 0 → 1: the first call of
`nextCycle` on the fresh generator runs the frontier `[[0], [1]]` empty in four
steps and returns the empty list; three more calls return the empty list and
leave the state, with the step counter at 4, unchanged. -/
theorem nextCycle_idempotent_after_empty_witness :
    (cycleGenerator.new singleArc 2).pathQueue = [[0], [1]] ∧
    (cycleGenerator.new singleArc 2).nextCycle = some ([], exhaustedSingleArc) ∧
    exhaustedSingleArc.nextCycles 3 = some ([[], [], []], exhaustedSingleArc) ∧
    (exhaustedSingleArc.nextCycles 3).map (fun r => r.2.numOneStepCall) = some 4 :=
  ⟨rfl, rfl,
    (nextCycle_idempotent_after_empty (cycleGenerator.new singleArc 2) exhaustedSingleArc rfl 3).1,
    (nextCycle_idempotent_after_empty (cycleGenerator.new singleArc 2) exhaustedSingleArc rfl 3).2⟩

/-! ### Concrete runs of `getMinCycles` and `uniqueBiDirCycle` -/

/-- C4 (failing input): on the triangle 0 → 1 → 2 → 0 with the chord 0 → 2,
`getMinCycles` returns two lists, the first of which is empty (the chord is
marked `-1` but is no back edge), so not every returned list is a cycle. -/
theorem getMinCycles_triangleWithChord :
    getMinCycles triangleWithChord 3 = some [[], [0, 1, 2]] := by
  decide

/-- C6 (failing input): on the complete graph with 3 nodes the bidirected cycle
`[1, 0, 2]` and its reversal get different representatives. -/
theorem uniqueBiDirCycle_rev_differs :
    (cycleGenerator.new completeThree 3).isCycleBiDirected [1, 0, 2] = 1 ∧
    (cycleGenerator.new completeThree 3).uniqueBiDirCycle [1, 0, 2] = [0, 1, 2] ∧
    (cycleGenerator.new completeThree 3).uniqueBiDirCycle (revList [1, 0, 2]) = [0, 2, 1] := by
  decide

/-! ### The generator: steps, termination measure, invariants -/

theorem freeNodes_append (n : Nat) (P : List Nat) (i : Nat) (hi : i < n) (hP : i ∉ P) :
    freeNodes n (P ++ [i]) + 1 = freeNodes n P := by
  unfold freeNodes
  have h1 : (List.range n).filter (fun x => decide (x ∉ P ++ [i]))
      = ((List.range n).filter (fun x => decide (x ∉ P))).erase i := by
    rw [List.Nodup.erase_eq_filter ((List.nodup_range n).filter _), List.filter_filter]
    apply List.filter_congr
    intro x _
    simp only [List.mem_append, List.mem_singleton, not_or, decide_not, Bool.decide_and, bne_iff_ne, ne_eq]
    by_cases hx : x = i <;> by_cases hxP : x ∈ P <;> simp [hx, hxP]
  have hmem : i ∈ (List.range n).filter (fun x => decide (x ∉ P)) := by
    simp [List.mem_filter, hi, hP]
  rw [h1, List.length_erase_of_mem hmem]
  have : 0 < ((List.range n).filter (fun x => decide (x ∉ P))).length := List.length_pos_of_mem hmem
  omega

theorem freeNodes_le (n : Nat) (P : List Nat) : freeNodes n P ≤ n := by
  unfold freeNodes
  calc _ ≤ (List.range n).length := List.length_filter_le _ _
    _ = n := List.length_range n

theorem range'_sublist_range (a n : Nat) : (List.range' (a + 1) (n - (a + 1))).Sublist (List.range n) := by
  by_cases h : a + 1 ≤ n
  · have : List.range n = List.range (a + 1) ++ List.range' (a + 1) (n - (a + 1)) := by
      rw [List.range_eq_range', List.range_eq_range']
      have h0 : List.range' (a + 1) (n - (a + 1)) = List.range' (0 + (a + 1)) (n - (a + 1)) := by
        rw [Nat.zero_add]
      rw [h0, List.range'_append_1]
      congr 1; omega
    rw [this]
    exact List.sublist_append_right _ _
  · have : n - (a + 1) = 0 := by omega
    rw [this]; simp

theorem newPaths_length_le (g : cycleGenerator) (h t : Nat) (P : List Nat) :
    (g.newPaths h t P).length ≤ freeNodes g.numNodes P := by
  unfold cycleGenerator.newPaths freeNodes
  rw [List.length_map]
  apply List.Sublist.length_le
  have h1 : ((List.range' (h + 1) (g.numNodes - (h + 1))).filter
      (fun i => decide (g.adjMat t i = 1 ∧ i ≠ h ∧ isInList i P = 0))).Sublist
      ((List.range g.numNodes).filter
      (fun i => decide (g.adjMat t i = 1 ∧ i ≠ h ∧ isInList i P = 0))) :=
    (range'_sublist_range h g.numNodes).filter _
  refine h1.trans ?_
  apply List.monotone_filter_right
  intro i hi
  simp only [decide_eq_true_eq] at hi ⊢
  have := hi.2.2
  unfold isInList at this
  split at this
  · simp at this
  · assumption

theorem newPaths_mem (g : cycleGenerator) (h t : Nat) (P Q : List Nat)
    (hQ : Q ∈ g.newPaths h t P) :
    ∃ i, Q = P ++ [i] ∧ h < i ∧ i < g.numNodes ∧ g.adjMat t i = 1 ∧ i ∉ P := by
  unfold cycleGenerator.newPaths at hQ
  simp only [List.mem_map, List.mem_filter, List.mem_range'_1, decide_eq_true_eq] at hQ
  obtain ⟨i, ⟨⟨h1, h2⟩, h3, _, h5⟩, rfl⟩ := hQ
  refine ⟨i, rfl, by omega, by omega, h3, ?_⟩
  unfold isInList at h5
  split at h5
  · simp at h5
  · assumption

theorem sum_le_length_mul (l : List Nat) (b : Nat) (h : ∀ x ∈ l, x ≤ b) : l.sum ≤ l.length * b := by
  induction l with
  | nil => simp
  | cons a l ih =>
    simp only [List.sum_cons, List.length_cons]
    have := h a (by simp)
    have := ih (fun x hx => h x (by simp [hx]))
    nlinarith

theorem newPaths_weight (g : cycleGenerator) (h t : Nat) (P : List Nat) :
    ((g.newPaths h t P).map (fun p => (g.numNodes + 1) ^ freeNodes g.numNodes p)).sum
      < (g.numNodes + 1) ^ freeNodes g.numNodes P := by
  by_cases hc : freeNodes g.numNodes P = 0
  · have := newPaths_length_le g h t P
    rw [hc] at this
    have : g.newPaths h t P = [] := List.length_eq_zero.mp (by omega)
    rw [this, hc]; simp
  · obtain ⟨c, hc'⟩ := Nat.exists_eq_succ_of_ne_zero hc
    have hb : ∀ x ∈ (g.newPaths h t P).map (fun p => (g.numNodes + 1) ^ freeNodes g.numNodes p),
        x ≤ (g.numNodes + 1) ^ c := by
      intro x hx
      simp only [List.mem_map] at hx
      obtain ⟨Q, hQ, rfl⟩ := hx
      obtain ⟨i, rfl, _, hi, _, hiP⟩ := newPaths_mem g h t P Q hQ
      have := freeNodes_append g.numNodes P i hi hiP
      have : freeNodes g.numNodes (P ++ [i]) = c := by omega
      rw [this]
    have h1 := sum_le_length_mul _ _ hb
    rw [List.length_map] at h1
    have h2 := newPaths_length_le g h t P
    have h3 := freeNodes_le g.numNodes P
    rw [hc', pow_succ]
    have hpos : 0 < (g.numNodes + 1) ^ c := Nat.pos_pow_of_pos _ (by omega)
    calc _ ≤ (g.newPaths h t P).length * (g.numNodes + 1) ^ c := h1
      _ ≤ g.numNodes * (g.numNodes + 1) ^ c := Nat.mul_le_mul_right _ (by omega)
      _ < (g.numNodes + 1) ^ c * (g.numNodes + 1) := by nlinarith


theorem stepBound_oneStep (g : cycleGenerator) (P : List Nat) (rest : List (List Nat))
    (hq : g.pathQueue = P :: rest) (hP : P ≠ []) (r : Int) (g' : cycleGenerator)
    (h : g.oneStep = some (r, g')) : g'.stepBound < g.stepBound := by
  obtain ⟨g1, h1, _, hn, _, _, _, hpq, _, _⟩ := oneStep_cons g P rest hq hP
        (hashDefined_of_oneStep g P rest hq _ _ h)
  rw [h1] at h
  simp only [Option.some.injEq, Prod.mk.injEq] at h
  obtain ⟨_, rfl⟩ := h
  unfold cycleGenerator.stepBound
  rw [hpq, hq, hn, List.map_append, List.sum_append, List.map_cons, List.sum_cons]
  have := newPaths_weight g (P.headD 0) (P.getLastD 0) P
  omega

/-! ### States in which the hashing of the dedup keys is defined -/

theorem mem_uniqueCycle {α : Type} [LinearOrder α] (l : List α) (x : α)
    (h : x ∈ uniqueCycle l) : x ∈ l := by
  unfold uniqueCycle at h
  split at h
  · exact h
  · rw [List.mem_append] at h
    rcases h with h | h
    · exact List.mem_of_mem_drop h
    · exact List.mem_of_mem_take h

theorem uniqueCycle_length {α : Type} [LinearOrder α] (l : List α) :
    (uniqueCycle l).length = l.length := by
  unfold uniqueCycle
  split
  · rfl
  · rw [List.length_append, List.length_drop, List.length_take]
    omega

theorem mem_revList {α : Type} (l : List α) (x : α) (h : x ∈ revList l) : x ∈ l := by
  unfold revList at h
  split at h
  · exact h
  · exact List.mem_reverse.1 h

theorem revList_length {α : Type} (l : List α) : (revList l).length = l.length := by
  unfold revList
  split
  · rfl
  · exact List.length_reverse l

theorem mem_uniqueBiDirCycle (g : cycleGenerator) (P : List Nat) (x : Nat)
    (h : x ∈ g.uniqueBiDirCycle P) : x ∈ P := by
  unfold cycleGenerator.uniqueBiDirCycle at h
  by_cases h1 : P.length ≤ 1 ∨ g.isCycleBiDirected P = 0
  · rw [if_pos h1] at h
    exact h
  · rw [if_neg h1] at h
    simp only at h
    split_ifs at h <;>
      first
      | exact mem_revList P x (mem_uniqueCycle _ x h)
      | exact mem_uniqueCycle _ x h

theorem uniqueBiDirCycle_length (g : cycleGenerator) (P : List Nat) :
    (g.uniqueBiDirCycle P).length = P.length := by
  unfold cycleGenerator.uniqueBiDirCycle
  by_cases h1 : P.length ≤ 1 ∨ g.isCycleBiDirected P = 0
  · rw [if_pos h1]
  · rw [if_neg h1]
    simp only
    split_ifs <;> simp [uniqueCycle_length, revList_length]

theorem digit_text (x : Nat) (hx : x < 10) :
    (toString (Int.ofNat x)).length = 1 ∧ digitLoop (Int.ofNat x) 10 1 = 10 := by
  interval_cases x <;> decide

theorem sprintfStep_small (cap : Nat) (st : List Char × Nat) (text : List Char)
    (hcap : 5 ≤ cap) (h1 : st.2 ≤ st.1.length) (h2 : st.2 ≤ 2) (ht : text.length ≤ 2) :
    ∃ st', sprintfStep cap st text = some st' ∧ st'.2 ≤ st'.1.length ∧ st'.2 ≤ 2 := by
  unfold sprintfStep
  rw [if_pos ⟨h1, by omega⟩]
  refine ⟨_, rfl, ?_, ?_⟩
  · simp only
    omega
  · simp only [List.length_append, List.length_take]
    omega

theorem renderLoop_digits (cap : Nat) (hcap : 5 ≤ cap) :
    ∀ (l : List Nat) (st : List Char × Nat), (∀ x ∈ l, x < 10) → st.2 ≤ st.1.length →
      st.2 ≤ 2 → renderLoop cap (l.map Int.ofNat) st ≠ none := by
  intro l
  induction l with
  | nil => intro st _ _ _; simp [renderLoop]
  | cons x xs ih =>
    intro st hl h1 h2
    have hx := (digit_text x (hl x (by simp))).1
    cases xs with
    | nil =>
      simp only [List.map_cons, List.map_nil, renderLoop]
      obtain ⟨st', hs, _, _⟩ := sprintfStep_small cap st (toString (Int.ofNat x)).toList hcap h1 h2
        (by
          have : (toString (Int.ofNat x)).toList.length = (toString (Int.ofNat x)).length := rfl
          omega)
      rw [hs]
      simp
    | cons y ys =>
      simp only [List.map_cons, renderLoop]
      obtain ⟨st', hs, h1', h2'⟩ := sprintfStep_small cap st
        ((toString (Int.ofNat x)).toList ++ [',']) hcap h1 h2
        (by
          have : (toString (Int.ofNat x)).toList.length = (toString (Int.ofNat x)).length := rfl
          rw [List.length_append, List.length_singleton]
          omega)
      rw [hs]
      simp only
      have := ih st' (fun z hz => hl z (by simp [hz])) h1' h2'
      simpa using this

theorem hashListInt_digits (l : List Nat) (hne : l ≠ []) (hl : ∀ x ∈ l, x < 10) :
    hashListInt l ≠ none := by
  unfold hashListInt listToString
  obtain ⟨x, xs, rfl⟩ := List.exists_cons_of_ne_nil hne
  rw [if_neg (by simp)]
  have hcap : 5 ≤ stringLength ((x :: xs).map Int.ofNat) + 1 := by
    have h10 := (digit_text x (hl x (by simp))).2
    unfold stringLength
    rw [List.map_cons, List.map_cons, List.sum_cons, h10]
    omega
  have := renderLoop_digits _ hcap (x :: xs) ([], 0) hl (by simp) (by simp)
  cases h : renderLoop (stringLength ((x :: xs).map Int.ofNat) + 1)
      ((x :: xs).map Int.ofNat) ([], 0) with
  | none => exact absurd h this
  | some v => simp [h]

/-- In a safe state the hashing for every path of the frontier is defined. -/
theorem hashDefined_of_safe (g : cycleGenerator) (P : List Nat) (hs : g.HashSafe)
    (hP : P ∈ g.pathQueue) : g.HashDefined P := by
  intro _ hd
  rcases hs with hs | ⟨hn, hv⟩
  · exact absurd hd.1 hs
  · apply hashListInt_digits
    · intro h0
      have := uniqueBiDirCycle_length g P
      rw [h0] at this
      have := hd.2.2
      simp at *
      omega
    · intro x hx
      have := hv P hP x (mem_uniqueBiDirCycle g P x hx)
      omega

/-- A step keeps the state safe. -/
theorem hashSafe_oneStep (g : cycleGenerator) (r : Int) (g' : cycleGenerator)
    (h : g.oneStep = some (r, g')) (hs : g.HashSafe) : g'.HashSafe := by
  by_cases hq : g.pathQueue = []
  · rw [oneStep_nil g hq] at h
    simp only [Option.some.injEq, Prod.mk.injEq] at h
    obtain ⟨_, rfl⟩ := h
    exact hs
  · obtain ⟨P, rest, hq⟩ := List.exists_cons_of_ne_nil hq
    by_cases hP : P = []
    · exfalso
      subst hP
      unfold cycleGenerator.oneStep at h
      simp only [hq] at h
      exact absurd h (by simp)
    · obtain ⟨g1, h1, _, hn1, _, hh1, _, hpq, _, _⟩ :=
        oneStep_cons g P rest hq hP (hashDefined_of_oneStep g P rest hq r g' h)
      rw [h1] at h
      simp only [Option.some.injEq, Prod.mk.injEq] at h
      obtain ⟨_, rfl⟩ := h
      rcases hs with hs | ⟨hn, hv⟩
      · exact Or.inl (by rw [hh1]; exact hs)
      · refine Or.inr ⟨by rw [hn1]; exact hn, ?_⟩
        intro Q hQ x hx
        rw [hn1]
        rw [hpq, List.mem_append] at hQ
        rcases hQ with hQ | hQ
        · exact hv Q (by rw [hq]; simp [hQ]) x hx
        · obtain ⟨i, rfl, _, hi, _⟩ := newPaths_mem g _ _ P Q hQ
          rw [List.mem_append, List.mem_singleton] at hx
          rcases hx with hx | hx
          · exact hv P (by rw [hq]; simp) x hx
          · rw [hx]; exact hi

/-- A fresh generator is safe when dedup is off or there are at most 10
nodes. -/
theorem hashSafe_fresh (g : cycleGenerator) (n : Nat) (h : Int) (hn : g.numNodes = n)
    (hh : g.hashBiDirectedCycles = h) (hq : g.pathQueue = (List.range n).map (fun i => [i]))
    (hs : h ≠ 1 ∨ n ≤ 10) : g.HashSafe := by
  rcases hs with hs | hs
  · exact Or.inl (by rw [hh]; exact hs)
  · refine Or.inr ⟨by rw [hn]; exact hs, ?_⟩
    intro P hP x hx
    rw [hq, List.mem_map] at hP
    obtain ⟨i, hi, rfl⟩ := hP
    rw [List.mem_singleton] at hx
    rw [hx, hn]
    exact List.mem_range.1 hi

/-! ### Termination of the enumeration -/

theorem stepLoop_spec (Inv : List (List Nat) → cycleGenerator → Prop) (hI : IsInvariant Inv)
    (fuel : Nat) : ∀ (g : cycleGenerator) (out : List (List Nat)), Inv out g → g.HashSafe →
      g.cyclesFound = [] → g.stepBound < fuel →
      ∃ g1, cycleGenerator.stepLoop fuel g = some g1 ∧ Inv (out ++ g1.cyclesFound) g1 ∧
        (g.pathQueue ≠ [] → g1.stepBound < g.stepBound) ∧
        ((g1.cyclesFound = [] ∧ g1.pathQueue = []) ∨ ∃ c, g1.cyclesFound = [c]) ∧
        g1.HashSafe := by
  induction fuel with
  | zero => intro g out _ _ _ h; omega
  | succ fuel ih =>
    intro g out hinv hsafe hcf hb
    have hinv0 : Inv (out ++ g.cyclesFound) g := by rw [hcf, List.append_nil]; exact hinv
    unfold cycleGenerator.stepLoop
    rw [if_pos (by rw [hcf]; rfl)]
    cases hq : g.pathQueue with
    | nil =>
      rw [oneStep_nil g hq]
      simp only [zero_ne_one, if_false]
      refine ⟨_, rfl, ?_, fun h => absurd rfl h, Or.inl ⟨hcf, hq⟩,
        hashSafe_oneStep g 0 _ (oneStep_nil g hq) hsafe⟩
      exact hI.step out g 0 _ hinv0 (oneStep_nil g hq)
    | cons P rest =>
      have hP : P ≠ [] := (hI.wf out g hinv).1 P (by rw [hq]; simp)
      obtain ⟨g', h1, _, _, _, _, _, _, hcf', _⟩ := oneStep_cons g P rest hq hP
        (hashDefined_of_safe g P hsafe (by rw [hq]; simp))
      have hsafe' := hashSafe_oneStep g 1 g' h1 hsafe
      have hlt := stepBound_oneStep g P rest hq hP 1 g' h1
      have hinv' := hI.step out g 1 g' hinv0 h1
      rw [h1]
      simp only [if_true]
      rw [hcf, List.nil_append] at hcf'
      rcases found_cases g P with hf | hf
      · rw [hf] at hcf'
        rw [hcf', List.append_nil] at hinv'
        obtain ⟨g1, hg1, hi1, hlt1, hc1, hs1⟩ := ih g' out hinv' hsafe' hcf' (by omega)
        refine ⟨g1, hg1, hi1, fun _ => ?_, hc1, hs1⟩
        by_cases hq' : g'.pathQueue = []
        · have : g1.stepBound ≤ g'.stepBound := by
            -- the loop stops at once on an empty frontier
            cases fuel with
            | zero => omega
            | succ f =>
              unfold cycleGenerator.stepLoop at hg1
              rw [if_pos (by rw [hcf']; rfl), oneStep_nil g' hq'] at hg1
              simp only [zero_ne_one, if_false, Option.some.injEq] at hg1
              subst hg1
              exact le_refl _
          omega
        · have := hlt1 hq'
          omega
      · rw [hf] at hcf'
        cases fuel with
        | zero => omega
        | succ f =>
          unfold cycleGenerator.stepLoop
          rw [if_neg (by rw [hcf']; simp)]
          exact ⟨g', rfl, hinv', fun _ => hlt, Or.inr ⟨P, hcf'⟩, hsafe'⟩

theorem drain_spec (Inv : List (List Nat) → cycleGenerator → Prop) (hI : IsInvariant Inv)
    (b : Nat) : ∀ (g : cycleGenerator) (out : List (List Nat)), g.stepBound ≤ b → Inv out g →
      g.cyclesFound = [] → g.HashSafe →
      ∃ L gf, (∀ k, b < k → g.drain k = some L) ∧ Inv (out ++ L) gf ∧ gf.pathQueue = [] := by
  induction b with
  | zero =>
    intro g out hb hinv hcf hsafe
    by_cases hq : g.pathQueue = []
    · refine ⟨[], g, ?_, by rw [List.append_nil]; exact hinv, hq⟩
      intro k hk
      obtain ⟨k', rfl⟩ := Nat.exists_eq_succ_of_ne_zero (by omega : k ≠ 0)
      unfold cycleGenerator.drain
      rw [nextCycle_of_exhausted g (Or.inr (by rw [hq]; rfl))]
      simp
    · obtain ⟨g1, _, _, hlt, _⟩ :=
        stepLoop_spec Inv hI (g.stepBound + 1) g out hinv hsafe hcf (by omega)
      have := hlt hq
      omega
  | succ b ih =>
    intro g out hb hinv hcf hsafe
    by_cases hq : g.pathQueue = []
    · refine ⟨[], g, ?_, by rw [List.append_nil]; exact hinv, hq⟩
      intro k hk
      obtain ⟨k', rfl⟩ := Nat.exists_eq_succ_of_ne_zero (by omega : k ≠ 0)
      unfold cycleGenerator.drain
      rw [nextCycle_of_exhausted g (Or.inr (by rw [hq]; rfl))]
      simp
    · obtain ⟨g1, hg1, hinv1, hlt, hc, hsafe1⟩ :=
        stepLoop_spec Inv hI (g.stepBound + 1) g out hinv hsafe hcf (by omega)
      have hn : g.numNodes ≠ 0 := fun h => hq ((hI.wf out g hinv).2 h)
      have hlen : ¬ (g.numNodes = 0 ∨ g.pathQueue.length = 0) := by
        rw [List.length_eq_zero]; tauto
      have hnc : g.nextCycle = (if g1.cyclesFound.length = 0 ∧ g1.pathQueue.length = 0
          then some ([], g1) else
            match g1.cyclesFound with
            | [] => none
            | c :: rest => some (c, { g1 with cyclesFound := rest })) := by
        unfold cycleGenerator.nextCycle cycleGenerator.nextCycleFuel
        rw [if_neg hlen, if_pos ⟨by rw [hcf]; rfl, hn⟩, hg1]
        try rfl
      rcases hc with ⟨hc1, hq1⟩ | ⟨c, hc1⟩
      · refine ⟨[], g1, ?_, by rw [List.append_nil]; rw [hc1, List.append_nil] at hinv1; exact hinv1, hq1⟩
        intro k hk
        obtain ⟨k', rfl⟩ := Nat.exists_eq_succ_of_ne_zero (by omega : k ≠ 0)
        unfold cycleGenerator.drain
        rw [hnc, if_pos ⟨by rw [hc1]; rfl, by rw [hq1]; rfl⟩]
        simp
      · have hcne : c ≠ [] := stepLoop_cyclesFound_ne_nil _ g g1 hg1
          (by intro c hc; rw [hcf] at hc; simp at hc) c (by rw [hc1]; simp)
        have hinv2 : Inv (out ++ [c]) { g1 with cyclesFound := [] } := by
          rw [hc1] at hinv1
          exact hI.pop _ _ _ hinv1
        have hb2 : cycleGenerator.stepBound { g1 with cyclesFound := [] } ≤ b := by
          have := hlt hq
          have h2 : cycleGenerator.stepBound { g1 with cyclesFound := [] } = g1.stepBound := rfl
          omega
        obtain ⟨L, gf, hL, hinvf, hqf⟩ := ih _ (out ++ [c]) hb2 hinv2 rfl hsafe1
        refine ⟨c :: L, gf, ?_, by rw [List.append_assoc] at hinvf; exact hinvf, hqf⟩
        intro k hk
        obtain ⟨k', rfl⟩ := Nat.exists_eq_succ_of_ne_zero (by omega : k ≠ 0)
        unfold cycleGenerator.drain
        rw [hnc, if_neg (by rw [hc1]; simp), hc1]
        simp only
        rw [if_neg (by rw [List.length_eq_zero]; exact hcne), hL k' (by omega)]

/-! ### Length order of the returned cycles -/

theorem lenInv_isInvariant : IsInvariant LenInv := by
  refine ⟨?_, ?_, ?_⟩
  · intro out g r g' hinv hstep
    obtain ⟨hne, hn0, hpw, hd⟩ := hinv
    cases hq : g.pathQueue with
    | nil =>
      rw [oneStep_nil g hq] at hstep
      simp only [Option.some.injEq, Prod.mk.injEq] at hstep
      obtain ⟨_, rfl⟩ := hstep
      exact ⟨hne, hn0, hpw, hd⟩
    | cons P rest =>
      have hP : P ≠ [] := hne P (by rw [hq]; simp)
      obtain ⟨g1, h1, _, hn, _, _, _, hpq, hcf, _⟩ := oneStep_cons g P rest hq hP
        (hashDefined_of_oneStep g P rest hq _ _ hstep)
      rw [h1] at hstep
      simp only [Option.some.injEq, Prod.mk.injEq] at hstep
      obtain ⟨_, rfl⟩ := hstep
      have hchild : ∀ Q ∈ g.newPaths (P.headD 0) (P.getLastD 0) P, Q.length = P.length + 1 := by
        intro Q hQ
        obtain ⟨i, rfl, _⟩ := newPaths_mem g _ _ P Q hQ
        simp
      have hF := found_cases g P
      unfold LenInv
      rw [hcf, ← List.append_assoc, hpq]
      rw [hq] at hpw hd
      generalize out ++ g.cyclesFound = O at hpw ⊢
      generalize (if P.length > 1 ∧ g.adjMat (P.getLastD 0) (P.headD 0) = 1
            then g.recordEffect P else ([], g.uniqBiDirectedCycles)).1 = F at hF ⊢
      generalize g.newPaths (P.headD 0) (P.getLastD 0) P = N at hchild ⊢
      rw [List.pairwise_append] at hpw
      obtain ⟨hpo, hpq', hx⟩ := hpw
      rw [List.pairwise_cons] at hpq'
      have hdP : ∀ Q ∈ rest, Q.length ≤ P.length + 1 := fun Q hQ =>
        hd P (by simp) Q (by simp [hQ])
      refine ⟨?_, ?_, ?_, ?_⟩
      · intro Q hQ
        rw [List.mem_append] at hQ
        rcases hQ with hQ | hQ
        · exact hne Q (by rw [hq]; simp [hQ])
        · have := hchild Q hQ
          intro h; rw [h] at this; simp at this
      · intro h0
        rw [hn] at h0
        have := hn0 h0
        rw [hq] at this
        exact absurd this (by simp)
      · simp only [List.pairwise_append, List.mem_append]
        refine ⟨⟨hpo, ?_, ?_⟩, ⟨hpq'.2, ?_, ?_⟩, ?_⟩
        · rcases hF with hf | hf <;> rw [hf] <;> simp
        · intro a ha b hb
          rcases hF with hf | hf <;> rw [hf] at hb <;> simp at hb
          rw [hb]
          exact hx a ha P (by simp)
        · exact List.pairwise_of_forall_mem_list (fun a ha b hb => by
            rw [hchild a ha, hchild b hb])
        · intro a ha b hb
          rw [hchild b hb]
          exact hdP a ha
        · intro a ha b hb
          rcases hb with hb | hb
          · rcases ha with ha | ha
            · exact hx a ha b (by simp [hb])
            · rcases hF with hf | hf <;> rw [hf] at ha <;> simp at ha
              rw [ha]
              exact hpq'.1 b hb
          · rw [hchild b hb]
            rcases ha with ha | ha
            · have := hx a ha P (by simp)
              omega
            · rcases hF with hf | hf <;> rw [hf] at ha <;> simp at ha
              rw [ha]
              omega
      · intro X hX Y hY
        rw [List.mem_append] at hX hY
        have hY' : Y.length ≤ P.length + 1 := by
          rcases hY with hY | hY
          · exact hdP Y hY
          · rw [hchild Y hY]
        rcases hX with hX | hX
        · have := hpq'.1 X hX
          omega
        · rw [hchild X hX]
          omega
  · intro out g cf h
    exact h
  · intro out g h
    exact ⟨h.1, h.2.1⟩

theorem nextCycles_of_drain (K : Nat) : ∀ (g : cycleGenerator) (L : List (List Nat)),
    g.drain K = some L → ∀ k, ∃ res gf, g.nextCycles k = some (res, gf) ∧
      res.filter (fun c => decide (c ≠ [])) <+: L := by
  induction K with
  | zero => intro g L h; simp [cycleGenerator.drain] at h
  | succ K ih =>
    intro g L h k
    unfold cycleGenerator.drain at h
    cases hnc : g.nextCycle with
    | none => rw [hnc] at h; simp at h
    | some p =>
      obtain ⟨c, g'⟩ := p
      rw [hnc] at h
      simp only at h
      cases k with
      | zero => exact ⟨[], g, rfl, by simp⟩
      | succ k =>
        unfold cycleGenerator.nextCycles
        rw [hnc]
        simp only
        split at h
        · rename_i hc
          have hc' : c = [] := List.length_eq_zero.mp hc
          subst hc'
          rw [nextCycles_after_empty g g' hnc k]
          refine ⟨_, _, rfl, ?_⟩
          simp [List.filter_replicate]
        · rename_i hc
          cases hd : cycleGenerator.drain K g' with
          | none => rw [hd] at h; simp at h
          | some cs =>
            rw [hd] at h
            simp only [Option.some.injEq] at h
            subst h
            obtain ⟨res, gf, hres, hpre⟩ := ih g' cs hd k
            rw [hres]
            refine ⟨_, _, rfl, ?_⟩
            have : c ≠ [] := fun h' => hc (by rw [h']; rfl)
            simp only [List.filter_cons, this, ne_eq, not_false_eq_true, decide_True, if_true]
            exact (List.prefix_cons_inj c).mpr hpre

/-- A freshly constructed generator with both settings applied. -/
theorem fresh_fields (adjMat : Nat → Nat → Int) (n : Nat) (L h : Int) :
    let g := ((cycleGenerator.new adjMat n).setCycleLengthMin L).setHashBiDirectedCycles h
    g.adjMat = adjMat ∧ g.numNodes = n ∧ g.cycleLengthMin = L ∧ g.hashBiDirectedCycles = h ∧
      g.pathQueue = (List.range n).map (fun i => [i]) ∧ g.cyclesFound = [] ∧
      g.uniqBiDirectedCycles = [] ∧ g.oneStepCalls = 0 :=
  ⟨rfl, rfl, rfl, rfl, rfl, rfl, rfl, rfl⟩

/-- The length order where the hashing is defined: for every matrix and
minimum length `L`, with dedup off (`h ≠ 1`) or at most 10 nodes, the non-empty
lists returned by any number `k` of successive `nextCycle` calls on a fresh
generator are in nondecreasing order of length (and all `k` calls return). -/
theorem nextCycle_lengths_nondecreasing_of_safe (adjMat : Nat → Nat → Int) (n : Nat) (L h : Int)
    (k : Nat) (hsafe : h ≠ 1 ∨ n ≤ 10) :
    ∃ res gf,
      (((cycleGenerator.new adjMat n).setCycleLengthMin L).setHashBiDirectedCycles h).nextCycles k
        = some (res, gf) ∧
      (res.filter (fun c => decide (c ≠ []))).Pairwise (fun a b => a.length ≤ b.length) := by
  obtain ⟨_, hn, _, hh, hq, hcf, _, _⟩ := fresh_fields adjMat n L h
  generalize ((cycleGenerator.new adjMat n).setCycleLengthMin L).setHashBiDirectedCycles h = g
    at hn hh hq hcf ⊢
  have hsafe0 := hashSafe_fresh g n h hn hh hq hsafe
  have h0 : LenInv [] g := by
    refine ⟨?_, ?_, ?_, ?_⟩
    · intro P hP
      rw [hq, List.mem_map] at hP
      obtain ⟨i, _, rfl⟩ := hP
      simp
    · intro h0
      rw [hq, ← hn, h0]
      rfl
    · rw [List.nil_append, hq]
      apply List.pairwise_of_forall_mem_list
      intro a ha b hb
      rw [List.mem_map] at ha hb
      obtain ⟨i, _, rfl⟩ := ha
      obtain ⟨j, _, rfl⟩ := hb
      simp
    · intro P hP Q hQ
      rw [hq, List.mem_map] at hP hQ
      obtain ⟨i, _, rfl⟩ := hP
      obtain ⟨j, _, rfl⟩ := hQ
      simp
  obtain ⟨out, gf, hdrain, hinv, _⟩ :=
    drain_spec LenInv lenInv_isInvariant g.stepBound g [] (le_refl _) h0 hcf hsafe0
  obtain ⟨res, gf', hres, hpre⟩ :=
    nextCycles_of_drain (g.stepBound + 1) g out (hdrain _ (Nat.lt_succ_self _)) k
  refine ⟨res, gf', hres, ?_⟩
  have hp : out.Pairwise (fun a b => a.length ≤ b.length) := by
    have := hinv.2.2.1
    rw [List.nil_append, List.pairwise_append] at this
    exact this.1
  exact hp.sublist hpre.sublist

/-! ### Enumeration of all cycles: the counting invariant -/

theorem isCycleBiDirected_congr {g g' : cycleGenerator} (ha : g'.adjMat = g.adjMat)
    (hn : g'.numNodes = g.numNodes) (C : List Nat) :
    g'.isCycleBiDirected C = g.isCycleBiDirected C := by
  unfold cycleGenerator.isCycleBiDirected
  rw [ha, hn]

theorem uniqueBiDirCycle_congr {g g' : cycleGenerator} (ha : g'.adjMat = g.adjMat)
    (hn : g'.numNodes = g.numNodes) (C : List Nat) :
    g'.uniqueBiDirCycle C = g.uniqueBiDirCycle C := by
  unfold cycleGenerator.uniqueBiDirCycle
  rw [isCycleBiDirected_congr ha hn]

theorem hashDefined_congr {g g' : cycleGenerator} (ha : g'.adjMat = g.adjMat)
    (hn : g'.numNodes = g.numNodes) (hh : g'.hashBiDirectedCycles = g.hashBiDirectedCycles)
    (P : List Nat) : g'.HashDefined P ↔ g.HashDefined P := by
  unfold cycleGenerator.HashDefined
  rw [ha, hh, isCycleBiDirected_congr ha hn, uniqueBiDirCycle_congr ha hn]

theorem dedups_congr {g g' : cycleGenerator} (ha : g'.adjMat = g.adjMat)
    (hn : g'.numNodes = g.numNodes) (hh : g'.hashBiDirectedCycles = g.hashBiDirectedCycles)
    (C : List Nat) : g'.Dedups C ↔ g.Dedups C := by
  unfold cycleGenerator.Dedups
  rw [isCycleBiDirected_congr ha hn, hh]

/-- The four outcomes of the cycle test of `oneStep` for a path `P`, for a
minimum length of at most 2. -/
theorem found_spec (g : cycleGenerator) (P : List Nat) (hL : toSizeT g.cycleLengthMin ≤ 2) :
    let F := (if P.length > 1 ∧ g.adjMat (P.getLastD 0) (P.headD 0) = 1 then g.recordEffect P
         else ([], g.uniqBiDirectedCycles))
    (F.1 = [] ∧ F.2 = g.uniqBiDirectedCycles ∧
        (¬ ClosesCycle g.adjMat P ∨ (g.Dedups P ∧ g.uniqueBiDirCycle P ∈ g.uniqBiDirectedCycles))) ∨
    (F.1 = [P] ∧ F.2 = g.uniqBiDirectedCycles ∧ ClosesCycle g.adjMat P ∧ ¬ g.Dedups P) ∨
    (F.1 = [P] ∧ F.2 = g.uniqBiDirectedCycles ++ [g.uniqueBiDirCycle P] ∧
        ClosesCycle g.adjMat P ∧ g.Dedups P ∧ g.uniqueBiDirCycle P ∉ g.uniqBiDirectedCycles) := by
  intro F
  by_cases hc : P.length > 1 ∧ g.adjMat (P.getLastD 0) (P.headD 0) = 1
  · have hF : F = g.recordEffect P := if_pos hc
    have hlen : toSizeT g.cycleLengthMin ≤ P.length := by have := hc.1; omega
    by_cases hd : g.hashBiDirectedCycles = 1 ∧ g.isCycleBiDirected P = 1 ∧ P.length > 2
    · by_cases hu : g.uniqueBiDirCycle P ∈ g.uniqBiDirectedCycles
      · left
        have h1 : g.recordEffect P = ([], g.uniqBiDirectedCycles) := by
          unfold cycleGenerator.recordEffect
          rw [if_pos hd]
          simp only
          rw [if_neg (not_not_intro hu)]
        rw [hF, h1]
        exact ⟨rfl, rfl, Or.inr ⟨hd, hu⟩⟩
      · right; right
        have h1 : g.recordEffect P = ([P], g.uniqBiDirectedCycles ++ [g.uniqueBiDirCycle P]) := by
          unfold cycleGenerator.recordEffect
          rw [if_pos hd]
          simp only
          rw [if_pos hu, if_pos hlen]
        rw [hF, h1]
        exact ⟨rfl, rfl, hc, hd, hu⟩
    · right; left
      have h1 : g.recordEffect P = ([P], g.uniqBiDirectedCycles) := by
        unfold cycleGenerator.recordEffect
        rw [if_neg hd, if_pos hlen]
      rw [hF, h1]
      exact ⟨rfl, rfl, hc, hd⟩
  · left
    have hF : F = ([], g.uniqBiDirectedCycles) := if_neg hc
    rw [hF]
    exact ⟨rfl, rfl, Or.inl hc⟩

theorem newPaths_rooted (adjMat : Nat → Nat → Int) (n : Nat) (g : cycleGenerator)
    (ha : g.adjMat = adjMat) (hn : g.numNodes = n) (P Q : List Nat)
    (hP : IsRootedPath adjMat n P) (hQ : Q ∈ g.newPaths (P.headD 0) (P.getLastD 0) P) :
    IsRootedPath adjMat n Q := by
  obtain ⟨i, rfl, hhi, hin, harc, hiP⟩ := newPaths_mem g _ _ P Q hQ
  obtain ⟨hne, hnd, hlt, hroot, hch⟩ := hP
  rw [hn] at hin
  rw [ha] at harc
  refine ⟨by simp, ?_, ?_, ?_, ?_⟩
  · rw [List.nodup_append]
    refine ⟨hnd, List.nodup_singleton i, ?_⟩
    intro x hx hx'
    rw [List.mem_singleton] at hx'
    subst hx'
    exact hiP hx
  · intro x hx
    rw [List.mem_append, List.mem_singleton] at hx
    rcases hx with hx | rfl
    · exact hlt x hx
    · exact hin
  · cases P with
    | nil => exact absurd rfl hne
    | cons a t =>
      intro x hx
      simp only [List.cons_append, List.tail_cons, List.mem_append, List.mem_singleton,
        List.headD_cons] at hx ⊢
      rcases hx with hx | rfl
      · exact hroot x hx
      · exact hhi
  · rw [List.chain'_append]
    refine ⟨hch, List.chain'_singleton i, ?_⟩
    intro x hx y hy
    simp only [List.head?_cons, Option.mem_def, Option.some.injEq] at hy
    subst hy
    rw [List.getLastD_eq_getLast?] at harc
    rw [Option.mem_def] at hx
    rw [hx] at harc
    exact harc

/-- Effect of one expansion on the number of prefixes of a rooted path `C` in
the frontier: it drops by one exactly when `C` itself is popped. -/
theorem pending_step (adjMat : Nat → Nat → Int) (n : Nat) (g : cycleGenerator)
    (ha : g.adjMat = adjMat) (hn : g.numNodes = n) (P : List Nat) (rest : List (List Nat))
    (hP : P ≠ []) (C : List Nat) (hC : IsRootedPath adjMat n C) :
    pending (rest ++ g.newPaths (P.headD 0) (P.getLastD 0) P) C + (if P = C then 1 else 0)
      = pending (P :: rest) C := by
  have key : pending (g.newPaths (P.headD 0) (P.getLastD 0) P) C =
      if P <+: C ∧ P ≠ C then 1 else 0 := by
    by_cases hpre : P <+: C ∧ P ≠ C
    · rw [if_pos hpre]
      obtain ⟨⟨s, hs⟩, hne⟩ := hpre
      cases s with
      | nil => rw [List.append_nil] at hs; exact absurd hs hne
      | cons i s =>
        subst hs
        obtain ⟨_, hnd, hlt, hroot, hch⟩ := hC
        unfold pending cycleGenerator.newPaths
        rw [List.countP_map]
        have hfun : ((fun Q => decide (Q <+: P ++ i :: s)) ∘ fun j => P ++ [j])
            = fun j => decide (j = i) := by
          funext j
          simp only [Function.comp, List.prefix_append_right_inj, decide_eq_decide]
          constructor
          · rintro ⟨t, ht⟩
            simp only [List.singleton_append, List.cons.injEq] at ht
            exact ht.1
          · rintro rfl
            exact ⟨s, rfl⟩
        rw [hfun]
        have hcount : ∀ l : List Nat, l.countP (fun j => decide (j = i)) = l.count i := by
          intro l
          unfold List.count
          apply List.countP_congr
          intro x _
          simp only [decide_eq_true_eq, beq_iff_eq]
        rw [hcount]
        apply List.count_eq_one_of_mem
        · exact (List.nodup_range' _ _).filter _
        · rw [List.mem_filter, List.mem_range'_1]
          have hiC : i ∈ P ++ i :: s := by simp
          have hin : i < n := hlt i hiC
          have hnd' := hnd
          rw [List.nodup_append] at hnd'
          have hiP : i ∉ P := fun h => hnd'.2.2 h (by simp)
          cases P with
          | nil => exact absurd rfl hP
          | cons a t =>
            have hai : a < i := hroot i (by simp)
            have harc : adjMat ((a :: t).getLastD 0) i = 1 := by
              rw [List.chain'_append] at hch
              have := hch.2.2 ((a :: t).getLast (by simp)) (List.getLast?_eq_getLast _ _) i (by simp)
              rw [List.getLastD_eq_getLast?, List.getLast?_eq_getLast _ (by simp)]
              exact this
            refine ⟨⟨by simp only [List.headD_cons]; omega, by
              simp only [List.headD_cons]; rw [hn]; omega⟩, ?_⟩
            simp only [List.headD_cons, decide_eq_true_eq]
            refine ⟨by rw [ha]; exact harc, by omega, ?_⟩
            unfold isInList
            rw [if_neg hiP]
    · rw [if_neg hpre]
      unfold pending
      rw [List.countP_eq_zero]
      intro Q hQ
      obtain ⟨i, rfl, _⟩ := newPaths_mem g _ _ P Q hQ
      simp only [decide_eq_true_eq]
      intro hpre'
      apply hpre
      refine ⟨(List.prefix_append P [i]).trans hpre', ?_⟩
      intro h
      have := hpre'.length_le
      rw [h] at this
      simp at this
  have hsplit : pending (rest ++ g.newPaths (P.headD 0) (P.getLastD 0) P) C
      = pending rest C + pending (g.newPaths (P.headD 0) (P.getLastD 0) P) C := by
    unfold pending
    rw [List.countP_append]
  have hcons : pending (P :: rest) C = pending rest C + if P <+: C then 1 else 0 := by
    unfold pending
    rw [List.countP_cons]
    simp
  rw [hsplit, key, hcons]
  by_cases h1 : P = C
  · subst h1
    simp
  · by_cases h2 : P <+: C <;> simp [h1, h2]

theorem minScan_of_le {α : Type} [LinearOrder α] (l : List α) :
    ∀ (curMin : α) (minVal pos : Nat), (∀ x ∈ l, curMin ≤ x) →
      minScan curMin minVal pos l = minVal := by
  induction l with
  | nil => intro _ _ _ _; rfl
  | cons a l ih =>
    intro curMin minVal pos h
    unfold minScan
    rw [if_neg (not_lt.mpr (h a (by simp)))]
    exact ih _ _ _ (fun x hx => h x (by simp [hx]))

theorem minValPos_cons_of_lt {α : Type} [LinearOrder α] (h : α) (t : List α)
    (hlt : ∀ x ∈ t, h < x) : minValPos (h :: t) = 0 := by
  unfold minValPos
  apply minScan_of_le
  intro x hx
  rw [List.mem_cons] at hx
  rcases hx with rfl | hx
  · exact le_refl _
  · exact le_of_lt (hlt x hx)

theorem minScan_append_min {α : Type} [LinearOrder α] (h : α) (l : List α) :
    ∀ (curMin : α) (minVal pos : Nat), (∀ x ∈ l, h < x) → h < curMin →
      minScan curMin minVal pos (l ++ [h]) = pos + l.length := by
  induction l with
  | nil =>
    intro curMin minVal pos _ hc
    simp only [List.nil_append, minScan, if_pos hc, List.length_nil, Nat.add_zero]
  | cons a l ih =>
    intro curMin minVal pos hall hc
    have ha : h < a := hall a (by simp)
    have hl : ∀ x ∈ l, h < x := fun x hx => hall x (by simp [hx])
    rw [List.cons_append]
    unfold minScan
    split
    · rw [ih a pos (pos + 1) hl ha, List.length_cons]; omega
    · rw [ih curMin minVal (pos + 1) hl hc, List.length_cons]; omega

theorem minValPos_append_min {α : Type} [LinearOrder α] (h : α) (l : List α)
    (hne : l ≠ []) (hall : ∀ x ∈ l, h < x) : minValPos (l ++ [h]) = l.length := by
  cases l with
  | nil => exact absurd rfl hne
  | cons a l =>
    rw [List.cons_append]
    unfold minValPos
    unfold minScan
    rw [if_neg (lt_irrefl a)]
    rw [minScan_append_min h l a 0 1 (fun x hx => hall x (by simp [hx])) (hall a (by simp))]
    rw [List.length_cons]; omega

theorem uniqueCycle_rooted {α : Type} [LinearOrder α] (h : α) (t : List α)
    (hlt : ∀ x ∈ t, h < x) : uniqueCycle (h :: t) = h :: t := by
  unfold uniqueCycle
  split
  · rfl
  · rw [minValPos_cons_of_lt h t hlt]
    simp

theorem uniqueCycle_revList_rooted {α : Type} [LinearOrder α] (h : α) (t : List α)
    (hlt : ∀ x ∈ t, h < x) : uniqueCycle (revList (h :: t)) = h :: t.reverse := by
  cases t with
  | nil => rfl
  | cons a t =>
    have hrev : revList (h :: a :: t) = (a :: t).reverse ++ [h] := by
      unfold revList
      rw [if_neg (by simp)]
      simp
    rw [hrev]
    unfold uniqueCycle
    rw [if_neg (by simp)]
    rw [minValPos_append_min h (a :: t).reverse (by simp)
      (fun x hx => hlt x (List.mem_reverse.mp hx))]
    rw [List.drop_left, List.take_left]
    rfl

/-- On a path that starts at its strict minimum, `uniqueBiDirCycle` keeps the
path or mirrors it, whichever has the smaller second node. -/
theorem uniqueBiDirCycle_rooted (g : cycleGenerator) (h : Nat) (t : List Nat)
    (hlt : ∀ x ∈ t, h < x) (hbi : g.isCycleBiDirected (h :: t) = 1) :
    g.uniqueBiDirCycle (h :: t) =
      if (h :: t).getD 1 0 > (h :: t).getLastD 0 then mirror (h :: t) else h :: t := by
  have hlen : ¬ (h :: t).length ≤ 1 := by
    intro hl
    unfold cycleGenerator.isCycleBiDirected at hbi
    rw [if_pos (Or.inl hl)] at hbi
    exact absurd hbi (by decide)
  unfold cycleGenerator.uniqueBiDirCycle
  rw [if_neg (by
    rw [hbi]
    rintro (h1 | h1)
    · exact hlen h1
    · exact absurd h1 (by decide))]
  simp only [minValPos_cons_of_lt h t hlt, if_true]
  rw [uniqueCycle_rooted h t hlt, uniqueCycle_revList_rooted h t hlt]
  rfl

theorem revArcsPresent_iff (adjMat : Nat → Nat → Int) (l : List Nat) :
    revArcsPresent adjMat l = true ↔ l.Chain' (fun x y => adjMat y x ≠ 0) := by
  induction l with
  | nil => simp [revArcsPresent]
  | cons a l ih =>
    cases l with
    | nil => simp [revArcsPresent]
    | cons b l =>
      unfold revArcsPresent
      rw [List.chain'_cons]
      by_cases hab : adjMat b a = 0
      · simp [hab]
      · rw [if_neg hab, ih]
        simp [hab]

theorem chain_closed_iff (R : Nat → Nat → Prop) (h : Nat) (t : List Nat) :
    List.Chain R h (t ++ [h]) ↔ List.Chain' R (h :: t) ∧ R ((h :: t).getLastD 0) h := by
  have h1 : List.Chain R h (t ++ [h]) ↔ List.Chain' R ((h :: t) ++ [h]) := Iff.rfl
  rw [h1, List.chain'_append]
  have hl : (h :: t).getLast? = some ((h :: t).getLastD 0) := by
    rw [List.getLastD_eq_getLast?, List.getLast?_eq_getLast _ (List.cons_ne_nil h t)]
    rfl
  constructor
  · rintro ⟨hc, _, hx⟩
    exact ⟨hc, hx _ hl h (by simp)⟩
  · rintro ⟨hc, hr⟩
    refine ⟨hc, List.chain'_singleton h, ?_⟩
    intro x hx y hy
    rw [Option.mem_def, hl, Option.some.injEq] at hx
    simp only [List.head?_cons, Option.mem_def, Option.some.injEq] at hy
    subst hx hy
    exact hr

theorem chain_mirror (R : Nat → Nat → Prop) (h : Nat) (t : List Nat) :
    List.Chain R h (t.reverse ++ [h]) ↔ List.Chain (flip R) h (t ++ [h]) := by
  have h1 : List.Chain R h (t.reverse ++ [h]) ↔ List.Chain' R ((h :: t ++ [h]).reverse) := by
    have : (h :: t ++ [h]).reverse = h :: (t.reverse ++ [h]) := by simp
    rw [this]
    exact Iff.rfl
  rw [h1, List.chain'_reverse]
  exact Iff.rfl

theorem isCycleBiDirected_eq_one_iff (g : cycleGenerator) (h : Nat) (t : List Nat) :
    g.isCycleBiDirected (h :: t) = 1 ↔
      t ≠ [] ∧ g.numNodes ≠ 0 ∧ List.Chain (fun x y => g.adjMat y x ≠ 0) h (t ++ [h]) := by
  rw [chain_closed_iff, ← revArcsPresent_iff]
  unfold cycleGenerator.isCycleBiDirected
  by_cases h1 : (h :: t).length ≤ 1 ∨ g.numNodes = 0
  · rw [if_pos h1]
    constructor
    · intro hh; exact absurd hh (by decide)
    · rintro ⟨ht, hn, _⟩
      rcases h1 with h1 | h1
      · cases t with
        | nil => exact absurd rfl ht
        | cons a t => simp at h1
      · exact absurd h1 hn
  · rw [if_neg h1]
    have ht : t ≠ [] := by
      rintro rfl
      exact h1 (Or.inl (by simp))
    have hn : g.numNodes ≠ 0 := fun hn => h1 (Or.inr hn)
    by_cases h2 : revArcsPresent g.adjMat (h :: t) = false
    · rw [if_pos h2]
      simp [h2]
    · rw [if_neg h2]
      have h2' : revArcsPresent g.adjMat (h :: t) = true := by
        cases hb : revArcsPresent g.adjMat (h :: t)
        · exact absurd hb h2
        · rfl
      by_cases h3 : g.adjMat ((h :: t).headD 0) ((h :: t).getLastD 0) = 0
      · rw [if_pos h3]
        simp only [List.headD_cons] at h3
        constructor
        · intro hh; exact absurd hh (by decide)
        · rintro ⟨_, _, _, h4⟩
          exact absurd h3 h4
      · rw [if_neg h3]
        simp only [List.headD_cons] at h3
        constructor
        · intro _; exact ⟨ht, hn, h2', h3⟩
        · intro _; rfl

theorem mirror_mirror (C : List Nat) : mirror (mirror C) = C := by
  cases C with
  | nil => rfl
  | cons h t => simp [mirror]

theorem mirror_length (C : List Nat) : (mirror C).length = C.length := by
  cases C with
  | nil => rfl
  | cons h t => simp [mirror]

/-- The closed chain of a rooted path that closes a cycle. -/
theorem rooted_closes_chain (adjMat : Nat → Nat → Int) (n : Nat) (h : Nat) (t : List Nat) :
    (IsRootedPath adjMat n (h :: t) ∧ ClosesCycle adjMat (h :: t)) ↔
      (t ≠ [] ∧ (h :: t).Nodup ∧ (∀ x ∈ h :: t, x < n) ∧ (∀ x ∈ t, h < x) ∧
        List.Chain (fun x y => adjMat x y = 1) h (t ++ [h])) := by
  rw [chain_closed_iff]
  unfold IsRootedPath ClosesCycle
  simp only [List.tail_cons, List.headD_cons, List.length_cons]
  constructor
  · rintro ⟨⟨_, h2, h3, h4, h5⟩, h6, h7⟩
    refine ⟨?_, h2, h3, h4, h5, h7⟩
    rintro rfl
    simp at h6
  · rintro ⟨h1, h2, h3, h4, h5, h6⟩
    refine ⟨⟨by simp, h2, h3, h4, h5⟩, ?_, h6⟩
    cases t with
    | nil => exact absurd rfl h1
    | cons a t => simp

theorem chain_zeroOne (adjMat : Nat → Nat → Int) (n : Nat) (h01 : IsZeroOne adjMat n)
    (h : Nat) (l : List Nat) (hb : ∀ x ∈ h :: l, x < n) :
    List.Chain (fun x y => adjMat y x ≠ 0) h l ↔ List.Chain (fun x y => adjMat y x = 1) h l := by
  induction l generalizing h with
  | nil => simp
  | cons a l ih =>
    rw [List.chain_cons, List.chain_cons, ih a (fun x hx => hb x (by simp [hx]))]
    have ha : a < n := hb a (by simp)
    have hh : h < n := hb h (by simp)
    rcases h01 a ha h hh with h0 | h1
    · simp [h0]
    · simp [h1]

/-- Facts about the mirror image of a cycle that goes through the dedup set. -/
theorem mirror_facts (adjMat : Nat → Nat → Int) (n : Nat) (h01 : IsZeroOne adjMat n)
    (g : cycleGenerator) (ha : g.adjMat = adjMat) (C : List Nat)
    (hr : IsRootedPath adjMat n C) (hc : ClosesCycle adjMat C)
    (hbi : g.isCycleBiDirected C = 1) (hlen : C.length > 2) :
    IsRootedPath adjMat n (mirror C) ∧ ClosesCycle adjMat (mirror C) ∧
      g.isCycleBiDirected (mirror C) = 1 ∧ mirror C ≠ C ∧
      g.uniqueBiDirCycle (mirror C) = g.uniqueBiDirCycle C ∧
      (g.uniqueBiDirCycle C = C ∨ g.uniqueBiDirCycle C = mirror C) := by
  cases C with
  | nil => simp at hlen
  | cons h t =>
    have hrc := (rooted_closes_chain adjMat n h t).mp ⟨hr, hc⟩
    obtain ⟨ht, hnd, hb, hlt, hfw⟩ := hrc
    have hbi' := (isCycleBiDirected_eq_one_iff g h t).mp hbi
    obtain ⟨_, hn0, hbw⟩ := hbi'
    rw [ha] at hbw
    have hbt : ∀ x ∈ h :: (t ++ [h]), x < n := by
      intro x hx
      have : x ∈ h :: t := by
        simp only [List.mem_cons, List.mem_append, List.not_mem_nil, or_false] at hx ⊢
        tauto
      exact hb x this
    have hbw1 := (chain_zeroOne adjMat n h01 h (t ++ [h]) hbt).mp hbw
    have hmir : mirror (h :: t) = h :: t.reverse := rfl
    -- the two closed chains of the mirror image
    have hfw' : List.Chain (fun x y => adjMat x y = 1) h (t.reverse ++ [h]) :=
      (chain_mirror _ h t).mpr hbw1
    have hbw' : List.Chain (fun x y => adjMat y x ≠ 0) h (t.reverse ++ [h]) := by
      rw [chain_mirror]
      refine hfw.imp ?_
      intro a b hab
      show adjMat a b ≠ 0
      rw [hab]; decide
    have hndm : (h :: t.reverse).Nodup := by
      rw [List.nodup_cons] at hnd ⊢
      exact ⟨fun hx => hnd.1 (List.mem_reverse.mp hx), List.nodup_reverse.mpr hnd.2⟩
    have hrcm := (rooted_closes_chain adjMat n h t.reverse).mpr
      ⟨by simpa using ht, hndm, by
          intro x hx
          apply hb
          simpa using hx, fun x hx => hlt x (List.mem_reverse.mp hx), hfw'⟩
    have hbim : g.isCycleBiDirected (h :: t.reverse) = 1 :=
      (isCycleBiDirected_eq_one_iff g h t.reverse).mpr
        ⟨by simpa using ht, hn0, by rw [ha]; exact hbw'⟩
    -- second and last node
    obtain ⟨a, t', rfl⟩ := List.exists_cons_of_ne_nil ht
    have ht' : t' ≠ [] := by
      rintro rfl
      simp at hlen
    have hlast_mem : (a :: t').getLast (by simp) ∈ t' := by
      rw [List.getLast_cons ht']
      exact List.getLast_mem ht'
    have hne : a ≠ (a :: t').getLast (by simp) := by
      intro heq
      rw [List.nodup_cons, List.nodup_cons] at hnd
      exact hnd.2.1 (heq ▸ hlast_mem)
    have hsec : (h :: a :: t').getD 1 0 = a := rfl
    have hlastC : (h :: a :: t').getLastD 0 = (a :: t').getLast (by simp) := by
      rw [List.getLastD_eq_getLast?, List.getLast?_eq_getLast _ (List.cons_ne_nil _ _),
        Option.getD_some, List.getLast_cons (List.cons_ne_nil a t')]
    have hsecm : (h :: (a :: t').reverse).getD 1 0 = (a :: t').getLast (by simp) := by
      have : (a :: t').reverse = (a :: t').getLast (by simp) :: (a :: t').dropLast.reverse := by
        conv_lhs => rw [← List.dropLast_append_getLast (List.cons_ne_nil a t')]
        rw [List.reverse_append]
        rfl
      rw [this]
      rfl
    have hlastm : (h :: (a :: t').reverse).getLastD 0 = a := by
      have h1 : h :: (a :: t').reverse = (h :: t'.reverse) ++ [a] := by simp
      rw [h1, List.getLastD_eq_getLast?, List.getLast?_append, List.getLast?_singleton]
      rfl
    have hu := uniqueBiDirCycle_rooted g h (a :: t') hlt hbi
    have hum := uniqueBiDirCycle_rooted g h (a :: t').reverse
      (fun x hx => hlt x (List.mem_reverse.mp hx)) hbim
    rw [hsec, hlastC] at hu
    rw [hsecm, hlastm] at hum
    have hmm : mirror (h :: (a :: t').reverse) = h :: a :: t' := by
      simp [mirror]
    rw [hmm] at hum
    rw [hmir]
    refine ⟨hrcm.1, hrcm.2, hbim, ?_, ?_, ?_⟩
    · intro heq
      have h1 : (h :: (a :: t').reverse).getD 1 0 = (h :: a :: t').getD 1 0 := by rw [heq]
      rw [hsecm, hsec] at h1
      exact hne h1.symm
    · rw [hu, hum, hmir]
      by_cases hlt' : a > (a :: t').getLast (by simp)
      · rw [if_pos hlt', if_neg (by omega)]
      · rw [if_neg hlt', if_pos (by omega)]
    · rw [hu, hmir]
      split
      · exact Or.inr rfl
      · exact Or.inl rfl

theorem count_found (C P : List Nat) (F : List (List Nat)) (hF : F = [] ∨ F = [P]) (hne : P ≠ C) :
    F.count C = 0 := by
  rcases hF with rfl | rfl
  · rfl
  · rw [List.count_singleton]
    simp [hne]

/-- The clause of `CycInv` for a cycle that goes through the dedup set is kept
by one expansion. -/
theorem cycInv_dedup_clause (adjMat : Nat → Nat → Int) (n : Nat) (h01 : IsZeroOne adjMat n)
    (g : cycleGenerator) (ha : g.adjMat = adjMat) (hn : g.numNodes = n)
    (O : List (List Nat)) (P : List Nat) (rest : List (List Nat))
    (hP : IsRootedPath adjMat n P)
    (F U1 : List (List Nat))
    (hF : (F = [] ∧ U1 = g.uniqBiDirectedCycles ∧
        (¬ ClosesCycle g.adjMat P ∨ (g.Dedups P ∧ g.uniqueBiDirCycle P ∈ g.uniqBiDirectedCycles))) ∨
      (F = [P] ∧ U1 = g.uniqBiDirectedCycles ∧ ClosesCycle g.adjMat P ∧ ¬ g.Dedups P) ∨
      (F = [P] ∧ U1 = g.uniqBiDirectedCycles ++ [g.uniqueBiDirCycle P] ∧
        ClosesCycle g.adjMat P ∧ g.Dedups P ∧ g.uniqueBiDirCycle P ∉ g.uniqBiDirectedCycles))
    (C : List Nat) (hCr : IsRootedPath adjMat n C) (hCc : ClosesCycle adjMat C)
    (hCd : g.Dedups C)
    (hinv : pending (P :: rest) C ≤ 1 ∧ pending (P :: rest) (mirror C) ≤ 1 ∧
      (g.uniqueBiDirCycle C ∈ g.uniqBiDirectedCycles ↔
        pending (P :: rest) C = 0 ∨ pending (P :: rest) (mirror C) = 0) ∧
      O.count C + O.count (mirror C) =
        if g.uniqueBiDirCycle C ∈ g.uniqBiDirectedCycles then 1 else 0) :
    pending (rest ++ g.newPaths (P.headD 0) (P.getLastD 0) P) C ≤ 1 ∧
      pending (rest ++ g.newPaths (P.headD 0) (P.getLastD 0) P) (mirror C) ≤ 1 ∧
      (g.uniqueBiDirCycle C ∈ U1 ↔
        pending (rest ++ g.newPaths (P.headD 0) (P.getLastD 0) P) C = 0 ∨
        pending (rest ++ g.newPaths (P.headD 0) (P.getLastD 0) P) (mirror C) = 0) ∧
      (O ++ F).count C + (O ++ F).count (mirror C) =
        if g.uniqueBiDirCycle C ∈ U1 then 1 else 0 := by
  obtain ⟨hMr, hMc, hMbi, hMne, hMu, hCu⟩ :=
    mirror_facts adjMat n h01 g ha C hCr hCc hCd.2.1 hCd.2.2
  have hMd : g.Dedups (mirror C) := ⟨hCd.1, hMbi, by rw [mirror_length]; exact hCd.2.2⟩
  have hpC := pending_step adjMat n g ha hn P rest hP.1 C hCr
  have hpM := pending_step adjMat n g ha hn P rest hP.1 (mirror C) hMr
  generalize g.newPaths (P.headD 0) (P.getLastD 0) P = N at hpC hpM ⊢
  obtain ⟨h1, h2, h3, h4⟩ := hinv
  rw [ha] at hF
  simp only [List.count_append]
  have hFc : F = [] ∨ F = [P] := by
    rcases hF with hF | hF | hF
    · exact Or.inl hF.1
    · exact Or.inr hF.1
    · exact Or.inr hF.1
  by_cases hPC : P = C
  · -- the cycle itself is expanded
    subst hPC
    have hPM : P ≠ mirror P := fun h => hMne h.symm
    rw [if_pos rfl] at hpC
    rw [if_neg hPM] at hpM
    have hp0 : pending (rest ++ N) P = 0 := by omega
    rcases hF with ⟨hF1, hU1, hcase⟩ | ⟨_, _, _, hnd⟩ | ⟨hF1, hU1, _, _, hnu⟩
    · have hu : g.uniqueBiDirCycle P ∈ g.uniqBiDirectedCycles := by
        rcases hcase with hcase | hcase
        · exact absurd hCc hcase
        · exact hcase.2
      subst hF1 hU1
      refine ⟨by omega, by omega, ⟨fun _ => Or.inl hp0, fun _ => hu⟩, ?_⟩
      simpa using h4
    · exact absurd hCd hnd
    · subst hF1 hU1
      have hmem : g.uniqueBiDirCycle P ∈ g.uniqBiDirectedCycles ++ [g.uniqueBiDirCycle P] := by
        simp
      refine ⟨by omega, by omega, ⟨fun _ => Or.inl hp0, fun _ => hmem⟩, ?_⟩
      rw [if_neg hnu] at h4
      rw [if_pos hmem, List.count_singleton, List.count_singleton]
      simp only [beq_self_eq_true, if_true]
      have : (P == mirror P) = false := by simpa using hPM
      rw [this]
      simp only [Bool.false_eq_true, if_false]
      omega
  · by_cases hPM : P = mirror C
    · -- the mirror image is expanded
      rw [if_neg hPC] at hpC
      rw [if_pos hPM] at hpM
      have hp0 : pending (rest ++ N) (mirror C) = 0 := by omega
      have hcl : ClosesCycle adjMat P := by rw [hPM]; exact hMc
      have hdd : g.Dedups P := by rw [hPM]; exact hMd
      have hup : g.uniqueBiDirCycle P = g.uniqueBiDirCycle C := by rw [hPM]; exact hMu
      rcases hF with ⟨hF1, hU1, hcase⟩ | ⟨_, _, _, hnd⟩ | ⟨hF1, hU1, _, _, hnu⟩
      · have hu : g.uniqueBiDirCycle C ∈ g.uniqBiDirectedCycles := by
          rcases hcase with hcase | hcase
          · exact absurd hcl hcase
          · rw [← hup]; exact hcase.2
        subst hF1 hU1
        refine ⟨by omega, by omega, ⟨fun _ => Or.inr hp0, fun _ => hu⟩, ?_⟩
        simpa using h4
      · exact absurd hdd hnd
      · subst hF1 hU1
        rw [hup] at hnu ⊢
        have hmem : g.uniqueBiDirCycle C ∈ g.uniqBiDirectedCycles ++ [g.uniqueBiDirCycle C] := by
          simp
        refine ⟨by omega, by omega, ⟨fun _ => Or.inr hp0, fun _ => hmem⟩, ?_⟩
        rw [if_neg hnu] at h4
        rw [if_pos hmem, List.count_singleton, List.count_singleton]
        have e1 : (P == C) = false := by simpa using hPC
        have e2 : (P == mirror C) = true := by simpa using hPM
        rw [e1, e2]
        simp only [Bool.false_eq_true, if_false, if_true]
        omega
    · -- another path is expanded
      rw [if_neg hPC] at hpC
      rw [if_neg hPM] at hpM
      have hc1 : F.count C = 0 := count_found C P F hFc hPC
      have hc2 : F.count (mirror C) = 0 := count_found (mirror C) P F hFc hPM
      have hU : g.uniqueBiDirCycle C ∈ U1 ↔ g.uniqueBiDirCycle C ∈ g.uniqBiDirectedCycles := by
        rcases hF with ⟨_, hU1, _⟩ | ⟨_, hU1, _⟩ | ⟨_, hU1, hcl, hdd, _⟩
        · rw [hU1]
        · rw [hU1]
        · rw [hU1, List.mem_append, List.mem_singleton]
          constructor
          · rintro (hx | hx)
            · exact hx
            · exfalso
              obtain ⟨_, _, _, _, _, hPu⟩ :=
                mirror_facts adjMat n h01 g ha P hP hcl hdd.2.1 hdd.2.2
              rcases hCu with e1 | e1 <;> rcases hPu with e2 | e2
              · exact hPC (by rw [← e2, ← hx, e1])
              · have : mirror P = C := by rw [← e2, ← hx, e1]
                exact hPM (by rw [← this, mirror_mirror])
              · exact hPM (by rw [← e2, ← hx, e1])
              · have : mirror P = mirror C := by rw [← e2, ← hx, e1]
                have := congrArg mirror this
                rw [mirror_mirror, mirror_mirror] at this
                exact hPC this
          · exact fun hx => Or.inl hx
      refine ⟨by omega, by omega, ?_, ?_⟩
      · rw [hU, h3]
        have e1 : pending (rest ++ N) C = pending (P :: rest) C := by omega
        have e2 : pending (rest ++ N) (mirror C) = pending (P :: rest) (mirror C) := by omega
        rw [e1, e2]
      · rw [hc1, hc2]
        simp only [Nat.add_zero]
        rw [h4]
        by_cases hx : g.uniqueBiDirCycle C ∈ g.uniqBiDirectedCycles
        · rw [if_pos hx, if_pos (hU.mpr hx)]
        · rw [if_neg hx, if_neg (fun h => hx (hU.mp h))]

/-- `CycInv` is an invariant of the generator (on a 0/1 matrix when the dedup
flag is 1). -/
theorem cycInv_isInvariant (adjMat : Nat → Nat → Int) (n : Nat) (h : Int)
    (h01 : h = 1 → IsZeroOne adjMat n) : IsInvariant (CycInv adjMat n h) := by
  refine ⟨?_, ?_, ?_⟩
  · intro out g r g' hinv hstep
    cases hq : g.pathQueue with
    | nil =>
      rw [oneStep_nil g hq] at hstep
      simp only [Option.some.injEq, Prod.mk.injEq] at hstep
      obtain ⟨_, rfl⟩ := hstep
      exact hinv
    | cons P rest =>
      obtain ⟨ha, hn, hh, hL, hrq, hro, hcl⟩ := hinv
      have hP : IsRootedPath adjMat n P := hrq P (by rw [hq]; simp)
      obtain ⟨g1, h1, ha1, hn1, hL1, hh1, _, hpq, hcf, hu1⟩ := oneStep_cons g P rest hq hP.1
        (hashDefined_of_oneStep g P rest hq _ _ hstep)
      rw [h1] at hstep
      simp only [Option.some.injEq, Prod.mk.injEq] at hstep
      obtain ⟨_, rfl⟩ := hstep
      have hF := found_spec g P hL
      simp only at hF
      have hD : ∀ C, g1.Dedups C ↔ g.Dedups C := dedups_congr ha1 hn1 hh1
      have hU : ∀ C, g1.uniqueBiDirCycle C = g.uniqueBiDirCycle C := uniqueBiDirCycle_congr ha1 hn1
      unfold CycInv
      rw [hcf, ← List.append_assoc, hpq, hu1, ha1, hn1, hL1, hh1]
      simp only [hD, hU]
      rw [hq] at hcl
      generalize out ++ g.cyclesFound = O at hro hcl ⊢
      generalize (if P.length > 1 ∧ g.adjMat (P.getLastD 0) (P.headD 0) = 1
            then g.recordEffect P else ([], g.uniqBiDirectedCycles)) = FU at hF ⊢
      have hFc : FU.1 = [] ∨ FU.1 = [P] := by
        rcases hF with hF | hF | hF
        · exact Or.inl hF.1
        · exact Or.inr hF.1
        · exact Or.inr hF.1
      refine ⟨ha, hn, hh, hL, ?_, ?_, ?_⟩
      · intro Q hQ
        rw [List.mem_append] at hQ
        rcases hQ with hQ | hQ
        · exact hrq Q (by rw [hq]; simp [hQ])
        · exact newPaths_rooted adjMat n g ha hn P Q hP hQ
      · intro c hc
        rw [List.mem_append] at hc
        rcases hc with hc | hc
        · exact hro c hc
        · rcases hF with hF | hF | hF
          · rw [hF.1] at hc; simp at hc
          · rw [hF.1, List.mem_singleton] at hc
            subst hc
            exact ⟨hP, by rw [← ha]; exact hF.2.2.1⟩
          · rw [hF.1, List.mem_singleton] at hc
            subst hc
            exact ⟨hP, by rw [← ha]; exact hF.2.2.1⟩
      · intro C hCr hCc
        obtain ⟨hA, hB⟩ := hcl C hCr hCc
        constructor
        · intro hnd
          have hA' := hA hnd
          have hpC := pending_step adjMat n g ha hn P rest hP.1 C hCr
          rw [List.count_append]
          have hcount : FU.1.count C = if P = C then 1 else 0 := by
            by_cases hPC : P = C
            · rw [if_pos hPC]
              subst hPC
              rcases hF with hF | hF | hF
              · rcases hF.2.2 with hx | hx
                · exact absurd (by rw [ha]; exact hCc) hx
                · exact absurd hx.1 hnd
              · rw [hF.1]; simp
              · exact absurd hF.2.2.2.1 hnd
            · rw [if_neg hPC]
              exact count_found C P FU.1 hFc hPC
          rw [hcount]
          omega
        · intro hCd
          have h01' : IsZeroOne adjMat n := h01 (by rw [← hh]; exact hCd.1)
          exact cycInv_dedup_clause adjMat n h01' g ha hn O P rest hP FU.1 FU.2 hF C hCr hCc hCd
            (hB hCd)
  · intro out g cf hinv
    exact hinv
  · intro out g hinv
    obtain ⟨_, hn, _, _, hrq, _, _⟩ := hinv
    refine ⟨fun P hP => (hrq P hP).1, ?_⟩
    intro h0
    cases hq : g.pathQueue with
    | nil => rfl
    | cons P rest =>
      exfalso
      obtain ⟨hne, _, hb, _, _⟩ := hrq P (by rw [hq]; simp)
      cases P with
      | nil => exact hne rfl
      | cons a t =>
        have := hb a (by simp)
        omega

/-! ### Simple cycles and their rooted rotation -/

theorem isSimpleCycle_iff_cycle (adjMat : Nat → Nat → Int) (n : Nat) (c : List Nat) :
    IsSimpleCycle adjMat n c ↔ 2 ≤ c.length ∧ c.Nodup ∧ (∀ x ∈ c, x < n) ∧
      Cycle.Chain (fun x y => adjMat x y = 1) (c : Cycle Nat) := by
  unfold IsSimpleCycle
  cases c with
  | nil => simp
  | cons h t =>
    rw [Cycle.chain_coe_cons, chain_closed_iff]
    simp only [List.headD_cons]

theorem isSimpleCycle_rotated (adjMat : Nat → Nat → Int) (n : Nat) (c c' : List Nat)
    (hr : c ~r c') (hc : IsSimpleCycle adjMat n c) : IsSimpleCycle adjMat n c' := by
  rw [isSimpleCycle_iff_cycle] at hc ⊢
  obtain ⟨h1, h2, h3, h4⟩ := hc
  refine ⟨by rw [← hr.perm.length_eq]; exact h1, hr.nodup_iff.mp h2,
    fun x hx => h3 x (hr.mem_iff.mpr hx), ?_⟩
  rw [← Cycle.coe_eq_coe.mpr hr]
  exact h4

theorem rooted_closes_iff (adjMat : Nat → Nat → Int) (n : Nat) (C : List Nat) :
    (IsRootedPath adjMat n C ∧ ClosesCycle adjMat C) ↔
      (IsSimpleCycle adjMat n C ∧ ∀ x ∈ C.tail, C.headD 0 < x) := by
  unfold IsRootedPath ClosesCycle IsSimpleCycle
  constructor
  · rintro ⟨⟨_, h2, h3, h4, h5⟩, h6, h7⟩
    exact ⟨⟨h6, h2, h3, h5, h7⟩, h4⟩
  · rintro ⟨⟨h1, h2, h3, h4, h5⟩, h6⟩
    refine ⟨⟨?_, h2, h3, h6, h4⟩, h1, h5⟩
    rintro rfl
    simp at h1

/-- Two rotations of a duplicate-free list with the same first element are
equal. -/
theorem rotated_eq_of_head (l l' : List Nat) (hr : l ~r l') (hnd : l.Nodup)
    (hh : l.head? = l'.head?) : l = l' := by
  obtain ⟨k, hk, rfl⟩ := List.isRotated_iff_mod.mp hr
  rcases Nat.lt_or_ge k l.length with hlt | hge
  · rw [List.head?_rotate hlt] at hh
    cases l with
    | nil => simp
    | cons a t =>
      simp only [List.head?_cons] at hh
      have h0 : (a :: t)[0]? = (a :: t)[k]? := by simpa using hh
      have := (List.getElem?_inj (by simp) hnd h0)
      subst this
      simp
  · have : k = l.length := by omega
    subst this
    simp

/-- Every simple cycle has a rotation that starts at its least node; it is a
rooted path that closes a cycle. -/
theorem exists_rooted_rotation (adjMat : Nat → Nat → Int) (n : Nat) (c : List Nat)
    (hc : IsSimpleCycle adjMat n c) :
    ∃ C, C ~r c ∧ IsRootedPath adjMat n C ∧ ClosesCycle adjMat C := by
  have hne : c.toFinset.Nonempty := by
    obtain ⟨h1, _⟩ := hc
    cases c with
    | nil => simp at h1
    | cons a t => exact ⟨a, by simp⟩
  obtain ⟨a, ha, hmin⟩ := Finset.exists_min_image c.toFinset id hne
  rw [List.mem_toFinset] at ha
  obtain ⟨l1, l2, rfl⟩ := List.append_of_mem ha
  have hrot : (a :: l2 ++ l1) ~r (l1 ++ a :: l2) := by
    have := @List.isRotated_append _ (a :: l2) l1
    exact this
  have hs := isSimpleCycle_rotated adjMat n _ _ hrot.symm hc
  refine ⟨a :: l2 ++ l1, hrot, (rooted_closes_iff adjMat n _).mpr ⟨hs, ?_⟩⟩
  intro x hx
  simp only [List.cons_append, List.tail_cons, List.headD_cons] at hx ⊢
  have hxc : x ∈ (l1 ++ a :: l2).toFinset := by
    rw [List.mem_toFinset]
    simp only [List.mem_append, List.mem_cons] at hx ⊢
    tauto
  have hle : a ≤ x := hmin x hxc
  have hnd := hs.2.1
  simp only [List.cons_append, List.nodup_cons] at hnd
  have : x ≠ a := fun h => hnd.1 (h ▸ hx)
  omega

/-- The rooted rotation of a simple cycle is unique. -/
theorem rooted_rotation_unique (adjMat : Nat → Nat → Int) (n : Nat) (C D : List Nat)
    (hr : C ~r D) (hC : IsRootedPath adjMat n C) (hD : IsRootedPath adjMat n D) : C = D := by
  apply rotated_eq_of_head C D hr hC.2.1
  obtain ⟨hCne, _, _, hCroot, _⟩ := hC
  obtain ⟨hDne, hDnd, _, hDroot, _⟩ := hD
  cases C with
  | nil => exact absurd rfl hCne
  | cons a s =>
    cases D with
    | nil => exact absurd rfl hDne
    | cons b t =>
      simp only [List.head?_cons, Option.some.injEq]
      simp only [List.tail_cons, List.headD_cons] at hCroot hDroot
      have hb : b ∈ a :: s := hr.mem_iff.mpr (by simp)
      have ha : a ∈ b :: t := hr.mem_iff.mp (by simp)
      rw [List.mem_cons] at ha hb
      rcases ha with ha | ha
      · exact ha
      · rcases hb with hb | hb
        · exact hb.symm
        · have := hCroot b hb
          have := hDroot a ha
          omega

/-! ### Exhaustive enumeration -/

theorem toSizeT_one : toSizeT 1 = 1 := by
  unfold toSizeT
  norm_num

theorem pending_singletons (n a : Nat) (t : List Nat) (ha : a < n) :
    pending ((List.range n).map (fun i => [i])) (a :: t) = 1 := by
  unfold pending
  rw [List.countP_map]
  have hfun : ((fun P => decide (P <+: a :: t)) ∘ fun i => [i]) = fun i => decide (i = a) := by
    funext i
    simp only [Function.comp, decide_eq_decide]
    constructor
    · rintro ⟨s, hs⟩
      simp only [List.singleton_append, List.cons.injEq] at hs
      exact hs.1
    · rintro rfl
      exact ⟨t, rfl⟩
  rw [hfun]
  have hcount : (List.range n).countP (fun j => decide (j = a)) = (List.range n).count a := by
    unfold List.count
    apply List.countP_congr
    intro x _
    simp only [decide_eq_true_eq, beq_iff_eq]
  rw [hcount]
  exact List.count_eq_one_of_mem (List.nodup_range n) (List.mem_range.mpr ha)

theorem pending_nil (C : List Nat) : pending [] C = 0 := rfl

/-- The invariant holds in a fresh generator. -/
theorem cycInv_fresh (adjMat : Nat → Nat → Int) (n : Nat) (h : Int) (g : cycleGenerator)
    (ha : g.adjMat = adjMat) (hn : g.numNodes = n) (hh : g.hashBiDirectedCycles = h)
    (hL : toSizeT g.cycleLengthMin ≤ 2) (hq : g.pathQueue = (List.range n).map (fun i => [i]))
    (hu : g.uniqBiDirectedCycles = []) : CycInv adjMat n h [] g := by
  refine ⟨ha, hn, hh, hL, ?_, ?_, ?_⟩
  · intro P hP
    rw [hq, List.mem_map] at hP
    obtain ⟨i, hi, rfl⟩ := hP
    rw [List.mem_range] at hi
    refine ⟨by simp, List.nodup_singleton i, ?_, ?_, List.chain'_singleton i⟩
    · intro x hx
      rw [List.mem_singleton] at hx
      rw [hx]; exact hi
    · intro x hx
      simp at hx
  · intro c hc
    simp at hc
  · intro C hCr hCc
    obtain ⟨hne, _, hb, _, _⟩ := hCr
    cases C with
    | nil => exact absurd rfl hne
    | cons a t =>
      have han : a < n := hb a (by simp)
      have hp : pending g.pathQueue (a :: t) = 1 := by rw [hq]; exact pending_singletons n a t han
      have hpm : pending g.pathQueue (mirror (a :: t)) = 1 := by
        rw [hq]; exact pending_singletons n a t.reverse han
      rw [hp, hpm, hu]
      constructor
      · intro _; simp
      · intro _; simp

/-- Run to exhaustion from a fresh generator: the list of the returned cycles
exists and satisfies the invariant with an empty frontier. -/
theorem drain_fresh (adjMat : Nat → Nat → Int) (n : Nat) (h : Int)
    (h01 : h = 1 → IsZeroOne adjMat n) (g : cycleGenerator)
    (ha : g.adjMat = adjMat) (hn : g.numNodes = n) (hh : g.hashBiDirectedCycles = h)
    (hL : toSizeT g.cycleLengthMin ≤ 2) (hq : g.pathQueue = (List.range n).map (fun i => [i]))
    (hu : g.uniqBiDirectedCycles = []) (hcf : g.cyclesFound = [])
    (hsafe : h ≠ 1 ∨ n ≤ 10) :
    ∃ L gf, (∀ k, g.stepBound < k → g.drain k = some L) ∧ CycInv adjMat n h L gf ∧
      gf.pathQueue = [] := by
  have h0 := cycInv_fresh adjMat n h g ha hn hh hL hq hu
  obtain ⟨L, gf, h1, h2, h3⟩ :=
    drain_spec (CycInv adjMat n h) (cycInv_isInvariant adjMat n h h01) g.stepBound g []
      (le_refl _) h0 hcf (hashSafe_fresh g n h hn hh hq hsafe)
  rw [List.nil_append] at h2
  exact ⟨L, gf, h1, h2, h3⟩

theorem countP_rotated_eq_count (adjMat : Nat → Nat → Int) (n : Nat) (L : List (List Nat))
    (hL : ∀ x ∈ L, IsRootedPath adjMat n x) (c C : List Nat) (hr : C ~r c)
    (hC : IsRootedPath adjMat n C) :
    L.countP (fun x => decide (x ~r c)) = L.count C := by
  unfold List.count
  apply List.countP_congr
  intro x hx
  simp only [decide_eq_true_eq, beq_iff_eq]
  constructor
  · intro hxc
    exact rooted_rotation_unique adjMat n x C (hxc.trans hr.symm) (hL x hx) hC
  · rintro rfl
    exact hr

/-- C3: a fresh `cycleGenerator` (default minimum length, dedup disabled) whose
`nextCycle` is called until it returns the empty list returns a list `L` of
simple cycles of the graph in which every simple cycle of length at least 2 has
exactly one rotation. -/
theorem nextCycle_enumerates_simple_cycles (adjMat : Nat → Nat → Int) (n : Nat) :
    ∃ L, (∀ k, (cycleGenerator.new adjMat n).stepBound < k →
          (cycleGenerator.new adjMat n).drain k = some L) ∧
      (∀ c ∈ L, IsSimpleCycle adjMat n c) ∧
      (∀ c, IsSimpleCycle adjMat n c → L.countP (fun x => decide (x ~r c)) = 1) := by
  obtain ⟨L, gf, h1, h2, h3⟩ := drain_fresh adjMat n 0 (fun h => absurd h (by decide))
    (cycleGenerator.new adjMat n) rfl rfl rfl (by rw [show (cycleGenerator.new adjMat n).cycleLengthMin = 1 from rfl, toSizeT_one]; omega) rfl rfl rfl
    (Or.inl (by decide))
  obtain ⟨_, _, hh, _, _, hout, hcl⟩ := h2
  refine ⟨L, h1, ?_, ?_⟩
  · intro c hc
    exact ((rooted_closes_iff adjMat n c).mp (hout c hc)).1
  · intro c hc
    obtain ⟨C, hr, hCr, hCc⟩ := exists_rooted_rotation adjMat n c hc
    rw [countP_rotated_eq_count adjMat n L (fun x hx => (hout x hx).1) c C hr hCr]
    have := (hcl C hCr hCc).1 (by
      intro hd
      have := hd.1
      rw [hh] at this
      exact absurd this (by decide))
    rw [h3, pending_nil] at this
    exact this

theorem mirror_rotated_reverse (C : List Nat) : mirror C ~r C.reverse := by
  cases C with
  | nil => exact List.IsRotated.refl _
  | cons h t =>
    have : (h :: t).reverse = t.reverse ++ [h] := by simp
    rw [this]
    exact (List.isRotated_concat h t.reverse).symm

theorem countP_or_eq (L : List (List Nat)) (C M : List Nat) (hne : C ≠ M) :
    L.countP (fun x => decide (x = C ∨ x = M)) = L.count C + L.count M := by
  induction L with
  | nil => rfl
  | cons x L ih =>
    rw [List.countP_cons, List.count_cons, List.count_cons, ih]
    by_cases h1 : x = C
    · subst h1
      have : ¬ x = M := hne
      simp [this]
      omega
    · by_cases h2 : x = M
      · subst h2
        simp [h1]
        omega
      · simp [h1, h2]

/-- A rooted path whose reversal is a simple cycle passes the test
`isCycleBiDirected`. -/
theorem bidirected_of_reverse (adjMat : Nat → Nat → Int) (n : Nat) (g : cycleGenerator)
    (ha : g.adjMat = adjMat) (hn : g.numNodes = n) (C : List Nat)
    (hCr : IsRootedPath adjMat n C) (hrev : IsSimpleCycle adjMat n C.reverse) :
    g.isCycleBiDirected C = 1 := by
  have hm : IsSimpleCycle adjMat n (mirror C) :=
    isSimpleCycle_rotated adjMat n _ _ (mirror_rotated_reverse C).symm hrev
  obtain ⟨hne, _, hb, _, _⟩ := hCr
  cases C with
  | nil => exact absurd rfl hne
  | cons h t =>
    obtain ⟨hlen, _, _, hch, harc⟩ := hm
    have hc : List.Chain (fun x y => adjMat x y = 1) h (t.reverse ++ [h]) :=
      (chain_closed_iff _ h t.reverse).mpr ⟨hch, harc⟩
    rw [chain_mirror] at hc
    rw [isCycleBiDirected_eq_one_iff]
    refine ⟨?_, ?_, ?_⟩
    · rintro rfl
      simp [mirror] at hlen
    · have := hb h (by simp)
      omega
    · rw [ha]
      refine hc.imp ?_
      intro a b hab
      have hab' : adjMat b a = 1 := hab
      rw [hab']
      decide

/-- One orientation where the hashing is defined: on a 0/1 matrix with at most
10 nodes, a fresh `cycleGenerator` with `setHashBiDirectedCycles(1)` whose
`nextCycle` is called until it returns the empty list returns a list `L` of
simple cycles in which every simple cycle whose reversal is a cycle too (all
arcs reciprocated) is represented by exactly one list, a rotation of one of
its two orientations, and every other simple cycle has exactly one rotation. -/
theorem nextCycle_dedup_one_orientation_of_safe (adjMat : Nat → Nat → Int) (n : Nat)
    (h01 : IsZeroOne adjMat n) (hn10 : n ≤ 10) :
    ∃ L, (∀ k, ((cycleGenerator.new adjMat n).setHashBiDirectedCycles 1).stepBound < k →
          ((cycleGenerator.new adjMat n).setHashBiDirectedCycles 1).drain k = some L) ∧
      (∀ c ∈ L, IsSimpleCycle adjMat n c) ∧
      (∀ c, IsSimpleCycle adjMat n c → IsSimpleCycle adjMat n c.reverse →
        L.countP (fun x => decide (x ~r c ∨ x ~r c.reverse)) = 1) ∧
      (∀ c, IsSimpleCycle adjMat n c → ¬ IsSimpleCycle adjMat n c.reverse →
        L.countP (fun x => decide (x ~r c)) = 1) := by
  obtain ⟨L, gf, h1, h2, h3⟩ := drain_fresh adjMat n 1 (fun _ => h01)
    ((cycleGenerator.new adjMat n).setHashBiDirectedCycles 1) rfl rfl rfl
    (by rw [show ((cycleGenerator.new adjMat n).setHashBiDirectedCycles 1).cycleLengthMin = 1
          from rfl, toSizeT_one]; omega) rfl rfl rfl (Or.inr hn10)
  obtain ⟨ha, hn, hh, _, _, hout, hcl⟩ := h2
  have hroot : ∀ x ∈ L, IsRootedPath adjMat n x := fun x hx => (hout x hx).1
  refine ⟨L, h1, ?_, ?_, ?_⟩
  · intro c hc
    exact ((rooted_closes_iff adjMat n c).mp (hout c hc)).1
  · intro c hc hrev
    obtain ⟨C, hr, hCr, hCc⟩ := exists_rooted_rotation adjMat n c hc
    have hCrev : IsSimpleCycle adjMat n C.reverse :=
      isSimpleCycle_rotated adjMat n _ _ hr.reverse.symm hrev
    have hbi := bidirected_of_reverse adjMat n gf ha hn C hCr hCrev
    by_cases hlen : C.length > 2
    · have hd : gf.Dedups C := ⟨hh, hbi, hlen⟩
      obtain ⟨hMr, hMc, _, hMne, _, _⟩ := mirror_facts adjMat n h01 gf ha C hCr hCc hbi hlen
      have hB := (hcl C hCr hCc).2 hd
      rw [h3, pending_nil] at hB
      obtain ⟨_, _, hu, hcount⟩ := hB
      rw [if_pos (hu.mpr (Or.inl rfl))] at hcount
      rw [← hcount, ← countP_or_eq L C (mirror C) (fun h => hMne h.symm)]
      apply List.countP_congr
      intro x hx
      simp only [decide_eq_true_eq]
      have hM : mirror C ~r c.reverse := (mirror_rotated_reverse C).trans hr.reverse
      constructor
      · rintro (hxc | hxc)
        · exact Or.inl (rooted_rotation_unique adjMat n x C (hxc.trans hr.symm) (hroot x hx) hCr)
        · exact Or.inr (rooted_rotation_unique adjMat n x (mirror C) (hxc.trans hM.symm)
            (hroot x hx) hMr)
      · rintro (rfl | rfl)
        · exact Or.inl hr
        · exact Or.inr hM
    · have hnd : ¬ gf.Dedups C := fun hd => hlen hd.2.2
      have hA := (hcl C hCr hCc).1 hnd
      rw [h3, pending_nil] at hA
      rw [← countP_rotated_eq_count adjMat n L hroot c C hr hCr] at hA
      rw [← hA]
      apply List.countP_congr
      intro x hx
      simp only [decide_eq_true_eq]
      constructor
      · rintro (hxc | hxc)
        · exact hxc
        · -- a cycle of length 2 is a rotation of its reversal
          have hl2 : c.length = 2 := by
            have := hc.1
            have := hr.perm.length_eq
            omega
          have : c.reverse ~r c := by
            match c, hl2 with
            | [a, b], _ => exact ⟨1, rfl⟩
          exact hxc.trans this
      · exact fun hxc => Or.inl hxc
  · intro c hc hrev
    obtain ⟨C, hr, hCr, hCc⟩ := exists_rooted_rotation adjMat n c hc
    have hnd : ¬ gf.Dedups C := by
      intro hd
      obtain ⟨hMr, hMc, _, _, _, _⟩ := mirror_facts adjMat n h01 gf ha C hCr hCc hd.2.1 hd.2.2
      have hM : IsSimpleCycle adjMat n (mirror C) := ((rooted_closes_iff adjMat n _).mp ⟨hMr, hMc⟩).1
      exact hrev (isSimpleCycle_rotated adjMat n _ _
        ((mirror_rotated_reverse C).trans hr.reverse) hM)
    have hA := (hcl C hCr hCc).1 hnd
    rw [h3, pending_nil] at hA
    rw [countP_rotated_eq_count adjMat n L hroot c C hr hCr]
    exact hA

/-- The complete graph with 3 nodes as an instance of
`nextCycle_dedup_one_orientation_of_safe`. -/
theorem nextCycle_dedup_one_orientation_of_safe_example :
    IsZeroOne completeThree 3 ∧ 3 ≤ 10 ∧
    ∃ L, (∀ k, ((cycleGenerator.new completeThree 3).setHashBiDirectedCycles 1).stepBound < k →
          ((cycleGenerator.new completeThree 3).setHashBiDirectedCycles 1).drain k = some L) ∧
      (∀ c ∈ L, IsSimpleCycle completeThree 3 c) ∧
      (∀ c, IsSimpleCycle completeThree 3 c → IsSimpleCycle completeThree 3 c.reverse →
        L.countP (fun x => decide (x ~r c ∨ x ~r c.reverse)) = 1) ∧
      (∀ c, IsSimpleCycle completeThree 3 c → ¬ IsSimpleCycle completeThree 3 c.reverse →
        L.countP (fun x => decide (x ~r c)) = 1) :=
  ⟨by unfold IsZeroOne; decide, by decide,
   nextCycle_dedup_one_orientation_of_safe completeThree 3 (by unfold IsZeroOne; decide)
     (by decide)⟩

/-! ### `tarjan`: sets, frames and loops -/

theorem mem_setInsert (x a : Nat) (l : List Nat) : a ∈ setInsert x l ↔ a = x ∨ a ∈ l := by
  induction l with
  | nil => simp [setInsert]
  | cons y ys ih =>
    unfold setInsert
    split
    · simp
    · split
      · rename_i hxy
        subst hxy
        simp
      · simp only [List.mem_cons, ih]
        tauto

theorem nodup_setInsert (x : Nat) (l : List Nat) (hl : l.Nodup) (hx : x ∉ l) :
    (setInsert x l).Nodup := by
  induction l with
  | nil => simp [setInsert]
  | cons y ys ih =>
    rw [List.nodup_cons] at hl
    rw [List.mem_cons, not_or] at hx
    unfold setInsert
    split
    · rw [List.nodup_cons, List.nodup_cons]
      refine ⟨?_, hl⟩
      rw [List.mem_cons, not_or]
      exact hx
    · split
      · exact absurd ‹x = y› hx.1
      · rw [List.nodup_cons]
        refine ⟨?_, ih hl.2 hx.2⟩
        rw [mem_setInsert, not_or]
        exact ⟨fun h => hx.1 h.symm, hl.1⟩

theorem mem_setErase (x a : Nat) (l : List Nat) (hl : l.Nodup) :
    a ∈ setErase x l ↔ a ≠ x ∧ a ∈ l := by
  unfold setErase
  exact hl.mem_erase_iff

theorem nodup_setErase (x : Nat) (l : List Nat) (hl : l.Nodup) : (setErase x l).Nodup := by
  unfold setErase
  exact hl.erase x

/-- The pop loops succeed when `curNode` is on the stack, and move exactly the
nodes above and including `curNode`. -/
theorem popComponent_spec (curNode : Nat) (T : List Nat) :
    ∀ (old contents comp0 : List Nat), curNode ∉ T → contents.Nodup → comp0.Nodup →
      (T ++ [curNode]).Nodup → (∀ v ∈ T ++ [curNode], v ∉ comp0) →
      ∃ contents' comp, popComponent curNode (T ++ curNode :: old) contents comp0
          = some (old, contents', comp) ∧
        contents'.Nodup ∧ (∀ v, v ∈ contents' ↔ v ∈ contents ∧ v ∉ T ++ [curNode]) ∧
        comp.Nodup ∧ (∀ v, v ∈ comp ↔ v ∈ comp0 ∨ v ∈ T ++ [curNode]) := by
  induction T with
  | nil =>
    intro old contents comp0 _ hc h0 _ hdis
    refine ⟨setErase curNode contents, setInsert curNode comp0, ?_, nodup_setErase _ _ hc, ?_,
      nodup_setInsert _ _ h0 (hdis curNode (by simp)), ?_⟩
    · simp [popComponent]
    · intro v
      rw [mem_setErase _ _ _ hc]
      simp
      tauto
    · intro v
      rw [mem_setInsert]
      simp
      tauto
  | cons t T ih =>
    intro old contents comp0 hcur hc h0 hnd hdis
    have htc : t ≠ curNode := fun h => hcur (by simp [h])
    have hcur' : curNode ∉ T := fun h => hcur (by simp [h])
    rw [List.cons_append, List.nodup_cons] at hnd
    have ht0 : t ∉ comp0 := hdis t (by simp)
    obtain ⟨contents', comp, hpop, h1, h2, h3, h4⟩ :=
      ih old (setErase t contents) (setInsert t comp0) hcur' (nodup_setErase _ _ hc)
        (nodup_setInsert _ _ h0 ht0) hnd.2 (by
          intro v hv
          rw [mem_setInsert, not_or]
          refine ⟨?_, hdis v (by simp only [List.cons_append, List.mem_cons]; exact Or.inr hv)⟩
          rintro rfl
          exact hnd.1 hv)
    refine ⟨contents', comp, ?_, h1, ?_, h3, ?_⟩
    · rw [List.cons_append]
      unfold popComponent
      rw [if_pos htc]
      exact hpop
    · intro v
      rw [h2, mem_setErase _ _ _ hc]
      simp only [List.cons_append, List.mem_cons]
      tauto
    · intro v
      rw [h4, mem_setInsert]
      simp only [List.cons_append, List.mem_cons]
      tauto

theorem Frame.refl (s : TarjanState) : Frame s s :=
  ⟨fun _ _ => rfl, fun _ _ => rfl, le_refl _, fun _ h h' => absurd h h', ⟨[], by simp⟩⟩

theorem Frame.trans {s0 s1 s2 : TarjanState} (h01 : Frame s0 s1) (h12 : Frame s1 s2) :
    Frame s0 s2 := by
  have hvis : ∀ v, s0.nodeIndex v ≠ -1 → s1.nodeIndex v ≠ -1 := by
    intro v hv
    rw [h01.idx v hv]
    exact hv
  refine ⟨?_, ?_, le_trans h01.idxLe h12.idxLe, ?_, ?_⟩
  · intro v hv
    rw [h12.idx v (hvis v hv), h01.idx v hv]
  · intro v hv
    rw [h12.low v (hvis v hv), h01.low v hv]
  · intro v hv hv2
    by_cases h1 : s1.nodeIndex v = -1
    · exact le_trans h01.idxLe (h12.newIdx v h1 hv2)
    · rw [h12.idx v h1]
      exact h01.newIdx v hv h1
  · obtain ⟨a, ha⟩ := h01.comps
    obtain ⟨b, hb⟩ := h12.comps
    exact ⟨a ++ b, by rw [hb, ha, List.append_assoc]⟩

theorem Frame.visited {s0 s : TarjanState} (h : Frame s0 s) (v : Nat)
    (hv : s0.nodeIndex v ≠ -1) : s.nodeIndex v ≠ -1 := by
  rw [h.idx v hv]
  exact hv

theorem unvisitedCount_mono (n : Nat) (s0 s : TarjanState)
    (h : ∀ v, s0.nodeIndex v ≠ -1 → s.nodeIndex v ≠ -1) :
    unvisitedCount n s ≤ unvisitedCount n s0 := by
  unfold unvisitedCount
  apply Finset.card_le_card
  intro v hv
  rw [Finset.mem_filter] at hv ⊢
  refine ⟨hv.1, ?_⟩
  by_contra hc
  exact h v hc hv.2

theorem unvisitedCount_lt (n : Nat) (s0 s : TarjanState)
    (h : ∀ v, s0.nodeIndex v ≠ -1 → s.nodeIndex v ≠ -1) (cur : Nat) (hcur : cur < n)
    (h0 : s0.nodeIndex cur = -1) (h1 : s.nodeIndex cur ≠ -1) :
    unvisitedCount n s < unvisitedCount n s0 := by
  unfold unvisitedCount
  apply Finset.card_lt_card
  rw [Finset.ssubset_iff_of_subset]
  · refine ⟨cur, ?_, ?_⟩
    · rw [Finset.mem_filter, Finset.mem_range]
      exact ⟨hcur, h0⟩
    · rw [Finset.mem_filter]
      exact fun hc => h1 hc.2
  · intro v hv
    rw [Finset.mem_filter] at hv ⊢
    refine ⟨hv.1, ?_⟩
    by_contra hc
    exact h v hc hv.2

theorem unvisitedCount_pos (n : Nat) (s : TarjanState) (cur : Nat) (hcur : cur < n)
    (h0 : s.nodeIndex cur = -1) : 0 < unvisitedCount n s := by
  unfold unvisitedCount
  apply Finset.card_pos.mpr
  exact ⟨cur, by rw [Finset.mem_filter, Finset.mem_range]; exact ⟨hcur, h0⟩⟩

/-- Invariant rule for a `for` loop over `0, ..., n-1` written as a fold. -/
theorem foldl_range_inv {σ : Type} (f : σ → Nat → σ) (I : Nat → σ → Prop) (n : Nat) (init : σ)
    (h0 : I 0 init) (hstep : ∀ i < n, ∀ acc, I i acc → I (i + 1) (f acc i)) :
    I n ((List.range n).foldl f init) := by
  induction n with
  | zero => exact h0
  | succ n ih =>
    rw [List.range_succ, List.foldl_append]
    simp only [List.foldl_cons, List.foldl_nil]
    apply hstep n (Nat.lt_succ_self n)
    exact ih (fun i hi acc hacc => hstep i (Nat.lt_succ_of_lt hi) acc hacc)

theorem setAt_same (a : Nat → Int) (i : Nat) (v : Int) : setAt a i v i = v := by
  unfold setAt; simp

theorem setAt_ne (a : Nat → Int) (i : Nat) (v : Int) (k : Nat) (h : k ≠ i) :
    setAt a i v k = a k := by
  unfold setAt; simp [h]

theorem TInv.stack_visited {adjMat : Nat → Nat → Int} {n : Nat} {s : TarjanState} {G : List Nat}
    (h : TInv adjMat n s G) (v : Nat) (hv : v ∈ s.myQueue) : s.nodeIndex v ≠ -1 :=
  (h.visIff v).mpr (Or.inl hv)

theorem loopInv_init (adjMat : Nat → Nat → Int) (n : Nat) (s0 : TarjanState) (G : List Nat)
    (cur : Nat) (hinv : TInv adjMat n s0 G) (hcur : s0.nodeIndex cur = -1) (hn : cur < n)
    (hG : ∀ g ∈ G, Reach adjMat n g cur) :
    LoopInv adjMat n s0 G cur 0 (pushNode cur s0) := by
  have hcq : cur ∉ s0.myQueue := fun h => hinv.stack_visited cur h hcur
  have hidx : ∀ v, v ≠ cur → (pushNode cur s0).nodeIndex v = s0.nodeIndex v :=
    fun v hv => setAt_ne _ _ _ _ hv
  have hidxc : (pushNode cur s0).nodeIndex cur = s0.index := setAt_same _ _ _
  have hne : ∀ v, s0.nodeIndex v ≠ -1 → v ≠ cur := by
    rintro v hv rfl
    exact hv hcur
  have hvis : ∀ v, (pushNode cur s0).nodeIndex v ≠ -1 ↔ (v = cur ∨ s0.nodeIndex v ≠ -1) := by
    intro v
    by_cases hv : v = cur
    · subst hv
      rw [hidxc]
      have := hinv.idxNonneg
      constructor
      · intro _; exact Or.inl rfl
      · intro _; omega
    · rw [hidx v hv]
      simp [hv]
  refine ⟨hinv, ⟨?_, ?_, ?_, ?_, ?_, ?_, ?_, ?_, ?_, ?_, ?_, ?_, ?_, ?_, ?_, ?_⟩,
    ⟨?_, ?_, ?_, ?_, ?_⟩, hidxc, ⟨[], rfl, by simp⟩, ?_, ?_, ?_⟩
  · exact List.nodup_cons.mpr ⟨hcq, hinv.nodupQ⟩
  · exact nodup_setInsert _ _ hinv.nodupC (fun h => hcq ((hinv.memC cur).mp h))
  · intro v
    show v ∈ setInsert cur s0.myQueueContents ↔ v ∈ cur :: s0.myQueue
    rw [mem_setInsert, List.mem_cons, hinv.memC]
  · show 0 ≤ s0.index + 1
    have := hinv.idxNonneg
    omega
  · intro v hv
    show 0 ≤ (pushNode cur s0).nodeIndex v ∧ (pushNode cur s0).nodeIndex v < s0.index + 1
    by_cases hvc : v = cur
    · subst hvc
      rw [hidxc]
      have := hinv.idxNonneg
      omega
    · rw [hidx v hvc] at hv ⊢
      have := hinv.idxRange v hv
      omega
  · intro u v hu huv
    by_cases huc : u = cur
    · by_cases hvc : v = cur
      · rw [huc, hvc]
      · exfalso
        rw [huc, hidxc, hidx v hvc] at huv
        by_cases hv0 : s0.nodeIndex v = -1
        · have := hinv.idxNonneg
          omega
        · have := hinv.idxRange v hv0
          omega
    · by_cases hvc : v = cur
      · exfalso
        rw [hidx u huc] at hu huv
        rw [hvc, hidxc] at huv
        have := hinv.idxRange u hu
        omega
      · rw [hidx u huc] at hu huv
        rw [hidx v hvc] at huv
        exact hinv.idxInj u v hu huv
  · intro v hv
    rcases (hvis v).mp hv with rfl | hv'
    · exact hn
    · exact hinv.visLt v hv'
  · intro v
    rw [hvis v, hinv.visIff v]
    show _ ↔ (v ∈ cur :: s0.myQueue ∨ _)
    rw [List.mem_cons]
    tauto
  · intro v hv c hc hvc
    have hv' : v ∈ cur :: s0.myQueue := hv
    rw [List.mem_cons] at hv'
    rcases hv' with rfl | hv'
    · exact ((hinv.visIff v).mpr (Or.inr ⟨c, hc, hvc⟩)) hcur
    · exact hinv.stackDisj v hv' c hc hvc
  · exact hinv.compsDisj
  · exact hinv.compsNodup
  · exact hinv.closed
  · exact hinv.isScc
  · intro x hx y hy hxy
    have hx' : x ∈ cur :: s0.myQueue := hx
    have hy' : y ∈ cur :: s0.myQueue := hy
    rw [List.mem_cons] at hx' hy'
    rcases hy' with rfl | hy'
    · rcases hx' with rfl | hx'
      · exact Relation.ReflTransGen.refl
      · obtain ⟨g, hg, _, hr⟩ := hinv.toGray x hx'
        exact hr.trans (hG g hg)
    · rcases hx' with rfl | hx'
      · exfalso
        have hyv := hinv.stack_visited y hy'
        rw [hidxc, hidx y (hne y hyv)] at hxy
        have := hinv.idxRange y hyv
        omega
      · have hxv := hinv.stack_visited x hx'
        have hyv := hinv.stack_visited y hy'
        rw [hidx x (hne x hxv), hidx y (hne y hyv)] at hxy
        exact hinv.chain x hx' y hy' hxy
  · intro g hg
    show g ∈ cur :: s0.myQueue
    rw [List.mem_cons] at hg ⊢
    rcases hg with rfl | hg
    · exact Or.inl rfl
    · exact Or.inr (hinv.grayStack g hg)
  · intro v hv
    have hv' : v ∈ cur :: s0.myQueue := hv
    rw [List.mem_cons] at hv'
    rcases hv' with rfl | hv'
    · exact ⟨v, by simp, le_refl _, Relation.ReflTransGen.refl⟩
    · obtain ⟨g, hg, hle, hr⟩ := hinv.toGray v hv'
      have hvv := hinv.stack_visited v hv'
      have hgv := hinv.stack_visited g (hinv.grayStack g hg)
      refine ⟨g, by simp [hg], ?_, hr⟩
      rw [hidx v (hne v hvv), hidx g (hne g hgv)]
      exact hle
  · intro v hv
    exact hidx v (hne v hv)
  · intro v hv
    exact setAt_ne _ _ _ _ (hne v hv)
  · show s0.index ≤ s0.index + 1
    omega
  · intro v hv0 hv1
    rcases (hvis v).mp hv1 with rfl | hv'
    · rw [hidxc]
    · exact absurd hv0 hv'
  · exact ⟨[], by simp [pushNode]⟩
  · refine ⟨le_of_eq (setAt_same _ _ _), cur, by simp [pushNode], ?_, Relation.ReflTransGen.refl⟩
    rw [hidxc]
    exact (setAt_same _ _ _).symm
  · intro y hy hy0 hyc
    have hy' : y ∈ cur :: s0.myQueue := hy
    rw [List.mem_cons] at hy'
    rcases hy' with rfl | hy'
    · exact absurd rfl hyc
    · exact absurd hy0 (hinv.stack_visited y hy')
  · intro z hz
    omega

theorem loopInv_skip (adjMat : Nat → Nat → Int) (n : Nat) (s0 : TarjanState) (G : List Nat)
    (cur i : Nat) (s : TarjanState) (h : LoopInv adjMat n s0 G cur i s)
    (hi : Arc adjMat n cur i →
      s.nodeIndex i ≠ -1 ∧ (i ∈ s0.myQueue → s.nodeLowlink cur ≤ s0.nodeIndex i)) :
    LoopInv adjMat n s0 G cur (i + 1) s := by
  refine ⟨h.inv0, h.inv, h.frame, h.idxCur, h.stackCur, h.low, h.edges, ?_⟩
  intro z hz harc
  rcases Nat.lt_succ_iff_lt_or_eq.mp hz with hlt | rfl
  · exact h.edgesCur z hlt harc
  · exact hi harc

/-- Lowering `nodeLowlink[cur]` to the index of a stack node reachable from
`cur` keeps the loop invariant. -/
theorem loopInv_lower (adjMat : Nat → Nat → Int) (n : Nat) (s0 : TarjanState) (G : List Nat)
    (cur i : Nat) (s : TarjanState) (h : LoopInv adjMat n s0 G cur i s)
    (hcur0 : s0.nodeIndex cur = -1)
    (L : Int) (hle : L ≤ s.nodeLowlink cur) (y : Nat) (hy : y ∈ s.myQueue)
    (hyi : s.nodeIndex y = L) (hr : Reach adjMat n cur y) :
    LoopInv adjMat n s0 G cur i { s with nodeLowlink := setAt s.nodeLowlink cur L } := by
  have hlow : ({ s with nodeLowlink := setAt s.nodeLowlink cur L } : TarjanState).nodeLowlink cur
      = L := setAt_same _ _ _
  obtain ⟨hinv0, hinv, hframe, hidx, hstack, hl, he, hec⟩ := h
  refine ⟨hinv0, ⟨hinv.1, hinv.2, hinv.3, hinv.4, hinv.5, hinv.6, hinv.7, hinv.8, hinv.9,
    hinv.10, hinv.11, hinv.12, hinv.13, hinv.14, hinv.15, hinv.16⟩,
    ⟨hframe.idx, ?_, hframe.idxLe, hframe.newIdx, hframe.comps⟩, hidx, hstack, ?_, ?_, ?_⟩
  · intro v hv
    have hvc : v ≠ cur := by
      rintro rfl
      exact hv hcur0
    show setAt s.nodeLowlink cur L v = _
    rw [setAt_ne _ _ _ _ hvc]
    exact hframe.low v hv
  · rw [hlow]
    exact ⟨le_trans hle hl.1, y, hy, hyi, hr⟩
  · intro y' hy' hy0 hyc z hz
    obtain ⟨h1, h2⟩ := he y' hy' hy0 hyc z hz
    refine ⟨h1, fun hzq => ?_⟩
    rw [hlow]
    exact le_trans hle (h2 hzq)
  · intro z hz harc
    obtain ⟨h1, h2⟩ := hec z hz harc
    refine ⟨h1, fun hzq => ?_⟩
    rw [hlow]
    exact le_trans hle (h2 hzq)

/-- The loop invariant after the recursive call for the unvisited successor
`i` and the update of `nodeLowlink[cur]`. -/
theorem loopInv_call (adjMat : Nat → Nat → Int) (n : Nat) (s0 : TarjanState) (G : List Nat)
    (cur i : Nat) (s s' : TarjanState) (h : LoopInv adjMat n s0 G cur i s)
    (hcur0 : s0.nodeIndex cur = -1) (harc : Arc adjMat n cur i) (hi0 : s.nodeIndex i = -1)
    (hp : Post adjMat n s s' (cur :: G) i) :
    LoopInv adjMat n s0 G cur (i + 1)
      { s' with nodeLowlink := setAt s'.nodeLowlink cur
                  (min (s'.nodeLowlink cur) (s'.nodeLowlink i)) } := by
  obtain ⟨hinv0, hinv, hframe, hidx, hstack, hl, he, hec⟩ := h
  obtain ⟨pinv, pframe, pidx, pstack, plow, pedges⟩ := hp
  have hcurq : cur ∈ s.myQueue := hinv.grayStack cur (by simp)
  have hcurv : s.nodeIndex cur ≠ -1 := hinv.stack_visited cur hcurq
  have hlc : s'.nodeLowlink cur = s.nodeLowlink cur := pframe.low cur hcurv
  have hfr : Frame s0 s' := hframe.trans pframe
  generalize hLdef : min (s'.nodeLowlink cur) (s'.nodeLowlink i) = L
  have hlow : ({ s' with nodeLowlink := setAt s'.nodeLowlink cur L } : TarjanState).nodeLowlink cur
      = L := setAt_same _ _ _
  have hL1 : L ≤ s.nodeLowlink cur := by rw [← hLdef, hlc]; exact min_le_left _ _
  have hL2 : L ≤ s'.nodeLowlink i := by rw [← hLdef]; exact min_le_right _ _
  obtain ⟨T, hT, hTnew⟩ := hstack
  obtain ⟨Tx, hTx, hTxnew⟩ := pstack
  have hsub : ∀ v, v ∈ s.myQueue → v ∈ s'.myQueue := by
    intro v hv
    rw [hTx]
    exact List.mem_append_right _ hv
  have hold : ∀ z, z ∈ s0.myQueue → z ∈ s.myQueue := by
    intro z hz
    rw [hT]
    simp [hz]
  have hidx0 : ∀ z, z ∈ s0.myQueue → s.nodeIndex z = s0.nodeIndex z :=
    fun z hz => hframe.idx z (hinv0.stack_visited z hz)
  have hcuri : cur ≠ i := by
    rintro rfl
    exact hcurv hi0
  refine ⟨hinv0, ⟨pinv.1, pinv.2, pinv.3, pinv.4, pinv.5, pinv.6, pinv.7, pinv.8, pinv.9,
    pinv.10, pinv.11, pinv.12, pinv.13, pinv.14, pinv.15, pinv.16⟩,
    ⟨hfr.idx, ?_, hfr.idxLe, hfr.newIdx, hfr.comps⟩, ?_, ?_, ?_, ?_, ?_⟩
  · intro v hv
    have hvc : v ≠ cur := by
      rintro rfl
      exact hv hcur0
    show setAt s'.nodeLowlink cur L v = _
    rw [setAt_ne _ _ _ _ hvc]
    exact hfr.low v hv
  · show s'.nodeIndex cur = s0.index
    rw [pframe.idx cur hcurv, hidx]
  · refine ⟨Tx ++ T, ?_, ?_⟩
    · show s'.myQueue = _
      rw [hTx, hT, List.append_assoc]
    · intro v hv
      rw [List.mem_append] at hv
      rcases hv with hv | hv
      · have hv0 := hTxnew v hv
        refine ⟨?_, ?_⟩
        · by_contra hc
          exact (hframe.visited v hc) hv0
        · rintro rfl
          exact hcurv hv0
      · exact hTnew v hv
  · rw [hlow]
    refine ⟨le_trans hL1 hl.1, ?_⟩
    obtain ⟨y, hy, hyi, hyr⟩ := hl.2
    by_cases hcmp : s'.nodeLowlink cur ≤ s'.nodeLowlink i
    · have hLeq : L = s.nodeLowlink cur := by rw [← hLdef, min_eq_left hcmp, hlc]
      refine ⟨y, hsub y hy, ?_, hyr⟩
      show s'.nodeIndex y = L
      rw [pframe.idx y (hinv.stack_visited y hy), hyi, hLeq]
    · have hLeq : L = s'.nodeLowlink i := by rw [← hLdef, min_eq_right (le_of_not_le hcmp)]
      rcases plow with ⟨hp1, _⟩ | ⟨_, y', hy', hy'i, hy'r⟩
      · exfalso
        have h1 := hinv.idxRange cur hcurv
        rw [hidx] at h1
        rw [hlc] at hcmp
        omega
      · refine ⟨y', hsub y' hy', ?_, (Relation.ReflTransGen.single harc).trans hy'r⟩
        show s'.nodeIndex y' = L
        rw [pframe.idx y' (hinv.stack_visited y' hy'), hy'i, hLeq]
  · intro y hy hy0 hyc z hz
    have hy' : y ∈ s'.myQueue := hy
    by_cases hys : s.nodeIndex y = -1
    · obtain ⟨h1, h2⟩ := pedges y hy' hys z hz
      refine ⟨h1, fun hzq => ?_⟩
      rw [hlow]
      have := h2 (hold z hzq)
      rw [hidx0 z hzq] at this
      exact le_trans hL2 this
    · have hyq : y ∈ s.myQueue := by
        rw [hTx, List.mem_append] at hy'
        rcases hy' with hy' | hy'
        · exact absurd (hTxnew y hy') hys
        · exact hy'
      obtain ⟨h1, h2⟩ := he y hyq hy0 hyc z hz
      refine ⟨pframe.visited z h1, fun hzq => ?_⟩
      rw [hlow]
      exact le_trans hL1 (h2 hzq)
  · intro z hz harcz
    rcases Nat.lt_succ_iff_lt_or_eq.mp hz with hlt | rfl
    · obtain ⟨h1, h2⟩ := hec z hlt harcz
      refine ⟨pframe.visited z h1, fun hzq => ?_⟩
      rw [hlow]
      exact le_trans hL1 (h2 hzq)
    · refine ⟨?_, fun hzq => ?_⟩
      · show s'.nodeIndex z ≠ -1
        rw [pidx]
        have := hinv.idxNonneg
        omega
      · exact absurd hi0 (hinv.stack_visited z (hold z hzq))

/-- Facts about the nodes above `cur` on the stack at the end of the loop. -/
theorem loopInv_stack_facts (adjMat : Nat → Nat → Int) (n : Nat) (s0 : TarjanState)
    (G : List Nat) (cur i : Nat) (s : TarjanState) (h : LoopInv adjMat n s0 G cur i s)
    (hcur0 : s0.nodeIndex cur = -1) :
    (∀ z ∈ s0.myQueue, z ∈ s.myQueue ∧ s.nodeIndex z = s0.nodeIndex z ∧
        s0.nodeIndex z < s0.index ∧ s0.nodeIndex z ≠ -1) ∧
    (∀ w ∈ s.myQueue, s0.nodeIndex w = -1 → s0.index ≤ s.nodeIndex w ∧ w ∉ s0.myQueue) ∧
    (∀ w ∈ s.myQueue, w ∈ s0.myQueue ∨ s0.nodeIndex w = -1) := by
  obtain ⟨hinv0, hinv, hframe, hidx, ⟨T, hT, hTnew⟩, hl, he, hec⟩ := h
  refine ⟨?_, ?_, ?_⟩
  · intro z hz
    have hv := hinv0.stack_visited z hz
    exact ⟨by rw [hT]; simp [hz], hframe.idx z hv, (hinv0.idxRange z hv).2, hv⟩
  · intro w hw hw0
    exact ⟨hframe.newIdx w hw0 (hinv.stack_visited w hw),
      fun hq => (hinv0.stack_visited w hq) hw0⟩
  · intro w hw
    rw [hT, List.mem_append, List.mem_cons] at hw
    rcases hw with hw | rfl | hw
    · exact Or.inr (hTnew w hw).1
    · exact Or.inr hcur0
    · exact Or.inl hw

theorem post_nonroot (adjMat : Nat → Nat → Int) (n : Nat) (s0 : TarjanState) (G : List Nat)
    (cur : Nat) (s : TarjanState) (h : LoopInv adjMat n s0 G cur n s)
    (hcur0 : s0.nodeIndex cur = -1) (hne : s.nodeLowlink cur ≠ s.nodeIndex cur) :
    Post adjMat n s0 s G cur := by
  obtain ⟨hold, hnew, hsplit⟩ := loopInv_stack_facts adjMat n s0 G cur n s h hcur0
  obtain ⟨hinv0, hinv, hframe, hidx, ⟨T, hT, hTnew⟩, hl, he, hec⟩ := h
  have hlt : s.nodeLowlink cur < s0.index := by
    rw [hidx] at hne
    have := hl.1
    omega
  obtain ⟨y, hy, hyi, hyr⟩ := hl.2
  have hcurq : cur ∈ s.myQueue := hinv.grayStack cur (by simp)
  have hyold : y ∈ s0.myQueue := by
    rcases hsplit y hy with h1 | h1
    · exact h1
    · have := (hnew y hy h1).1
      omega
  refine ⟨⟨hinv.1, hinv.2, hinv.3, hinv.4, hinv.5, hinv.6, hinv.7, hinv.8, hinv.9,
    hinv.10, hinv.11, hinv.12, hinv.13, hinv.14, ?_, ?_⟩, hframe, hidx, ?_, ?_, ?_⟩
  · intro g hg
    exact hinv.grayStack g (by simp [hg])
  · intro v hv
    obtain ⟨g, hg, hgle, hgr⟩ := hinv.toGray v hv
    rw [List.mem_cons] at hg
    rcases hg with rfl | hg
    · obtain ⟨g', hg', hg'le, hg'r⟩ := hinv.toGray y hy
      rw [List.mem_cons] at hg'
      rcases hg' with rfl | hg'
      · exfalso
        rw [hidx, hyi] at hg'le
        omega
      · refine ⟨g', hg', ?_, (hgr.trans hyr).trans hg'r⟩
        rw [hidx] at hgle
        rw [hyi] at hg'le
        omega
    · exact ⟨g, hg, hgle, hgr⟩
  · refine ⟨T ++ [cur], by rw [hT]; simp, ?_⟩
    intro v hv
    rw [List.mem_append, List.mem_singleton] at hv
    rcases hv with hv | rfl
    · exact (hTnew v hv).1
    · exact hcur0
  · right
    refine ⟨hlt, y, hyold, ?_, hyr⟩
    rw [← (hold y hyold).2.1, hyi]
  · intro y' hy' hy'0 z hz
    by_cases hc : y' = cur
    · subst hc
      exact hec z hz.2.1 hz
    · exact he y' hy' hy'0 hc z hz

theorem reach_closed (adjMat : Nat → Nat → Int) (n : Nat) (S : Nat → Prop)
    (hS : ∀ u v, S u → Arc adjMat n u v → S v) (u v : Nat) (hu : S u)
    (hr : Reach adjMat n u v) : S v := by
  induction hr with
  | refl => exact hu
  | tail _ harc ih => exact hS _ _ ih harc

theorem post_root (adjMat : Nat → Nat → Int) (n : Nat) (s0 : TarjanState) (G : List Nat)
    (cur : Nat) (s : TarjanState) (h : LoopInv adjMat n s0 G cur n s)
    (hcur0 : s0.nodeIndex cur = -1) (heq : s.nodeLowlink cur = s.nodeIndex cur) :
    ∃ s', closeComponent cur s = some s' ∧ Post adjMat n s0 s' G cur := by
  obtain ⟨hold, hnew, hsplit⟩ := loopInv_stack_facts adjMat n s0 G cur n s h hcur0
  obtain ⟨hinv0, hinv, hframe, hidx, ⟨T, hT, hTnew⟩, hl, he, hec⟩ := h
  have hnd := hinv.nodupQ
  rw [hT] at hnd
  have hndT : (T ++ [cur]).Nodup := by
    have : (T ++ cur :: s0.myQueue) = (T ++ [cur]) ++ s0.myQueue := by simp
    rw [this] at hnd
    exact (List.nodup_append.mp hnd).1
  have hdisj : ∀ v, v ∈ T ++ [cur] → v ∉ s0.myQueue := by
    intro v hv hq
    have : (T ++ cur :: s0.myQueue) = (T ++ [cur]) ++ s0.myQueue := by simp
    rw [this] at hnd
    exact (List.nodup_append.mp hnd).2.2 hv hq
  have hcurT : cur ∉ T := by
    intro hc
    exact (hTnew cur hc).2 rfl
  obtain ⟨contents', comp, hpop, hc1, hc2, hc3, hc4⟩ :=
    popComponent_spec cur T s0.myQueue s.myQueueContents [] hcurT hinv.nodupC List.nodup_nil
      hndT (by simp)
  have hcomp : ∀ v, v ∈ comp ↔ v ∈ T ++ [cur] := by
    intro v
    rw [hc4]
    simp
  have hmemq : ∀ v, v ∈ s.myQueue ↔ (v ∈ T ++ [cur] ∨ v ∈ s0.myQueue) := by
    intro v
    rw [hT]
    simp only [List.mem_append, List.mem_cons, List.mem_singleton, List.not_mem_nil, or_false]
    tauto
  have hcompq : ∀ v, v ∈ comp → v ∈ s.myQueue := fun v hv =>
    (hmemq v).mpr (Or.inl ((hcomp v).mp hv))
  have hcompnew : ∀ v, v ∈ comp → s0.nodeIndex v = -1 := by
    intro v hv
    rcases hsplit v (hcompq v hv) with h1 | h1
    · exact absurd h1 (hdisj v ((hcomp v).mp hv))
    · exact h1
  have hcurcomp : cur ∈ comp := (hcomp cur).mpr (by simp)
  have hcurq : cur ∈ s.myQueue := hcompq cur hcurcomp
  -- every node of the new component is mutually reachable with `cur`
  have hmut : ∀ w ∈ comp, Reach adjMat n cur w ∧ Reach adjMat n w cur := by
    intro w hw
    have hwq := hcompq w hw
    have hw0 := hcompnew w hw
    refine ⟨hinv.chain cur hcurq w hwq (by rw [hidx]; exact (hnew w hwq hw0).1), ?_⟩
    obtain ⟨g, hg, hgle, hgr⟩ := hinv.toGray w hwq
    rw [List.mem_cons] at hg
    rcases hg with rfl | hg
    · exact hgr
    · have hgold := hinv0.grayStack g hg
      obtain ⟨hgq, hgi, hglt, _⟩ := hold g hgold
      exact hgr.trans (hinv.chain g hgq cur hcurq (by rw [hidx, hgi]; omega))
  -- arcs out of the new component stay in the components
  have hclosed : ∀ u ∈ comp, ∀ v, Arc adjMat n u v →
      v ∈ comp ∨ ∃ c' ∈ s.strongConComps, v ∈ c' := by
    intro u hu v harc
    have huq := hcompq u hu
    have hu0 := hcompnew u hu
    have hedge : s.nodeIndex v ≠ -1 ∧ (v ∈ s0.myQueue → s.nodeLowlink cur ≤ s0.nodeIndex v) := by
      by_cases huc : u = cur
      · subst huc
        exact hec v harc.2.1 harc
      · exact he u huq hu0 huc v harc
    rcases (hinv.visIff v).mp hedge.1 with hvq | hvc
    · rcases (hmemq v).mp hvq with hv | hv
      · exact Or.inl ((hcomp v).mpr hv)
      · exfalso
        have h1 := hedge.2 hv
        have h2 := (hold v hv).2.2.1
        rw [heq, hidx] at h1
        omega
    · exact Or.inr hvc
  refine ⟨{ s with myQueue := s0.myQueue, myQueueContents := contents',
                   strongConComps := s.strongConComps ++ [comp] }, ?_, ?_⟩
  · unfold closeComponent
    rw [if_pos heq, hT, hpop]
  refine ⟨⟨?_, hc1, ?_, hinv.idxNonneg, hinv.idxRange, hinv.idxInj, hinv.visLt, ?_, ?_, ?_, ?_,
    ?_, ?_, ?_, ?_, ?_⟩, ⟨hframe.idx, hframe.low, hframe.idxLe, hframe.newIdx, ?_⟩, hidx,
    ⟨[], rfl, by simp⟩, Or.inl ⟨by rw [← hidx]; exact heq, rfl⟩, ?_⟩
  · exact hinv0.nodupQ
  · intro v
    show v ∈ contents' ↔ v ∈ s0.myQueue
    rw [hc2, hinv.memC, hmemq]
    constructor
    · rintro ⟨h1 | h1, h2⟩
      · exact absurd h1 h2
      · exact h1
    · intro h1
      exact ⟨Or.inr h1, fun h2 => hdisj v h2 h1⟩
  · intro v
    show s.nodeIndex v ≠ -1 ↔ (v ∈ s0.myQueue ∨ ∃ c ∈ s.strongConComps ++ [comp], v ∈ c)
    rw [hinv.visIff, hmemq]
    simp only [List.mem_append, List.mem_singleton]
    constructor
    · rintro ((h1 | h1) | ⟨c, hc, hvc⟩)
      · exact Or.inr ⟨comp, Or.inr rfl, (hcomp v).mpr (by simpa using h1)⟩
      · exact Or.inl h1
      · exact Or.inr ⟨c, Or.inl hc, hvc⟩
    · rintro (h1 | ⟨c, hc | rfl, hvc⟩)
      · exact Or.inl (Or.inr h1)
      · exact Or.inr ⟨c, hc, hvc⟩
      · exact Or.inl (Or.inl (by simpa using (hcomp v).mp hvc))
  · intro v hv c hc hvc
    have hv' : v ∈ s0.myQueue := hv
    have hc' : c ∈ s.strongConComps ++ [comp] := hc
    rw [List.mem_append, List.mem_singleton] at hc'
    rcases hc' with hc' | rfl
    · exact hinv.stackDisj v (hold v hv').1 c hc' hvc
    · exact hdisj v ((hcomp v).mp hvc) hv'
  · show (s.strongConComps ++ [comp]).Pairwise List.Disjoint
    rw [List.pairwise_append]
    refine ⟨hinv.compsDisj, List.pairwise_singleton _ _, ?_⟩
    intro c hc c' hc'
    rw [List.mem_singleton] at hc'
    subst hc'
    intro v hvc hvcomp
    exact hinv.stackDisj v (hcompq v hvcomp) c hc hvc
  · intro c hc
    have hc' : c ∈ s.strongConComps ++ [comp] := hc
    rw [List.mem_append, List.mem_singleton] at hc'
    rcases hc' with hc' | rfl
    · exact hinv.compsNodup c hc'
    · exact hc3
  · intro c hc u hu v harc
    have hc' : c ∈ s.strongConComps ++ [comp] := hc
    show ∃ c' ∈ s.strongConComps ++ [comp], v ∈ c'
    rw [List.mem_append, List.mem_singleton] at hc'
    rcases hc' with hc' | rfl
    · obtain ⟨c', h1, h2⟩ := hinv.closed c hc' u hu v harc
      exact ⟨c', List.mem_append_left _ h1, h2⟩
    · rcases hclosed u hu v harc with h1 | ⟨c', h1, h2⟩
      · exact ⟨c, by simp, h1⟩
      · exact ⟨c', List.mem_append_left _ h1, h2⟩
  · intro c hc
    have hc' : c ∈ s.strongConComps ++ [comp] := hc
    rw [List.mem_append, List.mem_singleton] at hc'
    rcases hc' with hc' | rfl
    · exact hinv.isScc c hc'
    · refine ⟨List.ne_nil_of_mem hcurcomp, ?_⟩
      intro u hu v
      constructor
      · intro hv
        exact ⟨(hmut u hu).2.trans (hmut v hv).1, (hmut v hv).2.trans (hmut u hu).1⟩
      · rintro ⟨huv, hvu⟩
        have hS := reach_closed adjMat n (fun w => w ∈ c ∨ ∃ c' ∈ s.strongConComps, w ∈ c')
          (by
            intro a b ha hab
            rcases ha with ha | ⟨c', hc', ha⟩
            · exact hclosed a ha b hab
            · exact Or.inr (hinv.closed c' hc' a ha b hab))
          u v (Or.inl hu) huv
        rcases hS with hv | ⟨c', hc', hvc'⟩
        · exact hv
        · exfalso
          have := ((hinv.isScc c' hc').2 v hvc' u).mpr ⟨hvu, huv⟩
          exact hinv.stackDisj u (hcompq u hu) c' hc' this
  · intro x hx y hy hxy
    exact hinv.chain x (hold x hx).1 y (hold y hy).1 hxy
  · intro g hg
    exact hinv0.grayStack g hg
  · intro v hv
    have hv' : v ∈ s0.myQueue := hv
    obtain ⟨hvq, hvi, hvlt, _⟩ := hold v hv'
    obtain ⟨g, hg, hgle, hgr⟩ := hinv.toGray v hvq
    rw [List.mem_cons] at hg
    rcases hg with rfl | hg
    · exfalso
      rw [hidx, hvi] at hgle
      omega
    · exact ⟨g, hg, hgle, hgr⟩
  · obtain ⟨new, hnewc⟩ := hframe.comps
    exact ⟨new ++ [comp], by
      show s.strongConComps ++ [comp] = _
      rw [hnewc, List.append_assoc]⟩
  · intro y hy hy0
    exact absurd hy0 (hinv0.stack_visited y hy)

/-- `strongConnect` returns when the bound is at least the number of unvisited
nodes, and establishes its postcondition. -/
theorem strongConnect_spec (adjMat : Nat → Nat → Int) (n : Nat) (fuel : Nat) :
    ∀ (cur : Nat) (s0 : TarjanState) (G : List Nat), TInv adjMat n s0 G →
      s0.nodeIndex cur = -1 → cur < n → (∀ g ∈ G, Reach adjMat n g cur) →
      unvisitedCount n s0 ≤ fuel →
      ∃ s', strongConnect adjMat n fuel cur s0 = some s' ∧ Post adjMat n s0 s' G cur := by
  induction fuel with
  | zero =>
    intro cur s0 G _ hcur0 hn _ hfuel
    have := unvisitedCount_pos n s0 cur hn hcur0
    omega
  | succ fuel ih =>
    intro cur s0 G hinv0 hcur0 hn hG hfuel
    unfold strongConnect
    have hloop := foldl_range_inv
      (fun (acc : Option TarjanState) (i : Nat) =>
        acc.bind (fun s =>
          if adjMat cur i = 1 ∧ i ≠ cur then
            if s.nodeIndex i = -1 then
              (strongConnect adjMat n fuel i s).map (fun s' =>
                { s' with nodeLowlink := setAt s'.nodeLowlink cur
                            (min (s'.nodeLowlink cur) (s'.nodeLowlink i)) })
            else if i ∈ s.myQueueContents then
              some { s with nodeLowlink := setAt s.nodeLowlink cur
                              (min (s.nodeLowlink cur) (s.nodeIndex i)) }
            else some s
          else some s))
      (fun i acc => ∃ s, acc = some s ∧ LoopInv adjMat n s0 G cur i s) n
      (some (pushNode cur s0))
      ⟨_, rfl, loopInv_init adjMat n s0 G cur hinv0 hcur0 hn hG⟩
      (by
        rintro i hi acc ⟨s, rfl, hL⟩
        simp only [Option.some_bind]
        obtain ⟨hold, hnew, hsplit⟩ := loopInv_stack_facts adjMat n s0 G cur i s hL hcur0
        have hcurq : cur ∈ s.myQueue := hL.inv.grayStack cur (by simp)
        have hcurv : s.nodeIndex cur ≠ -1 := hL.inv.stack_visited cur hcurq
        by_cases hcond : adjMat cur i = 1 ∧ i ≠ cur
        · rw [if_pos hcond]
          have harc : Arc adjMat n cur i := ⟨hn, hi, hcond.1⟩
          by_cases hi0 : s.nodeIndex i = -1
          · rw [if_pos hi0]
            have hfuel' : unvisitedCount n s ≤ fuel := by
              have := unvisitedCount_lt n s0 s hL.frame.visited cur hn hcur0 hcurv
              omega
            obtain ⟨s', hs', hpost⟩ := ih i s (cur :: G) hL.inv hi0 hi
              (by
                intro g hg
                rw [List.mem_cons] at hg
                rcases hg with rfl | hg
                · exact Relation.ReflTransGen.single harc
                · exact (hG g hg).tail harc) hfuel'
            rw [hs']
            exact ⟨_, rfl, loopInv_call adjMat n s0 G cur i s s' hL hcur0 harc hi0 hpost⟩
          · rw [if_neg hi0]
            by_cases hic : i ∈ s.myQueueContents
            · rw [if_pos hic]
              refine ⟨_, rfl, ?_⟩
              have hiq : i ∈ s.myQueue := (hL.inv.memC i).mp hic
              apply loopInv_skip
              · by_cases hcmp : s.nodeIndex i ≤ s.nodeLowlink cur
                · rw [min_eq_right hcmp]
                  exact loopInv_lower adjMat n s0 G cur i s hL hcur0 _ hcmp i hiq rfl
                    (Relation.ReflTransGen.single harc)
                · rw [min_eq_left (le_of_not_le hcmp)]
                  obtain ⟨y, hy, hyi, hyr⟩ := hL.low.2
                  exact loopInv_lower adjMat n s0 G cur i s hL hcur0 _ (le_refl _) y hy hyi hyr
              · intro _
                refine ⟨hi0, fun hiold => ?_⟩
                show setAt s.nodeLowlink cur _ cur ≤ _
                rw [setAt_same, ← (hold i hiold).2.1]
                exact min_le_right _ _
            · rw [if_neg hic]
              refine ⟨_, rfl, loopInv_skip adjMat n s0 G cur i s hL ?_⟩
              intro _
              refine ⟨hi0, fun hiold => ?_⟩
              exact absurd ((hL.inv.memC i).mpr (hold i hiold).1) hic
        · rw [if_neg hcond]
          refine ⟨_, rfl, loopInv_skip adjMat n s0 G cur i s hL ?_⟩
          intro harc
          have hic : i = cur := by
            by_contra hne
            exact hcond ⟨harc.2.2, hne⟩
          subst hic
          exact ⟨hcurv, fun hq => absurd hcur0 (hinv0.stack_visited i hq)⟩)
    obtain ⟨s, hs, hL⟩ := hloop
    rw [hs]
    simp only [Option.some_bind]
    by_cases heq : s.nodeLowlink cur = s.nodeIndex cur
    · exact post_root adjMat n s0 G cur s hL hcur0 heq
    · refine ⟨s, ?_, post_nonroot adjMat n s0 G cur s hL hcur0 heq⟩
      unfold closeComponent
      rw [if_neg heq]

theorem tInv_init (adjMat : Nat → Nat → Int) (n : Nat) : TInv adjMat n tarjanInit [] := by
  refine ⟨List.nodup_nil, List.nodup_nil, fun v => Iff.rfl, le_refl _, ?_, ?_, ?_, ?_, ?_,
    List.Pairwise.nil, ?_, ?_, ?_, ?_, ?_, ?_⟩
  · intro v hv; exact absurd rfl hv
  · intro u v hu; exact absurd rfl hu
  · intro v hv; exact absurd rfl hv
  · intro v
    constructor
    · intro hv; exact absurd rfl hv
    · rintro (h | ⟨c, hc, _⟩)
      · simp [tarjanInit] at h
      · simp [tarjanInit] at hc
  · intro v hv; simp [tarjanInit] at hv
  · intro c hc; simp [tarjanInit] at hc
  · intro c hc; simp [tarjanInit] at hc
  · intro c hc; simp [tarjanInit] at hc
  · intro x hx; simp [tarjanInit] at hx
  · intro g hg; simp at hg
  · intro v hv; simp [tarjanInit] at hv

theorem unvisitedCount_le (n : Nat) (s : TarjanState) : unvisitedCount n s ≤ n := by
  unfold unvisitedCount
  calc _ ≤ (Finset.range n).card := Finset.card_filter_le _ _
    _ = n := Finset.card_range n

/-- The main loop of `tarjan` ends with an empty stack, every node visited and
the invariant. -/
theorem tarjanLoop_spec (adjMat : Nat → Nat → Int) (n fuel : Nat) (hfuel : n ≤ fuel) :
    ∃ s, tarjanLoop adjMat n fuel = some s ∧ TInv adjMat n s [] ∧ s.myQueue = [] ∧
      ∀ z < n, s.nodeIndex z ≠ -1 := by
  unfold tarjanLoop
  apply foldl_range_inv _
    (fun i acc => ∃ s, acc = some s ∧ TInv adjMat n s [] ∧ s.myQueue = [] ∧
      ∀ z < i, s.nodeIndex z ≠ -1) n (some tarjanInit)
  · exact ⟨_, rfl, tInv_init adjMat n, rfl, fun z hz => absurd hz (Nat.not_lt_zero z)⟩
  · rintro i hi acc ⟨s, rfl, hinv, hq, hvis⟩
    simp only [Option.some_bind]
    by_cases hi0 : s.nodeIndex i = -1
    · rw [if_pos hi0]
      obtain ⟨s', hs', hpost⟩ := strongConnect_spec adjMat n fuel i s [] hinv hi0 hi
        (by intro g hg; simp at hg) (le_trans (unvisitedCount_le n s) hfuel)
      refine ⟨s', hs', hpost.inv, ?_, ?_⟩
      · rcases hpost.lowCases with ⟨_, h2⟩ | ⟨_, y, hy, _⟩
        · rw [h2, hq]
        · rw [hq] at hy
          simp at hy
      · intro z hz
        rcases Nat.lt_succ_iff_lt_or_eq.mp hz with hlt | rfl
        · exact hpost.frame.visited z (hvis z hlt)
        · rw [hpost.idxCur]
          have := hinv.idxNonneg
          omega
    · rw [if_neg hi0]
      refine ⟨s, rfl, hinv, hq, ?_⟩
      intro z hz
      rcases Nat.lt_succ_iff_lt_or_eq.mp hz with hlt | rfl
      · exact hvis z hlt
      · exact hi0

/-- `tarjan` returns, and the returned sets are non-empty, duplicate-free,
pairwise disjoint, cover exactly the nodes below `n`, are closed under leaving
arcs together with the earlier sets, and each is a class of mutual
reachability. -/
theorem tarjan_spec (adjMat : Nat → Nat → Int) (n : Nat) :
    ∃ comps, tarjan adjMat n = some comps ∧
      (∀ c ∈ comps, c ≠ [] ∧ c.Nodup) ∧ comps.Pairwise List.Disjoint ∧
      (∀ v, v < n ↔ ∃ c ∈ comps, v ∈ c) ∧
      (∀ c ∈ comps, ∀ u ∈ c, ∀ v, v ∈ c ↔ (Reach adjMat n u v ∧ Reach adjMat n v u)) := by
  obtain ⟨s, hs, hinv, hq, hvis⟩ := tarjanLoop_spec adjMat n n (le_refl n)
  refine ⟨s.strongConComps, ?_, ?_, hinv.compsDisj, ?_, ?_⟩
  · unfold tarjan
    rw [hs]
    rfl
  · intro c hc
    exact ⟨(hinv.isScc c hc).1, hinv.compsNodup c hc⟩
  · intro v
    constructor
    · intro hv
      rcases (hinv.visIff v).mp (hvis v hv) with h | h
      · rw [hq] at h
        simp at h
      · exact h
    · rintro ⟨c, hc, hvc⟩
      exact hinv.visLt v ((hinv.visIff v).mpr (Or.inr ⟨c, hc, hvc⟩))
  · intro c hc
    exact (hinv.isScc c hc).2

theorem filter_mem_length_eq_one (comps : List (List Nat)) (hp : comps.Pairwise List.Disjoint)
    (v : Nat) (c : List Nat) (hc : c ∈ comps) (hvc : v ∈ c) :
    (comps.filter (fun d => decide (v ∈ d))).length = 1 := by
  induction comps with
  | nil => simp at hc
  | cons a rest ih =>
    rw [List.pairwise_cons] at hp
    by_cases hva : v ∈ a
    · have hrest : rest.filter (fun d => decide (v ∈ d)) = [] := by
        rw [List.filter_eq_nil_iff]
        intro b hb
        simp only [decide_eq_true_eq]
        exact fun hvb => hp.1 b hb hva hvb
      rw [List.filter_cons_of_pos (by simpa using hva), hrest]
      rfl
    · rw [List.filter_cons_of_neg (by simpa using hva)]
      rw [List.mem_cons] at hc
      rcases hc with rfl | hc
      · exact absurd hvc hva
      · exact ih hp.2 hc

/-- C2: for every `n` and every matrix, `tarjan` returns a list of sets that
are non-empty and pairwise disjoint and whose union is exactly `{0, ..., n-1}`
(every node below `n` lies in exactly one of them). -/
theorem tarjan_partition (adjMat : Nat → Nat → Int) (n : Nat) :
    ∃ comps, tarjan adjMat n = some comps ∧
      (∀ c ∈ comps, c ≠ []) ∧ comps.Pairwise List.Disjoint ∧
      (∀ v, v < n ↔ ∃ c ∈ comps, v ∈ c) ∧
      (∀ v, v < n → (comps.filter (fun c => decide (v ∈ c))).length = 1) := by
  obtain ⟨comps, h1, h2, h3, h4, _⟩ := tarjan_spec adjMat n
  refine ⟨comps, h1, fun c hc => (h2 c hc).1, h3, h4, ?_⟩
  intro v hv
  obtain ⟨c, hc, hvc⟩ := (h4 v).mp hv
  exact filter_mem_length_eq_one comps h3 v c hc hvc

/-- C1: for every `n` and every matrix, two nodes `u`, `v` below `n` lie in the
same set of the list returned by `tarjan` if and only if each is reachable from
the other along arcs (entries equal to 1). -/
theorem tarjan_same_set_iff_mutually_reachable (adjMat : Nat → Nat → Int) (n : Nat) :
    ∃ comps, tarjan adjMat n = some comps ∧
      ∀ u v, (∃ c ∈ comps, u ∈ c ∧ v ∈ c) ↔
        (u < n ∧ v < n ∧ Reach adjMat n u v ∧ Reach adjMat n v u) := by
  obtain ⟨comps, h1, _, _, h4, h5⟩ := tarjan_spec adjMat n
  refine ⟨comps, h1, ?_⟩
  intro u v
  constructor
  · rintro ⟨c, hc, hu, hv⟩
    have := (h5 c hc u hu v).mp hv
    exact ⟨(h4 u).mpr ⟨c, hc, hu⟩, (h4 v).mpr ⟨c, hc, hv⟩, this.1, this.2⟩
  · rintro ⟨hu, _, huv, hvu⟩
    obtain ⟨c, hc, huc⟩ := (h4 u).mp hu
    exact ⟨c, hc, huc, (h5 c hc u huc v).mpr ⟨huv, hvu⟩⟩

/-! ### `spanTreeWithBackEdges` and `getMinCycles` -/

theorem setAt2_same (m : Nat → Nat → Int) (i j : Nat) (v : Int) : setAt2 m i j v i j = v := by
  unfold setAt2; simp

theorem setAt2_ne (m : Nat → Nat → Int) (i j : Nat) (v : Int) (a b : Nat)
    (h : ¬ (a = i ∧ b = j)) : setAt2 m i j v a b = m a b := by
  unfold setAt2; rw [if_neg h]

theorem mem_visitedSet (n : Nat) (vis : Nat → Int) (v : Nat) :
    v ∈ visitedSet n vis ↔ v < n ∧ vis v ≠ 0 := by
  unfold visitedSet
  rw [Finset.mem_filter, Finset.mem_range]

theorem mem_entrySet (n : Nat) (m : Nat → Nat → Int) (val : Int) (p : Nat × Nat) :
    p ∈ entrySet n m val ↔ p.1 < n ∧ p.2 < n ∧ m p.1 p.2 = val := by
  unfold entrySet
  rw [Finset.mem_filter, Finset.mem_product, Finset.mem_range, Finset.mem_range, and_assoc]

theorem visitedSet_card_le (n : Nat) (vis : Nat → Int) : (visitedSet n vis).card ≤ n := by
  unfold visitedSet
  calc _ ≤ (Finset.range n).card := Finset.card_filter_le _ _
    _ = n := Finset.card_range n

theorem visitedSet_setAt (n : Nat) (vis : Nat → Int) (cur : Nat) (hcur : cur < n)
    (h0 : vis cur = 0) :
    (visitedSet n (setAt vis cur 1)).card = (visitedSet n vis).card + 1 := by
  have : visitedSet n (setAt vis cur 1) = insert cur (visitedSet n vis) := by
    ext v
    rw [Finset.mem_insert, mem_visitedSet, mem_visitedSet]
    by_cases hv : v = cur
    · subst hv
      rw [setAt_same]
      simp [hcur]
    · rw [setAt_ne _ _ _ _ hv]
      simp [hv]
  rw [this, Finset.card_insert_of_not_mem]
  rw [mem_visitedSet]
  exact fun h => h.2 h0

theorem visitedSet_card_mono (n : Nat) (vis vis' : Nat → Int)
    (h : ∀ v, vis v ≠ 0 → vis' v ≠ 0) : (visitedSet n vis).card ≤ (visitedSet n vis').card := by
  apply Finset.card_le_card
  intro v hv
  rw [mem_visitedSet] at hv ⊢
  exact ⟨hv.1, h v hv.2⟩

theorem entrySet_setAt2_one (n : Nat) (m : Nat → Nat → Int) (i j : Nat) (hi : i < n) (hj : j < n)
    (h0 : m i j = 0) :
    (entrySet n (setAt2 m i j 1) 1).card = (entrySet n m 1).card + 1 := by
  have : entrySet n (setAt2 m i j 1) 1 = insert (i, j) (entrySet n m 1) := by
    ext p
    rw [Finset.mem_insert, mem_entrySet, mem_entrySet]
    by_cases hp : p.1 = i ∧ p.2 = j
    · have hpe : p = (i, j) := Prod.ext hp.1 hp.2
      subst hpe
      rw [setAt2_same]
      simp [hi, hj]
    · rw [setAt2_ne _ _ _ _ _ _ hp]
      have : p ≠ (i, j) := fun h => hp (by rw [h]; exact ⟨rfl, rfl⟩)
      simp [this]
  rw [this, Finset.card_insert_of_not_mem]
  rw [mem_entrySet]
  intro h
  rw [h0] at h
  exact absurd h.2.2 (by decide)

theorem entrySet_setAt2_neg (n : Nat) (m : Nat → Nat → Int) (i j : Nat) (h0 : m i j = 0) :
    entrySet n (setAt2 m i j (-1)) 1 = entrySet n m 1 := by
  ext p
  rw [mem_entrySet, mem_entrySet]
  by_cases hp : p.1 = i ∧ p.2 = j
  · rw [hp.1, hp.2, setAt2_same, h0]
    simp
  · rw [setAt2_ne _ _ _ _ _ _ hp]

theorem unvisited_lt (n : Nat) (vis vis' : Nat → Int) (h : ∀ v, vis v ≠ 0 → vis' v ≠ 0)
    (cur : Nat) (hcur : cur < n) (h0 : vis cur = 0) (h1 : vis' cur ≠ 0) :
    (visitedSet n vis).card < (visitedSet n vis').card := by
  apply Finset.card_lt_card
  rw [Finset.ssubset_iff_of_subset]
  · exact ⟨cur, (mem_visitedSet _ _ _).mpr ⟨hcur, h1⟩, fun hc => ((mem_visitedSet _ _ _).mp hc).2 h0⟩
  · intro v hv
    rw [mem_visitedSet] at hv ⊢
    exact ⟨hv.1, h v hv.2⟩

theorem spanLoop_init (adjMat : Nat → Nat → Int) (n : Nat) (st0 : SpanState) (cur : Nat)
    (hinv : SpanInv adjMat n st0) (hcur0 : st0.visited cur = 0) (hn : cur < n) :
    SpanLoop adjMat n st0 cur 0 { st0 with visited := setAt st0.visited cur 1 } := by
  have hvis : ∀ v, setAt st0.visited cur 1 v ≠ 0 ↔ (v = cur ∨ st0.visited v ≠ 0) := by
    intro v
    by_cases hv : v = cur
    · subst hv
      rw [setAt_same]
      simp
    · rw [setAt_ne _ _ _ _ hv]
      simp [hv]
  have hcard := visitedSet_setAt n st0.visited cur hn hcur0
  have hrow0 : ∀ v, st0.spanTreeAndBackEdges cur v = 0 := by
    intro v
    by_contra hc
    exact (hinv.nz cur v hc).1 hcur0
  refine ⟨⟨hinv.vals, ?_, ?_, ?_⟩, ?_, ?_, fun _ _ _ => rfl, fun v _ => hrow0 v, ?_, ?_, ?_, ?_⟩
  · intro u v huv
    obtain ⟨h1, h2⟩ := hinv.nz u v huv
    exact ⟨(hvis u).mpr (Or.inr h1), h2⟩
  · intro v hv
    rcases (hvis v).mp hv with rfl | hv'
    · exact hn
    · exact hinv.visLt v hv'
  · obtain ⟨d, hd1, hd2, hd3⟩ := hinv.rank
    refine ⟨fun v => if v = cur then (visitedSet n st0.visited).card else d v, ?_, ?_, ?_⟩
    · intro v hv
      show _ < (visitedSet n (setAt st0.visited cur 1)).card
      rw [hcard]
      dsimp only
      by_cases hvc : v = cur
      · rw [if_pos hvc]; omega
      · rw [if_neg hvc]
        rcases (hvis v).mp hv with h | h
        · exact absurd h hvc
        · have := hd1 v h
          omega
    · intro v hv
      have hv' : setAt st0.visited cur 1 v = 0 := hv
      have hvc : v ≠ cur := by
        rintro rfl
        rw [setAt_same] at hv'
        exact absurd hv' (by decide)
      dsimp only
      rw [if_neg hvc]
      rw [setAt_ne _ _ _ _ hvc] at hv'
      exact hd2 v hv'
    · intro u v huv
      have huv' : st0.spanTreeAndBackEdges u v = 1 := huv
      have hu := (hinv.nz u v (by rw [huv']; decide)).1
      have huc : u ≠ cur := by
        rintro rfl
        exact hu hcur0
      dsimp only
      rw [if_neg huc]
      by_cases hvc : v = cur
      · rw [if_pos hvc]
        exact hd1 u hu
      · rw [if_neg hvc]
        exact hd3 u v huv'
  · intro v hv
    exact (hvis v).mpr (Or.inr hv)
  · exact (hvis cur).mpr (Or.inl rfl)
  · intro v hv
    exact absurd hv (Nat.not_lt_zero v)
  · intro u hu0 hu1 huc
    rcases (hvis u).mp hu1 with h | h
    · exact absurd h huc
    · exact absurd hu0 h
  · intro u hu0 hu1
    rcases (hvis u).mp hu1 with h | h
    · rw [h]
      exact Relation.ReflTransGen.refl
    · exact absurd hu0 h
  · show (entrySet n st0.spanTreeAndBackEdges 1).card + _ + 1
      = _ + (visitedSet n (setAt st0.visited cur 1)).card
    rw [hcard]
    omega

theorem spanLoop_skip (adjMat : Nat → Nat → Int) (n : Nat) (st0 : SpanState) (cur i : Nat)
    (st : SpanState) (h : SpanLoop adjMat n st0 cur i st)
    (hc : ¬ (adjMat cur i = 1 ∧ i ≠ cur)) : SpanLoop adjMat n st0 cur (i + 1) st := by
  refine ⟨h.inv, h.mono, h.curVis, h.rows, fun v hv => h.rowCur v (by omega), ?_, h.complete,
    h.reach, h.ones⟩
  intro v hv hav hcv
  rcases Nat.lt_succ_iff_lt_or_eq.mp hv with hlt | rfl
  · exact h.rowDone v hlt hav hcv
  · exact absurd ⟨hav, fun h => hcv h.symm⟩ hc

theorem spanLoop_back (adjMat : Nat → Nat → Int) (n : Nat) (st0 : SpanState) (cur i : Nat)
    (st : SpanState) (h : SpanLoop adjMat n st0 cur i st) (hcur0 : st0.visited cur = 0)
    (hn : cur < n) (hi : i < n) (hc : adjMat cur i = 1 ∧ i ≠ cur) (hvi : st.visited i ≠ 0) :
    SpanLoop adjMat n st0 cur (i + 1)
      { st with spanTreeAndBackEdges := setAt2 st.spanTreeAndBackEdges cur i (-1) } := by
  have h0 : st.spanTreeAndBackEdges cur i = 0 := h.rowCur i (le_refl i)
  have hne : ∀ u v, u ≠ cur → setAt2 st.spanTreeAndBackEdges cur i (-1) u v
      = st.spanTreeAndBackEdges u v := fun u v hu => setAt2_ne _ _ _ _ _ _ (fun hh => hu hh.1)
  refine ⟨⟨?_, ?_, h.inv.visLt, ?_⟩, h.mono, h.curVis, ?_, ?_, ?_, ?_, h.reach, ?_⟩
  · have key : ∀ u v, setAt2 st.spanTreeAndBackEdges cur i (-1) u v = 0 ∨
        setAt2 st.spanTreeAndBackEdges cur i (-1) u v = 1 ∨
        setAt2 st.spanTreeAndBackEdges cur i (-1) u v = -1 := by
      intro u v
      by_cases hp : u = cur ∧ v = i
      · rw [hp.1, hp.2, setAt2_same]; decide
      · rw [setAt2_ne _ _ _ _ _ _ hp]; exact h.inv.vals u v
    exact key
  · intro u v huv
    have huv' : setAt2 st.spanTreeAndBackEdges cur i (-1) u v ≠ 0 := huv
    by_cases hp : u = cur ∧ v = i
    · rw [hp.1, hp.2]
      exact ⟨h.curVis, hn, hi, hc.1, fun hh => hc.2 hh.symm⟩
    · rw [setAt2_ne _ _ _ _ _ _ hp] at huv'
      exact h.inv.nz u v huv'
  · obtain ⟨d, hd1, hd2, hd3⟩ := h.inv.rank
    refine ⟨d, hd1, hd2, ?_⟩
    intro u v huv
    have huv' : setAt2 st.spanTreeAndBackEdges cur i (-1) u v = 1 := huv
    by_cases hp : u = cur ∧ v = i
    · rw [hp.1, hp.2, setAt2_same] at huv'
      exact absurd huv' (by decide)
    · rw [setAt2_ne _ _ _ _ _ _ hp] at huv'
      exact hd3 u v huv'
  · intro u hu v
    have huc : u ≠ cur := by
      rintro rfl
      exact hu hcur0
    show setAt2 st.spanTreeAndBackEdges cur i (-1) u v = _
    rw [hne u v huc]
    exact h.rows u hu v
  · intro v hv
    show setAt2 st.spanTreeAndBackEdges cur i (-1) cur v = 0
    rw [setAt2_ne _ _ _ _ _ _ (fun hh => by omega)]
    exact h.rowCur v (by omega)
  · intro v hv hav hcv
    show setAt2 st.spanTreeAndBackEdges cur i (-1) cur v ≠ 0 ∧ _
    rcases Nat.lt_succ_iff_lt_or_eq.mp hv with hlt | rfl
    · rw [setAt2_ne _ _ _ _ _ _ (fun hh => by omega)]
      exact h.rowDone v hlt hav hcv
    · rw [setAt2_same]
      exact ⟨by decide, hvi⟩
  · intro u hu0 hu1 huc v hv hav huv
    show setAt2 st.spanTreeAndBackEdges cur i (-1) u v ≠ 0 ∧ _
    rw [hne u v huc]
    exact h.complete u hu0 hu1 huc v hv hav huv
  · show (entrySet n (setAt2 st.spanTreeAndBackEdges cur i (-1)) 1).card + _ + 1 = _
    rw [entrySet_setAt2_neg n _ cur i h0]
    exact h.ones

/-- The state handed to the recursive call satisfies the invariant. -/
theorem spanInv_tree (adjMat : Nat → Nat → Int) (n : Nat) (st0 : SpanState) (cur i : Nat)
    (st : SpanState) (h : SpanLoop adjMat n st0 cur i st)
    (hn : cur < n) (hi : i < n) (hc : adjMat cur i = 1 ∧ i ≠ cur) (hvi : st.visited i = 0) :
    SpanInv adjMat n { st with spanTreeAndBackEdges := setAt2 st.spanTreeAndBackEdges cur i 1 } := by
  refine ⟨?_, ?_, h.inv.visLt, ?_⟩
  · have key : ∀ u v, setAt2 st.spanTreeAndBackEdges cur i 1 u v = 0 ∨
        setAt2 st.spanTreeAndBackEdges cur i 1 u v = 1 ∨
        setAt2 st.spanTreeAndBackEdges cur i 1 u v = -1 := by
      intro u v
      by_cases hp : u = cur ∧ v = i
      · rw [hp.1, hp.2, setAt2_same]; decide
      · rw [setAt2_ne _ _ _ _ _ _ hp]; exact h.inv.vals u v
    exact key
  · intro u v huv
    have huv' : setAt2 st.spanTreeAndBackEdges cur i 1 u v ≠ 0 := huv
    by_cases hp : u = cur ∧ v = i
    · rw [hp.1, hp.2]
      exact ⟨h.curVis, hn, hi, hc.1, fun hh => hc.2 hh.symm⟩
    · rw [setAt2_ne _ _ _ _ _ _ hp] at huv'
      exact h.inv.nz u v huv'
  · obtain ⟨d, hd1, hd2, hd3⟩ := h.inv.rank
    refine ⟨d, hd1, hd2, ?_⟩
    intro u v huv
    have huv' : setAt2 st.spanTreeAndBackEdges cur i 1 u v = 1 := huv
    by_cases hp : u = cur ∧ v = i
    · rw [hp.1, hp.2, hd2 i hvi]
      have := hd1 cur h.curVis
      have := visitedSet_card_le n st.visited
      omega
    · rw [setAt2_ne _ _ _ _ _ _ hp] at huv'
      exact hd3 u v huv'

theorem spanLoop_tree (adjMat : Nat → Nat → Int) (n : Nat) (st0 : SpanState) (cur i : Nat)
    (st st' : SpanState) (h : SpanLoop adjMat n st0 cur i st) (hcur0 : st0.visited cur = 0)
    (hn : cur < n) (hi : i < n) (hc : adjMat cur i = 1 ∧ i ≠ cur) (hvi : st.visited i = 0)
    (hp : SpanPost adjMat n
      { st with spanTreeAndBackEdges := setAt2 st.spanTreeAndBackEdges cur i 1 } st' i) :
    SpanLoop adjMat n st0 cur (i + 1) st' := by
  have h0 : st.spanTreeAndBackEdges cur i = 0 := h.rowCur i (le_refl i)
  have hrows : ∀ u, st.visited u ≠ 0 → ∀ v,
      st'.spanTreeAndBackEdges u v = setAt2 st.spanTreeAndBackEdges cur i 1 u v :=
    fun u hu v => hp.rows u hu v
  have hmono : ∀ v, st.visited v ≠ 0 → st'.visited v ≠ 0 := fun v hv => hp.mono v hv
  refine ⟨hp.inv, fun v hv => hmono v (h.mono v hv), hmono cur h.curVis, ?_, ?_, ?_, ?_, ?_, ?_⟩
  · intro u hu v
    have huc : u ≠ cur := by
      rintro rfl
      exact hu hcur0
    rw [hrows u (h.mono u hu) v, setAt2_ne _ _ _ _ _ _ (fun hh => huc hh.1)]
    exact h.rows u hu v
  · intro v hv
    rw [hrows cur h.curVis v, setAt2_ne _ _ _ _ _ _ (fun hh => by omega)]
    exact h.rowCur v (by omega)
  · intro v hv hav hcv
    rw [hrows cur h.curVis v]
    rcases Nat.lt_succ_iff_lt_or_eq.mp hv with hlt | rfl
    · rw [setAt2_ne _ _ _ _ _ _ (fun hh => by omega)]
      obtain ⟨h1, h2⟩ := h.rowDone v hlt hav hcv
      exact ⟨h1, hmono v h2⟩
    · rw [setAt2_same]
      exact ⟨by decide, hp.curVis⟩
  · intro u hu0 hu1 huc v hv hav huv
    by_cases hus : st.visited u = 0
    · exact hp.complete u hus hu1 v hv hav huv
    · rw [hrows u hus v, setAt2_ne _ _ _ _ _ _ (fun hh => huc hh.1)]
      obtain ⟨h1, h2⟩ := h.complete u hu0 hus huc v hv hav huv
      exact ⟨h1, hmono v h2⟩
  · intro u hu0 hu1
    by_cases hus : st.visited u = 0
    · exact (Relation.ReflTransGen.single ⟨hn, hi, hc.1⟩).trans (hp.reach u hus hu1)
    · exact h.reach u hu0 hus
  · have h1 := hp.ones
    have h2 := h.ones
    have h3 := entrySet_setAt2_one n st.spanTreeAndBackEdges cur i hn hi h0
    have h1' : (entrySet n st'.spanTreeAndBackEdges 1).card + (visitedSet n st.visited).card + 1 =
        (entrySet n (setAt2 st.spanTreeAndBackEdges cur i 1) 1).card
          + (visitedSet n st'.visited).card := h1
    omega

theorem spanPost_of_loop (adjMat : Nat → Nat → Int) (n : Nat) (st0 : SpanState) (cur : Nat)
    (st : SpanState) (h : SpanLoop adjMat n st0 cur n st) : SpanPost adjMat n st0 st cur := by
  refine ⟨h.inv, h.mono, h.curVis, h.rows, ?_, h.reach, h.ones⟩
  intro u hu0 hu1 v hv hav huv
  by_cases huc : u = cur
  · subst huc
    exact h.rowDone v hv hav huv
  · exact h.complete u hu0 hu1 huc v hv hav huv

/-- `STWBE_DFS` returns when the bound covers the unvisited nodes, and
establishes its postcondition. -/
theorem STWBE_DFS_spec (adjMat : Nat → Nat → Int) (n : Nat) (fuel : Nat) :
    ∀ (cur : Nat) (st0 : SpanState), SpanInv adjMat n st0 → st0.visited cur = 0 → cur < n →
      n ≤ fuel + (visitedSet n st0.visited).card →
      ∃ st, STWBE_DFS adjMat n fuel cur st0 = some st ∧ SpanPost adjMat n st0 st cur := by
  induction fuel with
  | zero =>
    intro cur st0 _ hcur0 hn hfuel
    have h1 := unvisited_lt n st0.visited (setAt st0.visited cur 1)
      (by
        intro v hv
        by_cases hvc : v = cur
        · rw [hvc, setAt_same]; decide
        · rw [setAt_ne _ _ _ _ hvc]; exact hv) cur hn hcur0 (by rw [setAt_same]; decide)
    have h2 := visitedSet_card_le n (setAt st0.visited cur 1)
    omega
  | succ fuel ih =>
    intro cur st0 hinv0 hcur0 hn hfuel
    unfold STWBE_DFS
    have hloop := foldl_range_inv
      (fun (acc : Option SpanState) (i : Nat) =>
        acc.bind (fun s =>
          if adjMat cur i = 1 ∧ i ≠ cur then
            if s.visited i = 0 then
              STWBE_DFS adjMat n fuel i
                { s with spanTreeAndBackEdges := setAt2 s.spanTreeAndBackEdges cur i 1 }
            else some { s with spanTreeAndBackEdges := setAt2 s.spanTreeAndBackEdges cur i (-1) }
          else some s))
      (fun i acc => ∃ st, acc = some st ∧ SpanLoop adjMat n st0 cur i st) n
      (some { st0 with visited := setAt st0.visited cur 1 })
      ⟨_, rfl, spanLoop_init adjMat n st0 cur hinv0 hcur0 hn⟩
      (by
        rintro i hi acc ⟨st, rfl, hL⟩
        simp only [Option.some_bind]
        by_cases hc : adjMat cur i = 1 ∧ i ≠ cur
        · rw [if_pos hc]
          by_cases hvi : st.visited i = 0
          · rw [if_pos hvi]
            have hlt := unvisited_lt n st0.visited st.visited hL.mono cur hn hcur0 hL.curVis
            obtain ⟨st', hst', hpost⟩ := ih i
              { st with spanTreeAndBackEdges := setAt2 st.spanTreeAndBackEdges cur i 1 }
              (spanInv_tree adjMat n st0 cur i st hL hn hi hc hvi) hvi hi
              (by
                show n ≤ fuel + (visitedSet n st.visited).card
                omega)
            exact ⟨st', hst', spanLoop_tree adjMat n st0 cur i st st' hL hcur0 hn hi hc hvi hpost⟩
          · rw [if_neg hvi]
            exact ⟨_, rfl, spanLoop_back adjMat n st0 cur i st hL hcur0 hn hi hc hvi⟩
        · rw [if_neg hc]
          exact ⟨_, rfl, spanLoop_skip adjMat n st0 cur i st hL hc⟩)
    obtain ⟨st, hst, hL⟩ := hloop
    exact ⟨st, hst, spanPost_of_loop adjMat n st0 cur st hL⟩

theorem getSubAdjMat_eq_one (adjMat : Nat → Nat → Int) (c : List Nat) (u v : Nat) :
    getSubAdjMat adjMat c u v = 1 ↔ (u ∈ c ∧ v ∈ c ∧ adjMat u v = 1) := by
  unfold getSubAdjMat
  by_cases h : u ∈ c ∧ v ∈ c
  · rw [if_pos h]
    tauto
  · rw [if_neg h]
    constructor
    · intro h0; exact absurd h0 (by decide)
    · rintro ⟨h1, h2, _⟩; exact absurd ⟨h1, h2⟩ h

/-- Inside a class of mutual reachability every node reaches every other one
along arcs of the induced subgraph. -/
theorem reach_sub_of_class (adjMat : Nat → Nat → Int) (n : Nat) (c : List Nat)
    (hc : IsReachClass adjMat n c) (w : Nat) (hw : w ∈ c) :
    ∀ a, Reach adjMat n a w → a ∈ c → Reach (getSubAdjMat adjMat c) n a w := by
  intro a hr
  induction hr using Relation.ReflTransGen.head_induction_on with
  | refl => intro _; exact Relation.ReflTransGen.refl
  | head harc hrest ih =>
    rename_i a b
    intro ha
    have hwa : Reach adjMat n w a := ((hc a ha w).mp hw).2
    have hb : b ∈ c := (hc a ha b).mpr ⟨Relation.ReflTransGen.single harc, hrest.trans hwa⟩
    exact Relation.ReflTransGen.head
      ⟨harc.1, harc.2.1, (getSubAdjMat_eq_one adjMat c a b).mpr ⟨ha, hb, harc.2.2⟩⟩ (ih hb)

theorem reach_sub_mem (adjMat : Nat → Nat → Int) (n : Nat) (c : List Nat) (r : Nat) (hr : r ∈ c)
    (u : Nat) (h : Reach (getSubAdjMat adjMat c) n r u) : u ∈ c := by
  induction h with
  | refl => exact hr
  | tail _ harc _ => exact ((getSubAdjMat_eq_one adjMat c _ _).mp harc.2.2).2.1

/-- A class with more than one node has, for each of its nodes, an arc to
another node of the class. -/
theorem class_out_arc (adjMat : Nat → Nat → Int) (n : Nat) (c : List Nat)
    (hc : IsReachClass adjMat n c) (hnd : c.Nodup) (hlen : c.length > 1) (u : Nat) (hu : u ∈ c) :
    ∃ x, x ∈ c ∧ x ≠ u ∧ x < n ∧ u < n ∧ adjMat u x = 1 := by
  -- another node `w` of the class
  have hw : ∃ w, w ∈ c ∧ w ≠ u := by
    by_contra hno
    push_neg at hno
    have : c = [u] := by
      match c, hnd, hlen, hu, hno with
      | a :: b :: rest, hnd, _, _, hno =>
        exfalso
        have ha := hno a (by simp)
        have hb := hno b (by simp)
        rw [List.nodup_cons] at hnd
        exact hnd.1 (by rw [ha, hb]; simp)
    rw [this] at hlen
    simp at hlen
  obtain ⟨w, hw, hwu⟩ := hw
  have hr := ((hc u hu w).mp hw).1
  have hback := ((hc u hu w).mp hw).2
  -- the first arc of a path from `u` to `w` that leaves `u`
  have key : ∀ a, Reach adjMat n a w → a = u → ∃ x, x ∈ c ∧ x ≠ u ∧ x < n ∧ u < n ∧ adjMat u x = 1 := by
    intro a hra
    induction hra using Relation.ReflTransGen.head_induction_on with
    | refl => intro h; exact absurd h hwu
    | head harc hrest ih =>
      rename_i a b
      intro ha
      subst ha
      by_cases hb : b = a
      · exact ih hb
      · have hbc : b ∈ c :=
          (hc a hu b).mpr ⟨Relation.ReflTransGen.single harc, hrest.trans hback⟩
        exact ⟨b, hbc, hb, harc.2.1, harc.1, harc.2.2⟩
  exact key u hr rfl

theorem findStartNode_spec (adjMat : Nat → Nat → Int) (n : Nat) (c : List Nat)
    (hc : IsReachClass adjMat n c) (hnd : c.Nodup) (hlen : c.length > 1) :
    ∃ r, findStartNode (getSubAdjMat adjMat c) n = some r ∧ r ∈ c ∧ r < n := by
  obtain ⟨u, hu⟩ : ∃ u, u ∈ c := by
    cases c with
    | nil => simp at hlen
    | cons a t => exact ⟨a, by simp⟩
  obtain ⟨x, hx, _, hxn, hun, harc⟩ := class_out_arc adjMat n c hc hnd hlen u hu
  unfold findStartNode
  cases hf : (List.range n).find? (fun i => (List.range n).any
      (fun j => decide (getSubAdjMat adjMat c i j = 1))) with
  | none =>
    exfalso
    rw [List.find?_eq_none] at hf
    have := hf u (List.mem_range.mpr hun)
    apply this
    rw [List.any_eq_true]
    exact ⟨x, List.mem_range.mpr hxn, by
      rw [decide_eq_true_eq]
      exact (getSubAdjMat_eq_one adjMat c u x).mpr ⟨hu, hx, harc⟩⟩
  | some r =>
    refine ⟨r, rfl, ?_, List.mem_range.mp (List.mem_of_find?_eq_some hf)⟩
    have hp := List.find?_some hf
    rw [List.any_eq_true] at hp
    obtain ⟨j, _, hj⟩ := hp
    rw [decide_eq_true_eq] at hj
    exact ((getSubAdjMat_eq_one adjMat c r j).mp hj).1

theorem spanInv_init (adjMat : Nat → Nat → Int) (n : Nat) :
    SpanInv adjMat n { spanTreeAndBackEdges := fun _ _ => 0, visited := fun _ => 0 } := by
  refine ⟨fun _ _ => Or.inl rfl, fun u v h => absurd rfl h, fun v h => absurd rfl h,
    ⟨fun _ => n, fun v h => absurd rfl h, fun _ _ => rfl, ?_⟩⟩
  intro u v h
  have h' : (0 : Int) = 1 := h
  exact absurd h' (by decide)

/-- `spanTreeWithBackEdges` on the subgraph induced by a class of mutual
reachability with more than one node: it returns, every arc inside the class
that is no self-loop (and nothing else) is marked 1 or -1, there is one tree
entry less than nodes in the class, and the tree entries go upwards along a
numbering bounded by `n`. -/
theorem spanTreeWithBackEdges_spec (adjMat : Nat → Nat → Int) (n : Nat) (c : List Nat)
    (hc : IsReachClass adjMat n c) (hnd : c.Nodup) (hlen : c.length > 1)
    (hlt : ∀ v ∈ c, v < n) :
    ∃ M, spanTreeWithBackEdges (getSubAdjMat adjMat c) n = some M ∧
      (∀ u v, M u v = 0 ∨ M u v = 1 ∨ M u v = -1) ∧
      (∀ u v, M u v ≠ 0 ↔ (u ≠ v ∧ u ∈ c ∧ v ∈ c ∧ adjMat u v = 1)) ∧
      (entrySet n M 1).card + 1 = c.length ∧
      (∃ d : Nat → Nat, (∀ v, d v ≤ n) ∧ ∀ u v, M u v = 1 → d u < d v) := by
  obtain ⟨r, hr, hrc, hrn⟩ := findStartNode_spec adjMat n c hc hnd hlen
  obtain ⟨st, hst, hpost⟩ := STWBE_DFS_spec (getSubAdjMat adjMat c) n n r
    { spanTreeAndBackEdges := fun _ _ => 0, visited := fun _ => 0 }
    (spanInv_init _ n) rfl hrn (Nat.le_add_right n _)
  have hvis : ∀ u, st.visited u ≠ 0 ↔ u ∈ c := by
    intro u
    constructor
    · intro hu
      exact reach_sub_mem adjMat n c r hrc u (hpost.reach u rfl hu)
    · intro hu
      have hreach : Reach (getSubAdjMat adjMat c) n r u :=
        reach_sub_of_class adjMat n c hc u hu r ((hc r hrc u).mp hu).1 hrc
      exact reach_closed (getSubAdjMat adjMat c) n (fun w => st.visited w ≠ 0)
        (by
          intro a b ha hab
          by_cases heq : a = b
          · rw [← heq]; exact ha
          · exact (hpost.complete a rfl ha b hab.2.1 hab.2.2 heq).2)
        r u hpost.curVis hreach
  have hset : visitedSet n st.visited = c.toFinset := by
    ext v
    rw [mem_visitedSet, List.mem_toFinset, hvis]
    exact ⟨fun h => h.2, fun h => ⟨hlt v h, h⟩⟩
  have hcard : (visitedSet n st.visited).card = c.length := by
    rw [hset, List.toFinset_card_of_nodup hnd]
  refine ⟨st.spanTreeAndBackEdges, ?_, hpost.inv.vals, ?_, ?_, ?_⟩
  · unfold spanTreeWithBackEdges
    rw [hr]
    simp only
    rw [hst]
    rfl
  · intro u v
    constructor
    · intro huv
      obtain ⟨h1, _, _, h4, h5⟩ := hpost.inv.nz u v huv
      obtain ⟨h6, h7, h8⟩ := (getSubAdjMat_eq_one adjMat c u v).mp h4
      exact ⟨h5, h6, h7, h8⟩
    · rintro ⟨h1, h2, h3, h4⟩
      exact (hpost.complete u rfl ((hvis u).mpr h2) v (hlt v h3)
        ((getSubAdjMat_eq_one adjMat c u v).mpr ⟨h2, h3, h4⟩) h1).1
  · have h1 := hpost.ones
    have h2 : (visitedSet n (fun _ => (0 : Int))).card = 0 := by
      rw [Finset.card_eq_zero]
      ext v
      rw [mem_visitedSet]
      simp
    have h3 : (entrySet n (fun _ _ => (0 : Int)) 1).card = 0 := by
      rw [Finset.card_eq_zero]
      ext p
      rw [mem_entrySet]
      simp
    have h1' : (entrySet n st.spanTreeAndBackEdges 1).card
        + (visitedSet n (fun _ => (0 : Int))).card + 1
        = (entrySet n (fun _ _ => (0 : Int)) 1).card + (visitedSet n st.visited).card := h1
    omega
  · obtain ⟨d, hd1, hd2, hd3⟩ := hpost.inv.rank
    refine ⟨d, ?_, hd3⟩
    intro v
    by_cases hv : st.visited v = 0
    · rw [hd2 v hv]
    · have := hd1 v hv
      have := visitedSet_card_le n st.visited
      omega

/-- The number of entries `-1` of the matrix of `spanTreeWithBackEdges_spec`. -/
theorem backEdge_count (adjMat : Nat → Nat → Int) (n : Nat) (c : List Nat)
    (M : Nat → Nat → Int) (hvals : ∀ u v, M u v = 0 ∨ M u v = 1 ∨ M u v = -1)
    (hnz : ∀ u v, M u v ≠ 0 ↔ (u ≠ v ∧ u ∈ c ∧ v ∈ c ∧ adjMat u v = 1))
    (hones : (entrySet n M 1).card + 1 = c.length) :
    (entrySet n M (-1)).card = numArcsWithin adjMat n c - (c.length - 1) := by
  have hunion : (Finset.range n ×ˢ Finset.range n).filter
      (fun p => p.1 ≠ p.2 ∧ p.1 ∈ c ∧ p.2 ∈ c ∧ adjMat p.1 p.2 = 1)
      = entrySet n M 1 ∪ entrySet n M (-1) := by
    ext p
    rw [Finset.mem_union, mem_entrySet, mem_entrySet, Finset.mem_filter, Finset.mem_product,
      Finset.mem_range, Finset.mem_range, ← hnz]
    constructor
    · rintro ⟨⟨h1, h2⟩, h3⟩
      rcases hvals p.1 p.2 with h | h | h
      · exact absurd h h3
      · exact Or.inl ⟨h1, h2, h⟩
      · exact Or.inr ⟨h1, h2, h⟩
    · rintro (⟨h1, h2, h3⟩ | ⟨h1, h2, h3⟩)
      · exact ⟨⟨h1, h2⟩, by rw [h3]; decide⟩
      · exact ⟨⟨h1, h2⟩, by rw [h3]; decide⟩
  have hdisj : Disjoint (entrySet n M 1) (entrySet n M (-1)) := by
    rw [Finset.disjoint_left]
    intro p hp hq
    rw [mem_entrySet] at hp hq
    rw [hp.2.2] at hq
    exact absurd hq.2.2 (by decide)
  unfold numArcsWithin
  rw [hunion, Finset.card_union_of_disjoint hdisj]
  omega

theorem getBackEdges_length (M : Nat → Nat → Int) (n : Nat) :
    (getBackEdges M n).length = (entrySet n M (-1)).card := by
  have hnd : (getBackEdges M n).Nodup := by
    unfold getBackEdges
    rw [List.nodup_flatMap]
    constructor
    · intro i _
      exact ((List.nodup_range n).filter _).map (fun a b h => (Prod.mk.inj h).2)
    · refine (List.nodup_range n).imp ?_
      intro i j hij
      show List.Disjoint _ _
      intro p hp hq
      rw [List.mem_map] at hp hq
      obtain ⟨a, _, rfl⟩ := hp
      obtain ⟨b, _, hb⟩ := hq
      exact hij (Prod.mk.inj hb).1.symm
  have hset : (getBackEdges M n).toFinset = entrySet n M (-1) := by
    ext p
    rw [List.mem_toFinset, mem_entrySet]
    unfold getBackEdges
    rw [List.mem_flatMap]
    constructor
    · rintro ⟨i, hi, hp⟩
      rw [List.mem_map] at hp
      obtain ⟨j, hj, rfl⟩ := hp
      rw [List.mem_filter, decide_eq_true_eq] at hj
      exact ⟨List.mem_range.mp hi, List.mem_range.mp hj.1, hj.2⟩
    · rintro ⟨h1, h2, h3⟩
      refine ⟨p.1, List.mem_range.mpr h1, ?_⟩
      rw [List.mem_map]
      exact ⟨p.2, by rw [List.mem_filter, decide_eq_true_eq]; exact ⟨List.mem_range.mpr h2, h3⟩, rfl⟩
  rw [← hset, List.toFinset_card_of_nodup hnd]

theorem pathLoop_isSome (adjMat : Nat → Nat → Int) (cur : Nat)
    (recCall : Nat → List Nat → Option (Int × List Nat)) (l : List Nat)
    (h : ∀ i ∈ l, adjMat cur i = 1 ∧ i ≠ cur → ∀ p, ∃ r, recCall i p = some r) :
    ∀ path, ∃ r, pathLoop adjMat cur recCall l path = some r := by
  induction l with
  | nil => intro path; exact ⟨_, rfl⟩
  | cons i is ih =>
    intro path
    have ih' := ih (fun j hj => h j (by simp [hj]))
    unfold pathLoop
    by_cases hc : adjMat cur i = 1 ∧ i ≠ cur
    · rw [if_pos hc]
      obtain ⟨⟨r, p'⟩, hr⟩ := h i (by simp) hc path
      rw [hr]
      simp only
      by_cases hr1 : r = 1
      · rw [if_pos hr1]; exact ⟨_, rfl⟩
      · rw [if_neg hr1]; exact ih' p'
    · rw [if_neg hc]
      exact ih' path

/-- `pathInSpanningTreeDFS` returns on a matrix whose 1-entries go upwards
along a numbering bounded by `n`, when the bound exceeds the distance of the
numbering of `cur` from `n`. -/
theorem pathInSpanningTreeDFS_isSome (T : Nat → Nat → Int) (n : Nat) (d : Nat → Nat)
    (hd : ∀ v, d v ≤ n) (hup : ∀ u v, T u v = 1 → d u < d v) (fuel : Nat) :
    ∀ (cur endNode : Nat) (path : List Nat), n - d cur < fuel →
      ∃ r, pathInSpanningTreeDFS T n fuel cur endNode path = some r := by
  induction fuel with
  | zero => intro cur _ _ h; omega
  | succ fuel ih =>
    intro cur endNode path hfuel
    unfold pathInSpanningTreeDFS
    by_cases hce : cur = endNode
    · rw [if_pos hce]; exact ⟨_, rfl⟩
    · rw [if_neg hce]
      apply pathLoop_isSome
      intro i _ hc p
      have h1 := hup cur i hc.1
      have h2 := hd i
      exact ih i endNode p (by omega)

theorem stripNeg_eq_one (M : Nat → Nat → Int) (u v : Nat) :
    stripNeg M u v = 1 ↔ M u v = 1 := by
  unfold stripNeg
  by_cases h : M u v = -1
  · rw [if_pos h, h]
    constructor <;> intro h' <;> exact absurd h' (by decide)
  · rw [if_neg h]

theorem pathInSpanningTree_isSome (M : Nat → Nat → Int) (n : Nat) (d : Nat → Nat)
    (hd : ∀ v, d v ≤ n) (hup : ∀ u v, M u v = 1 → d u < d v) (s e : Nat) :
    ∃ p, pathInSpanningTree (stripNeg M) n s e = some p := by
  obtain ⟨⟨r, path⟩, hr⟩ := pathInSpanningTreeDFS_isSome (stripNeg M) n d hd
    (fun u v h => hup u v ((stripNeg_eq_one M u v).mp h)) (n + 1) s e [] (by omega)
  unfold pathInSpanningTree
  rw [hr]
  simp only
  split
  · exact ⟨_, rfl⟩
  · exact ⟨_, rfl⟩

theorem collect_spec {α β : Type} (f : α → Option β) (P : α → β → Prop) (l : List α)
    (h : ∀ a ∈ l, ∃ b, f a = some b ∧ P a b) :
    ∃ bs, collect f l = some bs ∧ List.Forall₂ P l bs := by
  induction l with
  | nil => exact ⟨[], rfl, List.Forall₂.nil⟩
  | cons a as ih =>
    obtain ⟨b, hb, hP⟩ := h a (by simp)
    obtain ⟨bs, hbs, hF⟩ := ih (fun x hx => h x (by simp [hx]))
    refine ⟨b :: bs, ?_, List.Forall₂.cons hP hF⟩
    unfold collect
    rw [hb]
    simp only
    rw [hbs]

/-- The number of lists `getMinCycles` pushes for one component. -/
theorem cyclesOfComponent_spec (adjMat : Nat → Nat → Int) (n : Nat) (c : List Nat)
    (hc : IsReachClass adjMat n c) (hnd : c.Nodup) (hlt : ∀ v ∈ c, v < n) :
    ∃ L, cyclesOfComponent adjMat n c = some L ∧
      L.length = if c.length > 1 then numArcsWithin adjMat n c - (c.length - 1) else 0 := by
  unfold cyclesOfComponent
  by_cases hlen : c.length > 1
  · rw [if_pos hlen, if_pos hlen]
    obtain ⟨M, hM, hvals, hnz, hones, d, hd, hup⟩ :=
      spanTreeWithBackEdges_spec adjMat n c hc hnd hlen hlt
    rw [hM]
    simp only
    obtain ⟨L, hL, hF⟩ := collect_spec
      (fun e : Nat × Nat => pathInSpanningTree (stripNeg M) n e.2 e.1) (fun _ _ => True)
      (getBackEdges M n)
      (fun e _ => by
        obtain ⟨p, hp⟩ := pathInSpanningTree_isSome M n d hd hup e.2 e.1
        exact ⟨p, hp, trivial⟩)
    refine ⟨L, hL, ?_⟩
    rw [← hF.length_eq, getBackEdges_length, backEdge_count adjMat n c M hvals hnz hones]
  · rw [if_neg hlen, if_neg hlen]
    exact ⟨[], rfl, rfl⟩

theorem sum_map_ite_eq_filter (l : List (List Nat)) (g : List Nat → Nat) :
    (l.map (fun c => if c.length > 1 then g c else 0)).sum
      = ((l.filter (fun c => decide (c.length > 1))).map g).sum := by
  induction l with
  | nil => rfl
  | cons a l ih =>
    rw [List.map_cons, List.sum_cons, ih]
    by_cases h : a.length > 1
    · rw [if_pos h, List.filter_cons_of_pos (by simpa using h), List.map_cons, List.sum_cons]
    · rw [if_neg h, List.filter_cons_of_neg (by simpa using h), Nat.zero_add]

theorem forall2_map_eq {α β : Type} (f : β → Nat) (g : α → Nat) (l₁ : List α) (l₂ : List β)
    (h : List.Forall₂ (fun a b => f b = g a) l₁ l₂) : l₂.map f = l₁.map g := by
  induction h with
  | nil => rfl
  | cons hab _ ih => rw [List.map_cons, List.map_cons, hab, ih]

/-- `getMinCycles` returns, and the number of returned lists is the sum of the
numbers of `cyclesOfComponent_spec` over the components. -/
theorem getMinCycles_spec (adjMat : Nat → Nat → Int) (n : Nat) :
    ∃ comps cycles, tarjan adjMat n = some comps ∧ getMinCycles adjMat n = some cycles ∧
      (∀ c ∈ comps, c ≠ [] ∧ c.Nodup) ∧
      (∀ v, v < n ↔ ∃ c ∈ comps, v ∈ c) ∧
      (∀ c ∈ comps, IsReachClass adjMat n c) ∧
      cycles.length = ((comps.filter (fun c => decide (c.length > 1))).map
        (fun c => numArcsWithin adjMat n c - (c.length - 1))).sum := by
  obtain ⟨comps, h1, h2, _, h4, h5⟩ := tarjan_spec adjMat n
  obtain ⟨Ls, hLs, hF⟩ := collect_spec (cyclesOfComponent adjMat n)
    (fun c L => L.length = if c.length > 1 then numArcsWithin adjMat n c - (c.length - 1) else 0)
    comps
    (fun c hc => cyclesOfComponent_spec adjMat n c (h5 c hc) (h2 c hc).2
      (fun v hv => (h4 v).mpr ⟨c, hc, hv⟩))
  refine ⟨comps, Ls.flatten, h1, ?_, h2, h4, h5, ?_⟩
  · unfold getMinCycles
    rw [h1]
    simp only
    rw [hLs]
    rfl
  · rw [List.length_flatten, ← sum_map_ite_eq_filter]
    rw [forall2_map_eq _ _ comps Ls hF]

theorem numArcsWithin_ge_length (adjMat : Nat → Nat → Int) (n : Nat) (c : List Nat)
    (hc : IsReachClass adjMat n c) (hnd : c.Nodup) (hlen : c.length > 1) :
    c.length ≤ numArcsWithin adjMat n c := by
  classical
  have hex : ∀ u, ∃ x, u ∈ c → (x ∈ c ∧ x ≠ u ∧ x < n ∧ u < n ∧ adjMat u x = 1) := by
    intro u
    by_cases hu : u ∈ c
    · obtain ⟨x, hx⟩ := class_out_arc adjMat n c hc hnd hlen u hu
      exact ⟨x, fun _ => hx⟩
    · exact ⟨0, fun h => absurd h hu⟩
  choose f hf using hex
  have hcard : c.length = c.toFinset.card := (List.toFinset_card_of_nodup hnd).symm
  rw [hcard]
  unfold numArcsWithin
  apply Finset.card_le_card_of_injOn (fun u => (u, f u))
  · intro u hu
    have hu' : u ∈ c := by simpa using hu
    obtain ⟨h1, h2, h3, h4, h5⟩ := hf u hu'
    simp only [Finset.mem_coe, Finset.mem_filter, Finset.mem_product, Finset.mem_range]
    exact ⟨⟨h4, h3⟩, fun h => h2 h.symm, hu', h1, h5⟩
  · intro u _ v _ huv
    exact (Prod.mk.inj huv).1

theorem not_nodup_split {α : Type} (l : List α) (h : ¬ l.Nodup) :
    ∃ A y B C, l = A ++ y :: (B ++ y :: C) := by
  induction l with
  | nil => exact absurd List.nodup_nil h
  | cons a tl ih =>
    rw [List.nodup_cons, not_and_or, not_not] at h
    rcases h with h | h
    · obtain ⟨B, C, hBC⟩ := List.append_of_mem h
      exact ⟨[], a, B, C, by rw [hBC]; rfl⟩
    · obtain ⟨A, y, B, C, hl⟩ := ih h
      exact ⟨a :: A, y, B, C, by rw [hl]; rfl⟩

theorem chain_mem_target {α : Type} (R : α → α → Prop) (l : List α) :
    ∀ a, List.Chain R a l → ∀ y ∈ l, ∃ z, R z y := by
  induction l with
  | nil => intro a _ y hy; cases hy
  | cons b tl ih =>
    intro a h y hy
    rw [List.chain_cons] at h
    rcases List.mem_cons.1 hy with rfl | hy
    · exact ⟨a, h.1⟩
    · exact ih b h.2 y hy

theorem simple_of_closed_walk (adjMat : Nat → Nat → Int) (n : Nat) (k : Nat) :
    ∀ x t, t.length < k → t ≠ [] →
      List.Chain (fun a b => Arc adjMat n a b ∧ a ≠ b) x (t ++ [x]) →
      ∃ cyc, IsSimpleCycle adjMat n cyc := by
  induction k with
  | zero => intro x t h; omega
  | succ k ih =>
    intro x t hk hne hch
    by_cases hnd : (x :: t).Nodup
    · refine ⟨x :: t, ?_, hnd, ?_, ?_⟩
      · cases t with
        | nil => exact absurd rfl hne
        | cons a t => simp
      · intro y hy
        have hy' : y ∈ t ++ [x] := by
          rcases List.mem_cons.1 hy with rfl | hy
          · simp
          · simp [hy]
        obtain ⟨z, hz, _⟩ := chain_mem_target _ _ x hch y hy'
        exact hz.2.1
      · have h2 : List.Chain (fun a b => adjMat a b = 1) x (t ++ [x]) :=
          hch.imp (fun a b h => h.1.2.2)
        have h3 := (chain_closed_iff (fun a b => adjMat a b = 1) x t).1 h2
        simpa using h3
    · obtain ⟨A, y, B, C, hl⟩ := not_nodup_split (x :: t) hnd
      have hinf : (y :: (B ++ [y])) <:+: ((x :: t) ++ [x]) := by
        refine ⟨A, C ++ [x], ?_⟩
        rw [hl]
        simp
      have hch' : List.Chain' (fun a b => Arc adjMat n a b ∧ a ≠ b) ((x :: t) ++ [x]) := hch
      have h4 : List.Chain (fun a b => Arc adjMat n a b ∧ a ≠ b) y (B ++ [y]) :=
        hch'.infix hinf
      have hB : B ≠ [] := by
        rintro rfl
        simp only [List.nil_append, List.chain_cons] at h4
        exact h4.1.2 rfl
      have hlen : B.length < k := by
        have := congrArg List.length hl
        simp at this
        omega
      exact ih y B hlen hB h4

theorem reach_nonloop (adjMat : Nat → Nat → Int) (n : Nat) (u v : Nat)
    (h : Reach adjMat n u v) :
    Relation.ReflTransGen (fun a b => Arc adjMat n a b ∧ a ≠ b) u v := by
  induction h with
  | refl => exact Relation.ReflTransGen.refl
  | @tail b c _ hbc ih =>
    by_cases hbc' : b = c
    · rw [← hbc']; exact ih
    · exact ih.tail ⟨hbc, hbc'⟩

theorem simple_of_mutual_reach (adjMat : Nat → Nat → Int) (n : Nat) (u v : Nat) (huv : u ≠ v)
    (h1 : Reach adjMat n u v) (h2 : Reach adjMat n v u) :
    ∃ cyc, IsSimpleCycle adjMat n cyc := by
  obtain ⟨l1, hl1, hlast1⟩ := List.exists_chain_of_relationReflTransGen
    (reach_nonloop adjMat n u v h1)
  obtain ⟨l2, hl2, hlast2⟩ := List.exists_chain_of_relationReflTransGen
    (reach_nonloop adjMat n v u h2)
  have hne1 : l1 ≠ [] := by
    rintro rfl
    exact huv hlast1
  have hne2 : l2 ≠ [] := by
    rintro rfl
    exact huv hlast2.symm
  have hl2' : l2 = l2.dropLast ++ [u] := by
    have := (List.dropLast_append_getLast hne2).symm
    rw [List.getLast_cons hne2] at hlast2
    rw [hlast2] at this
    exact this
  have hl1' : (u :: l1).getLast (List.cons_ne_nil _ _) = v := hlast1
  have hch : List.Chain (fun a b => Arc adjMat n a b ∧ a ≠ b) u (l1 ++ l2) := by
    have a1 : List.Chain' (fun a b => Arc adjMat n a b ∧ a ≠ b) (u :: l1) := hl1
    have a2 : List.Chain' (fun a b => Arc adjMat n a b ∧ a ≠ b) (v :: l2) := hl2
    have a3 : List.Chain' (fun a b => Arc adjMat n a b ∧ a ≠ b) ((u :: l1) ++ l2) := by
      rw [List.chain'_append]
      refine ⟨a1, (List.chain'_cons'.1 a2).2, ?_⟩
      intro x hx y hy
      rw [List.getLast?_eq_getLast _ (List.cons_ne_nil _ _), hl1'] at hx
      cases (Option.some.inj hx)
      exact (List.chain'_cons'.1 a2).1 y hy
    exact a3
  rw [hl2', ← List.append_assoc] at hch
  exact simple_of_closed_walk adjMat n _ u (l1 ++ l2.dropLast) (Nat.lt_succ_self _)
    (by simp [hne1]) hch

theorem mutual_reach_of_simple (adjMat : Nat → Nat → Int) (n : Nat) (cyc : List Nat)
    (h : IsSimpleCycle adjMat n cyc) :
    ∃ u v, u ≠ v ∧ u < n ∧ Reach adjMat n u v ∧ Reach adjMat n v u := by
  obtain ⟨hlen, hnd, hlt, hch, hclose⟩ := h
  match cyc, hlen, hnd, hlt, hch, hclose with
  | a :: b :: rest, _, hnd, hlt, hch, hclose =>
    have hab : a ≠ b := by
      intro h
      rw [h] at hnd
      simp at hnd
    have hchA : List.Chain' (fun x y => Arc adjMat n x y) (a :: b :: rest) := by
      have h5 : ∀ l : List Nat, (∀ x ∈ l, x < n) → List.Chain' (fun x y => adjMat x y = 1) l →
          List.Chain' (fun x y => Arc adjMat n x y) l := by
        intro l
        induction l with
        | nil => intro _ _; exact List.chain'_nil
        | cons x tl ih =>
          intro hl hc
          rw [List.chain'_cons'] at hc ⊢
          refine ⟨?_, ih (fun y hy => hl y (List.mem_cons_of_mem _ hy)) hc.2⟩
          intro y hy
          have hy' : y ∈ tl := List.mem_of_mem_head? hy
          exact ⟨hl x (List.mem_cons_self _ _), hl y (List.mem_cons_of_mem _ hy'), hc.1 y hy⟩
      exact h5 _ hlt hch
    have hchB : List.Chain (fun x y => Arc adjMat n x y) b rest := by
      have := (List.chain'_cons'.1 hchA).2
      exact this
    have hbl : Reach adjMat n b ((b :: rest).getLast (List.cons_ne_nil _ _)) :=
      List.relationReflTransGen_of_exists_chain rest hchB rfl
    have hlast : (a :: b :: rest).getLastD 0 = (b :: rest).getLast (List.cons_ne_nil _ _) := by
      rw [List.getLastD_eq_getLast?, List.getLast?_eq_getLast _ (List.cons_ne_nil _ _)]
      simp
    rw [hlast] at hclose
    simp only [List.headD_cons] at hclose
    have hla : Arc adjMat n ((b :: rest).getLast (List.cons_ne_nil _ _)) a :=
      ⟨hlt _ (List.mem_cons_of_mem _ (List.getLast_mem _)), hlt a (List.mem_cons_self _ _), hclose⟩
    have hab' : Arc adjMat n a b :=
      (List.chain'_cons'.1 hchA).1 b rfl
    exact ⟨a, b, hab, hlt a (List.mem_cons_self _ _),
      Relation.ReflTransGen.single hab', hbl.tail hla⟩

/-! ### `getMinCycles`: number of lists and emptiness -/

/-- C8: on every matrix `getMinCycles` returns, and the number of lists it
returns is the sum, over the strongly connected components found by `tarjan`
that have more than one node, of the number of arcs `i → j`, `i ≠ j`, with both
ends in the component, minus the size of the component less one.  The
components are duplicate-free lists, each is a class of mutually reachable
nodes, together they cover the nodes, and no subtraction truncates. -/
theorem getMinCycles_one_list_per_back_edge (adjMat : Nat → Nat → Int) (n : Nat) :
    ∃ comps cycles, tarjan adjMat n = some comps ∧ getMinCycles adjMat n = some cycles ∧
      (∀ c ∈ comps, c.Nodup ∧ IsReachClass adjMat n c) ∧
      (∀ v, v < n ↔ ∃ c ∈ comps, v ∈ c) ∧
      (∀ c ∈ comps, c.length > 1 → c.length - 1 ≤ numArcsWithin adjMat n c) ∧
      cycles.length = ((comps.filter (fun c => decide (c.length > 1))).map
        (fun c => numArcsWithin adjMat n c - (c.length - 1))).sum := by
  obtain ⟨comps, cycles, h1, h2, h3, h4, h5, h6⟩ := getMinCycles_spec adjMat n
  refine ⟨comps, cycles, h1, h2, fun c hc => ⟨(h3 c hc).2, h5 c hc⟩, h4, ?_, h6⟩
  intro c hc hlen
  have := numArcsWithin_ge_length adjMat n c (h5 c hc) (h3 c hc).2 hlen
  omega

/-- C9: on every matrix `getMinCycles` returns, and the list it returns is
empty exactly when every strongly connected component found by `tarjan` has one
node, which in turn holds exactly when the graph has no simple directed cycle
on two or more nodes. -/
theorem getMinCycles_empty_iff_all_singletons (adjMat : Nat → Nat → Int) (n : Nat) :
    ∃ comps cycles, tarjan adjMat n = some comps ∧ getMinCycles adjMat n = some cycles ∧
      (cycles = [] ↔ ∀ c ∈ comps, c.length = 1) ∧
      ((∀ c ∈ comps, c.length = 1) ↔ ¬ ∃ cyc, IsSimpleCycle adjMat n cyc) := by
  obtain ⟨comps, cycles, h1, h2, h3, h4, h5, h6⟩ := getMinCycles_spec adjMat n
  refine ⟨comps, cycles, h1, h2, ⟨?_, ?_⟩, ⟨?_, ?_⟩⟩
  · intro hnil c hc
    by_contra hne
    have hpos : c.length ≠ 0 := fun h0 => (h3 c hc).1 (List.length_eq_zero.1 h0)
    have hlen : c.length > 1 := by omega
    have hge := numArcsWithin_ge_length adjMat n c (h5 c hc) (h3 c hc).2 hlen
    have hmem : numArcsWithin adjMat n c - (c.length - 1) ∈
        (comps.filter (fun c => decide (c.length > 1))).map
          (fun c => numArcsWithin adjMat n c - (c.length - 1)) :=
      List.mem_map.2 ⟨c, List.mem_filter.2 ⟨hc, by simpa using hlen⟩, rfl⟩
    have hle := List.single_le_sum (fun _ _ => Nat.zero_le _) _ hmem
    rw [← h6, hnil] at hle
    simp only [List.length_nil] at hle
    omega
  · intro hall
    have hf : comps.filter (fun c => decide (c.length > 1)) = [] := by
      rw [List.filter_eq_nil_iff]
      intro c hc
      have := hall c hc
      simp [this]
    rw [hf] at h6
    exact List.length_eq_zero.1 h6
  · rintro hall ⟨cyc, hcyc⟩
    obtain ⟨u, v, huv, hu, huv1, hvu1⟩ := mutual_reach_of_simple adjMat n cyc hcyc
    obtain ⟨c, hc, huc⟩ := (h4 u).1 hu
    have hvc : v ∈ c := (h5 c hc u huc v).2 ⟨huv1, hvu1⟩
    have hlen := hall c hc
    match c, hlen, huc, hvc with
    | [x], _, huc, hvc =>
      rw [List.mem_singleton] at huc hvc
      exact huv (huc.trans hvc.symm)
  · intro hno c hc
    by_contra hne
    apply hno
    have hnd := (h3 c hc).2
    have hcl := h5 c hc
    match c, (h3 c hc).1, hne, hnd, hcl with
    | [a], _, hne, _, _ => exact absurd rfl hne
    | a :: b :: rest, _, _, hnd, hcl =>
      have hab : a ≠ b := by
        intro h
        rw [h] at hnd
        simp at hnd
      have hr := (hcl a (List.mem_cons_self _ _) b).1
        (List.mem_cons_of_mem _ (List.mem_cons_self _ _))
      exact simple_of_mutual_reach adjMat n a b hab hr.1 hr.2

/-! ### `nextCycle` and `oneStep`: single calls -/

/-- C11 (failing input): after three direct `oneStep` calls on the graph
0 ⇄ 1 the cycle `[0, 1]` waits in `cyclesFound` and the frontier is empty;
`nextCycle` then returns the empty list and leaves `[0, 1]` in `cyclesFound`.
After five direct `oneStep` calls on the triangle with a chord the cycle
`[0, 2]` waits in `cyclesFound` and the frontier is not empty; `nextCycle` then
reaches the end of its body without a `return`. -/
theorem nextCycle_ready_buffer_not_popped :
    (cycleGenerator.new twoCycle 2).oneSteps 3 = some readyTwoCycle ∧
    readyTwoCycle.cyclesFound = [[0, 1]] ∧
    readyTwoCycle.nextCycle = some ([], readyTwoCycle) ∧
    (cycleGenerator.new triangleWithChord 3).oneSteps 5 = some readyTriangle ∧
    readyTriangle.cyclesFound = [[0, 2]] ∧
    readyTriangle.nextCycle = none :=
  ⟨rfl, rfl, rfl, rfl, rfl, rfl⟩

/-- C13 (failing input): on the complete graph with 3 nodes the bidirected
cycle `[2, 0, 1]`, whose minimum is in the middle, gets the representative
`[0, 2, 1]`, whose second element is larger than its last element. -/
theorem uniqueBiDirCycle_min_in_middle :
    (cycleGenerator.new completeThree 3).isCycleBiDirected [2, 0, 1] = 1 ∧
    (cycleGenerator.new completeThree 3).uniqueBiDirCycle [2, 0, 1] = [0, 2, 1] := by
  decide

/-- With dedup disabled, `oneStep` appends the head `P` of the frontier to
`cyclesFound` exactly when `P` has more than one node, the arc from its last
node to its first node is present, and `cycleLengthMin`, converted to the
unsigned type of `size()`, is at most the length of `P`. -/
theorem oneStep_ready_buffer (g : cycleGenerator) (P : List Nat) (rest : List (List Nat))
    (hq : g.pathQueue = P :: rest) (hP : P ≠ []) (hd : g.hashBiDirectedCycles ≠ 1) :
    ∃ g', g.oneStep = some (1, g') ∧
      g'.cyclesFound = g.cyclesFound ++
        (if P.length > 1 ∧ g.adjMat (P.getLastD 0) (P.headD 0) = 1 ∧
            toSizeT g.cycleLengthMin ≤ P.length then [P] else []) := by
  obtain ⟨g', h1, _, _, _, _, _, _, h8, _⟩ := oneStep_cons g P rest hq hP
    (fun _ h => absurd h.1 hd)
  refine ⟨g', h1, ?_⟩
  rw [h8]
  congr 1
  by_cases hc : P.length > 1 ∧ g.adjMat (P.getLastD 0) (P.headD 0) = 1
  · rw [if_pos hc]
    unfold cycleGenerator.recordEffect
    rw [if_neg (fun h => hd h.1)]
    by_cases hl : toSizeT g.cycleLengthMin ≤ P.length
    · rw [if_pos hl, if_pos ⟨hc.1, hc.2, hl⟩]
    · rw [if_neg hl, if_neg (fun h => hl h.2.2)]
  · rw [if_neg hc, if_neg (fun h => hc ⟨h.1, h.2.1⟩)]

/-- C16 (failing input): with dedup disabled and `setCycleLengthMin(-1)` on the
graph 0 ⇄ 1, after two `oneStep` calls the head of the frontier is the path
`[0, 1]`, which has more than one node, is closed by the arc 1 → 0 and is
longer than `-1`; the third `oneStep` call leaves `cyclesFound` empty. With
the default minimum length the same call puts `[0, 1]` into `cyclesFound`. -/
theorem oneStep_negative_min_drops_cycle :
    (((cycleGenerator.new twoCycle 2).setCycleLengthMin (-1)).oneSteps 2).map
        (fun s => (s.pathQueue, s.cyclesFound, s.hashBiDirectedCycles, s.cycleLengthMin))
      = some ([[0, 1]], [], 0, -1) ∧
    twoCycle 1 0 = 1 ∧
    (((cycleGenerator.new twoCycle 2).setCycleLengthMin (-1)).oneSteps 3).map
        (fun s => s.cyclesFound) = some [] ∧
    ((cycleGenerator.new twoCycle 2).oneSteps 3).map (fun s => s.cyclesFound)
      = some [[0, 1]] :=
  ⟨rfl, rfl, rfl, rfl⟩

/-- The value of `wrapInt` on a result that fits a 32-bit `int`. -/
theorem wrapInt_of_fits (x : Int) (h0 : -(2 ^ 31) ≤ x) (h1 : x < 2 ^ 31) : wrapInt x = x := by
  unfold wrapInt
  rw [Int.emod_eq_of_lt (by omega) (by omega)]
  omega

/-- The step counter and the returned value where `oneStep` is defined and the
counter does not overflow: on a state whose frontier does not start with an
empty list, whose head (if any) has the hashing of its key defined, and whose
step counter is an `int` below `INT_MAX`, a call of `oneStep` returns and adds
exactly 1 to the step counter; on an empty frontier it returns 0 and changes
nothing else, on a non-empty frontier it returns 1. -/
theorem oneStep_counter_and_result_of_fits (g : cycleGenerator)
    (hP : g.pathQueue.head? ≠ some []) (hs : ∀ P ∈ g.pathQueue.head?, g.HashDefined P)
    (h0 : -(2 ^ 31) ≤ g.numOneStepCall) (h1 : g.numOneStepCall < 2 ^ 31 - 1) :
    ∃ r g', g.oneStep = some (r, g') ∧ g'.numOneStepCall = g.numOneStepCall + 1 ∧
      (g.pathQueue = [] → r = 0 ∧ g'.pathQueue = [] ∧ g'.cyclesFound = g.cyclesFound ∧
        g'.uniqBiDirectedCycles = g.uniqBiDirectedCycles ∧
        g'.cycleLengthMin = g.cycleLengthMin ∧
        g'.hashBiDirectedCycles = g.hashBiDirectedCycles ∧
        g'.adjMat = g.adjMat ∧ g'.numNodes = g.numNodes) ∧
      (g.pathQueue ≠ [] → r = 1) := by
  have hw : wrapInt (g.oneStepCalls + 1) = g.numOneStepCall + 1 := by
    unfold cycleGenerator.numOneStepCall at h0 h1 ⊢
    exact wrapInt_of_fits _ (by omega) (by omega)
  cases hq : g.pathQueue with
  | nil =>
    refine ⟨0, _, oneStep_nil g hq, hw, fun _ => ⟨rfl, hq, rfl, rfl, rfl, rfl, rfl, rfl⟩,
      fun h => absurd rfl h⟩
  | cons P rest =>
    have hne : P ≠ [] := by
      rintro rfl
      rw [hq] at hP
      exact hP rfl
    obtain ⟨g', h1, _, _, _, _, h6, _⟩ := oneStep_cons g P rest hq hne
      (hs P (by rw [hq]; rfl))
    exact ⟨1, g', h1, h6.trans hw, fun h => absurd h (List.cons_ne_nil _ _), fun _ => rfl⟩

theorem range'_eq_filter_lt (a n : Nat) :
    List.range' (a + 1) (n - (a + 1)) = (List.range n).filter (fun i => decide (a < i)) := by
  by_cases h : a + 1 ≤ n
  · have hn : n = (n - (a + 1)) + (a + 1) := by omega
    have hr : List.range n = List.range (a + 1) ++ List.range' (a + 1) (n - (a + 1)) := by
      have h3 := List.range'_append_1 0 (a + 1) (n - (a + 1))
      rw [Nat.zero_add, ← hn] at h3
      rw [List.range_eq_range', List.range_eq_range', h3]
    rw [hr, List.filter_append]
    have h1 : (List.range (a + 1)).filter (fun i => decide (a < i)) = [] := by
      rw [List.filter_eq_nil_iff]
      intro i hi
      have := List.mem_range.1 hi
      simp
      omega
    have h2 : (List.range' (a + 1) (n - (a + 1))).filter (fun i => decide (a < i))
        = List.range' (a + 1) (n - (a + 1)) := by
      rw [List.filter_eq_self]
      intro i hi
      have := (List.mem_range'_1.1 hi).1
      simp
      omega
    rw [h1, h2, List.nil_append]
  · have h0 : n - (a + 1) = 0 := by omega
    rw [h0, List.range'_zero]
    symm
    rw [List.filter_eq_nil_iff]
    intro i hi
    have := List.mem_range.1 hi
    simp
    omega

theorem newPaths_eq_filter (g : cycleGenerator) (head tail : Nat) (P : List Nat) :
    g.newPaths head tail P =
      ((List.range g.numNodes).filter
        (fun i => decide (head < i ∧ g.adjMat tail i = 1 ∧ i ∉ P))).map (fun i => P ++ [i]) := by
  unfold cycleGenerator.newPaths
  rw [range'_eq_filter_lt, List.filter_filter]
  congr 1
  apply List.filter_congr
  intro i _
  unfold isInList
  by_cases hlt : head < i
  · have hne : i ≠ head := by omega
    by_cases hin : i ∈ P <;> simp [hlt, hne, hin]
  · simp [hlt]

/-- The frontier after a step where `oneStep` is defined: on a state whose
frontier is `P :: rest` with `P` non-empty and the hashing of the key of `P`
defined, `oneStep` returns 1 and the new frontier is `rest` followed by the
paths `P ++ [i]`, in increasing order of `i`, for exactly the nodes `i` below
`numNodes` that are larger than the first node of `P`, have the arc from the
last node of `P`, and do not occur in `P`. -/
theorem oneStep_frontier_of_defined (g : cycleGenerator) (P : List Nat) (rest : List (List Nat))
    (hq : g.pathQueue = P :: rest) (hP : P ≠ []) (hs : g.HashDefined P) :
    ∃ g', g.oneStep = some (1, g') ∧
      g'.pathQueue = rest ++ ((List.range g.numNodes).filter
        (fun i => decide (P.headD 0 < i ∧ g.adjMat (P.getLastD 0) i = 1 ∧ i ∉ P))).map
          (fun i => P ++ [i]) := by
  obtain ⟨g', h1, _, _, _, _, _, h7, _⟩ := oneStep_cons g P rest hq hP hs
  exact ⟨g', h1, by rw [h7, newPaths_eq_filter]⟩

/-- C20: `clear` empties the frontier, the ready buffer and the dedup set and
zeroes the step counter, and `nextCycle` then returns the empty list; `clear`
followed by `copyAdjMatInt(G, n)` gives the very state of a freshly constructed
`cycleGenerator(G, n)` with the same minimum length and dedup flag, so every
sequence of `nextCycle` calls returns the same lists on both. -/
theorem clear_then_copy_is_fresh (g : cycleGenerator) (G : Nat → Nat → Int) (n : Nat) :
    g.clear.pathQueue = [] ∧ g.clear.cyclesFound = [] ∧ g.clear.uniqBiDirectedCycles = [] ∧
    g.clear.numOneStepCall = 0 ∧ g.clear.nextCycle = some ([], g.clear) ∧
    g.clear.copyAdjMatInt G n =
      ((cycleGenerator.new G n).setCycleLengthMin g.cycleLengthMin).setHashBiDirectedCycles
        g.hashBiDirectedCycles ∧
    (∀ k, (g.clear.copyAdjMatInt G n).nextCycles k =
      (((cycleGenerator.new G n).setCycleLengthMin g.cycleLengthMin).setHashBiDirectedCycles
        g.hashBiDirectedCycles).nextCycles k) ∧
    (∀ k, (g.clear.copyAdjMatInt G n).drain k =
      (((cycleGenerator.new G n).setCycleLengthMin g.cycleLengthMin).setHashBiDirectedCycles
        g.hashBiDirectedCycles).drain k) := by
  have hs : g.clear.copyAdjMatInt G n =
      ((cycleGenerator.new G n).setCycleLengthMin g.cycleLengthMin).setHashBiDirectedCycles
        g.hashBiDirectedCycles := rfl
  refine ⟨rfl, rfl, rfl, rfl, nextCycle_of_exhausted _ (Or.inl rfl), hs, ?_, ?_⟩
  · intro k
    rw [hs]
  · intro k
    rw [hs]

/-! ### `isCycleBiDirected` -/

theorem isCycleBiDirected_iff_cyclicPairs (adjMat : Nat → Nat → Int) (n : Nat)
    (h01 : IsZeroOne adjMat n) (g : cycleGenerator) (ha : g.adjMat = adjMat)
    (hn : g.numNodes = n) (l : List Nat) (hlen : 2 ≤ l.length) (hlt : ∀ x ∈ l, x < n) :
    g.isCycleBiDirected l = 1 ↔ CyclicPairs (fun x y => adjMat y x = 1) l := by
  match l, hlen, hlt with
  | h :: t, hlen, hlt =>
    have ht : t ≠ [] := by
      rintro rfl
      simp at hlen
    have hn0 : g.numNodes ≠ 0 := by
      have := hlt h (List.mem_cons_self _ _)
      omega
    have hb : ∀ x ∈ h :: (t ++ [h]), x < n := by
      intro x hx
      simp only [List.mem_cons, List.mem_append, List.mem_singleton, List.not_mem_nil,
        or_false] at hx
      rcases hx with rfl | hx | rfl
      · exact hlt _ (List.mem_cons_self _ _)
      · exact hlt _ (List.mem_cons_of_mem _ hx)
      · exact hlt _ (List.mem_cons_self _ _)
    rw [isCycleBiDirected_eq_one_iff, ha, chain_zeroOne adjMat n h01 h (t ++ [h]) hb,
      chain_closed_iff]
    unfold CyclicPairs
    simp only [List.headD_cons]
    constructor
    · rintro ⟨_, _, h3⟩
      exact h3
    · intro h3
      exact ⟨ht, hn0, h3⟩

theorem cyclicPairs_and (R S : Nat → Nat → Prop) (l : List Nat) :
    CyclicPairs (fun x y => R x y ∧ S x y) l ↔ CyclicPairs R l ∧ CyclicPairs S l := by
  unfold CyclicPairs
  constructor
  · rintro ⟨h1, h2, h3⟩
    exact ⟨⟨h1.imp (fun {_ _} hh => hh.1), h2⟩, ⟨h1.imp (fun {_ _} hh => hh.2), h3⟩⟩
  · rintro ⟨⟨h1, h2⟩, h3, h4⟩
    refine ⟨?_, h2, h4⟩
    have : ∀ l : List Nat, l.Chain' R → l.Chain' S → l.Chain' (fun x y => R x y ∧ S x y) := by
      intro l
      induction l with
      | nil => intro _ _; exact List.chain'_nil
      | cons a tl ih =>
        intro hr hs
        rw [List.chain'_cons'] at hr hs ⊢
        exact ⟨fun y hy => ⟨hr.1 y hy, hs.1 y hy⟩, ih hr.2 hs.2⟩
    exact this l h1 h3

/-- C12 (counterexample): on the directed triangle 0 → 2 → 1 → 0, a 0/1 matrix,
`isCycleBiDirected` returns 1 for the list `[0, 1, 2]` of distinct valid nodes
although the pair `(0, 1)` has no arc 0 → 1: not every cyclically consecutive
pair has arcs in both directions. -/
theorem isCycleBiDirected_reversedTriangle :
    IsZeroOne reversedTriangle 3 ∧ ([0, 1, 2] : List Nat).Nodup ∧
    (cycleGenerator.new reversedTriangle 3).isCycleBiDirected [0, 1, 2] = 1 ∧
    ¬ CyclicPairs (fun x y => reversedTriangle x y = 1 ∧ reversedTriangle y x = 1)
      [0, 1, 2] := by
  refine ⟨by unfold IsZeroOne; decide, by decide, by decide, ?_⟩
  intro h
  have h1 := (List.chain'_cons.1 h.1).1.1
  exact absurd h1 (by decide)

/-- C12 (amended): for a generator bound to a 0/1 matrix and a list of at
least 2 valid node ids, `isCycleBiDirected` returns 1 if and only if every
cyclically consecutive pair `(x, y)` of the list, the wrap from last to first
included, has the reverse arc `adjMat[y][x] == 1`; the arcs `adjMat[x][y]` are
not looked at. So on a list that is a cycle of the graph (every such pair has
`adjMat[x][y] == 1`) it returns 1 if and only if every pair has arcs in both
directions. -/
theorem isCycleBiDirected_iff_reverse_arcs (adjMat : Nat → Nat → Int) (n : Nat)
    (h01 : IsZeroOne adjMat n) (g : cycleGenerator) (ha : g.adjMat = adjMat)
    (hn : g.numNodes = n) (l : List Nat) (hlen : 2 ≤ l.length) (hlt : ∀ x ∈ l, x < n) :
    (g.isCycleBiDirected l = 1 ↔ CyclicPairs (fun x y => adjMat y x = 1) l) ∧
    (CyclicPairs (fun x y => adjMat x y = 1) l →
      (g.isCycleBiDirected l = 1 ↔
        CyclicPairs (fun x y => adjMat x y = 1 ∧ adjMat y x = 1) l)) := by
  have key := isCycleBiDirected_iff_cyclicPairs adjMat n h01 g ha hn l hlen hlt
  refine ⟨key, fun hfwd => ?_⟩
  rw [key, cyclicPairs_and]
  exact ⟨fun h => ⟨hfwd, h⟩, fun h => h.2⟩

/-- Witness for C12 (amended) on the complete graph with 3 nodes and the list
`[0, 1, 2]`. -/
theorem isCycleBiDirected_iff_reverse_arcs_witness :
    IsZeroOne completeThree 3 ∧ 2 ≤ ([0, 1, 2] : List Nat).length ∧
    (∀ x ∈ ([0, 1, 2] : List Nat), x < 3) ∧
    ((cycleGenerator.new completeThree 3).isCycleBiDirected [0, 1, 2] = 1 ↔
      CyclicPairs (fun x y => completeThree y x = 1) [0, 1, 2]) ∧
    (CyclicPairs (fun x y => completeThree x y = 1) [0, 1, 2] →
      ((cycleGenerator.new completeThree 3).isCycleBiDirected [0, 1, 2] = 1 ↔
        CyclicPairs (fun x y => completeThree x y = 1 ∧ completeThree y x = 1) [0, 1, 2])) :=
  ⟨by unfold IsZeroOne; decide, by decide, by decide,
    isCycleBiDirected_iff_reverse_arcs completeThree 3 (by unfold IsZeroOne; decide)
      (cycleGenerator.new completeThree 3) rfl rfl [0, 1, 2] (by decide) (by decide)⟩

/-! ### `uniqueCycle` -/

theorem rotated_eq_of_head_eq {α : Type} (l l' : List α) (hr : l ~r l') (hnd : l.Nodup)
    (hh : l.head? = l'.head?) : l = l' := by
  obtain ⟨k, hk, rfl⟩ := List.isRotated_iff_mod.mp hr
  rcases Nat.lt_or_ge k l.length with hlt | hge
  · rw [List.head?_rotate hlt] at hh
    cases l with
    | nil => simp
    | cons a t =>
      simp only [List.head?_cons] at hh
      have h0 : (a :: t)[0]? = (a :: t)[k]? := by simpa using hh
      have := (List.getElem?_inj (by simp) hnd h0)
      subst this
      simp
  · have : k = l.length := by omega
    subst this
    simp

theorem minScan_spec {α : Type} [LinearOrder α] (l : List α) :
    ∀ (curMin : α) (minVal pos : Nat),
      (minScan curMin minVal pos l = minVal ∧ ∀ x ∈ l, curMin ≤ x) ∨
      (∃ k v, minScan curMin minVal pos l = pos + k ∧ l[k]? = some v ∧ v < curMin ∧
        ∀ x ∈ l, v ≤ x) := by
  induction l with
  | nil =>
    intro curMin minVal pos
    left
    exact ⟨rfl, fun x hx => absurd hx (List.not_mem_nil x)⟩
  | cons a t ih =>
    intro curMin minVal pos
    by_cases hlt : a < curMin
    · have hs : minScan curMin minVal pos (a :: t) = minScan a pos (pos + 1) t := by
        show (if a < curMin then _ else _) = _
        rw [if_pos hlt]
      rw [hs]
      right
      rcases ih a pos (pos + 1) with ⟨h1, h2⟩ | ⟨k, v, h1, h2, h3, h4⟩
      · refine ⟨0, a, h1, List.getElem?_cons_zero, hlt, ?_⟩
        intro x hx
        rcases List.mem_cons.1 hx with rfl | hx
        · exact le_refl _
        · exact h2 x hx
      · refine ⟨k + 1, v, ?_, ?_, lt_trans h3 hlt, ?_⟩
        · rw [h1]; omega
        · simpa using h2
        · intro x hx
          rcases List.mem_cons.1 hx with rfl | hx
          · exact le_of_lt h3
          · exact h4 x hx
    · have hs : minScan curMin minVal pos (a :: t) = minScan curMin minVal (pos + 1) t := by
        show (if a < curMin then _ else _) = _
        rw [if_neg hlt]
      rw [hs]
      have hle : curMin ≤ a := not_lt.1 hlt
      rcases ih curMin minVal (pos + 1) with ⟨h1, h2⟩ | ⟨k, v, h1, h2, h3, h4⟩
      · left
        refine ⟨h1, ?_⟩
        intro x hx
        rcases List.mem_cons.1 hx with rfl | hx
        · exact hle
        · exact h2 x hx
      · right
        refine ⟨k + 1, v, ?_, ?_, h3, ?_⟩
        · rw [h1]; omega
        · simpa using h2
        · intro x hx
          rcases List.mem_cons.1 hx with rfl | hx
          · exact le_trans (le_of_lt h3) hle
          · exact h4 x hx

theorem minValPos_spec {α : Type} [LinearOrder α] (l : List α) (hne : l ≠ []) :
    ∃ v, l[minValPos l]? = some v ∧ ∀ x ∈ l, v ≤ x := by
  cases l with
  | nil => exact absurd rfl hne
  | cons a t =>
    show ∃ v, (a :: t)[minScan a 0 0 (a :: t)]? = some v ∧ _
    rcases minScan_spec (a :: t) a 0 0 with ⟨h1, h2⟩ | ⟨k, v, h1, h2, _, h4⟩
    · rw [h1]
      exact ⟨a, List.getElem?_cons_zero, h2⟩
    · rw [h1, Nat.zero_add]
      exact ⟨v, h2, h4⟩

theorem uniqueCycle_spec {α : Type} [LinearOrder α] (l : List α) :
    uniqueCycle l ~r l ∧ ∀ h ∈ (uniqueCycle l).head?, ∀ x ∈ l, h ≤ x := by
  by_cases hlen : l.length ≤ 1
  · have hu : uniqueCycle l = l := by
      unfold uniqueCycle
      rw [if_pos hlen]
    rw [hu]
    refine ⟨List.IsRotated.refl l, ?_⟩
    match l, hlen with
    | [], _ => intro h hh; cases hh
    | [a], _ =>
      intro h hh x hx
      cases hh
      rw [List.mem_singleton] at hx
      rw [hx]
  · have hne : l ≠ [] := by
      rintro rfl
      simp at hlen
    obtain ⟨v, hv, hmin⟩ := minValPos_spec l hne
    have hm : minValPos l < l.length := by
      by_contra hge
      rw [List.getElem?_eq_none (not_lt.1 hge)] at hv
      cases hv
    have hu : uniqueCycle l = l.rotate (minValPos l) := by
      unfold uniqueCycle
      rw [if_neg hlen, List.rotate_eq_drop_append_take (le_of_lt hm)]
    rw [hu]
    refine ⟨⟨minValPos l, rfl⟩ |> fun h => List.IsRotated.symm h, ?_⟩
    intro h hh x hx
    rw [List.head?_rotate hm, hv] at hh
    cases hh
    exact hmin x hx

/-- C14: for every list `L` of distinct integers, `uniqueCycle(L)` is a
rotation of `L` (so it has the same length and the same cyclic order), its
first element is the minimum of `L`, and `uniqueCycle` returns the same list on
every rotation of `L`. -/
theorem uniqueCycle_min_rotation (L : List Int) (hnd : L.Nodup) :
    (uniqueCycle L).length = L.length ∧ uniqueCycle L ~r L ∧
    (L ≠ [] → ∃ h, (uniqueCycle L).head? = some h ∧ h ∈ L ∧ ∀ x ∈ L, h ≤ x) ∧
    (∀ L', L' ~r L → uniqueCycle L' = uniqueCycle L) := by
  have key : ∀ l : List Int, l ≠ [] →
      ∃ h, (uniqueCycle l).head? = some h ∧ h ∈ l ∧ ∀ x ∈ l, h ≤ x := by
    intro l hne
    obtain ⟨hr, hmin⟩ := uniqueCycle_spec l
    have hune : uniqueCycle l ≠ [] := by
      intro h0
      rw [h0] at hr
      exact hne (List.isRotated_nil_iff'.1 hr).symm
    obtain ⟨h, t, hht⟩ := List.exists_cons_of_ne_nil hune
    refine ⟨h, by rw [hht]; rfl, ?_, hmin h (by rw [hht]; rfl)⟩
    exact hr.mem_iff.1 (by rw [hht]; exact List.mem_cons_self _ _)
  obtain ⟨hr, _⟩ := uniqueCycle_spec L
  refine ⟨hr.perm.length_eq, hr, key L, ?_⟩
  intro L' hL'
  obtain ⟨hr', _⟩ := uniqueCycle_spec L'
  have hrot : uniqueCycle L' ~r uniqueCycle L := (hr'.trans hL').trans hr.symm
  have hnd' : (uniqueCycle L').Nodup := (hr'.trans hL').nodup_iff.2 hnd
  apply rotated_eq_of_head_eq _ _ hrot hnd'
  by_cases hne : L = []
  · subst hne
    have h1 : L' = [] := List.isRotated_nil_iff.1 hL'
    subst h1
    rfl
  · have hne' : L' ≠ [] := by
      rintro rfl
      exact hne (List.isRotated_nil_iff'.1 hL').symm
    obtain ⟨h, hh, hmem, hmin⟩ := key L hne
    obtain ⟨h', hh', hmem', hmin'⟩ := key L' hne'
    rw [hh, hh']
    congr 1
    exact le_antisymm (hmin' h (hL'.mem_iff.2 hmem)) (hmin h' (hL'.mem_iff.1 hmem'))

/-- Witness for C14 on the list `[3, 1, 2]`, which `uniqueCycle` turns into
`[1, 2, 3]`. -/
theorem uniqueCycle_min_rotation_witness :
    ([3, 1, 2] : List Int).Nodup ∧ uniqueCycle ([3, 1, 2] : List Int) = [1, 2, 3] ∧
    (uniqueCycle ([3, 1, 2] : List Int)).length = ([3, 1, 2] : List Int).length ∧
    uniqueCycle ([3, 1, 2] : List Int) ~r [3, 1, 2] ∧
    (([3, 1, 2] : List Int) ≠ [] →
      ∃ h, (uniqueCycle ([3, 1, 2] : List Int)).head? = some h ∧ h ∈ ([3, 1, 2] : List Int) ∧
        ∀ x ∈ ([3, 1, 2] : List Int), h ≤ x) ∧
    (∀ L', L' ~r ([3, 1, 2] : List Int) → uniqueCycle L' = uniqueCycle ([3, 1, 2] : List Int)) :=
  ⟨by decide, by decide, uniqueCycle_min_rotation [3, 1, 2] (by decide)⟩

/-! ### States reachable by `oneStep` and `nextCycle`; the dedup set -/

theorem stepLoop_invariant (I : cycleGenerator → Prop)
    (hstep : ∀ g r g', I g → g.oneStep = some (r, g') → I g') (fuel : Nat) :
    ∀ g g', cycleGenerator.stepLoop fuel g = some g' → I g → I g' := by
  induction fuel with
  | zero =>
    intro g g' h
    simp [cycleGenerator.stepLoop] at h
  | succ fuel ih =>
    intro g g' h hI
    unfold cycleGenerator.stepLoop at h
    by_cases hc : g.cyclesFound.length = 0
    · rw [if_pos hc] at h
      cases hs : g.oneStep with
      | none => rw [hs] at h; cases h
      | some p =>
        obtain ⟨r, g1⟩ := p
        rw [hs] at h
        have hI1 := hstep g r g1 hI hs
        by_cases hr : r = 1
        · simp only [hr, if_true] at h
          exact ih g1 g' h hI1
        · simp only [hr, if_false] at h
          cases h
          exact hI1
    · rw [if_neg hc] at h
      cases h
      exact hI

theorem reachable_invariant (J : List (List Nat) → cycleGenerator → Prop)
    (hstep : ∀ out g r g', J (out ++ g.cyclesFound) g → g.oneStep = some (r, g') →
      J (out ++ g'.cyclesFound) g')
    (hpop : ∀ out g c rest, J out g → g.cyclesFound = c :: rest →
      J out { g with cyclesFound := rest })
    (hne : ∀ out g, J out g → ∀ c ∈ g.cyclesFound, c ≠ [])
    (g0 : cycleGenerator) (h0 : J g0.cyclesFound g0) :
    ∀ ret g, cycleGenerator.Reachable g0 ret g → J (ret ++ g.cyclesFound) g := by
  intro ret g hr
  induction hr with
  | start => simpa using h0
  | oneStep _ hs ih => exact hstep _ _ _ _ ih hs
  | @nextCycle ret g g' c _ hs ih =>
    unfold cycleGenerator.nextCycle cycleGenerator.nextCycleFuel at hs
    by_cases h1 : g.numNodes = 0 ∨ g.pathQueue.length = 0
    · rw [if_pos h1] at hs
      cases hs
      simpa using ih
    · rw [if_neg h1] at hs
      by_cases h2 : g.cyclesFound.length = 0 ∧ g.numNodes ≠ 0
      · rw [if_pos h2] at hs
        cases hl : cycleGenerator.stepLoop (g.stepBound + 1) g with
        | none => rw [hl] at hs; cases hs
        | some g1 =>
          rw [hl] at hs
          have hJ1 : J (ret ++ g1.cyclesFound) g1 :=
            stepLoop_invariant (fun s => J (ret ++ s.cyclesFound) s)
              (fun s r s' hs1 hs2 => hstep ret s r s' hs1 hs2) _ g g1 hl ih
          simp only [] at hs
          by_cases h3 : g1.cyclesFound.length = 0 ∧ g1.pathQueue.length = 0
          · rw [if_pos h3] at hs
            cases hs
            simpa using hJ1
          · rw [if_neg h3] at hs
            cases hcf : g1.cyclesFound with
            | nil => rw [hcf] at hs; cases hs
            | cons c1 rest =>
              rw [hcf] at hs
              simp only [Option.some.injEq, Prod.mk.injEq] at hs
              obtain ⟨rfl, rfl⟩ := hs
              have hc1 : c1 ≠ [] := hne _ _ hJ1 c1 (by rw [hcf]; exact List.mem_cons_self _ _)
              rw [if_neg hc1]
              have := hpop _ _ c1 rest hJ1 hcf
              rw [hcf] at this
              simpa using this
      · rw [if_neg h2] at hs
        cases hs

theorem oneStep_some_cases (g : cycleGenerator) (r : Int) (g' : cycleGenerator)
    (h : g.oneStep = some (r, g')) :
    (g.pathQueue = [] ∧ r = 0 ∧ g' = { g with oneStepCalls := wrapInt (g.oneStepCalls + 1) }) ∨
    (∃ P rest, g.pathQueue = P :: rest ∧ P ≠ [] ∧ r = 1) := by
  by_cases hq : g.pathQueue = []
  · left
    rw [oneStep_nil g hq] at h
    cases h
    exact ⟨hq, rfl, rfl⟩
  · right
    obtain ⟨P, rest, hq⟩ := List.exists_cons_of_ne_nil hq
    have hP : P ≠ [] := by
      rintro rfl
      unfold cycleGenerator.oneStep at h
      simp only [hq] at h
      cases h
    obtain ⟨g1, h1, _⟩ := oneStep_cons g P rest hq hP
      (hashDefined_of_oneStep g P rest hq r g' h)
    rw [h1] at h
    cases h
    exact ⟨P, rest, hq, hP, rfl⟩

/-- What `oneStep` does with a closed path when dedup is enabled and the
minimum length is at most 3: the dedup set grows by the representatives of the
bidirected lists of length above 2 that enter `cyclesFound`, none of which was
in the set. -/
theorem found_dedup (g : cycleGenerator) (P : List Nat) (hh : g.hashBiDirectedCycles = 1)
    (hL : toSizeT g.cycleLengthMin ≤ 3) :
    (if P.length > 1 ∧ g.adjMat (P.getLastD 0) (P.headD 0) = 1 then g.recordEffect P
         else ([], g.uniqBiDirectedCycles)).2 = g.uniqBiDirectedCycles ++
      (((if P.length > 1 ∧ g.adjMat (P.getLastD 0) (P.headD 0) = 1 then g.recordEffect P
         else ([], g.uniqBiDirectedCycles)).1.filter
          (fun c => decide (g.isCycleBiDirected c = 1 ∧ c.length > 2))).map g.uniqueBiDirCycle) ∧
    (g.uniqBiDirectedCycles.Nodup →
      (if P.length > 1 ∧ g.adjMat (P.getLastD 0) (P.headD 0) = 1 then g.recordEffect P
         else ([], g.uniqBiDirectedCycles)).2.Nodup) := by
  by_cases hc : P.length > 1 ∧ g.adjMat (P.getLastD 0) (P.headD 0) = 1
  · rw [if_pos hc]
    unfold cycleGenerator.recordEffect
    by_cases hd : g.hashBiDirectedCycles = 1 ∧ g.isCycleBiDirected P = 1 ∧ P.length > 2
    · rw [if_pos hd]
      have hB : decide (g.isCycleBiDirected P = 1 ∧ P.length > 2) = true := by
        simpa using hd.2
      by_cases hu : g.uniqueBiDirCycle P ∉ g.uniqBiDirectedCycles
      · have hlen : toSizeT g.cycleLengthMin ≤ P.length := by
          have := hd.2.2
          omega
        simp only [hu, not_false_eq_true, if_true, hlen]
        constructor
        · have hfil : List.filter
              (fun c => decide (g.isCycleBiDirected c = 1 ∧ c.length > 2)) [P] = [P] := by
            simp [List.filter, hd.2.1, hd.2.2]
          rw [hfil]
          rfl
        · intro hnd
          rw [List.nodup_append]
          refine ⟨hnd, List.nodup_singleton _, ?_⟩
          intro a ha hb
          rw [List.mem_singleton] at hb
          rw [hb] at ha
          exact hu ha
      · simp only [hu, if_false]
        constructor
        · simp
        · exact id
    · rw [if_neg hd]
      have hB : decide (g.isCycleBiDirected P = 1 ∧ P.length > 2) = false := by
        rw [decide_eq_false_iff_not]
        intro h
        exact hd ⟨hh, h⟩
      constructor
      · by_cases hlen : toSizeT g.cycleLengthMin ≤ P.length
        · simp only [hlen, if_true]
          have hfil : List.filter
              (fun c => decide (g.isCycleBiDirected c = 1 ∧ c.length > 2)) [P] = [] := by
            simp only [List.filter, hB]
          rw [hfil]
          simp
        · simp only [hlen, if_false]
          simp
      · exact id
  · rw [if_neg hc]
    constructor
    · simp
    · exact id

/-- Invariant of the dedup set: it lists, without repetition, the
representatives of the bidirected lists of length above 2 among the lists
`em` emitted so far. -/
theorem dedup_invariant (adjMat : Nat → Nat → Int) (n : Nat) (g0 : cycleGenerator)
    (ha0 : g0.adjMat = adjMat) (hn0 : g0.numNodes = n) (hh0 : g0.hashBiDirectedCycles = 1)
    (hL0 : toSizeT g0.cycleLengthMin ≤ 3) (hcf0 : g0.cyclesFound = [])
    (hu0 : g0.uniqBiDirectedCycles = []) :
    ∀ ret g, cycleGenerator.Reachable g0 ret g →
      (g.adjMat = adjMat ∧ g.numNodes = n ∧ g.hashBiDirectedCycles = 1 ∧
        toSizeT g.cycleLengthMin ≤ 3 ∧ (∀ c ∈ g.cyclesFound, c ≠ []) ∧
        g.uniqBiDirectedCycles.Nodup ∧
        g.uniqBiDirectedCycles = ((ret ++ g.cyclesFound).filter
          (fun c => decide (g0.isCycleBiDirected c = 1 ∧ c.length > 2))).map
            g0.uniqueBiDirCycle) := by
  apply reachable_invariant (fun em g => g.adjMat = adjMat ∧ g.numNodes = n ∧
      g.hashBiDirectedCycles = 1 ∧ toSizeT g.cycleLengthMin ≤ 3 ∧
      (∀ c ∈ g.cyclesFound, c ≠ []) ∧ g.uniqBiDirectedCycles.Nodup ∧
      g.uniqBiDirectedCycles = (em.filter
        (fun c => decide (g0.isCycleBiDirected c = 1 ∧ c.length > 2))).map g0.uniqueBiDirCycle)
  · rintro out g r g' ⟨ha, hn, hh, hL, hne, hnd, hu⟩ hs
    have hne' := oneStep_cyclesFound_ne_nil g r g' hs hne
    rcases oneStep_some_cases g r g' hs with ⟨_, _, rfl⟩ | ⟨P, rest, hq, hP, _⟩
    · exact ⟨ha, hn, hh, hL, hne, hnd, hu⟩
    · obtain ⟨g1, h1, h2, h3, h4, h5, _, _, h8, h9⟩ := oneStep_cons g P rest hq hP
        (hashDefined_of_oneStep g P rest hq r g' hs)
      rw [h1] at hs
      cases hs
      obtain ⟨hf1, hf2⟩ := found_dedup g P hh hL
      have hbi : ∀ c, g.isCycleBiDirected c = g0.isCycleBiDirected c :=
        fun c => isCycleBiDirected_congr (ha.trans ha0.symm) (hn.trans hn0.symm) c
      have hun : g.uniqueBiDirCycle = g0.uniqueBiDirCycle :=
        funext (fun c => uniqueBiDirCycle_congr (ha.trans ha0.symm) (hn.trans hn0.symm) c)
      refine ⟨h2.trans ha, h3.trans hn, h5.trans hh, by rw [h4]; exact hL, hne', ?_, ?_⟩
      · rw [h9]
        exact hf2 hnd
      · rw [h9, hf1, h8, ← List.append_assoc, List.filter_append, List.map_append, ← hu]
        simp only [hbi, hun]
  · rintro out g c rest ⟨ha, hn, hh, hL, hne, hnd, hu⟩ hcf
    refine ⟨ha, hn, hh, hL, ?_, hnd, hu⟩
    intro x hx
    exact hne x (by rw [hcf]; exact List.mem_cons_of_mem _ hx)
  · rintro out g ⟨_, _, _, _, hne, _⟩
    exact hne
  · refine ⟨ha0, hn0, hh0, hL0, ?_, ?_, ?_⟩
    · rw [hcf0]; intro c hc; cases hc
    · rw [hu0]; exact List.nodup_nil
    · rw [hu0, hcf0]; rfl

theorem reachable_nextCycles (g0 : cycleGenerator) (k : Nat) :
    ∀ (ret : List (List Nat)) (g : cycleGenerator) (res : List (List Nat))
      (g' : cycleGenerator), cycleGenerator.Reachable g0 ret g →
      g.nextCycles k = some (res, g') →
      cycleGenerator.Reachable g0 (ret ++ res.filter (fun c => decide (c ≠ []))) g' := by
  induction k with
  | zero =>
    intro ret g res g' hr h
    unfold cycleGenerator.nextCycles at h
    cases h
    simpa using hr
  | succ k ih =>
    intro ret g res g' hr h
    unfold cycleGenerator.nextCycles at h
    cases h1 : g.nextCycle with
    | none => rw [h1] at h; cases h
    | some p =>
      obtain ⟨c, g1⟩ := p
      rw [h1] at h
      simp only [] at h
      cases h2 : cycleGenerator.nextCycles k g1 with
      | none => rw [h2] at h; cases h
      | some q =>
        obtain ⟨cs, gf⟩ := q
        rw [h2] at h
        simp only [Option.some.injEq, Prod.mk.injEq] at h
        obtain ⟨rfl, rfl⟩ := h
        have hr1 := cycleGenerator.Reachable.nextCycle hr h1
        have := ih _ g1 cs gf hr1 h2
        by_cases hc : c = []
        · subst hc
          simpa using this
        · rw [if_neg hc] at this
          simpa [List.filter, hc] using this

/-- C19 (counterexample): with dedup enabled on the graph 0 ⇄ 1 the first
`nextCycle` call returns `[0, 1]`, a cycle with both arcs reciprocated
(`isCycleBiDirected` is 1), and the dedup set is empty: one bidirected cycle
has been emitted and `sizeUniqBiDirectedCycles` is 0. With dedup enabled and
minimum length 4 on the complete graph with 3 nodes the first `nextCycle` call
returns the empty list, nothing has been emitted, and the dedup set holds
`[0, 1, 2]`; the same happens with the minimum length -1, which the comparison
with `size()` reads as `2^64 - 1`. -/
theorem dedup_set_differs_from_emitted :
    cycleGenerator.Reachable ((cycleGenerator.new twoCycle 2).setHashBiDirectedCycles 1)
      [[0, 1]] dedupTwoCycle ∧
    dedupTwoCycle.cyclesFound = [] ∧ dedupTwoCycle.isCycleBiDirected [0, 1] = 1 ∧
    dedupTwoCycle.sizeUniqBiDirectedCycles = 0 ∧
    cycleGenerator.Reachable
      (((cycleGenerator.new completeThree 3).setCycleLengthMin 4).setHashBiDirectedCycles 1)
      [] filteredCompleteThree ∧
    filteredCompleteThree.cyclesFound = [] ∧
    filteredCompleteThree.sizeUniqBiDirectedCycles = 1 ∧
    cycleGenerator.Reachable
      (((cycleGenerator.new completeThree 3).setCycleLengthMin (-1)).setHashBiDirectedCycles 1)
      [] negativeMinCompleteThree ∧
    negativeMinCompleteThree.cyclesFound = [] ∧
    negativeMinCompleteThree.sizeUniqBiDirectedCycles = 1 := by
  refine ⟨?_, rfl, by decide, rfl, ?_, rfl, rfl, ?_, rfl, rfl⟩
  · exact cycleGenerator.Reachable.nextCycle cycleGenerator.Reachable.start
      (rfl : ((cycleGenerator.new twoCycle 2).setHashBiDirectedCycles 1).nextCycle
        = some ([0, 1], dedupTwoCycle))
  · exact cycleGenerator.Reachable.nextCycle cycleGenerator.Reachable.start
      (rfl : (((cycleGenerator.new completeThree 3).setCycleLengthMin 4).setHashBiDirectedCycles
        1).nextCycle = some ([], filteredCompleteThree))
  · exact cycleGenerator.Reachable.nextCycle cycleGenerator.Reachable.start
      (rfl : (((cycleGenerator.new completeThree 3).setCycleLengthMin
        (-1)).setHashBiDirectedCycles 1).nextCycle = some ([], negativeMinCompleteThree))

/-- C19 (amended): with dedup enabled and a minimum length `L` with
`0 ≤ L ≤ 3`, in every state reachable from a fresh `cycleGenerator` by `oneStep`
and `nextCycle` calls, the dedup set lists without repetition, in the order of
emission, the representatives `uniqueBiDirCycle(c)` of the emitted lists `c`
(returned or in the ready buffer) that are bidirected and longer than 2; so
`sizeUniqBiDirectedCycles` is the number of emitted bidirected cycles of
length at least 3. -/
theorem dedup_set_reps_of_emitted (adjMat : Nat → Nat → Int) (n : Nat) (L : Int)
    (h0 : 0 ≤ L) (h3 : L ≤ 3) (ret : List (List Nat)) (g : cycleGenerator)
    (hr : cycleGenerator.Reachable
      (((cycleGenerator.new adjMat n).setCycleLengthMin L).setHashBiDirectedCycles 1) ret g) :
    g.uniqBiDirectedCycles.Nodup ∧
    g.uniqBiDirectedCycles = ((ret ++ g.cyclesFound).filter
      (fun c => decide (g.isCycleBiDirected c = 1 ∧ c.length > 2))).map g.uniqueBiDirCycle ∧
    g.sizeUniqBiDirectedCycles = (ret ++ g.cyclesFound).countP
      (fun c => decide (g.isCycleBiDirected c = 1 ∧ c.length > 2)) := by
  have hL : toSizeT L ≤ 3 := by
    unfold toSizeT
    rw [Int.emod_eq_of_lt h0 (by omega)]
    omega
  obtain ⟨ha, hn, _, _, _, hnd, hu⟩ := dedup_invariant adjMat n
    (((cycleGenerator.new adjMat n).setCycleLengthMin L).setHashBiDirectedCycles 1)
    rfl rfl rfl hL rfl rfl ret g hr
  have hbi : ∀ c, (((cycleGenerator.new adjMat n).setCycleLengthMin L).setHashBiDirectedCycles
      1).isCycleBiDirected c = g.isCycleBiDirected c :=
    fun c => isCycleBiDirected_congr ha.symm hn.symm c
  have hun : (((cycleGenerator.new adjMat n).setCycleLengthMin L).setHashBiDirectedCycles
      1).uniqueBiDirCycle = g.uniqueBiDirCycle :=
    funext (fun c => uniqueBiDirCycle_congr ha.symm hn.symm c)
  simp only [hbi, hun] at hu
  refine ⟨hnd, hu, ?_⟩
  unfold cycleGenerator.sizeUniqBiDirectedCycles
  rw [hu, List.length_map, List.countP_eq_length_filter]

/-- Witness for C19 (amended) on the complete graph with 3 nodes, minimum
length 2: after the four `nextCycle` calls that return `[0, 1]`, `[0, 2]`,
`[1, 2]` and `[0, 1, 2]` the dedup set is `[[0, 1, 2]]`. -/
theorem dedup_set_reps_of_emitted_witness :
    (0 : Int) ≤ 2 ∧ (2 : Int) ≤ 3 ∧
    cycleGenerator.Reachable
      (((cycleGenerator.new completeThree 3).setCycleLengthMin 2).setHashBiDirectedCycles 1)
      [[0, 1], [0, 2], [1, 2], [0, 1, 2]] dedupedCompleteThree ∧
    dedupedCompleteThree.uniqBiDirectedCycles = [[0, 1, 2]] ∧
    dedupedCompleteThree.uniqBiDirectedCycles.Nodup ∧
    dedupedCompleteThree.uniqBiDirectedCycles =
      (([[0, 1], [0, 2], [1, 2], [0, 1, 2]] ++ dedupedCompleteThree.cyclesFound).filter
        (fun c => decide (dedupedCompleteThree.isCycleBiDirected c = 1 ∧ c.length > 2))).map
        dedupedCompleteThree.uniqueBiDirCycle ∧
    dedupedCompleteThree.sizeUniqBiDirectedCycles =
      ([[0, 1], [0, 2], [1, 2], [0, 1, 2]] ++ dedupedCompleteThree.cyclesFound).countP
        (fun c => decide (dedupedCompleteThree.isCycleBiDirected c = 1 ∧ c.length > 2)) :=
  have hr : cycleGenerator.Reachable
      (((cycleGenerator.new completeThree 3).setCycleLengthMin 2).setHashBiDirectedCycles 1)
      [[0, 1], [0, 2], [1, 2], [0, 1, 2]] dedupedCompleteThree :=
    reachable_nextCycles _ 4 [] _ [[0, 1], [0, 2], [1, 2], [0, 1, 2]] dedupedCompleteThree
      cycleGenerator.Reachable.start rfl
  ⟨by decide, by decide, hr, rfl,
    dedup_set_reps_of_emitted completeThree 3 2 (by decide) (by decide) _ _ hr⟩

/-! ### The lists found from a state on; the minimum length as a filter -/

theorem cycleGenerator_ext (g h : cycleGenerator) (h1 : g.adjMat = h.adjMat)
    (h2 : g.numNodes = h.numNodes) (h3 : g.oneStepCalls = h.oneStepCalls)
    (h4 : g.cycleLengthMin = h.cycleLengthMin)
    (h5 : g.hashBiDirectedCycles = h.hashBiDirectedCycles) (h6 : g.pathQueue = h.pathQueue)
    (h7 : g.cyclesFound = h.cyclesFound)
    (h8 : g.uniqBiDirectedCycles = h.uniqBiDirectedCycles) : g = h := by
  cases g
  cases h
  simp only at h1 h2 h3 h4 h5 h6 h7 h8
  subst h1 h2 h3 h4 h5 h6 h7 h8
  rfl

theorem allFound_reset (fuel : Nat) (g : cycleGenerator) (cf : List (List Nat)) :
    cycleGenerator.allFound fuel { g with cyclesFound := cf } = cycleGenerator.allFound fuel g := by
  cases fuel <;> rfl

theorem allFound_of_oneStep (fuel : Nat) (g : cycleGenerator) (r : Int) (g' : cycleGenerator)
    (h : ({ g with cyclesFound := [] } : cycleGenerator).oneStep = some (r, g')) :
    cycleGenerator.allFound (fuel + 1) g =
      if r = 1 then g'.cyclesFound ++ cycleGenerator.allFound fuel g' else [] := by
  show (match ({ g with cyclesFound := [] } : cycleGenerator).oneStep with
    | some (r, g') => if r = 1 then g'.cyclesFound ++ cycleGenerator.allFound fuel g' else []
    | none => []) = _
  rw [h]

theorem allFound_nil (fuel : Nat) (g : cycleGenerator) (hq : g.pathQueue = []) :
    cycleGenerator.allFound fuel g = [] := by
  cases fuel with
  | zero => rfl
  | succ fuel =>
    rw [allFound_of_oneStep fuel g 0 _ (oneStep_nil _ hq)]
    rfl

/-- One `oneStep` call on a non-empty frontier: the lists it appends to
`cyclesFound` are the first of the lists found from the state on. -/
theorem allFound_step (g : cycleGenerator) (P : List Nat) (rest : List (List Nat))
    (hq : g.pathQueue = P :: rest) (hP : P ≠ []) (r : Int) (g1 : cycleGenerator)
    (hs : g.oneStep = some (r, g1)) :
    ∃ F, g1.cyclesFound = g.cyclesFound ++ F ∧
      ∀ fuel, cycleGenerator.allFound (fuel + 1) g = F ++ cycleGenerator.allFound fuel g1 := by
  have hd := hashDefined_of_oneStep g P rest hq r g1 hs
  obtain ⟨g1', h1, a2, a3, a4, a5, a6, a7, a8, a9⟩ := oneStep_cons g P rest hq hP hd
  rw [h1] at hs
  simp only [Option.some.injEq, Prod.mk.injEq] at hs
  obtain ⟨_, rfl⟩ := hs
  obtain ⟨gr, hr1, b2, b3, b4, b5, b6, b7, b8, b9⟩ :=
    oneStep_cons ({ g with cyclesFound := [] } : cycleGenerator) P rest hq hP hd
  refine ⟨_, a8, ?_⟩
  intro fuel
  rw [allFound_of_oneStep fuel g 1 gr hr1, if_pos rfl]
  have hgr : gr = { g1' with cyclesFound := gr.cyclesFound } :=
    cycleGenerator_ext _ _ (b2.trans a2.symm) (b3.trans a3.symm) (b6.trans a6.symm)
      (b4.trans a4.symm) (b5.trans a5.symm) (b7.trans a7.symm) rfl (b9.trans a9.symm)
  have hcf : gr.cyclesFound = (if P.length > 1 ∧ g.adjMat (P.getLastD 0) (P.headD 0) = 1
      then g.recordEffect P else ([], g.uniqBiDirectedCycles)).1 := by
    rw [b8]
    exact List.nil_append _
  rw [hgr, allFound_reset]
  show gr.cyclesFound ++ _ = _
  rw [hcf]

theorem stepBound_nil (g : cycleGenerator) (hq : g.pathQueue = []) : g.stepBound = 0 := by
  unfold cycleGenerator.stepBound
  rw [hq]
  rfl

/-- The lists handed out so far followed by the lists still to be found make
up a fixed list `total`: an invariant of the generator. -/
theorem allFound_isInvariant (total : List (List Nat)) :
    IsInvariant (fun out g => LenInv out g ∧
      ∃ fuel, g.stepBound < fuel ∧ out ++ g.allFound fuel = total) := by
  refine ⟨?_, ?_, ?_⟩
  · rintro out g r g' ⟨hlen, fuel, hfuel, htot⟩ hs
    refine ⟨lenInv_isInvariant.step out g r g' hlen hs, ?_⟩
    rcases oneStep_some_cases g r g' hs with ⟨hq, _, rfl⟩ | ⟨P, rest, hq, hP, _⟩
    · refine ⟨fuel, ?_, ?_⟩
      · have h1 : ({ g with oneStepCalls := wrapInt (g.oneStepCalls + 1) }
            : cycleGenerator).stepBound = g.stepBound := rfl
        rw [h1]
        exact hfuel
      · rw [allFound_nil fuel g hq] at htot
        rw [allFound_nil fuel _ (by exact hq)]
        exact htot
    · obtain ⟨F, hF, hall⟩ := allFound_step g P rest hq hP r g' hs
      have hdec := stepBound_oneStep g P rest hq hP r g' hs
      cases fuel with
      | zero => omega
      | succ f =>
        refine ⟨f, by omega, ?_⟩
        rw [hall f] at htot
        rw [hF, ← htot]
        simp only [List.append_assoc]
  · rintro out g cf ⟨hlen, fuel, hfuel, htot⟩
    refine ⟨lenInv_isInvariant.pop out g cf hlen, fuel, hfuel, ?_⟩
    rw [allFound_reset]
    exact htot
  · rintro out g ⟨hlen, _⟩
    exact lenInv_isInvariant.wf out g hlen

theorem lenInv_fresh (g : cycleGenerator)
    (hq : g.pathQueue = (List.range g.numNodes).map (fun i => [i])) : LenInv [] g := by
  refine ⟨?_, ?_, ?_, ?_⟩
  · intro P hP
    rw [hq, List.mem_map] at hP
    obtain ⟨i, _, rfl⟩ := hP
    simp
  · intro h0
    rw [hq, h0]
    rfl
  · rw [List.nil_append, hq]
    apply List.pairwise_of_forall_mem_list
    intro a ha b hb
    rw [List.mem_map] at ha hb
    obtain ⟨i, _, rfl⟩ := ha
    obtain ⟨j, _, rfl⟩ := hb
    simp
  · intro P hP Q hQ
    rw [hq, List.mem_map] at hP hQ
    obtain ⟨i, _, rfl⟩ := hP
    obtain ⟨j, _, rfl⟩ := hQ
    simp

/-- Run to exhaustion, a fresh generator returns exactly the lists that its
`oneStep` calls find, in the order in which they are found. -/
theorem drain_eq_allFound (g : cycleGenerator)
    (hq : g.pathQueue = (List.range g.numNodes).map (fun i => [i]))
    (hcf : g.cyclesFound = []) (hsafe : g.HashSafe) :
    ∀ k, g.stepBound < k → g.drain k = some (g.allFound (g.stepBound + 1)) := by
  obtain ⟨L, gf, hdrain, ⟨_, fuel, _, htot⟩, hgf⟩ :=
    drain_spec _ (allFound_isInvariant (g.allFound (g.stepBound + 1))) g.stepBound g []
      (le_refl _) ⟨lenInv_fresh g hq, g.stepBound + 1, Nat.lt_succ_self _, rfl⟩ hcf hsafe
  rw [allFound_nil fuel gf hgf, List.append_nil, List.nil_append] at htot
  intro k hk
  rw [hdrain k hk, htot]

theorem toSizeT_le_iff (L : Int) (h0 : 0 ≤ L) (h1 : L < 2 ^ 64) (k : Nat) :
    toSizeT L ≤ k ↔ L ≤ (k : Int) := by
  unfold toSizeT
  rw [Int.emod_eq_of_lt h0 h1]
  omega

theorem oneStep_head_nil (g : cycleGenerator) (rest : List (List Nat))
    (hq : g.pathQueue = [] :: rest) : g.oneStep = none := by
  unfold cycleGenerator.oneStep
  simp only [hq]

theorem allFound_of_oneStep_none (fuel : Nat) (g : cycleGenerator)
    (h : ({ g with cyclesFound := [] } : cycleGenerator).oneStep = none) :
    cycleGenerator.allFound (fuel + 1) g = [] := by
  show (match ({ g with cyclesFound := [] } : cycleGenerator).oneStep with
    | some (r, g') => if r = 1 then g'.cyclesFound ++ cycleGenerator.allFound fuel g' else []
    | none => []) = _
  rw [h]

theorem newPaths_congr {g h : cycleGenerator} (ha : h.adjMat = g.adjMat)
    (hn : h.numNodes = g.numNodes) (a b : Nat) (P : List Nat) :
    h.newPaths a b P = g.newPaths a b P := by
  unfold cycleGenerator.newPaths
  rw [ha, hn]

/-- The closed-path part of `oneStep` under two minimum lengths, 1 and `L`:
the dedup set gets the same lists, and the lists pushed to `cyclesFound` under
`L` are those pushed under 1 that have at least `L` nodes. -/
theorem found_min_filter (g h : cycleGenerator) (L : Int) (h0 : 0 ≤ L) (h1 : L < 2 ^ 64)
    (ha : h.adjMat = g.adjMat) (hn : h.numNodes = g.numNodes)
    (hh : h.hashBiDirectedCycles = g.hashBiDirectedCycles)
    (hu : h.uniqBiDirectedCycles = g.uniqBiDirectedCycles)
    (hg1 : g.cycleLengthMin = 1) (hL : h.cycleLengthMin = L) (P : List Nat) :
    (if P.length > 1 ∧ h.adjMat (P.getLastD 0) (P.headD 0) = 1 then h.recordEffect P
        else ([], h.uniqBiDirectedCycles)).2 =
      (if P.length > 1 ∧ g.adjMat (P.getLastD 0) (P.headD 0) = 1 then g.recordEffect P
        else ([], g.uniqBiDirectedCycles)).2 ∧
    (if P.length > 1 ∧ h.adjMat (P.getLastD 0) (P.headD 0) = 1 then h.recordEffect P
        else ([], h.uniqBiDirectedCycles)).1 =
      (if P.length > 1 ∧ g.adjMat (P.getLastD 0) (P.headD 0) = 1 then g.recordEffect P
        else ([], g.uniqBiDirectedCycles)).1.filter
          (fun c => decide (L ≤ (c.length : Int))) := by
  rw [ha, hu]
  by_cases hc : P.length > 1 ∧ g.adjMat (P.getLastD 0) (P.headD 0) = 1
  · rw [if_pos hc, if_pos hc]
    unfold cycleGenerator.recordEffect
    rw [hh, hu, hg1, hL, isCycleBiDirected_congr ha hn, uniqueBiDirCycle_congr ha hn,
      toSizeT_one]
    have hone : 1 ≤ P.length := by omega
    have hfil : List.filter (fun c => decide (L ≤ (c.length : Int))) [P] =
        if toSizeT L ≤ P.length then [P] else [] := by
      by_cases hle : toSizeT L ≤ P.length
      · rw [if_pos hle]
        have := (toSizeT_le_iff L h0 h1 P.length).1 hle
        simp [List.filter, this]
      · rw [if_neg hle]
        have : ¬ L ≤ (P.length : Int) := fun hx => hle ((toSizeT_le_iff L h0 h1 P.length).2 hx)
        simp [List.filter, this]
    by_cases hd : g.hashBiDirectedCycles = 1 ∧ g.isCycleBiDirected P = 1 ∧ P.length > 2
    · rw [if_pos hd, if_pos hd]
      by_cases hm : g.uniqueBiDirCycle P ∉ g.uniqBiDirectedCycles
      · rw [if_pos hm, if_pos hm, if_pos hone]
        exact ⟨rfl, hfil.symm⟩
      · rw [if_neg hm, if_neg hm]
        exact ⟨rfl, rfl⟩
    · rw [if_neg hd, if_neg hd, if_pos hone]
      exact ⟨rfl, hfil.symm⟩
  · rw [if_neg hc, if_neg hc]
    exact ⟨rfl, rfl⟩

/-- The lists found under the minimum length `L` are the lists found under the
minimum length 1 that have at least `L` nodes, in the same order. -/
theorem allFound_min_filter (L : Int) (h0 : 0 ≤ L) (h1 : L < 2 ^ 64) (fuel : Nat) :
    ∀ g h : cycleGenerator, h.adjMat = g.adjMat → h.numNodes = g.numNodes →
      h.hashBiDirectedCycles = g.hashBiDirectedCycles →
      h.uniqBiDirectedCycles = g.uniqBiDirectedCycles → h.pathQueue = g.pathQueue →
      g.cycleLengthMin = 1 → h.cycleLengthMin = L →
      h.allFound fuel = (g.allFound fuel).filter (fun c => decide (L ≤ (c.length : Int))) := by
  induction fuel with
  | zero => intro g h _ _ _ _ _ _ _; rfl
  | succ fuel ih =>
    intro g h ha hn hh hu hq hg1 hL
    by_cases hnil : g.pathQueue = []
    · rw [allFound_nil _ g hnil, allFound_nil _ h (hq.trans hnil)]
      rfl
    · obtain ⟨P, rest, hgq⟩ := List.exists_cons_of_ne_nil hnil
      by_cases hP : P = []
      · subst hP
        have e1 : cycleGenerator.allFound (fuel + 1) g = [] :=
          allFound_of_oneStep_none fuel g (oneStep_head_nil _ rest hgq)
        have e2 : cycleGenerator.allFound (fuel + 1) h = [] :=
          allFound_of_oneStep_none fuel h (oneStep_head_nil _ rest (hq.trans hgq))
        rw [e1, e2]
        rfl
      · have hdd : ({ h with cyclesFound := [] } : cycleGenerator).HashDefined P ↔
            ({ g with cyclesFound := [] } : cycleGenerator).HashDefined P :=
          @hashDefined_congr ({ g with cyclesFound := [] } : cycleGenerator)
            ({ h with cyclesFound := [] } : cycleGenerator) ha hn hh P
        by_cases hdef : ({ g with cyclesFound := [] } : cycleGenerator).HashDefined P
        swap
        · rw [allFound_of_oneStep_none fuel g (oneStep_cons_none _ P rest hgq hdef),
            allFound_of_oneStep_none fuel h
              (oneStep_cons_none _ P rest (hq.trans hgq) (fun hx => hdef (hdd.1 hx)))]
          rfl
        obtain ⟨g1, hs1, a2, a3, a4, a5, _, a7, a8, a9⟩ :=
          oneStep_cons ({ g with cyclesFound := [] } : cycleGenerator) P rest hgq hP hdef
        obtain ⟨k1, ht1, b2, b3, b4, b5, _, b7, b8, b9⟩ :=
          oneStep_cons ({ h with cyclesFound := [] } : cycleGenerator) P rest (hq.trans hgq) hP
            (hdd.2 hdef)
        rw [allFound_of_oneStep fuel g 1 g1 hs1, allFound_of_oneStep fuel h 1 k1 ht1,
          if_pos rfl, if_pos rfl, List.filter_append]
        obtain ⟨f2, f1⟩ := found_min_filter ({ g with cyclesFound := [] } : cycleGenerator)
          ({ h with cyclesFound := [] } : cycleGenerator) L h0 h1 ha hn hh hu hg1 hL P
        have hrec := ih g1 k1 (b2.trans (ha.trans a2.symm)) (b3.trans (hn.trans a3.symm))
          (b5.trans (hh.trans a5.symm)) (b9.trans (f2.trans a9.symm))
          (by rw [b7, a7]; exact congrArg _ (newPaths_congr ha hn _ _ _))
          (a4.trans hg1) (b4.trans hL)
        rw [hrec, b8, a8, List.nil_append, List.nil_append, f1]

/-- The filter where the hashing is defined: for every matrix, every minimum
length `L` with `0 ≤ L` (an `int`, so below `2^64`) and every value `h` of the
dedup flag, with dedup off (`h ≠ 1`) or at most 10 nodes, a fresh generator
with `setCycleLengthMin(L)` run to exhaustion returns the lists that the fresh
generator with the default minimum length returns, restricted to the lists
with at least `L` nodes, in the same order. -/
theorem setCycleLengthMin_filters_of_safe (adjMat : Nat → Nat → Int) (n : Nat) (L h : Int)
    (h0 : 0 ≤ L) (h1 : L < 2 ^ 64) (hsafe : h ≠ 1 ∨ n ≤ 10) :
    ∃ out,
      (∀ k, ((cycleGenerator.new adjMat n).setHashBiDirectedCycles h).stepBound < k →
        ((cycleGenerator.new adjMat n).setHashBiDirectedCycles h).drain k = some out) ∧
      (∀ k, (((cycleGenerator.new adjMat n).setCycleLengthMin L).setHashBiDirectedCycles
            h).stepBound < k →
        (((cycleGenerator.new adjMat n).setCycleLengthMin L).setHashBiDirectedCycles h).drain k
          = some (out.filter (fun c => decide (L ≤ (c.length : Int))))) := by
  have hb : (((cycleGenerator.new adjMat n).setCycleLengthMin L).setHashBiDirectedCycles
      h).stepBound = ((cycleGenerator.new adjMat n).setHashBiDirectedCycles h).stepBound := rfl
  refine ⟨_, drain_eq_allFound ((cycleGenerator.new adjMat n).setHashBiDirectedCycles h)
    rfl rfl (hashSafe_fresh _ n h rfl rfl rfl hsafe), ?_⟩
  intro k hk
  rw [drain_eq_allFound _ rfl rfl (hashSafe_fresh _ n h rfl rfl rfl hsafe) k hk, hb]
  congr 1
  exact allFound_min_filter L h0 h1 _ _ _ rfl rfl rfl rfl rfl rfl rfl

/-- The filter on the triangle with a chord, `L = 3`, dedup disabled: the
default run returns `[0, 2]` and `[0, 1, 2]`, the run with minimum length 3
returns `[0, 1, 2]`. -/
theorem setCycleLengthMin_filters_of_safe_example :
    (0 : Int) ≤ 3 ∧ (3 : Int) < 2 ^ 64 ∧
    ((cycleGenerator.new triangleWithChord 3).setHashBiDirectedCycles 0).drain 49
      = some [[0, 2], [0, 1, 2]] ∧
    (((cycleGenerator.new triangleWithChord 3).setCycleLengthMin 3).setHashBiDirectedCycles
      0).drain 49 = some [[0, 1, 2]] ∧
    ∃ out,
      (∀ k, ((cycleGenerator.new triangleWithChord 3).setHashBiDirectedCycles 0).stepBound < k →
        ((cycleGenerator.new triangleWithChord 3).setHashBiDirectedCycles 0).drain k
          = some out) ∧
      (∀ k, (((cycleGenerator.new triangleWithChord 3).setCycleLengthMin
            3).setHashBiDirectedCycles 0).stepBound < k →
        (((cycleGenerator.new triangleWithChord 3).setCycleLengthMin
            3).setHashBiDirectedCycles 0).drain k
          = some (out.filter (fun c => decide ((3 : Int) ≤ (c.length : Int))))) :=
  ⟨by decide, by decide, by decide, by decide,
    setCycleLengthMin_filters_of_safe triangleWithChord 3 3 0 (by decide) (by decide)
      (Or.inl (by decide))⟩

/-! ### Totality of the enumeration -/

theorem oneSteps_succ (k : Nat) (g : cycleGenerator) (r : Int) (g' : cycleGenerator)
    (h : g.oneStep = some (r, g')) : g.oneSteps (k + 1) = g'.oneSteps k := by
  show (match g.oneStep with
    | none => none
    | some (_, g') => cycleGenerator.oneSteps k g') = _
  rw [h]

/-- C30: in every state reachable by `oneStep` and `nextCycle` calls from a
fresh generator (any matrix, minimum length and dedup flag), every path in the
frontier is a non-empty list of distinct valid nodes along arcs whose first
node is smaller than all its other nodes; every list in the ready buffer is
such a path and has the arc from its last node to its first; and every
non-empty list that `nextCycle` has returned is a simple cycle of at least 2
nodes that starts at its least node. -/
theorem reachable_paths_rooted (adjMat : Nat → Nat → Int) (n : Nat) (L h : Int)
    (ret : List (List Nat)) (g : cycleGenerator)
    (hr : cycleGenerator.Reachable
      (((cycleGenerator.new adjMat n).setCycleLengthMin L).setHashBiDirectedCycles h) ret g) :
    (∀ P ∈ g.pathQueue, IsRootedPath adjMat n P) ∧
    (∀ c ∈ g.cyclesFound, IsRootedPath adjMat n c ∧ ClosesCycle adjMat c) ∧
    (∀ c ∈ ret, IsSimpleCycle adjMat n c ∧ ∀ x ∈ c.tail, c.headD 0 < x) := by
  have key := reachable_invariant
    (fun em g => g.adjMat = adjMat ∧ g.numNodes = n ∧
      (∀ c ∈ g.cyclesFound, c ≠ []) ∧ (∀ P ∈ g.pathQueue, IsRootedPath adjMat n P) ∧
      (∀ c ∈ em, IsRootedPath adjMat n c ∧ ClosesCycle adjMat c))
    (by
      rintro out g r g' ⟨ha, hn, hne, hq, hem⟩ hs
      have hne' := oneStep_cyclesFound_ne_nil g r g' hs hne
      rcases oneStep_some_cases g r g' hs with ⟨_, _, rfl⟩ | ⟨P, rest, hpq, hP, _⟩
      · exact ⟨ha, hn, hne, hq, hem⟩
      · obtain ⟨g1, h1, h2, h3, _, _, _, h7, h8, _⟩ := oneStep_cons g P rest hpq hP
          (hashDefined_of_oneStep g P rest hpq r g' hs)
        rw [h1] at hs
        cases hs
        have hPr : IsRootedPath adjMat n P := hq P (by rw [hpq]; exact List.mem_cons_self _ _)
        refine ⟨h2.trans ha, h3.trans hn, hne', ?_, ?_⟩
        · intro Q hQ
          rw [h7, List.mem_append] at hQ
          rcases hQ with hQ | hQ
          · exact hq Q (by rw [hpq]; exact List.mem_cons_of_mem _ hQ)
          · exact newPaths_rooted adjMat n g ha hn P Q hPr hQ
        · intro c hc
          rw [h8, ← List.append_assoc, List.mem_append] at hc
          rcases hc with hc | hc
          · exact hem c hc
          · by_cases hcl : P.length > 1 ∧ g.adjMat (P.getLastD 0) (P.headD 0) = 1
            · rcases found_cases g P with hf | hf
              · rw [hf] at hc; cases hc
              · rw [hf, List.mem_singleton] at hc
                subst hc
                exact ⟨hPr, hcl.1, by rw [← ha]; exact hcl.2⟩
            · rw [if_neg hcl] at hc
              cases hc)
    (by
      rintro out g c rest ⟨ha, hn, hne, hq, hem⟩ hcf
      exact ⟨ha, hn, fun x hx => hne x (by rw [hcf]; exact List.mem_cons_of_mem _ hx), hq, hem⟩)
    (by
      rintro out g ⟨_, _, hne, _⟩
      exact hne)
    (((cycleGenerator.new adjMat n).setCycleLengthMin L).setHashBiDirectedCycles h)
    (by
      refine ⟨rfl, rfl, ?_, ?_, ?_⟩
      · intro c hc; cases hc
      · intro P hP
        have hq : (((cycleGenerator.new adjMat n).setCycleLengthMin L).setHashBiDirectedCycles
            h).pathQueue = (List.range n).map (fun i => [i]) := rfl
        rw [hq, List.mem_map] at hP
        obtain ⟨i, hi, rfl⟩ := hP
        have hi' := List.mem_range.1 hi
        refine ⟨by simp, by simp, ?_, ?_, by simp⟩
        · intro x hx
          rw [List.mem_singleton] at hx
          omega
        · intro x hx
          cases hx
      · intro c hc; cases hc)
    ret g hr
  obtain ⟨_, _, _, hq, hem⟩ := key
  refine ⟨hq, fun c hc => hem c (List.mem_append_right _ hc), ?_⟩
  intro c hc
  exact (rooted_closes_iff adjMat n c).1 (hem c (List.mem_append_left _ hc))

/-- Witness for C30 on the complete graph with 3 nodes, minimum length 2 and
dedup enabled, in the state after four `nextCycle` calls. -/
theorem reachable_paths_rooted_witness :
    cycleGenerator.Reachable
      (((cycleGenerator.new completeThree 3).setCycleLengthMin 2).setHashBiDirectedCycles 1)
      [[0, 1], [0, 2], [1, 2], [0, 1, 2]] dedupedCompleteThree ∧
    dedupedCompleteThree.pathQueue = [[0, 2, 1]] ∧
    (∀ P ∈ dedupedCompleteThree.pathQueue, IsRootedPath completeThree 3 P) ∧
    (∀ c ∈ dedupedCompleteThree.cyclesFound,
      IsRootedPath completeThree 3 c ∧ ClosesCycle completeThree c) ∧
    (∀ c ∈ ([[0, 1], [0, 2], [1, 2], [0, 1, 2]] : List (List Nat)),
      IsSimpleCycle completeThree 3 c ∧ ∀ x ∈ c.tail, c.headD 0 < x) :=
  have hr : cycleGenerator.Reachable
      (((cycleGenerator.new completeThree 3).setCycleLengthMin 2).setHashBiDirectedCycles 1)
      [[0, 1], [0, 2], [1, 2], [0, 1, 2]] dedupedCompleteThree :=
    reachable_nextCycles _ 4 [] _ [[0, 1], [0, 2], [1, 2], [0, 1, 2]] dedupedCompleteThree
      cycleGenerator.Reachable.start rfl
  ⟨hr, rfl, reachable_paths_rooted completeThree 3 2 1 _ _ hr⟩

/-! ### `listToString` -/

/-- C25 (failing input): for the list `[1 3 2 5]` of the header comment
`listToString` allocates 41 bytes and returns the text `1,5`: every write
after the second one starts at the length of the preceding write instead of
the end of the text. Two elements are still printed in full, `[12 3 4]` gives
`124`, and for the single element 15 the write does not fit the 2 bytes
allocated. -/
theorem listToString_header_example :
    stringLength [1, 3, 2, 5] + 1 = 41 ∧ listToString [1, 3, 2, 5] = some "1,5" ∧
    listToString [1, 3] = some "1,3" ∧ listToString [12, 3, 4] = some "124" ∧
    stringLength [15] + 1 = 2 ∧ listToString [15] = none := by
  decide

/-! ### `pathInSpanningTree`: what a returned path is -/

theorem pathLoop_sound (T : Nat → Nat → Int) (n cur e : Nat) (hcur : cur < n)
    (recCall : Nat → List Nat → Option (Int × List Nat))
    (hrec : ∀ i p r p', i < n → recCall i p = some (r, p') →
      (r = 1 ∧ ∃ S, p' = S ++ p ∧ List.Chain (TreeArc T n) i S ∧ (i :: S).getLast? = some e) ∨
      (r = 0 ∧ p' = p)) :
    ∀ (l : List Nat) (path : List Nat) (r : Int) (path' : List Nat), (∀ i ∈ l, i < n) →
      pathLoop T cur recCall l path = some (r, path') →
      (r = 1 ∧ ∃ S, path' = S ++ path ∧ S ≠ [] ∧ List.Chain (TreeArc T n) cur S ∧
        (cur :: S).getLast? = some e) ∨
      (r = 0 ∧ path' = path) := by
  intro l
  induction l with
  | nil =>
    intro path r path' _ h
    unfold pathLoop at h
    cases h
    exact Or.inr ⟨rfl, rfl⟩
  | cons i is ih =>
    intro path r path' hl h
    have hi : i < n := hl i (List.mem_cons_self _ _)
    have hl' : ∀ j ∈ is, j < n := fun j hj => hl j (List.mem_cons_of_mem _ hj)
    unfold pathLoop at h
    by_cases hc : T cur i = 1 ∧ i ≠ cur
    · rw [if_pos hc] at h
      cases hrc : recCall i path with
      | none => rw [hrc] at h; cases h
      | some q =>
        obtain ⟨r1, p1⟩ := q
        rw [hrc] at h
        simp only at h
        rcases hrec i path r1 p1 hi hrc with ⟨hr1, S, hS, hch, hlast⟩ | ⟨hr0, hp⟩
        · rw [if_pos hr1] at h
          simp only [Option.some.injEq, Prod.mk.injEq] at h
          obtain ⟨rfl, rfl⟩ := h
          left
          refine ⟨rfl, i :: S, by rw [hS]; rfl, List.cons_ne_nil _ _, ?_, ?_⟩
          · exact List.Chain.cons ⟨hcur, hi, hc.1, fun h => hc.2 h.symm⟩ hch
          · rw [List.getLast?_cons_cons]
            exact hlast
        · have hne : r1 ≠ 1 := by rw [hr0]; decide
          rw [if_neg hne, hp] at h
          exact ih path r path' hl' h
    · rw [if_neg hc] at h
      exact ih path r path' hl' h

theorem pathInSpanningTreeDFS_sound (T : Nat → Nat → Int) (n e : Nat) (fuel : Nat) :
    ∀ (cur : Nat) (path : List Nat) (r : Int) (path' : List Nat), cur < n →
      pathInSpanningTreeDFS T n fuel cur e path = some (r, path') →
      (r = 1 ∧ ∃ S, path' = S ++ path ∧ List.Chain (TreeArc T n) cur S ∧
        (cur :: S).getLast? = some e) ∨
      (r = 0 ∧ path' = path) := by
  induction fuel with
  | zero =>
    intro cur path r path' _ h
    unfold pathInSpanningTreeDFS at h
    cases h
  | succ fuel ih =>
    intro cur path r path' hcur h
    unfold pathInSpanningTreeDFS at h
    by_cases hce : cur = e
    · rw [if_pos hce] at h
      simp only [Option.some.injEq, Prod.mk.injEq] at h
      obtain ⟨rfl, rfl⟩ := h
      left
      exact ⟨rfl, [], rfl, List.Chain.nil, by rw [hce]; rfl⟩
    · rw [if_neg hce] at h
      rcases pathLoop_sound T n cur e hcur _
          (fun i p r p' hi hr => ih i p r p' hi hr) (List.range n) path r path'
          (fun i hi => List.mem_range.1 hi) h with ⟨h1, S, hS, _, hch, hlast⟩ | h0
      · exact Or.inl ⟨h1, S, hS, hch, hlast⟩
      · exact Or.inr h0

/-- When `pathInSpanningTree` returns, the list is empty or a path from
`s` to `e` along the arcs of the matrix. -/
theorem pathInSpanningTree_sound (T : Nat → Nat → Int) (n s e : Nat) (hs : s < n)
    (p : List Nat) (h : pathInSpanningTree T n s e = some p) :
    p = [] ∨ IsPathFromTo (TreeArc T n) s e p := by
  unfold pathInSpanningTree at h
  cases hd : pathInSpanningTreeDFS T n (n + 1) s e [] with
  | none => rw [hd] at h; cases h
  | some q =>
    obtain ⟨r, path⟩ := q
    rw [hd] at h
    simp only at h
    rcases pathInSpanningTreeDFS_sound T n e (n + 1) s [] r path hs hd with
      ⟨h1, S, hS, hch, hlast⟩ | ⟨h0, hp⟩
    · rw [if_pos h1] at h
      cases h
      right
      rw [List.append_nil] at hS
      subst hS
      exact ⟨rfl, hlast, hch⟩
    · have hne : r ≠ 1 := by rw [h0]; decide
      rw [if_neg hne] at h
      cases h
      exact Or.inl hp

theorem mem_getBackEdges (M : Nat → Nat → Int) (n : Nat) (e : Nat × Nat) :
    e ∈ getBackEdges M n ↔ e.1 < n ∧ e.2 < n ∧ M e.1 e.2 = -1 := by
  unfold getBackEdges
  simp only [List.mem_flatMap, List.mem_map, List.mem_filter, List.mem_range,
    decide_eq_true_eq]
  constructor
  · rintro ⟨i, hi, j, ⟨hj, hM⟩, rfl⟩
    exact ⟨hi, hj, hM⟩
  · rintro ⟨h1, h2, h3⟩
    exact ⟨e.1, h1, e.2, ⟨h2, h3⟩, rfl⟩

/-- A chain along entries that go upwards in a numbering has no repeated
node. -/
theorem chain_nodup_of_rank (R : Nat → Nat → Prop) (d : Nat → Nat)
    (hup : ∀ u v, R u v → d u < d v) (l : List Nat) (h : l.Chain' R) : l.Nodup := by
  have h1 : l.Chain' (fun u v => d u < d v) := h.imp (fun {u v} huv => hup u v huv)
  have h2 : l.Pairwise (fun u v => d u < d v) := by
    haveI : IsTrans Nat (fun u v => d u < d v) := ⟨fun a b c hab hbc => lt_trans hab hbc⟩
    exact List.chain'_iff_pairwise.1 h1
  exact h2.imp (fun {u v} huv heq => by rw [heq] at huv; exact lt_irrefl _ huv)

theorem chain'_mem_lt (T : Nat → Nat → Int) (n : Nat) (l : List Nat)
    (h : l.Chain' (TreeArc T n)) (hlen : 2 ≤ l.length) : ∀ x ∈ l, x < n := by
  match l, h, hlen with
  | a :: b :: rest, h, _ =>
    intro x hx
    rw [List.chain'_cons] at h
    rcases List.mem_cons.1 hx with rfl | hx
    · exact h.1.1
    · have hch : List.Chain (TreeArc T n) a (b :: rest) := List.Chain.cons h.1 h.2
      obtain ⟨z, hz⟩ := chain_mem_target _ _ a hch x hx
      exact hz.2.1

theorem forall2_mem_right {α β : Type} {P : α → β → Prop} {l : List α} {bs : List β}
    (h : List.Forall₂ P l bs) : ∀ b ∈ bs, ∃ a ∈ l, P a b := by
  induction h with
  | nil => intro b hb; cases hb
  | cons hab _ ih =>
    intro b hb
    rcases List.mem_cons.1 hb with rfl | hb
    · exact ⟨_, List.mem_cons_self _ _, hab⟩
    · obtain ⟨a, ha, hP⟩ := ih b hb
      exact ⟨a, List.mem_cons_of_mem _ ha, hP⟩

/-- The lists pushed by `getMinCycles` for one component are empty or simple
cycles of the graph. -/
theorem cyclesOfComponent_cycles (adjMat : Nat → Nat → Int) (n : Nat) (c : List Nat)
    (hc : IsReachClass adjMat n c) (hnd : c.Nodup) (hlt : ∀ v ∈ c, v < n) :
    ∃ L, cyclesOfComponent adjMat n c = some L ∧
      ∀ p ∈ L, p = [] ∨ IsSimpleCycle adjMat n p := by
  unfold cyclesOfComponent
  by_cases hlen : c.length > 1
  · rw [if_pos hlen]
    obtain ⟨M, hM, hvals, hnz, hones, d, hd, hup⟩ :=
      spanTreeWithBackEdges_spec adjMat n c hc hnd hlen hlt
    rw [hM]
    simp only
    obtain ⟨L, hL, hF⟩ := collect_spec
      (fun e : Nat × Nat => pathInSpanningTree (stripNeg M) n e.2 e.1)
      (fun _ p => p = [] ∨ IsSimpleCycle adjMat n p)
      (getBackEdges M n)
      (fun e he => by
        obtain ⟨h1, h2, h3⟩ := (mem_getBackEdges M n e).1 he
        obtain ⟨p, hp⟩ := pathInSpanningTree_isSome M n d hd hup e.2 e.1
        refine ⟨p, hp, ?_⟩
        rcases pathInSpanningTree_sound (stripNeg M) n e.2 e.1 h2 p hp with h0 | ⟨hh, hl, hch⟩
        · exact Or.inl h0
        · right
          have harc : e.1 ≠ e.2 ∧ e.1 ∈ c ∧ e.2 ∈ c ∧ adjMat e.1 e.2 = 1 :=
            (hnz e.1 e.2).1 (by rw [h3]; decide)
          have hstep : ∀ u v, TreeArc (stripNeg M) n u v → adjMat u v = 1 := by
            intro u v huv
            have h1 : M u v = 1 := (stripNeg_eq_one M u v).1 huv.2.2.1
            exact ((hnz u v).1 (by rw [h1]; decide)).2.2.2
          have hrank : ∀ u v, TreeArc (stripNeg M) n u v → d u < d v :=
            fun u v huv => hup u v ((stripNeg_eq_one M u v).1 huv.2.2.1)
          have hlen2 : 2 ≤ p.length := by
            match p, hh, hl with
            | [a], hh, hl =>
              simp only [List.head?_cons, Option.some.injEq] at hh
              simp only [List.getLast?_singleton, Option.some.injEq] at hl
              exact absurd (hl.symm.trans hh) harc.1
            | a :: b :: rest, _, _ => simp
          refine ⟨hlen2, chain_nodup_of_rank _ d hrank p hch,
            chain'_mem_lt _ n p hch hlen2, hch.imp (fun {u v} huv => hstep u v huv), ?_⟩
          have e1 : p.getLastD 0 = e.1 := by
            rw [List.getLastD_eq_getLast?, hl]
            rfl
          have e2 : p.headD 0 = e.2 := by
            rw [List.headD_eq_head?_getD, hh]
            rfl
          rw [e1, e2]
          exact harc.2.2.2)
    refine ⟨L, hL, ?_⟩
    intro p hp
    obtain ⟨e, _, hP⟩ := forall2_mem_right hF p hp
    exact hP
  · rw [if_neg hlen]
    exact ⟨[], rfl, fun p hp => by cases hp⟩

/-- C29: on every matrix `getMinCycles` returns, and every list it returns is
empty or a simple cycle of the graph: at least 2 nodes, all distinct and valid,
an arc between every consecutive pair and the arc from the last node to the
first. -/
theorem getMinCycles_lists_empty_or_cycles (adjMat : Nat → Nat → Int) (n : Nat) :
    ∃ cycles, getMinCycles adjMat n = some cycles ∧
      ∀ p ∈ cycles, p = [] ∨ IsSimpleCycle adjMat n p := by
  obtain ⟨comps, h1, h2, _, h4, h5⟩ := tarjan_spec adjMat n
  obtain ⟨Ls, hLs, hF⟩ := collect_spec (cyclesOfComponent adjMat n)
    (fun _ L => ∀ p ∈ L, p = [] ∨ IsSimpleCycle adjMat n p) comps
    (fun c hc => cyclesOfComponent_cycles adjMat n c (h5 c hc) (h2 c hc).2
      (fun v hv => (h4 v).mpr ⟨c, hc, hv⟩))
  refine ⟨Ls.flatten, ?_, ?_⟩
  · unfold getMinCycles
    rw [h1]
    simp only
    rw [hLs]
    rfl
  · intro p hp
    obtain ⟨L, hL, hpL⟩ := List.mem_flatten.1 hp
    obtain ⟨c, _, hP⟩ := forall2_mem_right hF L hL
    exact hP p hpL

/-! ### `pathInSpanningTree` on a forest -/

theorem getLast?_snoc {α : Type} (l : List α) (a : α) : (l ++ [a]).getLast? = some a := by
  simp

theorem chain'_pairwise_transGen (R : Nat → Nat → Prop) (l : List Nat) (h : l.Chain' R) :
    l.Pairwise (Relation.TransGen R) := by
  have h1 : l.Chain' (Relation.TransGen R) :=
    h.imp (fun {u v} huv => Relation.TransGen.single huv)
  haveI : IsTrans Nat (Relation.TransGen R) := ⟨fun a b c hab hbc => hab.trans hbc⟩
  exact List.chain'_iff_pairwise.1 h1

theorem acyclic_chain_nodup (R : Nat → Nat → Prop) (hacyc : ∀ v, ¬ Relation.TransGen R v v)
    (l : List Nat) (h : l.Chain' R) : l.Nodup :=
  (chain'_pairwise_transGen R l h).imp
    (fun {u v} huv heq => by rw [heq] at huv; exact hacyc v huv)

theorem nodup_length_le (n : Nat) (l : List Nat) (hnd : l.Nodup) (hlt : ∀ x ∈ l, x < n) :
    l.length ≤ n := by
  have h1 : l.toFinset ⊆ Finset.range n := by
    intro x hx
    rw [List.mem_toFinset] at hx
    exact Finset.mem_range.2 (hlt x hx)
  have h2 := Finset.card_le_card h1
  rw [List.toFinset_card_of_nodup hnd, Finset.card_range] at h2
  exact h2

theorem pathLoop_complete (T : Nat → Nat → Int) (n cur e : Nat) (hcur : cur < n)
    (recCall : Nat → List Nat → Option (Int × List Nat))
    (hrec : ∀ i p, TreeArc T n cur i → ∃ r p', recCall i p = some (r, p') ∧
      (Relation.ReflTransGen (TreeArc T n) i e → r = 1)) :
    ∀ (l : List Nat) (path : List Nat), (∀ i ∈ l, i < n) →
      ∃ r path', pathLoop T cur recCall l path = some (r, path') ∧
        ((∃ i ∈ l, TreeArc T n cur i ∧ Relation.ReflTransGen (TreeArc T n) i e) → r = 1) := by
  intro l
  induction l with
  | nil =>
    intro path _
    refine ⟨0, path, rfl, ?_⟩
    rintro ⟨i, hi, _⟩
    cases hi
  | cons i is ih =>
    intro path hl
    have hi : i < n := hl i (List.mem_cons_self _ _)
    have hl' : ∀ j ∈ is, j < n := fun j hj => hl j (List.mem_cons_of_mem _ hj)
    unfold pathLoop
    by_cases hc : T cur i = 1 ∧ i ≠ cur
    · rw [if_pos hc]
      have harc : TreeArc T n cur i := ⟨hcur, hi, hc.1, fun h => hc.2 h.symm⟩
      obtain ⟨r1, p1, hr, hcomp⟩ := hrec i path harc
      rw [hr]
      simp only
      by_cases hr1 : r1 = 1
      · rw [if_pos hr1]
        exact ⟨1, _, rfl, fun _ => rfl⟩
      · rw [if_neg hr1]
        obtain ⟨r, path', hres, hcomp'⟩ := ih p1 hl'
        refine ⟨r, path', hres, ?_⟩
        rintro ⟨j, hj, hjarc, hjr⟩
        rcases List.mem_cons.1 hj with rfl | hj
        · exact absurd (hcomp hjr) hr1
        · exact hcomp' ⟨j, hj, hjarc, hjr⟩
    · rw [if_neg hc]
      obtain ⟨r, path', hres, hcomp'⟩ := ih path hl'
      refine ⟨r, path', hres, ?_⟩
      rintro ⟨j, hj, hjarc, hjr⟩
      rcases List.mem_cons.1 hj with rfl | hj
      · exact absurd ⟨hjarc.2.2.1, fun h => hjarc.2.2.2 h.symm⟩ hc
      · exact hcomp' ⟨j, hj, hjarc, hjr⟩

/-- On a matrix without a directed cycle `pathInSpanningTreeDFS` returns when
the bound and the number of active calls together reach `n`, and it returns 1
when `e` can be reached from `cur`. -/
theorem pathInSpanningTreeDFS_complete (T : Nat → Nat → Int) (n e : Nat)
    (hacyc : ∀ v, ¬ Relation.TransGen (TreeArc T n) v v) (fuel : Nat) :
    ∀ (cur : Nat) (path stack : List Nat), (stack ++ [cur]).Chain' (TreeArc T n) → cur < n →
      n ≤ fuel + stack.length →
      ∃ r path', pathInSpanningTreeDFS T n fuel cur e path = some (r, path') ∧
        (Relation.ReflTransGen (TreeArc T n) cur e → r = 1) := by
  induction fuel with
  | zero =>
    intro cur path stack hch hcur hfuel
    exfalso
    have hnd := acyclic_chain_nodup _ hacyc _ hch
    have hlt : ∀ x ∈ stack ++ [cur], x < n := by
      by_cases h2 : 2 ≤ (stack ++ [cur]).length
      · exact chain'_mem_lt T n _ hch h2
      · have h0 : stack = [] := by
          cases stack with
          | nil => rfl
          | cons a t => simp at h2
        subst h0
        intro x hx
        simp only [List.nil_append, List.mem_singleton] at hx
        rw [hx]
        exact hcur
    have := nodup_length_le n _ hnd hlt
    simp only [List.length_append, List.length_singleton] at this
    omega
  | succ fuel ih =>
    intro cur path stack hch hcur hfuel
    unfold pathInSpanningTreeDFS
    by_cases hce : cur = e
    · rw [if_pos hce]
      exact ⟨1, path, rfl, fun _ => rfl⟩
    · rw [if_neg hce]
      obtain ⟨r, path', hres, hcomp⟩ := pathLoop_complete T n cur e hcur
        (fun i p => pathInSpanningTreeDFS T n fuel i e p)
        (fun i p harc => ih i p (stack ++ [cur])
          (by
            rw [List.chain'_append]
            refine ⟨hch, List.chain'_singleton i, ?_⟩
            intro x hx y hy
            rw [getLast?_snoc] at hx
            simp only [Option.mem_def, Option.some.injEq] at hx
            simp only [List.head?_cons, Option.mem_def, Option.some.injEq] at hy
            rw [← hx, ← hy]
            exact harc)
          harc.2.1
          (by simp only [List.length_append, List.length_singleton]; omega))
        (List.range n) path (fun i hi => List.mem_range.1 hi)
      refine ⟨r, path', hres, ?_⟩
      intro hreach
      rcases Relation.ReflTransGen.cases_head hreach with heq | ⟨i, harc, hr⟩
      · exact absurd heq hce
      · exact hcomp ⟨i, List.mem_range.2 harc.2.1, harc, hr⟩

theorem isPathFromTo_reach (R : Nat → Nat → Prop) (s e : Nat) (p : List Nat)
    (h : IsPathFromTo R s e p) : Relation.ReflTransGen R s e := by
  obtain ⟨hh, hl, hch⟩ := h
  match p, hh, hl, hch with
  | a :: t, hh, hl, hch =>
    simp only [List.head?_cons, Option.some.injEq] at hh
    subst hh
    have hch' : List.Chain R a t := hch
    apply List.relationReflTransGen_of_exists_chain t hch'
    rw [List.getLast?_eq_getLast _ (List.cons_ne_nil _ _)] at hl
    exact Option.some.inj hl

/-- In a forest (no directed cycle, at most one arc into every node) two paths
with the same ends are equal. -/
theorem forest_path_unique (R : Nat → Nat → Prop) (hacyc : ∀ v, ¬ Relation.TransGen R v v)
    (hin : ∀ u u' v, R u v → R u' v → u = u') :
    ∀ p q : List Nat, p.Chain' R → q.Chain' R → p ≠ [] → q ≠ [] → p.head? = q.head? →
      p.getLast? = q.getLast? → p = q := by
  intro p
  induction p using List.reverseRecOn with
  | nil => intro q _ _ h; exact absurd rfl h
  | append_singleton p' a ih =>
    intro q hp hq _ hqne hhead hlast
    obtain ⟨q', b, rfl⟩ : ∃ q' b, q = q' ++ [b] :=
      ⟨q.dropLast, q.getLast hqne, (List.dropLast_append_getLast hqne).symm⟩
    rw [getLast?_snoc, getLast?_snoc] at hlast
    simp only [Option.some.injEq] at hlast
    subst hlast
    -- a closed non-trivial chain contradicts acyclicity
    have closed : ∀ l : List Nat, l ≠ [] → (l ++ [a]).Chain' R → l.head? = some a → False := by
      intro l hl hch hh
      rw [List.chain'_append] at hch
      obtain ⟨h1, _, h3⟩ := hch
      obtain ⟨x, t, rfl⟩ := List.exists_cons_of_ne_nil hl
      simp only [List.head?_cons, Option.some.injEq] at hh
      subst hh
      have hr : Relation.ReflTransGen R x ((x :: t).getLast (List.cons_ne_nil _ _)) :=
        List.relationReflTransGen_of_exists_chain t h1 rfl
      have hR := h3 _ (List.getLast?_eq_getLast _ (List.cons_ne_nil _ _)) x rfl
      exact hacyc x (Relation.TransGen.tail' hr hR)
    by_cases hp' : p' = []
    · subst hp'
      by_cases hq' : q' = []
      · subst hq'; rfl
      · exfalso
        simp only [List.nil_append, List.head?_cons] at hhead
        rw [List.head?_append_of_ne_nil _ hq'] at hhead
        exact closed q' hq' hq hhead.symm
    · by_cases hq' : q' = []
      · subst hq'
        exfalso
        simp only [List.nil_append, List.head?_cons] at hhead
        rw [List.head?_append_of_ne_nil _ hp'] at hhead
        exact closed p' hp' hp hhead
      · have hp2 := hp
        have hq2 := hq
        rw [List.chain'_append] at hp2 hq2
        obtain ⟨hpc, _, hpl⟩ := hp2
        obtain ⟨hqc, _, hql⟩ := hq2
        have hlp := List.getLast?_eq_getLast _ hp'
        have hlq := List.getLast?_eq_getLast _ hq'
        have hR1 := hpl _ hlp a rfl
        have hR2 := hql _ hlq a rfl
        have heq := hin _ _ _ hR1 hR2
        rw [List.head?_append_of_ne_nil _ hp', List.head?_append_of_ne_nil _ hq'] at hhead
        have := ih q' hpc hqc hp' hq' hhead (by rw [hlp, hlq, heq])
        rw [this]

/-- C27: on a matrix whose arcs between different nodes form a forest (no
directed cycle, at most one arc into every node) `pathInSpanningTree` returns
for every valid start node `s`; when `e` can be reached from `s` (or is `s`)
the returned list is the path from `s` to `e`, beginning with `s` and ending
with `e`, and it is the only such path; otherwise the returned list is
empty. -/
theorem pathInSpanningTree_forest (T : Nat → Nat → Int) (n s e : Nat) (hs : s < n)
    (hacyc : ∀ v, ¬ Relation.TransGen (TreeArc T n) v v)
    (hin : ∀ u u' v, TreeArc T n u v → TreeArc T n u' v → u = u') :
    ∃ r, pathInSpanningTree T n s e = some r ∧
      (Relation.ReflTransGen (TreeArc T n) s e →
        IsPathFromTo (TreeArc T n) s e r ∧ ∀ p, IsPathFromTo (TreeArc T n) s e p → p = r) ∧
      (¬ Relation.ReflTransGen (TreeArc T n) s e → r = []) := by
  obtain ⟨rr, path', hres, hcomp⟩ := pathInSpanningTreeDFS_complete T n e hacyc (n + 1) s [] []
    (List.chain'_singleton s) hs (by simp)
  have hret : pathInSpanningTree T n s e = some (if rr = 1 then s :: path' else path') := by
    unfold pathInSpanningTree
    rw [hres]
    simp only
    split <;> rfl
  refine ⟨_, hret, ?_, ?_⟩
  · intro hreach
    have h1 := hcomp hreach
    rcases pathInSpanningTree_sound T n s e hs _ hret with h0 | hpath
    · rw [if_pos h1] at h0
      cases h0
    · refine ⟨hpath, ?_⟩
      intro p hp
      have hpne : p ≠ [] := by
        rintro rfl
        have := hp.1
        cases this
      have hrne : (if rr = 1 then s :: path' else path') ≠ [] := by
        rw [if_pos h1]
        exact List.cons_ne_nil _ _
      exact forest_path_unique _ hacyc hin p _ hp.2.2 hpath.2.2 hpne hrne
        (hp.1.trans hpath.1.symm) (hp.2.1.trans hpath.2.1.symm)
  · intro hno
    rcases pathInSpanningTree_sound T n s e hs _ hret with h0 | hpath
    · exact h0
    · exact absurd (isPathFromTo_reach _ s e _ hpath) hno

/-- Witness for C27 on the tree with the arcs 0 → 1, 1 → 2, 0 → 3: the path
from 0 to 2 is `[0, 1, 2]`. -/
theorem pathInSpanningTree_forest_witness :
    (0 < 4) ∧ (∀ v, ¬ Relation.TransGen (TreeArc smallTree 4) v v) ∧
    (∀ u u' v, TreeArc smallTree 4 u v → TreeArc smallTree 4 u' v → u = u') ∧
    pathInSpanningTree smallTree 4 0 2 = some [0, 1, 2] ∧
    pathInSpanningTree smallTree 4 2 0 = some [] ∧
    ∃ r, pathInSpanningTree smallTree 4 0 2 = some r ∧
      (Relation.ReflTransGen (TreeArc smallTree 4) 0 2 →
        IsPathFromTo (TreeArc smallTree 4) 0 2 r ∧
        ∀ p, IsPathFromTo (TreeArc smallTree 4) 0 2 p → p = r) ∧
      (¬ Relation.ReflTransGen (TreeArc smallTree 4) 0 2 → r = []) :=
  have hup : ∀ u v, TreeArc smallTree 4 u v → u < v := by
    have key : ∀ u < 4, ∀ v < 4, smallTree u v = 1 → u < v := by decide
    rintro u v ⟨hu, hv, h1, _⟩
    exact key u hu v hv h1
  have hacyc : ∀ v, ¬ Relation.TransGen (TreeArc smallTree 4) v v := by
    have key : ∀ u v, Relation.TransGen (TreeArc smallTree 4) u v → u < v := by
      intro u v h
      induction h with
      | single h => exact hup _ _ h
      | tail _ h ih => exact lt_trans ih (hup _ _ h)
    intro v hv
    exact lt_irrefl _ (key v v hv)
  have hin : ∀ u u' v, TreeArc smallTree 4 u v → TreeArc smallTree 4 u' v → u = u' := by
    have key : ∀ u < 4, ∀ u' < 4, ∀ v < 4, smallTree u v = 1 → smallTree u' v = 1 → u = u' := by
      decide
    rintro u u' v ⟨hu, hv, h1, _⟩ ⟨hu', _, h1', _⟩
    exact key u hu u' hu' v hv h1 h1'
  ⟨by decide, hacyc, hin, by decide, by decide,
    pathInSpanningTree_forest smallTree 4 0 2 (by decide) hacyc hin⟩

/-! ### Matrices with the same arcs between different nodes -/

theorem strongConnect_congr (A B : Nat → Nat → Int) (n : Nat)
    (h : ∀ i < n, ∀ j < n, i ≠ j → (A i j = 1 ↔ B i j = 1)) (fuel : Nat) :
    ∀ (cur : Nat) (st : TarjanState), cur < n →
      strongConnect A n fuel cur st = strongConnect B n fuel cur st := by
  induction fuel with
  | zero => intro cur st _; rfl
  | succ fuel ih =>
    intro cur st hcur
    unfold strongConnect
    congr 1
    apply List.foldl_ext
    intro acc i hi
    have hi' := List.mem_range.1 hi
    cases acc with
    | none => rfl
    | some s =>
      simp only [Option.some_bind]
      have hcond : (A cur i = 1 ∧ i ≠ cur) ↔ (B cur i = 1 ∧ i ≠ cur) := by
        constructor
        · rintro ⟨h1, h2⟩
          exact ⟨(h cur hcur i hi' (fun hh => h2 hh.symm)).1 h1, h2⟩
        · rintro ⟨h1, h2⟩
          exact ⟨(h cur hcur i hi' (fun hh => h2 hh.symm)).2 h1, h2⟩
      rw [if_congr hcond rfl rfl, ih i s hi']

theorem tarjan_congr (A B : Nat → Nat → Int) (n : Nat)
    (h : ∀ i < n, ∀ j < n, i ≠ j → (A i j = 1 ↔ B i j = 1)) : tarjan A n = tarjan B n := by
  unfold tarjan tarjanLoop
  congr 1
  apply List.foldl_ext
  intro acc i hi
  cases acc with
  | none => rfl
  | some s =>
    simp only [Option.some_bind]
    rw [strongConnect_congr A B n h n i s (List.mem_range.1 hi)]

theorem STWBE_DFS_congr (A B : Nat → Nat → Int) (n : Nat)
    (h : ∀ i < n, ∀ j < n, i ≠ j → (A i j = 1 ↔ B i j = 1)) (fuel : Nat) :
    ∀ (cur : Nat) (st : SpanState), cur < n →
      STWBE_DFS A n fuel cur st = STWBE_DFS B n fuel cur st := by
  induction fuel with
  | zero => intro cur st _; rfl
  | succ fuel ih =>
    intro cur st hcur
    unfold STWBE_DFS
    apply List.foldl_ext
    intro acc i hi
    have hi' := List.mem_range.1 hi
    cases acc with
    | none => rfl
    | some s =>
      simp only [Option.some_bind]
      have hcond : (A cur i = 1 ∧ i ≠ cur) ↔ (B cur i = 1 ∧ i ≠ cur) := by
        constructor
        · rintro ⟨h1, h2⟩
          exact ⟨(h cur hcur i hi' (fun hh => h2 hh.symm)).1 h1, h2⟩
        · rintro ⟨h1, h2⟩
          exact ⟨(h cur hcur i hi' (fun hh => h2 hh.symm)).2 h1, h2⟩
      rw [if_congr hcond rfl rfl, ih i _ hi']

theorem find?_congr_mem {α : Type} (p q : α → Bool) (l : List α)
    (h : ∀ a ∈ l, p a = q a) : l.find? p = l.find? q := by
  induction l with
  | nil => rfl
  | cons a t ih =>
    rw [List.find?_cons, List.find?_cons, h a (List.mem_cons_self _ _),
      ih (fun x hx => h x (List.mem_cons_of_mem _ hx))]

/-- In the sub-matrix of a class of mutual reachability with more than one
node, the first row with an entry 1 is the row of the least node of the
class. -/
theorem findStartNode_class (adjMat : Nat → Nat → Int) (n : Nat) (c : List Nat)
    (hc : IsReachClass adjMat n c) (hnd : c.Nodup) (hlen : c.length > 1) :
    findStartNode (getSubAdjMat adjMat c) n = (List.range n).find? (fun i => decide (i ∈ c)) := by
  unfold findStartNode
  apply find?_congr_mem
  intro i hi
  have hi' := List.mem_range.1 hi
  by_cases hic : i ∈ c
  · obtain ⟨x, hx, _, hxn, _, harc⟩ := class_out_arc adjMat n c hc hnd hlen i hic
    have h1 : (List.range n).any (fun j => decide (getSubAdjMat adjMat c i j = 1)) = true := by
      rw [List.any_eq_true]
      exact ⟨x, List.mem_range.2 hxn, by
        rw [decide_eq_true_eq, getSubAdjMat_eq_one]
        exact ⟨hic, hx, harc⟩⟩
    rw [h1]
    simp [hic]
  · have h1 : (List.range n).any (fun j => decide (getSubAdjMat adjMat c i j = 1)) = false := by
      rw [List.any_eq_false]
      intro j _
      rw [decide_eq_true_eq, getSubAdjMat_eq_one]
      exact fun hh => hic hh.1
    rw [h1]
    simp [hic]

theorem getSubAdjMat_congr (A B : Nat → Nat → Int) (n : Nat) (c : List Nat)
    (h : ∀ i < n, ∀ j < n, i ≠ j → (A i j = 1 ↔ B i j = 1)) :
    ∀ i < n, ∀ j < n, i ≠ j → (getSubAdjMat A c i j = 1 ↔ getSubAdjMat B c i j = 1) := by
  intro i hi j hj hij
  rw [getSubAdjMat_eq_one, getSubAdjMat_eq_one, h i hi j hj hij]

theorem reach_congr (A B : Nat → Nat → Int) (n : Nat)
    (h : ∀ i < n, ∀ j < n, i ≠ j → (A i j = 1 ↔ B i j = 1)) (u v : Nat)
    (hr : Reach A n u v) : Reach B n u v := by
  induction hr with
  | refl => exact Relation.ReflTransGen.refl
  | @tail b c _ hbc ih =>
    by_cases hbc' : b = c
    · rw [← hbc']; exact ih
    · exact ih.tail ⟨hbc.1, hbc.2.1, (h b hbc.1 c hbc.2.1 hbc').1 hbc.2.2⟩

theorem isReachClass_congr (A B : Nat → Nat → Int) (n : Nat)
    (h : ∀ i < n, ∀ j < n, i ≠ j → (A i j = 1 ↔ B i j = 1)) (c : List Nat)
    (hc : IsReachClass A n c) : IsReachClass B n c := by
  have h' : ∀ i < n, ∀ j < n, i ≠ j → (B i j = 1 ↔ A i j = 1) :=
    fun i hi j hj hij => (h i hi j hj hij).symm
  intro u hu v
  rw [hc u hu v]
  constructor
  · rintro ⟨h1, h2⟩
    exact ⟨reach_congr A B n h u v h1, reach_congr A B n h v u h2⟩
  · rintro ⟨h1, h2⟩
    exact ⟨reach_congr B A n h' u v h1, reach_congr B A n h' v u h2⟩

theorem cyclesOfComponent_congr (A B : Nat → Nat → Int) (n : Nat)
    (h : ∀ i < n, ∀ j < n, i ≠ j → (A i j = 1 ↔ B i j = 1)) (c : List Nat)
    (hc : IsReachClass A n c) (hnd : c.Nodup) :
    cyclesOfComponent A n c = cyclesOfComponent B n c := by
  unfold cyclesOfComponent
  by_cases hlen : c.length > 1
  · rw [if_pos hlen, if_pos hlen]
    have hs : spanTreeWithBackEdges (getSubAdjMat A c) n
        = spanTreeWithBackEdges (getSubAdjMat B c) n := by
      unfold spanTreeWithBackEdges
      obtain ⟨r, hr, _, hrn⟩ := findStartNode_spec A n c hc hnd hlen
      have hrB : findStartNode (getSubAdjMat B c) n = some r := by
        rw [findStartNode_class B n c (isReachClass_congr A B n h c hc) hnd hlen,
          ← findStartNode_class A n c hc hnd hlen]
        exact hr
      rw [hr, hrB]
      simp only
      rw [STWBE_DFS_congr _ _ n (getSubAdjMat_congr A B n c h) n r _ hrn]
    rw [hs]
  · rw [if_neg hlen, if_neg hlen]

theorem collect_congr {α β : Type} (f g : α → Option β) (l : List α)
    (h : ∀ a ∈ l, f a = g a) : collect f l = collect g l := by
  induction l with
  | nil => rfl
  | cons a as ih =>
    unfold collect
    rw [h a (List.mem_cons_self _ _), ih (fun x hx => h x (List.mem_cons_of_mem _ hx))]

theorem getMinCycles_congr (A B : Nat → Nat → Int) (n : Nat)
    (h : ∀ i < n, ∀ j < n, i ≠ j → (A i j = 1 ↔ B i j = 1)) :
    getMinCycles A n = getMinCycles B n := by
  obtain ⟨comps, h1, h2, _, h4, h5⟩ := tarjan_spec A n
  unfold getMinCycles
  rw [← tarjan_congr A B n h, h1]
  simp only
  rw [collect_congr (cyclesOfComponent A n) (cyclesOfComponent B n) comps
    (fun c hc => cyclesOfComponent_congr A B n h c (h5 c hc) (h2 c hc).2)]

/-! ### The cycle generator on matrices that differ only on the diagonal -/

theorem revArcsPresent_diag (A B : Nat → Nat → Int) (n : Nat)
    (heq : ∀ i < n, ∀ j < n, i ≠ j → A i j = B i j) :
    ∀ l : List Nat, l.Nodup → (∀ x ∈ l, x < n) → revArcsPresent A l = revArcsPresent B l := by
  intro l
  induction l with
  | nil => intro _ _; rfl
  | cons x t ih =>
    intro hnd hlt
    cases t with
    | nil => rfl
    | cons y rest =>
      have hxy : y ≠ x := by
        intro h
        rw [h] at hnd
        simp at hnd
      have hx : x < n := hlt x (by simp)
      have hy : y < n := hlt y (by simp)
      unfold revArcsPresent
      rw [heq y hy x hx hxy, ih (List.nodup_cons.1 hnd).2
        (fun z hz => hlt z (List.mem_cons_of_mem _ hz))]

theorem head_ne_last (P : List Nat) (hnd : P.Nodup) (hlen : P.length > 1) :
    P.headD 0 ∈ P ∧ P.getLastD 0 ∈ P ∧ P.headD 0 ≠ P.getLastD 0 := by
  match P, hnd, hlen with
  | a :: b :: rest, hnd, _ =>
    have hl : (a :: b :: rest).getLastD 0 = (b :: rest).getLast (List.cons_ne_nil _ _) := by
      rw [List.getLastD_eq_getLast?, List.getLast?_eq_getLast _ (List.cons_ne_nil _ _)]
      simp
    have hmem : (b :: rest).getLast (List.cons_ne_nil _ _) ∈ b :: rest := List.getLast_mem _
    rw [hl]
    refine ⟨by simp, List.mem_cons_of_mem _ hmem, ?_⟩
    simp only [List.headD_cons]
    intro h
    rw [← h] at hmem
    exact (List.nodup_cons.1 hnd).1 hmem

theorem isCycleBiDirected_diag (A B : Nat → Nat → Int) (n : Nat)
    (heq : ∀ i < n, ∀ j < n, i ≠ j → A i j = B i j) (g h : cycleGenerator)
    (ha : g.adjMat = A) (hb : h.adjMat = B) (hn : h.numNodes = g.numNodes)
    (P : List Nat) (hnd : P.Nodup) (hlt : ∀ x ∈ P, x < n) :
    h.isCycleBiDirected P = g.isCycleBiDirected P := by
  unfold cycleGenerator.isCycleBiDirected
  rw [hn, ha, hb]
  by_cases h1 : P.length ≤ 1 ∨ g.numNodes = 0
  · rw [if_pos h1, if_pos h1]
  · rw [if_neg h1, if_neg h1, revArcsPresent_diag A B n heq P hnd hlt]
    obtain ⟨m1, m2, hne⟩ := head_ne_last P hnd (by omega)
    rw [heq _ (hlt _ m1) _ (hlt _ m2) hne]

theorem uniqueBiDirCycle_diag (A B : Nat → Nat → Int) (n : Nat)
    (heq : ∀ i < n, ∀ j < n, i ≠ j → A i j = B i j) (g h : cycleGenerator)
    (ha : g.adjMat = A) (hb : h.adjMat = B) (hn : h.numNodes = g.numNodes)
    (P : List Nat) (hnd : P.Nodup) (hlt : ∀ x ∈ P, x < n) :
    h.uniqueBiDirCycle P = g.uniqueBiDirCycle P := by
  unfold cycleGenerator.uniqueBiDirCycle
  rw [isCycleBiDirected_diag A B n heq g h ha hb hn P hnd hlt]

theorem found_diag (A B : Nat → Nat → Int) (n : Nat)
    (heq : ∀ i < n, ∀ j < n, i ≠ j → A i j = B i j) (g h : cycleGenerator)
    (ha : g.adjMat = A) (hb : h.adjMat = B) (hn : h.numNodes = g.numNodes)
    (hh : h.hashBiDirectedCycles = g.hashBiDirectedCycles)
    (hu : h.uniqBiDirectedCycles = g.uniqBiDirectedCycles)
    (hm : h.cycleLengthMin = g.cycleLengthMin)
    (P : List Nat) (hnd : P.Nodup) (hlt : ∀ x ∈ P, x < n) :
    (if P.length > 1 ∧ h.adjMat (P.getLastD 0) (P.headD 0) = 1 then h.recordEffect P
        else ([], h.uniqBiDirectedCycles)) =
      (if P.length > 1 ∧ g.adjMat (P.getLastD 0) (P.headD 0) = 1 then g.recordEffect P
        else ([], g.uniqBiDirectedCycles)) := by
  have hrec : h.recordEffect P = g.recordEffect P := by
    unfold cycleGenerator.recordEffect
    rw [hh, hu, hm, isCycleBiDirected_diag A B n heq g h ha hb hn P hnd hlt,
      uniqueBiDirCycle_diag A B n heq g h ha hb hn P hnd hlt]
  rw [hrec, hu, ha, hb]
  by_cases hlen : P.length > 1
  · obtain ⟨m1, m2, hne⟩ := head_ne_last P hnd hlen
    rw [heq _ (hlt _ m2) _ (hlt _ m1) (fun hx => hne hx.symm)]
  · rw [if_neg (fun hc => hlen hc.1), if_neg (fun hc => hlen hc.1)]

theorem hashDefined_diag (A B : Nat → Nat → Int) (n : Nat)
    (heq : ∀ i < n, ∀ j < n, i ≠ j → A i j = B i j) (g h : cycleGenerator)
    (ha : g.adjMat = A) (hb : h.adjMat = B) (hn : h.numNodes = g.numNodes)
    (hh : h.hashBiDirectedCycles = g.hashBiDirectedCycles)
    (P : List Nat) (hnd : P.Nodup) (hlt : ∀ x ∈ P, x < n) :
    h.HashDefined P ↔ g.HashDefined P := by
  unfold cycleGenerator.HashDefined
  rw [hh, isCycleBiDirected_diag A B n heq g h ha hb hn P hnd hlt,
    uniqueBiDirCycle_diag A B n heq g h ha hb hn P hnd hlt, ha, hb]
  by_cases hlen : P.length > 1
  · obtain ⟨m1, m2, hne⟩ := head_ne_last P hnd hlen
    rw [heq _ (hlt _ m2) _ (hlt _ m1) (fun hx => hne hx.symm)]
  · constructor
    · intro _ hc; exact absurd hc.1 hlen
    · intro _ hc; exact absurd hc.1 hlen

theorem getLastD_mem (P : List Nat) (hP : P ≠ []) : P.getLastD 0 ∈ P := by
  rw [List.getLastD_eq_getLast?, List.getLast?_eq_getLast _ hP]
  exact List.getLast_mem hP

theorem newPaths_diag (A B : Nat → Nat → Int) (n : Nat)
    (heq : ∀ i < n, ∀ j < n, i ≠ j → A i j = B i j) (g h : cycleGenerator)
    (ha : g.adjMat = A) (hb : h.adjMat = B) (hgn : g.numNodes = n) (hn : h.numNodes = n)
    (a : Nat) (P : List Nat) (hP : P ≠ []) (hlt : ∀ x ∈ P, x < n) :
    h.newPaths a (P.getLastD 0) P = g.newPaths a (P.getLastD 0) P := by
  unfold cycleGenerator.newPaths
  rw [hn, hgn, ha, hb]
  congr 1
  apply List.filter_congr
  intro i hi
  have hi' : i < n := by
    have := List.mem_range'_1.1 hi
    omega
  have ht := getLastD_mem P hP
  by_cases hin : i ∈ P
  · have : isInList i P ≠ 0 := by
      unfold isInList
      rw [if_pos hin]
      decide
    simp [this]
  · have hne : P.getLastD 0 ≠ i := fun hx => hin (hx ▸ ht)
    rw [heq _ (hlt _ ht) i hi' hne]

/-- Two generators that differ only in the diagonal of their matrices find the
same lists. -/
theorem allFound_diag (A B : Nat → Nat → Int) (n : Nat)
    (heq : ∀ i < n, ∀ j < n, i ≠ j → A i j = B i j) (fuel : Nat) :
    ∀ g h : cycleGenerator, g.adjMat = A → h.adjMat = B → g.numNodes = n → h.numNodes = n →
      h.hashBiDirectedCycles = g.hashBiDirectedCycles →
      h.uniqBiDirectedCycles = g.uniqBiDirectedCycles →
      h.cycleLengthMin = g.cycleLengthMin → h.pathQueue = g.pathQueue →
      (∀ P ∈ g.pathQueue, P ≠ [] ∧ P.Nodup ∧ ∀ x ∈ P, x < n) →
      h.allFound fuel = g.allFound fuel := by
  induction fuel with
  | zero => intro g h _ _ _ _ _ _ _ _ _; rfl
  | succ fuel ih =>
    intro g h ha hb hgn hn hh hu hm hq hval
    by_cases hnil : g.pathQueue = []
    · rw [allFound_nil _ g hnil, allFound_nil _ h (hq.trans hnil)]
    · obtain ⟨P, rest, hgq⟩ := List.exists_cons_of_ne_nil hnil
      obtain ⟨hP, hnd, hlt⟩ := hval P (by rw [hgq]; exact List.mem_cons_self _ _)
      have hdd : ({ h with cyclesFound := [] } : cycleGenerator).HashDefined P ↔
          ({ g with cyclesFound := [] } : cycleGenerator).HashDefined P :=
        hashDefined_diag A B n heq ({ g with cyclesFound := [] } : cycleGenerator)
          ({ h with cyclesFound := [] } : cycleGenerator) ha hb (hn.trans hgn.symm) hh P
          hnd hlt
      by_cases hdef : ({ g with cyclesFound := [] } : cycleGenerator).HashDefined P
      swap
      · rw [allFound_of_oneStep_none fuel g (oneStep_cons_none _ P rest hgq hdef),
          allFound_of_oneStep_none fuel h
            (oneStep_cons_none _ P rest (hq.trans hgq) (fun hx => hdef (hdd.1 hx)))]
      obtain ⟨g1, hs1, a2, a3, a4, a5, _, a7, a8, a9⟩ :=
        oneStep_cons ({ g with cyclesFound := [] } : cycleGenerator) P rest hgq hP hdef
      obtain ⟨k1, ht1, b2, b3, b4, b5, _, b7, b8, b9⟩ :=
        oneStep_cons ({ h with cyclesFound := [] } : cycleGenerator) P rest (hq.trans hgq) hP
          (hdd.2 hdef)
      rw [allFound_of_oneStep fuel g 1 g1 hs1, allFound_of_oneStep fuel h 1 k1 ht1,
        if_pos rfl, if_pos rfl]
      have hf := found_diag A B n heq ({ g with cyclesFound := [] } : cycleGenerator)
        ({ h with cyclesFound := [] } : cycleGenerator) ha hb (hn.trans hgn.symm) hh hu hm P
        hnd hlt
      have hnp := newPaths_diag A B n heq ({ g with cyclesFound := [] } : cycleGenerator)
        ({ h with cyclesFound := [] } : cycleGenerator) ha hb hgn hn (P.headD 0) P hP hlt
      have hrec := ih g1 k1 (a2.trans ha) (b2.trans hb) (a3.trans hgn) (b3.trans hn)
        (b5.trans (hh.trans a5.symm))
        (by rw [b9, a9, hf]) (b4.trans (hm.trans a4.symm))
        (by rw [b7, a7, hnp])
        (by
          intro Q hQ
          rw [a7, List.mem_append] at hQ
          rcases hQ with hQ | hQ
          · exact hval Q (by rw [hgq]; exact List.mem_cons_of_mem _ hQ)
          · obtain ⟨i, rfl, _, hin, _, hnot⟩ := newPaths_mem _ _ _ P Q hQ
            refine ⟨by simp, ?_, ?_⟩
            · rw [List.nodup_append]
              refine ⟨hnd, List.nodup_singleton _, ?_⟩
              intro x hx hx'
              rw [List.mem_singleton] at hx'
              rw [hx'] at hx
              exact hnot hx
            · intro x hx
              rw [List.mem_append, List.mem_singleton] at hx
              rcases hx with hx | rfl
              · exact hlt x hx
              · have : ({ g with cyclesFound := [] } : cycleGenerator).numNodes = n := hgn
                rw [this] at hin
                exact hin)
      rw [hrec, b8, a8, hf]

/-- Run to exhaustion, fresh generators on two matrices that differ only on the
diagonal return the same lists. -/
theorem drain_diag (A B : Nat → Nat → Int) (n : Nat)
    (heq : ∀ i < n, ∀ j < n, i ≠ j → A i j = B i j) (L h : Int) (hsafe : h ≠ 1 ∨ n ≤ 10) :
    ∃ out,
      (∀ k, (((cycleGenerator.new A n).setCycleLengthMin L).setHashBiDirectedCycles
          h).stepBound < k →
        (((cycleGenerator.new A n).setCycleLengthMin L).setHashBiDirectedCycles h).drain k
          = some out) ∧
      (∀ k, (((cycleGenerator.new B n).setCycleLengthMin L).setHashBiDirectedCycles
          h).stepBound < k →
        (((cycleGenerator.new B n).setCycleLengthMin L).setHashBiDirectedCycles h).drain k
          = some out) := by
  have hb : (((cycleGenerator.new B n).setCycleLengthMin L).setHashBiDirectedCycles
      h).stepBound = (((cycleGenerator.new A n).setCycleLengthMin L).setHashBiDirectedCycles
      h).stepBound := rfl
  refine ⟨_, drain_eq_allFound _ rfl rfl (hashSafe_fresh _ n h rfl rfl rfl hsafe), ?_⟩
  intro k hk
  rw [drain_eq_allFound _ rfl rfl (hashSafe_fresh _ n h rfl rfl rfl hsafe) k hk, hb]
  congr 1
  refine allFound_diag A B n heq _
    (((cycleGenerator.new A n).setCycleLengthMin L).setHashBiDirectedCycles h)
    (((cycleGenerator.new B n).setCycleLengthMin L).setHashBiDirectedCycles h)
    rfl rfl rfl rfl rfl rfl rfl rfl ?_
  intro P hP
  have hq : (((cycleGenerator.new A n).setCycleLengthMin L).setHashBiDirectedCycles
      h).pathQueue = (List.range n).map (fun i => [i]) := rfl
  rw [hq, List.mem_map] at hP
  obtain ⟨i, hi, rfl⟩ := hP
  refine ⟨by simp, by simp, ?_⟩
  intro x hx
  rw [List.mem_singleton] at hx
  rw [hx]
  exact List.mem_range.1 hi

/-- Self-loops where the hashing is defined: for two matrices that differ only
on the diagonal, `tarjan` returns the same list of sets, `getMinCycles` returns
the same list of lists, and for every minimum length `L` and dedup flag `h`,
with dedup off (`h ≠ 1`) or at most 10 nodes, the fresh generators run to
exhaustion return the same sequence of lists. -/
theorem self_loops_ignored_of_safe (A B : Nat → Nat → Int) (n : Nat)
    (hdiff : ∀ i < n, ∀ j < n, i ≠ j → A i j = B i j) :
    (∃ comps, tarjan A n = some comps ∧ tarjan B n = some comps) ∧
    (∃ cycles, getMinCycles A n = some cycles ∧ getMinCycles B n = some cycles) ∧
    ∀ L h : Int, (h ≠ 1 ∨ n ≤ 10) → ∃ out,
      (∀ k, (((cycleGenerator.new A n).setCycleLengthMin L).setHashBiDirectedCycles
          h).stepBound < k →
        (((cycleGenerator.new A n).setCycleLengthMin L).setHashBiDirectedCycles h).drain k
          = some out) ∧
      (∀ k, (((cycleGenerator.new B n).setCycleLengthMin L).setHashBiDirectedCycles
          h).stepBound < k →
        (((cycleGenerator.new B n).setCycleLengthMin L).setHashBiDirectedCycles h).drain k
          = some out) := by
  have h1 : ∀ i < n, ∀ j < n, i ≠ j → (A i j = 1 ↔ B i j = 1) := by
    intro i hi j hj hij
    rw [hdiff i hi j hj hij]
  obtain ⟨comps, cycles, hc, hm, _⟩ := getMinCycles_spec A n
  refine ⟨⟨comps, hc, ?_⟩, ⟨cycles, hm, ?_⟩, fun L h hs => drain_diag A B n hdiff L h hs⟩
  · rw [← tarjan_congr A B n h1]
    exact hc
  · rw [← getMinCycles_congr A B n h1]
    exact hm

/-- The triangle with a chord, without and with a self-loop at every node. -/
theorem self_loops_ignored_of_safe_example :
    (∀ i < 3, ∀ j < 3, i ≠ j → triangleWithChord i j = triangleWithLoops i j) ∧
    tarjan triangleWithLoops 3 = some [[0, 1, 2]] ∧
    getMinCycles triangleWithLoops 3 = some [[], [0, 1, 2]] ∧
    (∃ comps, tarjan triangleWithChord 3 = some comps ∧
      tarjan triangleWithLoops 3 = some comps) ∧
    (∃ cycles, getMinCycles triangleWithChord 3 = some cycles ∧
      getMinCycles triangleWithLoops 3 = some cycles) ∧
    ∀ L h : Int, (h ≠ 1 ∨ 3 ≤ 10) → ∃ out,
      (∀ k, (((cycleGenerator.new triangleWithChord 3).setCycleLengthMin
          L).setHashBiDirectedCycles h).stepBound < k →
        (((cycleGenerator.new triangleWithChord 3).setCycleLengthMin
          L).setHashBiDirectedCycles h).drain k = some out) ∧
      (∀ k, (((cycleGenerator.new triangleWithLoops 3).setCycleLengthMin
          L).setHashBiDirectedCycles h).stepBound < k →
        (((cycleGenerator.new triangleWithLoops 3).setCycleLengthMin
          L).setHashBiDirectedCycles h).drain k = some out) :=
  ⟨by decide, by decide, by decide,
    self_loops_ignored_of_safe triangleWithChord triangleWithLoops 3 (by decide)⟩

/-- C22 (counterexample): on the 2 × 2 matrix with the entry 2 at `(0, 1)`
`tarjan` returns the sets `{0}` and `{1}`, `getMinCycles` returns the empty
list of cycles and the constructor seeds the frontier with `[0]` and `[1]`;
for `n = 0`, `tarjan` and `getMinCycles` return the empty list: a result is
computed, no failure is reported. -/
theorem invalid_graph_gets_result :
    invalidMatrix 0 1 = 2 ∧ tarjan invalidMatrix 2 = some [[0], [1]] ∧
    getMinCycles invalidMatrix 2 = some [] ∧
    (cycleGenerator.new invalidMatrix 2).pathQueue = [[0], [1]] ∧
    (cycleGenerator.new invalidMatrix 2).drain 10 = some [] ∧
    tarjan invalidMatrix 0 = some [] ∧ getMinCycles invalidMatrix 0 = some [] ∧
    (cycleGenerator.new invalidMatrix 0).drain 1 = some [] := by
  decide

/-- C22 (amended): `tarjan`, `getMinCycles` and the constructor of
`cycleGenerator` validate nothing: for every `n ≥ 0` and every matrix `tarjan` and
`getMinCycles` return a result, the one they return for the matrix in which
every entry other than 1 is replaced by 0, which is the empty list when `n` is
0; the constructor binds the matrix as it is and seeds the frontier with one
singleton path per node. -/
theorem invalid_graph_not_rejected (A : Nat → Nat → Int) (n : Nat) :
    ∃ comps cycles, tarjan A n = some comps ∧ tarjan (zeroOneOf A) n = some comps ∧
      getMinCycles A n = some cycles ∧ getMinCycles (zeroOneOf A) n = some cycles ∧
      (n = 0 → comps = [] ∧ cycles = []) ∧
      (cycleGenerator.new A n).adjMat = A ∧ (cycleGenerator.new A n).numNodes = n ∧
      (cycleGenerator.new A n).pathQueue = (List.range n).map (fun i => [i]) := by
  have h1 : ∀ i < n, ∀ j < n, i ≠ j → (A i j = 1 ↔ zeroOneOf A i j = 1) := by
    intro i _ j _ _
    unfold zeroOneOf
    by_cases h : A i j = 1
    · rw [if_pos h]; exact ⟨fun _ => rfl, fun _ => h⟩
    · rw [if_neg h]; exact ⟨fun hh => absurd hh h, fun hh => absurd hh (by decide)⟩
  obtain ⟨comps, cycles, hc, hm, h3, h4, _, h6⟩ := getMinCycles_spec A n
  refine ⟨comps, cycles, hc, ?_, hm, ?_, ?_, rfl, rfl, rfl⟩
  · rw [← tarjan_congr A _ n h1]
    exact hc
  · rw [← getMinCycles_congr A _ n h1]
    exact hm
  · intro hn
    have hcomps : comps = [] := by
      cases comps with
      | nil => rfl
      | cons c rest =>
        exfalso
        obtain ⟨v, t, hvt⟩ := List.exists_cons_of_ne_nil (h3 c (List.mem_cons_self _ _)).1
        have := (h4 v).2 ⟨c, List.mem_cons_self _ _, by rw [hvt]; exact List.mem_cons_self _ _⟩
        omega
    refine ⟨hcomps, ?_⟩
    rw [hcomps] at h6
    exact List.length_eq_zero.1 h6

/-! ### The tree entries of `spanTreeWithBackEdges` -/

/-- Every node that a call of `STWBE_DFS` for `cur` visits can be reached from
`cur` along the entries equal to 1. -/
theorem STWBE_DFS_tree (adjMat : Nat → Nat → Int) (n : Nat) (fuel : Nat) :
    ∀ (cur : Nat) (st0 : SpanState), SpanInv adjMat n st0 → st0.visited cur = 0 → cur < n →
      n ≤ fuel + (visitedSet n st0.visited).card →
      ∃ st, STWBE_DFS adjMat n fuel cur st0 = some st ∧ SpanPost adjMat n st0 st cur ∧
        ∀ u, st0.visited u = 0 → st.visited u ≠ 0 →
          Relation.ReflTransGen (fun a b => st.spanTreeAndBackEdges a b = 1) cur u := by
  induction fuel with
  | zero =>
    intro cur st0 hinv0 hcur0 hn hfuel
    obtain ⟨st, hst, _⟩ := STWBE_DFS_spec adjMat n 0 cur st0 hinv0 hcur0 hn hfuel
    unfold STWBE_DFS at hst
    cases hst
  | succ fuel ih =>
    intro cur st0 hinv0 hcur0 hn hfuel
    unfold STWBE_DFS
    have hloop := foldl_range_inv
      (fun (acc : Option SpanState) (i : Nat) =>
        acc.bind (fun s =>
          if adjMat cur i = 1 ∧ i ≠ cur then
            if s.visited i = 0 then
              STWBE_DFS adjMat n fuel i
                { s with spanTreeAndBackEdges := setAt2 s.spanTreeAndBackEdges cur i 1 }
            else some { s with spanTreeAndBackEdges := setAt2 s.spanTreeAndBackEdges cur i (-1) }
          else some s))
      (fun i acc => ∃ st, acc = some st ∧ SpanLoop adjMat n st0 cur i st ∧
        ∀ u, st0.visited u = 0 → st.visited u ≠ 0 →
          Relation.ReflTransGen (fun a b => st.spanTreeAndBackEdges a b = 1) cur u) n
      (some { st0 with visited := setAt st0.visited cur 1 })
      ⟨_, rfl, spanLoop_init adjMat n st0 cur hinv0 hcur0 hn, by
        intro u hu0 hu1
        by_cases huc : u = cur
        · rw [huc]
        · exfalso
          apply hu1
          show setAt st0.visited cur 1 u = 0
          rw [setAt_ne _ _ _ _ huc]
          exact hu0⟩
      (by
        rintro i hi acc ⟨st, rfl, hL, hT⟩
        simp only [Option.some_bind]
        by_cases hc : adjMat cur i = 1 ∧ i ≠ cur
        · rw [if_pos hc]
          by_cases hvi : st.visited i = 0
          · rw [if_pos hvi]
            have hlt := unvisited_lt n st0.visited st.visited hL.mono cur hn hcur0 hL.curVis
            obtain ⟨st', hst', hpost, htree⟩ := ih i
              { st with spanTreeAndBackEdges := setAt2 st.spanTreeAndBackEdges cur i 1 }
              (spanInv_tree adjMat n st0 cur i st hL hn hi hc hvi) hvi hi
              (by
                show n ≤ fuel + (visitedSet n st.visited).card
                omega)
            refine ⟨st', hst', spanLoop_tree adjMat n st0 cur i st st' hL hcur0 hn hi hc hvi hpost,
              ?_⟩
            have hedge : st'.spanTreeAndBackEdges cur i = 1 := by
              rw [hpost.rows cur hL.curVis i]
              exact setAt2_same _ _ _ _
            have hmono : ∀ a b, st.spanTreeAndBackEdges a b = 1 →
                st'.spanTreeAndBackEdges a b = 1 := by
              intro a b hab
              have hva : st.visited a ≠ 0 := (hL.inv.nz a b (by rw [hab]; decide)).1
              rw [hpost.rows a hva b]
              show setAt2 st.spanTreeAndBackEdges cur i 1 a b = 1
              by_cases hab' : a = cur ∧ b = i
              · rw [hab'.1, hab'.2, setAt2_same]
              · rw [setAt2_ne _ _ _ _ _ _ hab']
                exact hab
            intro u hu0 hu1
            by_cases hus : st.visited u = 0
            · exact Relation.ReflTransGen.head hedge (htree u hus hu1)
            · exact (hT u hu0 hus).mono hmono
          · rw [if_neg hvi]
            refine ⟨_, rfl, spanLoop_back adjMat n st0 cur i st hL hcur0 hn hi hc hvi, ?_⟩
            intro u hu0 hu1
            refine (hT u hu0 hu1).mono ?_
            intro a b hab
            show setAt2 st.spanTreeAndBackEdges cur i (-1) a b = 1
            by_cases hab' : a = cur ∧ b = i
            · exfalso
              have := hL.rowCur i (le_refl i)
              rw [hab'.1, hab'.2, this] at hab
              exact absurd hab (by decide)
            · rw [setAt2_ne _ _ _ _ _ _ hab']
              exact hab
        · rw [if_neg hc]
          exact ⟨_, rfl, spanLoop_skip adjMat n st0 cur i st hL hc, hT⟩)
    obtain ⟨st, hst, hL, hT⟩ := hloop
    exact ⟨st, hst, spanPost_of_loop adjMat n st0 cur st hL, hT⟩

theorem find?_range_least (n r : Nat) (p : Nat → Bool)
    (h : (List.range n).find? p = some r) : p r = true ∧ r < n ∧ ∀ j < r, p j = false := by
  obtain ⟨hp, as, bs, hl, has⟩ := List.find?_eq_some.1 h
  have hr : r < n := List.mem_range.1 (by rw [hl]; simp)
  refine ⟨hp, hr, ?_⟩
  intro j hj
  have hjmem : j ∈ List.range n := List.mem_range.2 (by omega)
  have hpw := List.pairwise_lt_range n
  rw [hl, List.pairwise_append] at hpw
  obtain ⟨_, hbs, _⟩ := hpw
  rw [List.pairwise_cons] at hbs
  rw [hl, List.mem_append, List.mem_cons] at hjmem
  rcases hjmem with hj1 | rfl | hj3
  · have := has j hj1
    simpa using this
  · omega
  · have := hbs.1 j hj3
    omega

/-- `spanTreeWithBackEdges` on the subgraph induced by a class of mutual
reachability with more than one node: the facts of
`spanTreeWithBackEdges_spec`, and every node of the class can be reached from
the least node of the class along the entries equal to 1. -/
theorem spanTreeWithBackEdges_tree (adjMat : Nat → Nat → Int) (n : Nat) (c : List Nat)
    (hc : IsReachClass adjMat n c) (hnd : c.Nodup) (hlen : c.length > 1)
    (hlt : ∀ v ∈ c, v < n) :
    ∃ M r, spanTreeWithBackEdges (getSubAdjMat adjMat c) n = some M ∧
      r ∈ c ∧ (∀ x ∈ c, r ≤ x) ∧
      (∀ u v, M u v = 0 ∨ M u v = 1 ∨ M u v = -1) ∧
      (∀ u v, M u v ≠ 0 ↔ (u ≠ v ∧ u ∈ c ∧ v ∈ c ∧ adjMat u v = 1)) ∧
      (entrySet n M 1).card + 1 = c.length ∧
      (∀ v ∈ c, Relation.ReflTransGen (fun a b => M a b = 1) r v) := by
  obtain ⟨M, hM, hvals, hnz, hones, _⟩ := spanTreeWithBackEdges_spec adjMat n c hc hnd hlen hlt
  obtain ⟨r, hr, hrc, hrn⟩ := findStartNode_spec adjMat n c hc hnd hlen
  have hmin : ∀ x ∈ c, r ≤ x := by
    have hf := hr
    rw [findStartNode_class adjMat n c hc hnd hlen] at hf
    obtain ⟨_, _, hleast⟩ := find?_range_least n r _ hf
    intro x hx
    by_contra hlt'
    have := hleast x (by omega)
    simp only [decide_eq_false_iff_not] at this
    exact this hx
  obtain ⟨st, hst, hpost, htree⟩ := STWBE_DFS_tree (getSubAdjMat adjMat c) n n r
    { spanTreeAndBackEdges := fun _ _ => 0, visited := fun _ => 0 }
    (spanInv_init _ n) rfl hrn (Nat.le_add_right n _)
  have hMst : M = st.spanTreeAndBackEdges := by
    unfold spanTreeWithBackEdges at hM
    rw [hr] at hM
    simp only at hM
    rw [hst] at hM
    exact (Option.some.inj hM).symm
  have hvis : ∀ u, u ∈ c → st.visited u ≠ 0 := by
    intro u hu
    have hreach : Reach (getSubAdjMat adjMat c) n r u :=
      reach_sub_of_class adjMat n c hc u hu r ((hc r hrc u).mp hu).1 hrc
    exact reach_closed (getSubAdjMat adjMat c) n (fun w => st.visited w ≠ 0)
      (by
        intro a b ha hab
        by_cases heq : a = b
        · rw [← heq]; exact ha
        · exact (hpost.complete a rfl ha b hab.2.1 hab.2.2 heq).2)
      r u hpost.curVis hreach
  refine ⟨M, r, hM, hrc, hmin, hvals, hnz, hones, ?_⟩
  intro v hv
  rw [hMst]
  exact htree v rfl (hvis v hv)

/-- In the matrix of `spanTreeWithBackEdges_tree` no entry 1 leads into the
root and exactly one leads into every other node of the class. -/
theorem span_tree_indegree (adjMat : Nat → Nat → Int) (n : Nat) (c : List Nat) (hnd : c.Nodup)
    (hlt : ∀ v ∈ c, v < n) (M : Nat → Nat → Int) (r : Nat) (hrc : r ∈ c)
    (hnz : ∀ u v, M u v ≠ 0 ↔ (u ≠ v ∧ u ∈ c ∧ v ∈ c ∧ adjMat u v = 1))
    (hones : (entrySet n M 1).card + 1 = c.length)
    (htree : ∀ v ∈ c, Relation.ReflTransGen (fun a b => M a b = 1) r v) :
    (∀ u, M u r ≠ 1) ∧ (∀ v ∈ c, v ≠ r → ∃! u, M u v = 1) := by
  classical
  have hmemE : ∀ u v, M u v = 1 → (u, v) ∈ entrySet n M 1 := by
    intro u v huv
    obtain ⟨_, h2, h3, _⟩ := (hnz u v).1 (by rw [huv]; decide)
    rw [mem_entrySet]
    exact ⟨hlt u h2, hlt v h3, huv⟩
  have hincoming : ∀ v ∈ c, v ≠ r → ∃ u, M u v = 1 := by
    intro v hv hvr
    rcases Relation.ReflTransGen.cases_tail (htree v hv) with h | ⟨b, _, hb⟩
    · exact absurd h hvr
    · exact ⟨b, hb⟩
  have hsub : c.toFinset.erase r ⊆ (entrySet n M 1).image Prod.snd := by
    intro v hv
    rw [Finset.mem_erase, List.mem_toFinset] at hv
    obtain ⟨u, hu⟩ := hincoming v hv.2 hv.1
    exact Finset.mem_image.2 ⟨(u, v), hmemE u v hu, rfl⟩
  have hcardE : (c.toFinset.erase r).card = (entrySet n M 1).card := by
    rw [Finset.card_erase_of_mem (List.mem_toFinset.2 hrc), List.toFinset_card_of_nodup hnd]
    omega
  have hle : ((entrySet n M 1).image Prod.snd).card ≤ (c.toFinset.erase r).card := by
    rw [hcardE]
    exact Finset.card_image_le
  have heq := Finset.eq_of_subset_of_card_le hsub hle
  have hinj : Set.InjOn Prod.snd (entrySet n M 1 : Set (Nat × Nat)) := by
    rw [← Finset.card_image_iff, ← heq, hcardE]
  constructor
  · intro u hu
    have h1 : r ∈ (entrySet n M 1).image Prod.snd :=
      Finset.mem_image.2 ⟨(u, r), hmemE u r hu, rfl⟩
    rw [← heq, Finset.mem_erase] at h1
    exact h1.1 rfl
  · intro v hv hvr
    obtain ⟨u, hu⟩ := hincoming v hv hvr
    refine ⟨u, hu, ?_⟩
    intro u' hu'
    have := hinj (Finset.mem_coe.2 (hmemE u' v hu')) (Finset.mem_coe.2 (hmemE u v hu)) rfl
    exact (Prod.mk.inj this).1

theorem any_congr_mem {α : Type} (p q : α → Bool) (l : List α)
    (h : ∀ a ∈ l, p a = q a) : l.any p = l.any q := by
  induction l with
  | nil => rfl
  | cons a t ih =>
    rw [List.any_cons, List.any_cons, h a (List.mem_cons_self _ _),
      ih (fun x hx => h x (List.mem_cons_of_mem _ hx))]

/-- C26: let `sub` be a matrix all of whose arcs lie inside a set `S` of more
than one valid node in which every node reaches every other one. Then
`spanTreeWithBackEdges` returns a matrix `M` with entries 0, 1, -1 whose entry
`(u, v)` is non-zero exactly for the arcs `u → v`, `u ≠ v`, of `sub`; the
entries 1 form a spanning tree of `S` rooted at the least node `r` of `S` (no
entry 1 leads into `r`, exactly one leads into every other node of `S`, and
every node of `S` is reached from `r` along entries 1); every other arc is
marked -1. -/
theorem spanTreeWithBackEdges_spanning_tree (sub : Nat → Nat → Int) (n : Nat) (S : List Nat)
    (hnd : S.Nodup) (hlen : S.length > 1) (hlt : ∀ v ∈ S, v < n)
    (hin : ∀ u < n, ∀ v < n, sub u v = 1 → u ∈ S ∧ v ∈ S)
    (hsc : ∀ u ∈ S, ∀ v ∈ S, Reach sub n u v) :
    ∃ M r, spanTreeWithBackEdges sub n = some M ∧ r ∈ S ∧ (∀ x ∈ S, r ≤ x) ∧
      (∀ u v, M u v = 0 ∨ M u v = 1 ∨ M u v = -1) ∧
      (∀ u v, M u v ≠ 0 ↔ (u < n ∧ v < n ∧ sub u v = 1 ∧ u ≠ v)) ∧
      (∀ u, M u r ≠ 1) ∧ (∀ v ∈ S, v ≠ r → ∃! u, M u v = 1) ∧
      (∀ v ∈ S, Relation.ReflTransGen (fun a b => M a b = 1) r v) ∧
      (∀ u v, u < n → v < n → sub u v = 1 → u ≠ v → M u v ≠ 1 → M u v = -1) := by
  have hclass : IsReachClass sub n S := by
    intro u hu v
    constructor
    · intro hv
      exact ⟨hsc u hu v hv, hsc v hv u hu⟩
    · rintro ⟨h1, _⟩
      exact reach_closed sub n (fun w => w ∈ S)
        (fun a b _ hab => (hin a hab.1 b hab.2.1 hab.2.2).2) u v hu h1
  obtain ⟨M, r, hM, hrS, hmin, hvals, hnz, hones, htree⟩ :=
    spanTreeWithBackEdges_tree sub n S hclass hnd hlen hlt
  obtain ⟨hroot, hone⟩ := span_tree_indegree sub n S hnd hlt M r hrS hnz hones htree
  have hone1 : ∀ u < n, ∀ v < n,
      (sub u v = 1 ↔ getSubAdjMat sub S u v = 1) := by
    intro u hu v hv
    rw [getSubAdjMat_eq_one]
    constructor
    · intro h
      exact ⟨(hin u hu v hv h).1, (hin u hu v hv h).2, h⟩
    · exact fun h => h.2.2
  have hsame : spanTreeWithBackEdges sub n = spanTreeWithBackEdges (getSubAdjMat sub S) n := by
    obtain ⟨r', hr', _, hrn'⟩ := findStartNode_spec sub n S hclass hnd hlen
    have hf : findStartNode sub n = findStartNode (getSubAdjMat sub S) n := by
      unfold findStartNode
      apply find?_congr_mem
      intro i hi
      apply any_congr_mem
      intro j hj
      have := hone1 i (List.mem_range.1 hi) j (List.mem_range.1 hj)
      simp only [this]
    unfold spanTreeWithBackEdges
    rw [hf, hr']
    simp only
    rw [STWBE_DFS_congr sub (getSubAdjMat sub S) n
      (fun i hi j hj _ => hone1 i hi j hj) n r' _ hrn']
  refine ⟨M, r, by rw [hsame]; exact hM, hrS, hmin, hvals, ?_, hroot, hone, htree, ?_⟩
  · intro u v
    rw [hnz u v]
    constructor
    · rintro ⟨h1, h2, h3, h4⟩
      exact ⟨hlt u h2, hlt v h3, h4, h1⟩
    · rintro ⟨h1, h2, h3, h4⟩
      exact ⟨h4, (hin u h1 v h2 h3).1, (hin u h1 v h2 h3).2, h3⟩
  · intro u v hu hv huv hne h1
    have hnz' : M u v ≠ 0 :=
      (hnz u v).2 ⟨hne, (hin u hu v hv huv).1, (hin u hu v hv huv).2, huv⟩
    rcases hvals u v with h | h | h
    · exact absurd h hnz'
    · exact absurd h h1
    · exact h

/-- Witness for C26 on the triangle 0 → 1 → 2 → 0 with the chord 0 → 2: the
tree entries are 0 → 1 and 1 → 2, the arcs 0 → 2 and 2 → 0 are marked -1. -/
theorem spanTreeWithBackEdges_spanning_tree_witness :
    ([0, 1, 2] : List Nat).Nodup ∧ ([0, 1, 2] : List Nat).length > 1 ∧
    (∀ v ∈ ([0, 1, 2] : List Nat), v < 3) ∧
    (∀ u < 3, ∀ v < 3, triangleWithChord u v = 1 →
      u ∈ ([0, 1, 2] : List Nat) ∧ v ∈ ([0, 1, 2] : List Nat)) ∧
    (∀ u ∈ ([0, 1, 2] : List Nat), ∀ v ∈ ([0, 1, 2] : List Nat),
      Reach triangleWithChord 3 u v) ∧
    (spanTreeWithBackEdges triangleWithChord 3).map
        (fun M => [[M 0 0, M 0 1, M 0 2], [M 1 0, M 1 1, M 1 2], [M 2 0, M 2 1, M 2 2]])
      = some [[0, 1, -1], [0, 0, 1], [-1, 0, 0]] ∧
    ∃ M r, spanTreeWithBackEdges triangleWithChord 3 = some M ∧
      r ∈ ([0, 1, 2] : List Nat) ∧ (∀ x ∈ ([0, 1, 2] : List Nat), r ≤ x) ∧
      (∀ u v, M u v = 0 ∨ M u v = 1 ∨ M u v = -1) ∧
      (∀ u v, M u v ≠ 0 ↔ (u < 3 ∧ v < 3 ∧ triangleWithChord u v = 1 ∧ u ≠ v)) ∧
      (∀ u, M u r ≠ 1) ∧ (∀ v ∈ ([0, 1, 2] : List Nat), v ≠ r → ∃! u, M u v = 1) ∧
      (∀ v ∈ ([0, 1, 2] : List Nat), Relation.ReflTransGen (fun a b => M a b = 1) r v) ∧
      (∀ u v, u < 3 → v < 3 → triangleWithChord u v = 1 → u ≠ v → M u v ≠ 1 → M u v = -1) :=
  have a01 : Reach triangleWithChord 3 0 1 :=
    Relation.ReflTransGen.single ⟨by decide, by decide, by decide⟩
  have a12 : Reach triangleWithChord 3 1 2 :=
    Relation.ReflTransGen.single ⟨by decide, by decide, by decide⟩
  have a20 : Reach triangleWithChord 3 2 0 :=
    Relation.ReflTransGen.single ⟨by decide, by decide, by decide⟩
  have hsc : ∀ u ∈ ([0, 1, 2] : List Nat), ∀ v ∈ ([0, 1, 2] : List Nat),
      Reach triangleWithChord 3 u v := by
    intro u hu v hv
    simp only [List.mem_cons, List.mem_singleton, List.not_mem_nil, or_false] at hu hv
    rcases hu with rfl | rfl | rfl <;> rcases hv with rfl | rfl | rfl
    · exact Relation.ReflTransGen.refl
    · exact a01
    · exact a01.trans a12
    · exact a12.trans a20
    · exact Relation.ReflTransGen.refl
    · exact a12
    · exact a20
    · exact a20.trans a01
    · exact Relation.ReflTransGen.refl
  have h3 : ∀ u < 3, u ∈ ([0, 1, 2] : List Nat) := by decide
  have hin : ∀ u < 3, ∀ v < 3, triangleWithChord u v = 1 →
      u ∈ ([0, 1, 2] : List Nat) ∧ v ∈ ([0, 1, 2] : List Nat) :=
    fun u hu v hv _ => ⟨h3 u hu, h3 v hv⟩
  ⟨by decide, by decide, by decide, hin, hsc, by decide,
    spanTreeWithBackEdges_spanning_tree triangleWithChord 3 [0, 1, 2] (by decide) (by decide)
      (by decide) hin hsc⟩

/-! ### `getPath` -/

theorem unmarkedCount_lt (n cur : Nat) (m m' : List Nat) (hsub : ∀ v ∈ m, v ∈ m')
    (hcur : cur < n) (hnot : cur ∉ m) (hin : cur ∈ m') :
    unmarkedCount n m' < unmarkedCount n m := by
  unfold unmarkedCount
  have hsl : ((List.range n).filter (fun v => decide (v ∉ m'))).Sublist
      ((List.range n).filter (fun v => decide (v ∉ m))) := by
    apply List.monotone_filter_right
    intro v hv
    simp only [decide_eq_true_eq] at hv ⊢
    exact fun h => hv (hsub v h)
  rcases Nat.lt_or_ge ((List.range n).filter (fun v => decide (v ∉ m'))).length
      ((List.range n).filter (fun v => decide (v ∉ m))).length with h | h
  · exact h
  · exfalso
    have heq := hsl.eq_of_length_le h
    have h1 : cur ∈ (List.range n).filter (fun v => decide (v ∉ m)) := by
      simp [List.mem_filter, hcur, hnot]
    rw [← heq] at h1
    simp [List.mem_filter, hin] at h1

theorem unmarkedCount_pos (n cur : Nat) (m : List Nat) (hcur : cur < n) (hnot : cur ∉ m) :
    0 < unmarkedCount n m := by
  unfold unmarkedCount
  apply List.length_pos_of_mem (a := cur)
  simp [List.mem_filter, hcur, hnot]

theorem getPathDFS_spec (adjMat : Nat → Nat → Int) (n : Nat) (d : Int) (endNode : Nat) :
    ∀ (fuel cur : Nat) (st : PathState), cur < n → cur ∉ st.markedNodes →
      unmarkedCount n st.markedNodes ≤ fuel →
      ∃ r st', getPathDFS adjMat n d fuel cur endNode st = some (r, st') ∧
        PathPost adjMat n d endNode cur st r st' := by
  intro fuel
  induction fuel with
  | zero =>
    intro cur st hcur hnot hfuel
    have := unmarkedCount_pos n cur st.markedNodes hcur hnot
    omega
  | succ fuel ih =>
    intro cur st hcur hnot hfuel
    unfold getPathDFS
    by_cases hce : cur = endNode
    · rw [if_pos hce]
      refine ⟨1, _, rfl, ?_⟩
      refine ⟨?_, ?_, ?_, ?_, Or.inl rfl, ?_, ?_, ?_⟩
      · intro v hv
        exact (mem_setInsert _ _ _).2 (Or.inr hv)
      · exact (mem_setInsert _ _ _).2 (Or.inl rfl)
      · intro v hv hv'
        rcases (mem_setInsert _ _ _).1 hv with h | h
        · rw [h]; exact hcur
        · exact absurd h hv'
      · intro x hx hx' hxe
        rcases (mem_setInsert _ _ _).1 hx with h | h
        · exact absurd (h.trans hce) hxe
        · exact absurd h hx'
      · constructor
        · intro _
          exact ⟨(mem_setInsert _ _ _).2 (Or.inl hce.symm), hce ▸ hnot⟩
        · intro _; rfl
      · intro _
        refine ⟨[], rfl, List.Chain.nil, ?_, ?_, ?_⟩
        · simp [hce]
        · simp
        · intro x hx
          simp only [List.mem_singleton] at hx
          subst hx
          exact ⟨(mem_setInsert _ _ _).2 (Or.inl rfl), hnot⟩
      · intro h; exact absurd rfl h
    · rw [if_neg hce]
      have hloop := foldl_range_inv
        (fun (acc : Option (Int × PathState)) (i : Nat) =>
          acc.bind (fun p =>
            if adjMat cur i = 1 ∧ (adjMat i cur = 1 ∨ d = 1) ∧ i ∉ p.2.markedNodes then
              (getPathDFS adjMat n d fuel i endNode p.2).map (fun q =>
                if q.1 = 1 then ((1 : Int), { q.2 with curPath := i :: q.2.curPath })
                else (p.1, q.2))
            else some p))
        (fun i acc => ∃ f s, acc = some (f, s) ∧ PathLoop adjMat n d endNode cur st i f s)
        n (some (0, { st with markedNodes := setInsert cur st.markedNodes }))
        ?_ ?_
      · obtain ⟨f, s, hfs, h1, h2, h3, h4, h5, h6, h7, h8, h9⟩ := hloop
        refine ⟨f, s, hfs, h1, h2, h3, ?_, h6, h7, h8, h9⟩
        intro x hx hx' hxe y hy
        by_cases hxc : x = cur
        · subst hxc
          exact h5 y hy.2.1 hy
        · exact h4 x hx hx' hxc hxe y hy
      · refine ⟨0, _, rfl, ?_, ?_, ?_, ?_, ?_, Or.inr rfl, ?_, ?_, ?_⟩
        · intro v hv
          exact (mem_setInsert _ _ _).2 (Or.inr hv)
        · exact (mem_setInsert _ _ _).2 (Or.inl rfl)
        · intro v hv hv'
          rcases (mem_setInsert _ _ _).1 hv with h | h
          · rw [h]; exact hcur
          · exact absurd h hv'
        · intro x hx hx' hxc
          rcases (mem_setInsert _ _ _).1 hx with h | h
          · exact absurd h hxc
          · exact absurd h hx'
        · intro j hj; omega
        · constructor
          · intro h; exact absurd h (by decide)
          · rintro ⟨h, h'⟩
            rcases (mem_setInsert _ _ _).1 h with h | h
            · exact absurd h.symm hce
            · exact absurd h h'
        · intro h; exact absurd h (by decide)
        · intro _; rfl
      · rintro i hi acc ⟨f, s, rfl, h1, h2, h3, h4, h5, h6, h7, h8, h9⟩
        simp only [Option.some_bind]
        by_cases hc : adjMat cur i = 1 ∧ (adjMat i cur = 1 ∨ d = 1) ∧ i ∉ s.markedNodes
        · rw [if_pos hc]
          have htrav : Trav adjMat n d cur i := ⟨hcur, hi, hc.1, hc.2.1⟩
          have hlt : unmarkedCount n s.markedNodes ≤ fuel := by
            have := unmarkedCount_lt n cur st.markedNodes s.markedNodes h1 hcur hnot h2
            omega
          obtain ⟨r, s', hcall, p1, p2, p3, p4, p5, p6, p7, p8⟩ := ih i s hi hc.2.2 hlt
          rw [hcall]
          simp only [Option.map_some']
          by_cases hr : r = 1
          · rw [if_pos hr]
            have hend := p6.1 hr
            have hf : f ≠ 1 := fun hf => hend.2 (h7.1 hf).1
            have hcp := h9 hf
            obtain ⟨S, hS1, hS2, hS3, hS4, hS5⟩ := p7 hr
            refine ⟨1, _, rfl, ?_, p1 _ h2, ?_, ?_, ?_, Or.inl rfl, ?_, ?_, ?_⟩
            · intro v hv; exact p1 _ (h1 v hv)
            · intro v hv hv'
              by_cases hvs : v ∈ s.markedNodes
              · exact h3 v hvs hv'
              · exact p3 v hv hvs
            · intro x hx hx' hxc hxe y hy
              by_cases hxs : x ∈ s.markedNodes
              · exact p1 _ (h4 x hxs hx' hxc hxe y hy)
              · exact p4 x hx hxs hxe y hy
            · intro j hj hjt
              rcases Nat.lt_succ_iff_lt_or_eq.1 hj with h | h
              · exact p1 _ (h5 j h hjt)
              · rw [h]; exact p2
            · constructor
              · intro _
                exact ⟨hend.1, fun h => hend.2 (h1 _ h)⟩
              · intro _; rfl
            · intro _
              refine ⟨i :: S, ?_, List.Chain.cons htrav hS2, ?_, ?_, ?_⟩
              · show i :: s'.curPath = i :: S ++ st.curPath
                rw [hS1, hcp]; rfl
              · rw [List.getLast?_cons_cons]; exact hS3
              · rw [List.nodup_cons]
                refine ⟨?_, hS4⟩
                intro hmem
                exact (hS5 cur hmem).2 h2
              · intro x hx
                rcases List.mem_cons.1 hx with h | h
                · rw [h]; exact ⟨p1 _ h2, hnot⟩
                · exact ⟨(hS5 x h).1, fun hh => (hS5 x h).2 (h1 _ hh)⟩
            · intro h; exact absurd rfl h
          · rw [if_neg hr]
            have hcp := p8 hr
            refine ⟨f, s', rfl, ?_, p1 _ h2, ?_, ?_, ?_, h6, ?_, ?_, ?_⟩
            · intro v hv; exact p1 _ (h1 v hv)
            · intro v hv hv'
              by_cases hvs : v ∈ s.markedNodes
              · exact h3 v hvs hv'
              · exact p3 v hv hvs
            · intro x hx hx' hxc hxe y hy
              by_cases hxs : x ∈ s.markedNodes
              · exact p1 _ (h4 x hxs hx' hxc hxe y hy)
              · exact p4 x hx hxs hxe y hy
            · intro j hj hjt
              rcases Nat.lt_succ_iff_lt_or_eq.1 hj with h | h
              · exact p1 _ (h5 j h hjt)
              · rw [h]; exact p2
            · constructor
              · intro hf
                exact ⟨p1 _ (h7.1 hf).1, (h7.1 hf).2⟩
              · rintro ⟨he, he'⟩
                by_cases hes : endNode ∈ s.markedNodes
                · exact h7.2 ⟨hes, he'⟩
                · exact absurd (p6.2 ⟨he, hes⟩) hr
            · intro hf
              obtain ⟨S, hS1, hS2, hS3, hS4, hS5⟩ := h8 hf
              refine ⟨S, by rw [hcp, hS1], hS2, hS3, hS4, ?_⟩
              intro x hx
              exact ⟨p1 _ (hS5 x hx).1, (hS5 x hx).2⟩
            · intro hf
              rw [hcp]; exact h9 hf
        · rw [if_neg hc]
          refine ⟨f, s, rfl, h1, h2, h3, h4, ?_, h6, h7, h8, h9⟩
          intro j hj hjt
          rcases Nat.lt_succ_iff_lt_or_eq.1 hj with h | h
          · exact h5 j h hjt
          · subst h
            by_contra hjm
            exact hc ⟨hjt.2.2.1, hjt.2.2.2, hjm⟩

theorem chain_reach {α : Type} (R : α → α → Prop) :
    ∀ (S : List α) (a b : α), List.Chain R a S → (a :: S).getLast? = some b →
      Relation.ReflTransGen R a b := by
  intro S
  induction S with
  | nil =>
    intro a b _ h
    simp only [List.getLast?_singleton, Option.some.injEq] at h
    rw [h]
  | cons x xs ih =>
    intro a b hc h
    rw [List.chain_cons] at hc
    rw [List.getLast?_cons_cons] at h
    exact Relation.ReflTransGen.head hc.1 (ih x b hc.2 h)

theorem getPath_spec (adjMat : Nat → Nat → Int) (n a b : Nat) (d : Int)
    (ha : a < n) (hab : a ≠ b) :
    ∃ p, getPath adjMat n a b d = some p ∧
      (p ≠ [] ↔ Relation.ReflTransGen (Trav adjMat n d) a b) ∧
      (p ≠ [] → IsSimplePath adjMat n d a b p) := by
  have hfuel : unmarkedCount n ([] : List Nat) ≤ n + 1 := by
    unfold unmarkedCount
    have := List.length_filter_le (fun v => decide (v ∉ ([] : List Nat))) (List.range n)
    rw [List.length_range] at this
    omega
  obtain ⟨r, st', hcall, p1, p2, p3, p4, p5, p6, p7, p8⟩ :=
    getPathDFS_spec adjMat n d b (n + 1) a { curPath := [], markedNodes := [] } ha
      (List.not_mem_nil a) hfuel
  unfold getPath
  rw [if_neg hab, hcall]
  simp only [Option.map_some']
  by_cases hr : r = 1
  · rw [if_pos hr]
    obtain ⟨S, hS1, hS2, hS3, hS4, hS5⟩ := p7 hr
    simp only [List.append_nil] at hS1
    rw [hS1]
    refine ⟨_, rfl, ?_, ?_⟩
    · constructor
      · intro _
        exact chain_reach _ S a b hS2 hS3
      · intro _; exact List.cons_ne_nil _ _
    · intro _
      refine ⟨rfl, hS3, hS4, ?_, ?_⟩
      · intro x hx
        exact p3 x (hS5 x hx).1 (hS5 x hx).2
      · exact hS2
  · rw [if_neg hr]
    have hcp := p8 hr
    simp only at hcp
    rw [hcp]
    refine ⟨_, rfl, ?_, fun h => absurd rfl h⟩
    constructor
    · intro h; exact absurd rfl h
    · intro hreach
      exfalso
      have hcl : ∀ x, Relation.ReflTransGen (Trav adjMat n d) a x →
          x ∈ st'.markedNodes ∨ b ∈ st'.markedNodes := by
        intro x hx
        induction hx with
        | refl => exact Or.inl p2
        | @tail y z _ hstep ih =>
          rcases ih with h | h
          · by_cases hyb : y = b
            · exact Or.inr (hyb ▸ h)
            · exact Or.inl (p4 y h (List.not_mem_nil y) hyb z hstep)
          · exact Or.inr h
      have hb : b ∈ st'.markedNodes := by
        rcases hcl b hreach with h | h <;> exact h
      exact hr (p6.2 ⟨hb, List.not_mem_nil b⟩)

/-- C24: for nodes `a ≠ b` with `a` below `n`, `getPath` returns; the returned
list is non-empty exactly when `b` is reachable from `a` by traversable steps,
and a non-empty result is a simple path: it starts with `a`, ends with `b`,
repeats no node, its nodes are below `n`, and every consecutive pair is a
traversable step. For equal end points it returns the empty list. -/
theorem getPath_simple_path_iff_reachable (adjMat : Nat → Nat → Int) (n a b : Nat) (d : Int)
    (ha : a < n) (hab : a ≠ b) :
    (∃ p, getPath adjMat n a b d = some p ∧
      (p ≠ [] ↔ Relation.ReflTransGen (Trav adjMat n d) a b) ∧
      (p ≠ [] → IsSimplePath adjMat n d a b p)) ∧
    getPath adjMat n a a d = some [] :=
  ⟨getPath_spec adjMat n a b d ha hab, by unfold getPath; rw [if_pos rfl]⟩

theorem getPath_simple_path_iff_reachable_witness :
    ((∃ p, getPath triangleWithChord 3 1 0 1 = some p ∧
      (p ≠ [] ↔ Relation.ReflTransGen (Trav triangleWithChord 3 1) 1 0) ∧
      (p ≠ [] → IsSimplePath triangleWithChord 3 1 1 0 p)) ∧
    getPath triangleWithChord 3 1 1 1 = some []) ∧
    getPath triangleWithChord 3 1 0 1 = some [1, 2, 0] ∧
    getPath triangleWithChord 3 1 0 0 = some [] :=
  ⟨getPath_simple_path_iff_reachable triangleWithChord 3 1 0 1 (by decide) (by decide),
   by decide, by decide⟩

/-! ### `getAllPaths` -/

theorem getAllPathsDFS_no_return (adjMat : Nat → Nat → Int) (n : Nat) (d : Int)
    (fuel cur endNode : Nat) (st : AllPathsState) (h : cur ≠ endNode) :
    getAllPathsDFS adjMat n d false fuel cur endNode st = none := by
  cases fuel with
  | zero => rfl
  | succ fuel =>
    unfold getAllPathsDFS
    rw [if_neg h]
    simp

theorem getAllPaths_no_return (adjMat : Nat → Nat → Int) (n a b : Nat) (d : Int)
    (h : a ≠ b) : getAllPaths adjMat n a b d false = none := by
  unfold getAllPaths
  rw [if_neg h, getAllPathsDFS_no_return adjMat n d _ a b _ h]
  rfl

theorem mem_of_getLast?_eq {l : List Nat} {a : Nat} (h : l.getLast? = some a) : a ∈ l :=
  List.mem_of_mem_getLast? (by rw [h]; rfl)

theorem prefix_snoc_unique (P Q : List Nat) (i j : Nat)
    (hi : (P ++ [i]) <+: Q) (hj : (P ++ [j]) <+: Q) : i = j := by
  obtain ⟨T1, h1⟩ := hi
  obtain ⟨T2, h2⟩ := hj
  rw [← h2, List.append_assoc, List.append_assoc] at h1
  have := List.append_cancel_left h1
  simp only [List.singleton_append, List.cons.injEq] at this
  exact this.1

theorem simple_ends_eq (P Q : List Nat) (e : Nat) (hpre : P <+: Q)
    (hP : P.getLast? = some e) (hQ : Q.getLast? = some e) (hnd : Q.Nodup) : Q = P := by
  obtain ⟨T, rfl⟩ := hpre
  by_cases hT : T = []
  · rw [hT, List.append_nil]
  · exfalso
    rw [List.getLast?_append_of_ne_nil _ hT] at hQ
    have h1 := mem_of_getLast?_eq hQ
    have h2 := mem_of_getLast?_eq hP
    exact (List.nodup_append.1 hnd).2.2 h2 h1

theorem extendsTo_self (adjMat : Nat → Nat → Int) (n : Nat) (d : Int) (e : Nat) (P : List Nat)
    (hP : P.getLast? = some e) (hnd : P.Nodup) (hlt : ∀ x ∈ P, x < n)
    (hch : P.Chain' (Trav adjMat n d)) (Q : List Nat) :
    Q ∈ [P] ↔ ExtendsTo adjMat n d e P Q := by
  rw [List.mem_singleton]
  constructor
  · intro h
    rw [h]
    exact ⟨List.prefix_refl P, hP, hnd, hlt, hch⟩
  · rintro ⟨h1, h2, h3, _, _⟩
    exact simple_ends_eq P Q e h1 hP h2 h3

theorem extendsTo_snoc (adjMat : Nat → Nat → Int) (n : Nat) (d : Int) (e cur : Nat)
    (P Q : List Nat) (hP : P.getLast? = some cur) (hce : cur ≠ e)
    (h : ExtendsTo adjMat n d e P Q) : ∃ j < n, (P ++ [j]) <+: Q := by
  obtain ⟨⟨T, rfl⟩, h2, _, h4, _⟩ := h
  cases T with
  | nil =>
    rw [List.append_nil, hP] at h2
    exact absurd (Option.some.inj h2) hce
  | cons j T =>
    refine ⟨j, h4 j (by simp), T, by simp⟩

theorem extendsTo_step (adjMat : Nat → Nat → Int) (n : Nat) (d : Int) (e cur i : Nat)
    (P Q : List Nat) (hP : P.getLast? = some cur)
    (h : ExtendsTo adjMat n d e P Q) (hpre : (P ++ [i]) <+: Q) :
    Trav adjMat n d cur i ∧ i ∉ P := by
  obtain ⟨_, _, h3, _, h5⟩ := h
  have hch : (P ++ [i]).Chain' (Trav adjMat n d) := h5.prefix hpre
  have hnd : (P ++ [i]).Nodup := h3.sublist hpre.sublist
  constructor
  · rw [List.chain'_append] at hch
    exact hch.2.2 cur (by rw [hP]; rfl) i (by simp)
  · intro hi
    exact (List.nodup_append.1 hnd).2.2 hi (by simp)

theorem getAllPathsDFS_spec (adjMat : Nat → Nat → Int) (n : Nat) (d : Int) (endNode : Nat) :
    ∀ (fuel cur : Nat) (st : AllPathsState),
      st.curPath.getLast? = some cur → st.curPath.Nodup → (∀ x ∈ st.curPath, x < n) →
      st.curPath.Chain' (Trav adjMat n d) →
      (∀ v, v ∈ st.markedNodes ↔ v ∈ st.curPath ∧ v ≠ cur) → st.markedNodes.Nodup →
      n + 1 ≤ fuel + st.curPath.length →
      ∃ st', getAllPathsDFS adjMat n d true fuel cur endNode st = some st' ∧
        AllPathsPost adjMat n d endNode st st' := by
  intro fuel
  induction fuel with
  | zero =>
    intro cur st _ hnd hlt _ _ _ hfuel
    exfalso
    have := nodup_length_le n st.curPath hnd hlt
    omega
  | succ fuel ih =>
    intro cur st hlast hnd hlt hch hmark hmnd hfuel
    have hcurP : cur ∈ st.curPath := mem_of_getLast?_eq hlast
    have hcurM : cur ∉ st.markedNodes := fun h => ((hmark cur).1 h).2 rfl
    have hcur : cur < n := hlt cur hcurP
    unfold getAllPathsDFS
    by_cases hce : cur = endNode
    · rw [if_pos hce]
      refine ⟨_, rfl, rfl, ?_, ?_, [st.curPath], rfl, List.nodup_singleton _, ?_⟩
      · intro v
        show v ∈ setErase cur (setInsert cur st.markedNodes) ↔ v ∈ st.markedNodes
        rw [mem_setErase _ _ _ (nodup_setInsert _ _ hmnd hcurM), mem_setInsert]
        constructor
        · rintro ⟨h1, h2 | h2⟩
          · exact absurd h2 h1
          · exact h2
        · intro h
          exact ⟨fun hv => hcurM (hv ▸ h), Or.inr h⟩
      · exact nodup_setErase _ _ (nodup_setInsert _ _ hmnd hcurM)
      · intro Q
        exact extendsTo_self adjMat n d endNode st.curPath (hce ▸ hlast) hnd hlt hch Q
    · rw [if_neg hce]
      have hloop := foldl_range_inv
        (fun (acc : Option AllPathsState) (i : Nat) =>
          acc.bind (fun s =>
            if adjMat cur i = 1 ∧ (adjMat i cur = 1 ∨ d = 1) ∧ i ∉ s.markedNodes then
              (getAllPathsDFS adjMat n d true fuel i endNode
                { s with curPath := s.curPath ++ [i] }).map
                (fun s' => { s' with curPath := s'.curPath.dropLast })
            else some s))
        (fun i acc => ∃ s, acc = some s ∧ AllPathsLoop adjMat n d endNode st i s)
        n (some { st with markedNodes := setInsert cur st.markedNodes })
        ?_ ?_
      · obtain ⟨s, hs, h1, h2, h3, R, h4, h5, h6⟩ := hloop
        rw [hs]
        simp only [Option.map_some', Option.some_bind, if_true]
        refine ⟨_, rfl, h1, ?_, nodup_setErase _ _ h3, R, h4, h5, ?_⟩
        · intro v
          show v ∈ setErase cur s.markedNodes ↔ v ∈ st.markedNodes
          rw [mem_setErase _ _ _ h3, h2, hmark]
          tauto
        · intro Q
          rw [h6]
          constructor
          · exact fun h => h.1
          · intro h
            exact ⟨h, extendsTo_snoc adjMat n d endNode cur st.curPath Q hlast hce h⟩
      · refine ⟨_, rfl, rfl, ?_, nodup_setInsert _ _ hmnd hcurM, [], by simp, List.nodup_nil, ?_⟩
        · intro v
          show v ∈ setInsert cur st.markedNodes ↔ v ∈ st.curPath
          rw [mem_setInsert, hmark]
          constructor
          · rintro (h | h)
            · rw [h]; exact hcurP
            · exact h.1
          · intro h
            by_cases hv : v = cur
            · exact Or.inl hv
            · exact Or.inr ⟨h, hv⟩
        · intro Q
          constructor
          · intro h; exact absurd h (List.not_mem_nil Q)
          · rintro ⟨_, j, hj, _⟩; omega
      · rintro i hi acc ⟨s, rfl, h1, h2, h3, R, h4, h5, h6⟩
        simp only [Option.some_bind]
        by_cases hc : adjMat cur i = 1 ∧ (adjMat i cur = 1 ∨ d = 1) ∧ i ∉ s.markedNodes
        · rw [if_pos hc]
          have htrav : Trav adjMat n d cur i := ⟨hcur, hi, hc.1, hc.2.1⟩
          have hiP : i ∉ st.curPath := fun h => hc.2.2 ((h2 i).2 h)
          obtain ⟨s', hcall, p1, p2, p3, R', p4, p5, p6⟩ :=
            ih i { s with curPath := s.curPath ++ [i] }
              (by simp)
              (by
                show (s.curPath ++ [i]).Nodup
                rw [h1]
                exact List.Nodup.append hnd (List.nodup_singleton i)
                  (by
                    intro x hx hx'
                    rw [List.mem_singleton] at hx'
                    exact hiP (hx' ▸ hx)))
              (by
                show ∀ x ∈ s.curPath ++ [i], x < n
                intro x hx
                rw [h1] at hx
                rcases List.mem_append.1 hx with h | h
                · exact hlt x h
                · rw [List.mem_singleton] at h
                  rw [h]; exact hi)
              (by
                show (s.curPath ++ [i]).Chain' (Trav adjMat n d)
                rw [h1, List.chain'_append]
                refine ⟨hch, List.chain'_singleton i, ?_⟩
                intro x hx y hy
                rw [hlast] at hx
                simp only [Option.mem_def, Option.some.injEq] at hx
                simp only [List.head?_cons, Option.mem_def, Option.some.injEq] at hy
                rw [← hx, ← hy]
                exact htrav)
              (by
                intro v
                show v ∈ s.markedNodes ↔ v ∈ s.curPath ++ [i] ∧ v ≠ i
                rw [h2, h1, List.mem_append, List.mem_singleton]
                constructor
                · intro h
                  exact ⟨Or.inl h, fun hv => hiP (hv ▸ h)⟩
                · rintro ⟨h | h, h'⟩
                  · exact h
                  · exact absurd h h')
              h3
              (by
                show n + 1 ≤ fuel + (s.curPath ++ [i]).length
                rw [h1, List.length_append, List.length_singleton]
                omega)
          rw [hcall]
          simp only [Option.map_some']
          refine ⟨_, rfl, ?_, ?_, p3, R ++ R', ?_, ?_, ?_⟩
          · show s'.curPath.dropLast = st.curPath
            rw [p1]
            show (s.curPath ++ [i]).dropLast = st.curPath
            rw [h1, List.dropLast_concat]
          · intro v
            rw [p2]
            exact h2 v
          · show s'.allPaths = st.allPaths ++ (R ++ R')
            rw [p4]
            show s.allPaths ++ R' = st.allPaths ++ (R ++ R')
            rw [h4, List.append_assoc]
          · refine List.Nodup.append h5 p5 ?_
            intro Q hQ hQ'
            obtain ⟨_, j, hj, hjp⟩ := (h6 Q).1 hQ
            have hip := ((p6 Q).1 hQ').1
            have hip' : (st.curPath ++ [i]) <+: Q := by
              have : ({ s with curPath := s.curPath ++ [i] } : AllPathsState).curPath =
                  st.curPath ++ [i] := by
                show s.curPath ++ [i] = st.curPath ++ [i]
                rw [h1]
              rw [this] at hip
              exact hip
            have := prefix_snoc_unique st.curPath Q j i hjp hip'
            omega
          · intro Q
            have hcp : ({ s with curPath := s.curPath ++ [i] } : AllPathsState).curPath =
                st.curPath ++ [i] := by
              show s.curPath ++ [i] = st.curPath ++ [i]
              rw [h1]
            rw [List.mem_append, h6, p6, hcp]
            constructor
            · rintro (⟨h, j, hj, hjp⟩ | ⟨h, hrest⟩)
              · exact ⟨h, j, Nat.lt_succ_of_lt hj, hjp⟩
              · exact ⟨⟨(List.prefix_append _ _).trans h, hrest⟩, i, Nat.lt_succ_self i, h⟩
            · rintro ⟨h, j, hj, hjp⟩
              rcases Nat.lt_succ_iff_lt_or_eq.1 hj with hlt' | heq
              · exact Or.inl ⟨h, j, hlt', hjp⟩
              · rw [heq] at hjp
                exact Or.inr ⟨hjp, h.2⟩
        · rw [if_neg hc]
          refine ⟨s, rfl, h1, h2, h3, R, h4, h5, ?_⟩
          intro Q
          rw [h6]
          constructor
          · rintro ⟨h, j, hj, hjp⟩
            exact ⟨h, j, Nat.lt_succ_of_lt hj, hjp⟩
          · rintro ⟨h, j, hj, hjp⟩
            refine ⟨h, j, ?_, hjp⟩
            rcases Nat.lt_succ_iff_lt_or_eq.1 hj with hlt' | heq
            · exact hlt'
            · exfalso
              rw [heq] at hjp
              obtain ⟨ht, hni⟩ := extendsTo_step adjMat n d endNode cur i st.curPath Q hlast h hjp
              exact hc ⟨ht.2.2.1, ht.2.2.2, fun hm => hni ((h2 i).1 hm)⟩

theorem isSimplePath_iff_extendsTo (adjMat : Nat → Nat → Int) (n : Nat) (d : Int) (a b : Nat)
    (Q : List Nat) : IsSimplePath adjMat n d a b Q ↔ ExtendsTo adjMat n d b [a] Q := by
  unfold IsSimplePath ExtendsTo
  have : Q.head? = some a ↔ [a] <+: Q := by
    cases Q with
    | nil => simp
    | cons x xs => simp [List.cons_prefix_cons, eq_comm]
  rw [this]

theorem getAllPaths_spec (adjMat : Nat → Nat → Int) (n a b : Nat) (d : Int) (ha : a < n) :
    ∃ R, getAllPaths adjMat n a b d true = some R ∧ R.Nodup ∧
      ∀ Q, Q ∈ R ↔ IsSimplePath adjMat n d a b Q := by
  unfold getAllPaths
  by_cases hab : a = b
  · rw [if_pos hab]
    refine ⟨_, rfl, List.nodup_singleton _, ?_⟩
    intro Q
    rw [isSimplePath_iff_extendsTo]
    exact extendsTo_self adjMat n d b [a] (by simp [hab]) (List.nodup_singleton a)
      (by simpa using ha) (List.chain'_singleton a) Q
  · rw [if_neg hab]
    obtain ⟨st', hcall, _, _, _, R, h4, h5, h6⟩ :=
      getAllPathsDFS_spec adjMat n d b (n + 1) a { curPath := [a], allPaths := [], markedNodes := [] }
        (by simp) (List.nodup_singleton a) (by simpa using ha) (List.chain'_singleton a)
        (by intro v; simp) List.nodup_nil (by simp)
    rw [hcall]
    refine ⟨R, ?_, h5, ?_⟩
    · simp only [Option.map_some', Option.some.injEq]
      rw [h4]; rfl
    · intro Q
      rw [isSimplePath_iff_extendsTo]
      exact h6 Q

/-- C23: on the graph with the single arc 0 → 1, `getAllPaths` from 0 to 1
reaches the closing brace of `getAllPathsDFS` without a `return`, so under the
C++ rules the call has no result; if that point returns to the caller the
result is the one path `[0, 1]`. With equal end points the result is `[[1]]`. -/
theorem getAllPaths_reaches_closing_brace :
    getAllPaths singleArc 2 0 1 1 false = none ∧
    getAllPaths singleArc 2 0 1 1 true = some [[0, 1]] ∧
    getAllPaths singleArc 2 1 1 1 false = some [[1]] := by
  decide

/-! ### `tarjan`: order of the returned sets -/

theorem prefClosed_append (adjMat : Nat → Nat → Int) (n : Nat) (comps : List (List Nat))
    (comp : List Nat) (h : PrefClosed adjMat n comps)
    (hall : ∀ c ∈ comps ++ [comp], ∀ u ∈ c, ∀ v, Arc adjMat n u v →
      ∃ d ∈ comps ++ [comp], v ∈ d) :
    PrefClosed adjMat n (comps ++ [comp]) := by
  intro k
  rcases Nat.lt_or_ge comps.length k with hk | hk
  · rw [List.take_of_length_le (by simp; omega)]
    exact hall
  · rw [List.take_append_of_le_length hk]
    exact h k

theorem closeComponent_comps (cur : Nat) (s s' : TarjanState)
    (h : closeComponent cur s = some s') :
    s'.strongConComps = s.strongConComps ∨
      ∃ comp, s'.strongConComps = s.strongConComps ++ [comp] := by
  unfold closeComponent at h
  split at h
  · split at h
    · exact absurd h (by simp)
    · simp only [Option.some.injEq] at h
      rw [← h]
      exact Or.inr ⟨_, rfl⟩
  · simp only [Option.some.injEq] at h
    rw [h]
    exact Or.inl rfl

/-- `strongConnect` keeps the initial segments of the list of components
closed under leaving arcs. -/
theorem strongConnect_order (adjMat : Nat → Nat → Int) (n : Nat) (fuel : Nat) :
    ∀ (cur : Nat) (s0 : TarjanState) (G : List Nat), TInv adjMat n s0 G →
      s0.nodeIndex cur = -1 → cur < n → (∀ g ∈ G, Reach adjMat n g cur) →
      unvisitedCount n s0 ≤ fuel → PrefClosed adjMat n s0.strongConComps →
      ∃ s', strongConnect adjMat n fuel cur s0 = some s' ∧ Post adjMat n s0 s' G cur ∧
        PrefClosed adjMat n s'.strongConComps := by
  induction fuel with
  | zero =>
    intro cur s0 G _ hcur0 hn _ hfuel
    have := unvisitedCount_pos n s0 cur hn hcur0
    omega
  | succ fuel ih =>
    intro cur s0 G hinv0 hcur0 hn hG hfuel hpc
    obtain ⟨sf, hsf, hpostf⟩ := strongConnect_spec adjMat n (fuel + 1) cur s0 G hinv0 hcur0 hn hG
      hfuel
    refine ⟨sf, hsf, hpostf, ?_⟩
    unfold strongConnect at hsf
    have hloop := foldl_range_inv
      (fun (acc : Option TarjanState) (i : Nat) =>
        acc.bind (fun s =>
          if adjMat cur i = 1 ∧ i ≠ cur then
            if s.nodeIndex i = -1 then
              (strongConnect adjMat n fuel i s).map (fun s' =>
                { s' with nodeLowlink := setAt s'.nodeLowlink cur
                            (min (s'.nodeLowlink cur) (s'.nodeLowlink i)) })
            else if i ∈ s.myQueueContents then
              some { s with nodeLowlink := setAt s.nodeLowlink cur
                              (min (s.nodeLowlink cur) (s.nodeIndex i)) }
            else some s
          else some s))
      (fun i acc => ∃ s, acc = some s ∧ LoopInv adjMat n s0 G cur i s ∧
        PrefClosed adjMat n s.strongConComps) n
      (some (pushNode cur s0))
      ⟨_, rfl, loopInv_init adjMat n s0 G cur hinv0 hcur0 hn hG, hpc⟩
      (by
        rintro i hi acc ⟨s, rfl, hL, hpcs⟩
        simp only [Option.some_bind]
        obtain ⟨hold, hnew, hsplit⟩ := loopInv_stack_facts adjMat n s0 G cur i s hL hcur0
        have hcurq : cur ∈ s.myQueue := hL.inv.grayStack cur (by simp)
        have hcurv : s.nodeIndex cur ≠ -1 := hL.inv.stack_visited cur hcurq
        by_cases hcond : adjMat cur i = 1 ∧ i ≠ cur
        · rw [if_pos hcond]
          have harc : Arc adjMat n cur i := ⟨hn, hi, hcond.1⟩
          by_cases hi0 : s.nodeIndex i = -1
          · rw [if_pos hi0]
            have hfuel' : unvisitedCount n s ≤ fuel := by
              have := unvisitedCount_lt n s0 s hL.frame.visited cur hn hcur0 hcurv
              omega
            obtain ⟨s', hs', hpost, hpc'⟩ := ih i s (cur :: G) hL.inv hi0 hi
              (by
                intro g hg
                rw [List.mem_cons] at hg
                rcases hg with rfl | hg
                · exact Relation.ReflTransGen.single harc
                · exact (hG g hg).tail harc) hfuel' hpcs
            rw [hs']
            exact ⟨_, rfl, loopInv_call adjMat n s0 G cur i s s' hL hcur0 harc hi0 hpost, hpc'⟩
          · rw [if_neg hi0]
            by_cases hic : i ∈ s.myQueueContents
            · rw [if_pos hic]
              refine ⟨_, rfl, ?_, hpcs⟩
              have hiq : i ∈ s.myQueue := (hL.inv.memC i).mp hic
              apply loopInv_skip
              · by_cases hcmp : s.nodeIndex i ≤ s.nodeLowlink cur
                · rw [min_eq_right hcmp]
                  exact loopInv_lower adjMat n s0 G cur i s hL hcur0 _ hcmp i hiq rfl
                    (Relation.ReflTransGen.single harc)
                · rw [min_eq_left (le_of_not_le hcmp)]
                  obtain ⟨y, hy, hyi, hyr⟩ := hL.low.2
                  exact loopInv_lower adjMat n s0 G cur i s hL hcur0 _ (le_refl _) y hy hyi hyr
              · intro _
                refine ⟨hi0, fun hiold => ?_⟩
                show setAt s.nodeLowlink cur _ cur ≤ _
                rw [setAt_same, ← (hold i hiold).2.1]
                exact min_le_right _ _
            · rw [if_neg hic]
              refine ⟨_, rfl, loopInv_skip adjMat n s0 G cur i s hL ?_, hpcs⟩
              intro _
              refine ⟨hi0, fun hiold => ?_⟩
              exact absurd ((hL.inv.memC i).mpr (hold i hiold).1) hic
        · rw [if_neg hcond]
          refine ⟨_, rfl, loopInv_skip adjMat n s0 G cur i s hL ?_, hpcs⟩
          intro harc
          have hic : i = cur := by
            by_contra hne
            exact hcond ⟨harc.2.2, hne⟩
          subst hic
          exact ⟨hcurv, fun hq => absurd hcur0 (hinv0.stack_visited i hq)⟩)
    obtain ⟨s, hs, _, hpcs⟩ := hloop
    rw [hs] at hsf
    simp only [Option.some_bind] at hsf
    rcases closeComponent_comps cur s sf hsf with h | ⟨comp, h⟩
    · rw [h]; exact hpcs
    · rw [h]
      apply prefClosed_append adjMat n _ _ hpcs
      rw [← h]
      exact hpostf.inv.closed

theorem tarjanLoop_order (adjMat : Nat → Nat → Int) (n fuel : Nat) (hfuel : n ≤ fuel) :
    ∃ s, tarjanLoop adjMat n fuel = some s ∧ TInv adjMat n s [] ∧ s.myQueue = [] ∧
      PrefClosed adjMat n s.strongConComps := by
  unfold tarjanLoop
  apply foldl_range_inv _
    (fun _ acc => ∃ s, acc = some s ∧ TInv adjMat n s [] ∧ s.myQueue = [] ∧
      PrefClosed adjMat n s.strongConComps) n (some tarjanInit)
  · refine ⟨_, rfl, tInv_init adjMat n, rfl, ?_⟩
    intro k c hc
    simp [tarjanInit] at hc
  · rintro i hi acc ⟨s, rfl, hinv, hq, hpc⟩
    simp only [Option.some_bind]
    by_cases hi0 : s.nodeIndex i = -1
    · rw [if_pos hi0]
      obtain ⟨s', hs', hpost, hpc'⟩ := strongConnect_order adjMat n fuel i s [] hinv hi0 hi
        (by intro g hg; simp at hg) (le_trans (unvisitedCount_le n s) hfuel) hpc
      refine ⟨s', hs', hpost.inv, ?_, hpc'⟩
      rcases hpost.lowCases with ⟨_, h2⟩ | ⟨_, y, hy, _⟩
      · rw [h2, hq]
      · rw [hq] at hy
        simp at hy
    · rw [if_neg hi0]
      exact ⟨s, rfl, hinv, hq, hpc⟩

theorem pairwise_disjoint_index (comps : List (List Nat)) (hd : comps.Pairwise List.Disjoint)
    (i j : Nat) (ci cj : List Nat) (hi : comps[i]? = some ci) (hj : comps[j]? = some cj)
    (v : Nat) (hvi : v ∈ ci) (hvj : v ∈ cj) : i = j := by
  by_contra hne
  rw [List.pairwise_iff_getElem] at hd
  obtain ⟨hil, hie⟩ := List.getElem?_eq_some_iff.1 hi
  obtain ⟨hjl, hje⟩ := List.getElem?_eq_some_iff.1 hj
  rcases Nat.lt_or_gt_of_ne hne with h | h
  · have := hd i j hil hjl h
    rw [hie, hje] at this
    exact this hvi hvj
  · have := hd j i hjl hil h
    rw [hie, hje] at this
    exact this hvj hvi

/-- C33: for every `n` and every matrix, `tarjan` returns a list of sets in
reverse topological order: for an arc `u → v` (an entry equal to 1 between
nodes below `n`) with `u` in the set at position `i` and `v` in the set at
position `j`, the position `j` is not after `i`, and it is before `i` when the
two sets are different. -/
theorem tarjan_reverse_topological (adjMat : Nat → Nat → Int) (n : Nat) :
    ∃ comps, tarjan adjMat n = some comps ∧
      ∀ u v : Nat, u < n → v < n → adjMat u v = 1 →
        ∀ (i j : Nat) (cu cv : List Nat), comps[i]? = some cu → comps[j]? = some cv → u ∈ cu → v ∈ cv →
          j ≤ i ∧ (cu ≠ cv → j < i) := by
  obtain ⟨s, hs, hinv, _, hpc⟩ := tarjanLoop_order adjMat n n (le_refl n)
  refine ⟨s.strongConComps, by unfold tarjan; rw [hs]; rfl, ?_⟩
  intro u v hu hv harc i j cu cv hi hj hucu hvcv
  obtain ⟨hil, hie⟩ := List.getElem?_eq_some_iff.1 hi
  have hmem : cu ∈ s.strongConComps.take (i + 1) := by
    rw [List.mem_take_iff_getElem]
    exact ⟨i, by omega, hie⟩
  obtain ⟨d, hd, hvd⟩ := hpc (i + 1) cu hmem u hucu v ⟨hu, hv, harc⟩
  rw [List.mem_take_iff_getElem] at hd
  obtain ⟨j', hj', hje'⟩ := hd
  have hj'' : s.strongConComps[j']? = some d :=
    List.getElem?_eq_some_iff.2 ⟨by omega, hje'⟩
  have hjj := pairwise_disjoint_index s.strongConComps hinv.compsDisj j' j d cv hj'' hj v hvd hvcv
  have hle : j ≤ i := by omega
  refine ⟨hle, ?_⟩
  intro hne
  rcases Nat.lt_or_eq_of_le hle with h | h
  · exact h
  · exfalso
    rw [h, hi] at hj
    exact hne (Option.some.inj hj)

/-! ### `ltlistint` and the order of the returned cycles -/

theorem ltlistint_iff {α : Type} [LinearOrder α] (a b : List α) :
    ltlistint a b = true ↔
      a.length < b.length ∨ (a.length = b.length ∧ ltlistintLoop a b = true) := by
  unfold ltlistint
  by_cases h0 : a.length = 0 ∧ b.length = 0
  · rw [if_pos h0]
    have ha : a = [] := List.length_eq_zero.1 h0.1
    have hb : b = [] := List.length_eq_zero.1 h0.2
    subst ha; subst hb
    simp [ltlistintLoop]
  · rw [if_neg h0]
    by_cases h1 : a.length < b.length
    · rw [if_pos h1]; simp [h1]
    · rw [if_neg h1]
      by_cases h2 : a.length > b.length
      · rw [if_pos h2]
        simp only [Bool.false_eq_true, false_iff, not_or, not_and]
        exact ⟨h1, fun h => by omega⟩
      · rw [if_neg h2]
        have h3 : a.length = b.length := by omega
        rw [if_pos h3]
        constructor
        · exact fun h => Or.inr ⟨h3, h⟩
        · rintro (h | h)
          · exact absurd h h1
          · exact h.2

theorem ltlistintLoop_append {α : Type} [LinearOrder α] :
    ∀ (a b x y : List α), ltlistintLoop a b = true → ltlistintLoop (a ++ x) (b ++ y) = true := by
  intro a
  induction a with
  | nil => intro b x y h; simp [ltlistintLoop] at h
  | cons p ps ih =>
    intro b x y h
    cases b with
    | nil => simp [ltlistintLoop] at h
    | cons q qs =>
      simp only [List.cons_append]
      unfold ltlistintLoop at h ⊢
      by_cases h1 : p > q
      · rw [if_pos h1] at h; exact absurd h (by simp)
      · rw [if_neg h1] at h ⊢
        by_cases h2 : p < q
        · rw [if_pos h2]
        · rw [if_neg h2] at h ⊢
          exact ih qs x y h

theorem ltlistintLoop_snoc {α : Type} [LinearOrder α] (P : List α) (i j : α) (h : i < j) :
    ltlistintLoop (P ++ [i]) (P ++ [j]) = true := by
  induction P with
  | nil =>
    simp only [List.nil_append]
    unfold ltlistintLoop
    rw [if_neg (not_lt_of_lt h), if_pos h]
  | cons p ps ih =>
    simp only [List.cons_append]
    unfold ltlistintLoop
    rw [if_neg (lt_irrefl p), if_neg (lt_irrefl p)]
    exact ih

theorem ltlistintLoop_iff_lex {α : Type} [LinearOrder α] :
    ∀ (a b : List α), a.length = b.length →
      (ltlistintLoop a b = true ↔ List.Lex (fun x y => x < y) a b) := by
  intro a
  induction a with
  | nil =>
    intro b hl
    have hb : b = [] := List.length_eq_zero.1 hl.symm
    subst hb
    simp [ltlistintLoop]
  | cons p ps ih =>
    intro b hl
    cases b with
    | nil => simp at hl
    | cons q qs =>
      simp only [List.length_cons, Nat.add_right_cancel_iff] at hl
      unfold ltlistintLoop
      by_cases h1 : p > q
      · rw [if_pos h1]
        simp only [Bool.false_eq_true, false_iff]
        intro hlex
        cases hlex with
        | cons h => exact lt_irrefl _ h1
        | rel h => exact lt_asymm h h1
      · rw [if_neg h1]
        by_cases h2 : p < q
        · rw [if_pos h2]
          simp only [true_iff]
          exact List.Lex.rel h2
        · rw [if_neg h2]
          have hpq : p = q := le_antisymm (not_lt.1 h1) (not_lt.1 h2)
          subst hpq
          rw [ih qs hl]
          constructor
          · exact fun h => List.Lex.cons h
          · intro hlex
            cases hlex with
            | cons h => exact h
            | rel h => exact absurd h (lt_irrefl _)

/-- `ltlistint` is the order by length and then lexicographic. -/
theorem ltlistint_iff_lex {α : Type} [LinearOrder α] (a b : List α) :
    ltlistint a b = true ↔
      a.length < b.length ∨ (a.length = b.length ∧ List.Lex (fun x y => x < y) a b) := by
  rw [ltlistint_iff]
  constructor
  · rintro (h | ⟨h1, h2⟩)
    · exact Or.inl h
    · exact Or.inr ⟨h1, (ltlistintLoop_iff_lex a b h1).1 h2⟩
  · rintro (h | ⟨h1, h2⟩)
    · exact Or.inl h
    · exact Or.inr ⟨h1, (ltlistintLoop_iff_lex a b h1).2 h2⟩

theorem queueOrd_ltlistint (A B : List Nat) (h : QueueOrd A B) : ltlistint A B = true := by
  rw [ltlistint_iff]
  rcases h with ⟨h1, h2⟩ | ⟨h1, _⟩
  · exact Or.inr ⟨h1, h2⟩
  · exact Or.inl (by omega)

theorem newPaths_pairwise (g : cycleGenerator) (head tail : Nat) (P : List Nat) :
    (g.newPaths head tail P).Pairwise QueueOrd := by
  rw [newPaths_eq_filter, List.pairwise_map]
  apply List.Pairwise.filter
  apply List.Pairwise.imp _ (List.pairwise_lt_range g.numNodes)
  intro i j hij
  exact Or.inl ⟨by simp, ltlistintLoop_snoc P i j hij⟩

theorem queueOrd_child (g : cycleGenerator) (head tail : Nat) (P Q C : List Nat)
    (hQ : Q ≠ []) (hPQ : QueueOrd P Q) (hC : C ∈ g.newPaths head tail P) : QueueOrd Q C := by
  obtain ⟨i, rfl, _⟩ := newPaths_mem g head tail P C hC
  rcases hPQ with ⟨h1, h2⟩ | ⟨h1, h2⟩
  · right
    refine ⟨by simp; omega, ?_⟩
    rw [List.dropLast_concat]
    exact h2
  · left
    refine ⟨by simp; omega, ?_⟩
    have := ltlistintLoop_append Q.dropLast P [Q.getLast hQ] [i] h2
    rw [List.dropLast_append_getLast hQ] at this
    exact this

theorem ordInv_isInvariant : IsInvariant OrdInv := by
  refine ⟨?_, ?_, ?_⟩
  · intro out g r g' hinv hstep
    obtain ⟨hne, hn0, hpo, hx, hq'⟩ := hinv
    by_cases hq : g.pathQueue = []
    · rw [oneStep_nil g hq] at hstep
      simp only [Option.some.injEq, Prod.mk.injEq] at hstep
      obtain ⟨_, rfl⟩ := hstep
      exact ⟨hne, hn0, hpo, hx, hq'⟩
    · obtain ⟨P, rest, hq⟩ := List.exists_cons_of_ne_nil hq
      have hP : P ≠ [] := hne P (by rw [hq]; simp)
      obtain ⟨g1, h1, _, hn, _, _, _, hpq, hcf, _⟩ := oneStep_cons g P rest hq hP
        (hashDefined_of_oneStep g P rest hq _ _ hstep)
      rw [h1] at hstep
      simp only [Option.some.injEq, Prod.mk.injEq] at hstep
      obtain ⟨_, rfl⟩ := hstep
      have hchild : ∀ Q ∈ g.newPaths (P.headD 0) (P.getLastD 0) P, Q.length = P.length + 1 := by
        intro Q hQ
        obtain ⟨i, rfl, _⟩ := newPaths_mem g _ _ P Q hQ
        simp
      have hF := found_cases g P
      have hNp := newPaths_pairwise g (P.headD 0) (P.getLastD 0) P
      have hNc : ∀ Q : List Nat, Q ≠ [] → ∀ C : List Nat, QueueOrd P Q →
          C ∈ g.newPaths (P.headD 0) (P.getLastD 0) P → QueueOrd Q C :=
        fun Q hQ C hPQ hC => queueOrd_child g (P.headD 0) (P.getLastD 0) P Q C hQ hPQ hC
      unfold OrdInv
      rw [hcf, ← List.append_assoc, hpq]
      rw [hq] at hx hq' hne
      generalize out ++ g.cyclesFound = O at hpo hx ⊢
      generalize (if P.length > 1 ∧ g.adjMat (P.getLastD 0) (P.headD 0) = 1
            then g.recordEffect P else ([], g.uniqBiDirectedCycles)).1 = F at hF ⊢
      generalize g.newPaths (P.headD 0) (P.getLastD 0) P = N at hchild hNp hNc ⊢
      rw [List.pairwise_cons] at hq'
      have hOP : ∀ c ∈ O, c.length ≤ P.length := by
        intro c hc
        have := (ltlistint_iff c P).1 (hx c hc P (by simp))
        omega
      refine ⟨?_, ?_, ?_, ?_, ?_⟩
      · intro Q hQ
        rw [List.mem_append] at hQ
        rcases hQ with hQ | hQ
        · exact hne Q (by simp [hQ])
        · have := hchild Q hQ
          intro h; rw [h] at this; simp at this
      · intro h0
        rw [hn] at h0
        have := hn0 h0
        rw [hq] at this
        exact absurd this (by simp)
      · rw [List.pairwise_append]
        refine ⟨hpo, ?_, ?_⟩
        · rcases hF with hf | hf <;> rw [hf] <;> simp
        · intro a ha b hb
          rcases hF with hf | hf <;> rw [hf] at hb <;> simp at hb
          rw [hb]
          exact hx a ha P (by simp)
      · intro c hc Q hQ
        rw [List.mem_append] at hc hQ
        rcases hc with hc | hc
        · rcases hQ with hQ | hQ
          · exact hx c hc Q (by simp [hQ])
          · rw [ltlistint_iff]
            left
            rw [hchild Q hQ]
            have := hOP c hc
            omega
        · rcases hF with hf | hf <;> rw [hf] at hc <;> simp at hc
          rw [hc]
          rcases hQ with hQ | hQ
          · exact queueOrd_ltlistint P Q (hq'.1 Q hQ)
          · rw [ltlistint_iff]
            left
            rw [hchild Q hQ]
            omega
      · rw [List.pairwise_append]
        refine ⟨hq'.2, hNp, ?_⟩
        intro Q hQ C hC
        exact hNc Q (hne Q (by simp [hQ])) C (hq'.1 Q hQ) hC
  · intro out g cf h
    exact h
  · intro out g h
    exact ⟨h.1, h.2.1⟩

theorem ordInv_fresh (g : cycleGenerator)
    (hq : g.pathQueue = (List.range g.numNodes).map (fun i => [i])) : OrdInv [] g := by
  refine ⟨?_, ?_, List.Pairwise.nil, ?_, ?_⟩
  · intro P hP
    rw [hq, List.mem_map] at hP
    obtain ⟨i, _, rfl⟩ := hP
    simp
  · intro h0
    rw [hq, h0]
    rfl
  · intro c hc
    exact absurd hc (List.not_mem_nil c)
  · rw [hq, List.pairwise_map]
    apply List.Pairwise.imp _ (List.pairwise_lt_range g.numNodes)
    intro i j hij
    exact Or.inl ⟨rfl, ltlistintLoop_snoc [] i j hij⟩

/-- C34 (failing input): on the graph 0 ⇄ 1 the fresh generator with
`setCycleLengthMin(-1)` run to exhaustion returns no cycle, the one with the
default minimum length returns `[0, 1]`; the converted value of `-1` in the
comparison `cycleLengthMin <= curPath.size()` is `2^64 - 1`. -/
theorem negative_min_returns_nothing :
    ((cycleGenerator.new twoCycle 2).setCycleLengthMin (-1)).drain 10 = some [] ∧
    (cycleGenerator.new twoCycle 2).drain 10 = some [[0, 1]] ∧
    toSizeT (-1) = 2 ^ 64 - 1 := by
  refine ⟨by decide, by decide, by decide⟩

/-- The order where the hashing is defined: for every matrix, minimum length
`L` and dedup flag `h`, with dedup off (`h ≠ 1`) or at most 10 nodes, the list
`out` of the cycles that a fresh generator returns when run to exhaustion is
strictly increasing for `ltlistint` (every list is below every later one),
which is the order by length and, for equal length, the lexicographic order of
the node sequences; the same holds for the non-empty lists returned by any
number `k` of successive `nextCycle` calls. -/
theorem nextCycle_strictly_increasing_of_safe (adjMat : Nat → Nat → Int) (n : Nat)
    (L h : Int) (hsafe : h ≠ 1 ∨ n ≤ 10) :
    ∃ out,
      (∀ k, (((cycleGenerator.new adjMat n).setCycleLengthMin L).setHashBiDirectedCycles
          h).stepBound < k →
        (((cycleGenerator.new adjMat n).setCycleLengthMin L).setHashBiDirectedCycles h).drain k
          = some out) ∧
      out.Pairwise (fun a b => ltlistint a b = true) ∧
      out.Pairwise (fun a b => a.length < b.length ∨
        (a.length = b.length ∧ List.Lex (fun x y => x < y) a b)) ∧
      ∀ k, ∃ res gf,
        (((cycleGenerator.new adjMat n).setCycleLengthMin L).setHashBiDirectedCycles
          h).nextCycles k = some (res, gf) ∧
        (res.filter (fun c => decide (c ≠ []))).Pairwise (fun a b => ltlistint a b = true) := by
  obtain ⟨_, hn, _, hh, hq, hcf, _, _⟩ := fresh_fields adjMat n L h
  generalize ((cycleGenerator.new adjMat n).setCycleLengthMin L).setHashBiDirectedCycles h = g
    at hn hh hq hcf ⊢
  have hs : g.HashSafe := hashSafe_fresh g n h hn hh hq hsafe
  rw [← hn] at hq
  obtain ⟨out, gf, hdrain, hinv, _⟩ :=
    drain_spec OrdInv ordInv_isInvariant g.stepBound g [] (le_refl _) (ordInv_fresh g hq) hcf
      hs
  rw [List.nil_append] at hinv
  have hpw := hinv.2.2.1
  refine ⟨out, hdrain, hpw, ?_, ?_⟩
  · exact hpw.imp (fun {a b} hab => (ltlistint_iff_lex a b).1 hab)
  · intro k
    obtain ⟨res, gf', hres, hpre⟩ :=
      nextCycles_of_drain (g.stepBound + 1) g out (hdrain _ (Nat.lt_succ_self _)) k
    exact ⟨res, gf', hres, hpw.sublist hpre.sublist⟩

/-! ### The orientation kept by the dedup set -/

theorem ltlistintLoop_mirror (h : Nat) (t : List Nat) (hlen : 2 ≤ t.length)
    (hnd : (h :: t).Nodup) (hl : ltlistintLoop (h :: t) (mirror (h :: t)) = true) :
    (h :: t).getD 1 0 < (h :: t).getLastD 0 := by
  cases t with
  | nil => simp at hlen
  | cons a t' =>
    rcases List.eq_nil_or_concat t' with rfl | ⟨d, z, hdz⟩
    · simp at hlen
    · rw [List.concat_eq_append] at hdz
      subst hdz
      have hm : mirror (h :: a :: (d ++ [z])) = h :: z :: (d.reverse ++ [a]) := by
        simp [mirror]
      rw [hm] at hl
      have haz : a ≠ z := by
        intro heq
        rw [List.nodup_cons, List.nodup_cons] at hnd
        exact hnd.2.1 (by simp [heq])
      have h1 : (h :: a :: (d ++ [z])).getD 1 0 = a := rfl
      have h2 : (h :: a :: (d ++ [z])).getLastD 0 = z := by
        have : h :: a :: (d ++ [z]) = (h :: a :: d) ++ [z] := by simp
        rw [this, List.getLastD_eq_getLast?, List.getLast?_append]
        rfl
      rw [h1, h2]
      unfold ltlistintLoop at hl
      rw [if_neg (lt_irrefl h), if_neg (lt_irrefl h)] at hl
      unfold ltlistintLoop at hl
      by_cases hgt : a > z
      · rw [if_pos hgt] at hl
        exact absurd hl (by simp)
      · exact lt_of_le_of_ne (not_lt.1 hgt) haz

/-- What the closed-path part of `oneStep` does to the dedup set, for every
minimum length. -/
theorem found_general (g : cycleGenerator) (P : List Nat) :
    (∀ x ∈ g.uniqBiDirectedCycles,
      x ∈ (if P.length > 1 ∧ g.adjMat (P.getLastD 0) (P.headD 0) = 1 then g.recordEffect P
         else ([], g.uniqBiDirectedCycles)).2) ∧
    (ClosesCycle g.adjMat P → g.Dedups P →
      g.uniqueBiDirCycle P ∈
        (if P.length > 1 ∧ g.adjMat (P.getLastD 0) (P.headD 0) = 1 then g.recordEffect P
         else ([], g.uniqBiDirectedCycles)).2) ∧
    (P ∈ (if P.length > 1 ∧ g.adjMat (P.getLastD 0) (P.headD 0) = 1 then g.recordEffect P
         else ([], g.uniqBiDirectedCycles)).1 →
      ClosesCycle g.adjMat P ∧
      (g.Dedups P → g.uniqueBiDirCycle P ∉ g.uniqBiDirectedCycles)) := by
  unfold ClosesCycle cycleGenerator.Dedups
  by_cases hc : P.length > 1 ∧ g.adjMat (P.getLastD 0) (P.headD 0) = 1
  · rw [if_pos hc]
    unfold cycleGenerator.recordEffect
    by_cases hd : g.hashBiDirectedCycles = 1 ∧ g.isCycleBiDirected P = 1 ∧ P.length > 2
    · rw [if_pos hd]
      by_cases hu : g.uniqueBiDirCycle P ∉ g.uniqBiDirectedCycles
      · rw [if_pos hu]
        refine ⟨?_, ?_, ?_⟩
        · intro x hx
          exact List.mem_append_left _ hx
        · intro _ _
          exact List.mem_append_right _ (List.mem_singleton_self _)
        · intro _
          exact ⟨hc, fun _ => hu⟩
      · rw [if_neg hu]
        refine ⟨fun x hx => hx, fun _ _ => not_not.1 hu, ?_⟩
        intro h
        exact absurd h (List.not_mem_nil P)
    · rw [if_neg hd]
      refine ⟨fun x hx => hx, fun _ h => absurd h hd, ?_⟩
      intro _
      exact ⟨hc, fun h => absurd h hd⟩
  · rw [if_neg hc]
    refine ⟨fun x hx => hx, fun h => absurd h hc, ?_⟩
    intro h
    exact absurd h (List.not_mem_nil P)

theorem pending_pos (q : List (List Nat)) (C : List Nat) (h : pending q C ≠ 0) :
    ∃ X ∈ q, X <+: C := by
  unfold pending at h
  obtain ⟨X, hX, hp⟩ := List.countP_pos_iff.1 (Nat.pos_of_ne_zero h)
  exact ⟨X, hX, by simpa using hp⟩

theorem canonInv_isInvariant (adjMat : Nat → Nat → Int) (n : Nat) (h : Int)
    (h01 : IsZeroOne adjMat n) : IsInvariant (CanonInv adjMat n h) := by
  refine ⟨?_, ?_, ?_⟩
  · intro out g r g' hinv hstep
    have hord := ordInv_isInvariant.step out g r g' hinv.1 hstep
    obtain ⟨hord0, ha, hn, hh, hroot, hout, hset, hcan⟩ := hinv
    by_cases hq : g.pathQueue = []
    · rw [oneStep_nil g hq] at hstep
      simp only [Option.some.injEq, Prod.mk.injEq] at hstep
      obtain ⟨_, rfl⟩ := hstep
      exact ⟨hord, ha, hn, hh, hroot, hout, hset, hcan⟩
    · obtain ⟨P, rest, hq⟩ := List.exists_cons_of_ne_nil hq
      have hPr : IsRootedPath adjMat n P := hroot P (by rw [hq]; simp)
      have hP : P ≠ [] := hPr.1
      obtain ⟨g1, h1, ha1, hn1, _, hh1, _, hpq, hcf, hu1⟩ := oneStep_cons g P rest hq hP
        (hashDefined_of_oneStep g P rest hq _ _ hstep)
      rw [h1] at hstep
      simp only [Option.some.injEq, Prod.mk.injEq] at hstep
      obtain ⟨_, rfl⟩ := hstep
      obtain ⟨hsub, hins, hfound⟩ := found_general g P
      have hF := found_cases g P
      have hded : ∀ C, g1.Dedups C ↔ g.Dedups C := dedups_congr ha1 hn1 hh1
      have huq : ∀ C, g1.uniqueBiDirCycle C = g.uniqueBiDirCycle C :=
        uniqueBiDirCycle_congr ha1 hn1
      have hqord := hord0.2.2.2.2
      rw [hq] at hset hqord hroot
      rw [List.pairwise_cons] at hqord
      refine ⟨hord, ha1.trans ha, hn1.trans hn, hh1.trans hh, ?_, ?_, ?_, ?_⟩
      · intro Q hQ
        rw [hpq, List.mem_append] at hQ
        rcases hQ with hQ | hQ
        · exact hroot Q (by simp [hQ])
        · exact newPaths_rooted adjMat n g ha hn P Q hPr hQ
      · intro c hc
        rw [hcf, ← List.append_assoc, List.mem_append] at hc
        rcases hc with hc | hc
        · exact hout c hc
        · have hcP : c = P := by
            rcases hF with hf | hf <;> rw [hf] at hc <;> simp at hc
            exact hc
          subst hcP
          have := (hfound hc).1
          rw [ha] at this
          exact ⟨hPr, this⟩
      · intro C hCr hCc hCd hpend
        rw [hded] at hCd
        rw [huq, hu1]
        rw [hpq] at hpend
        obtain ⟨hmr, hmc, hmbi, _, hmu, _⟩ :=
          mirror_facts adjMat n h01 g ha C hCr hCc hCd.2.1 hCd.2.2
        rcases hpend with hp | hp
        · have hstepC := pending_step adjMat n g ha hn P rest hP C hCr
          by_cases hPC : P = C
          · subst hPC
            exact hins (by rw [ha]; exact hCc) hCd
          · rw [hp, if_neg hPC] at hstepC
            exact hsub _ (hset C hCr hCc hCd (Or.inl hstepC.symm))
        · have hstepC := pending_step adjMat n g ha hn P rest hP (mirror C) hmr
          by_cases hPC : P = mirror C
          · have hdm : g.Dedups (mirror C) :=
              ⟨hCd.1, hmbi, by rw [mirror_length]; exact hCd.2.2⟩
            rw [← hmu, ← hPC]
            rw [← hPC] at hmc hdm
            exact hins (by rw [ha]; exact hmc) hdm
          · rw [hp, if_neg hPC] at hstepC
            exact hsub _ (hset C hCr hCc hCd (Or.inr hstepC.symm))
      · intro c hc hcd
        rw [hded] at hcd
        rw [hcf, ← List.append_assoc, List.mem_append] at hc
        rcases hc with hc | hc
        · exact hcan c hc hcd
        · have hcP : c = P := by
            rcases hF with hf | hf <;> rw [hf] at hc <;> simp at hc
            exact hc
          subst hcP
          obtain ⟨hcl, hnot⟩ := hfound hc
          rw [ha] at hcl
          have hnotin := hnot hcd
          obtain ⟨hmr, hmc, hmbi, hmne, hmu, _⟩ :=
            mirror_facts adjMat n h01 g ha c hPr hcl hcd.2.1 hcd.2.2
          have hpm : pending (c :: rest) (mirror c) ≠ 0 := by
            intro h0
            exact hnotin (hset c hPr hcl hcd (Or.inr h0))
          obtain ⟨X, hX, hpre⟩ := pending_pos _ _ hpm
          have hXrest : X ∈ rest := by
            rcases List.mem_cons.1 hX with h | h
            · exfalso
              rw [h] at hpre
              have := hpre.eq_of_length (mirror_length c).symm
              exact hmne this.symm
            · exact h
          have hlenX : X.length ≤ c.length := by
            have := hpre.length_le
            rw [mirror_length] at this
            exact this
          rcases hqord.1 X hXrest with ⟨hl1, hl2⟩ | ⟨hl1, _⟩
          · have hXm : X = mirror c := hpre.eq_of_length (by rw [mirror_length]; exact hl1.symm)
            rw [hXm] at hl2
            obtain ⟨x, t, rfl⟩ := List.exists_cons_of_ne_nil hP
            have hlen2 : 2 ≤ t.length := by
              have := hcd.2.2
              simp only [List.length_cons] at this
              omega
            exact ltlistintLoop_mirror x t hlen2 hPr.2.1 hl2
          · omega
  · intro out g cf h
    exact h
  · intro out g h
    exact ⟨h.1.1, h.1.2.1⟩

theorem canonInv_fresh (adjMat : Nat → Nat → Int) (n : Nat) (h : Int) (g : cycleGenerator)
    (ha : g.adjMat = adjMat) (hn : g.numNodes = n) (hh : g.hashBiDirectedCycles = h)
    (hq : g.pathQueue = (List.range n).map (fun i => [i])) : CanonInv adjMat n h [] g := by
  refine ⟨ordInv_fresh g (by rw [hn]; exact hq), ha, hn, hh, ?_, ?_, ?_, ?_⟩
  · intro P hP
    rw [hq, List.mem_map] at hP
    obtain ⟨i, hi, rfl⟩ := hP
    rw [List.mem_range] at hi
    refine ⟨by simp, by simp, by simpa using hi, by simp, by simp⟩
  · intro c hc
    exact absurd hc (List.not_mem_nil c)
  · intro C hCr hCc hCd hpend
    exfalso
    obtain ⟨a, t, rfl⟩ := List.exists_cons_of_ne_nil hCr.1
    have ha' : a < n := hCr.2.2.1 a (by simp)
    rw [hq] at hpend
    have h1 := pending_singletons n a t ha'
    have h2 := pending_singletons n a t.reverse ha'
    have hm : mirror (a :: t) = a :: t.reverse := rfl
    rw [hm] at hpend
    omega
  · intro c hc
    exact absurd hc (List.not_mem_nil c)

/-- What the invariant gives for a handed-out list with at least 3 nodes whose
arcs all have their reverse arc. -/
theorem canonInv_out (adjMat : Nat → Nat → Int) (n : Nat) (h01 : IsZeroOne adjMat n)
    (out : List (List Nat)) (gf g0 : cycleGenerator) (hinv : CanonInv adjMat n 1 out gf)
    (ha0 : g0.adjMat = adjMat) (hn0 : g0.numNodes = n) (c : List Nat) (hc : c ∈ out)
    (hlen : 3 ≤ c.length) (hrev : CyclicPairs (fun x y => adjMat y x = 1) c) :
    g0.uniqueBiDirCycle c = c ∧ c.getD 1 0 < c.getLastD 0 := by
  obtain ⟨_, ha, hn, hh, _, hout, _, hcan⟩ := hinv
  obtain ⟨hr, _⟩ := hout c hc
  have hbi : gf.isCycleBiDirected c = 1 :=
    (isCycleBiDirected_iff_cyclicPairs adjMat n h01 gf ha hn c (by omega) hr.2.2.1).2 hrev
  have hbi0 : g0.isCycleBiDirected c = 1 :=
    (isCycleBiDirected_iff_cyclicPairs adjMat n h01 g0 ha0 hn0 c (by omega) hr.2.2.1).2 hrev
  have hlt := hcan c hc ⟨hh, hbi, by omega⟩
  refine ⟨?_, hlt⟩
  obtain ⟨x, t, rfl⟩ := List.exists_cons_of_ne_nil hr.1
  rw [uniqueBiDirCycle_rooted g0 x t hr.2.2.2.1 hbi0, if_neg (not_lt_of_lt hlt)]

/-- The kept orientation where the hashing is defined: on a 0/1 matrix with
at most 10 nodes, for every minimum length `L`, every list `c` of at least 3
nodes that a fresh generator with `setHashBiDirectedCycles(1)` returns (run to
exhaustion, or in any number `k` of `nextCycle` calls) and whose arcs all have
their reverse arc is its own representative, `uniqueBiDirCycle(c)` is `c`, and
its second node is smaller than its last node. -/
theorem dedup_keeps_canonical_orientation_of_safe (adjMat : Nat → Nat → Int) (n : Nat)
    (h01 : IsZeroOne adjMat n) (L : Int) (hn10 : n ≤ 10) :
    ∃ out,
      (∀ k, (((cycleGenerator.new adjMat n).setCycleLengthMin L).setHashBiDirectedCycles
          1).stepBound < k →
        (((cycleGenerator.new adjMat n).setCycleLengthMin L).setHashBiDirectedCycles 1).drain k
          = some out) ∧
      (∀ c ∈ out, 3 ≤ c.length → CyclicPairs (fun x y => adjMat y x = 1) c →
        (((cycleGenerator.new adjMat n).setCycleLengthMin L).setHashBiDirectedCycles
          1).uniqueBiDirCycle c = c ∧ c.getD 1 0 < c.getLastD 0) ∧
      ∀ k, ∃ res gf,
        (((cycleGenerator.new adjMat n).setCycleLengthMin L).setHashBiDirectedCycles
          1).nextCycles k = some (res, gf) ∧
        ∀ c ∈ res, 3 ≤ c.length → CyclicPairs (fun x y => adjMat y x = 1) c →
          (((cycleGenerator.new adjMat n).setCycleLengthMin L).setHashBiDirectedCycles
            1).uniqueBiDirCycle c = c ∧ c.getD 1 0 < c.getLastD 0 := by
  obtain ⟨ha, hn, _, hh, hq, hcf, _, _⟩ := fresh_fields adjMat n L 1
  generalize ((cycleGenerator.new adjMat n).setCycleLengthMin L).setHashBiDirectedCycles 1 = g
    at ha hn hh hq hcf ⊢
  obtain ⟨out, gf, hdrain, hinv, _⟩ :=
    drain_spec (CanonInv adjMat n 1) (canonInv_isInvariant adjMat n 1 h01) g.stepBound g []
      (le_refl _) (canonInv_fresh adjMat n 1 g ha hn hh hq) hcf
      (hashSafe_fresh g n 1 hn hh hq (Or.inr hn10))
  rw [List.nil_append] at hinv
  refine ⟨out, hdrain, ?_, ?_⟩
  · intro c hc hlen hrev
    exact canonInv_out adjMat n h01 out gf g hinv ha hn c hc hlen hrev
  · intro k
    obtain ⟨res, gf', hres, hpre⟩ :=
      nextCycles_of_drain (g.stepBound + 1) g out (hdrain _ (Nat.lt_succ_self _)) k
    refine ⟨res, gf', hres, ?_⟩
    intro c hc hlen hrev
    have hne : c ≠ [] := by
      intro h0
      rw [h0] at hlen
      simp at hlen
    have hmem : c ∈ res.filter (fun c => decide (c ≠ [])) := by
      rw [List.mem_filter]
      exact ⟨hc, by simpa using hne⟩
    exact canonInv_out adjMat n h01 out gf g hinv ha hn c (hpre.subset hmem) hlen hrev

/-- The kept orientation on the complete graph with 3 nodes and minimum length
2: the triangle is returned as `[0, 1, 2]`. -/
theorem dedup_keeps_canonical_orientation_of_safe_example :
    IsZeroOne completeThree 3 ∧
    (((cycleGenerator.new completeThree 3).setCycleLengthMin 2).setHashBiDirectedCycles 1).drain 20
      = some [[0, 1], [0, 2], [1, 2], [0, 1, 2]] ∧
    ∃ out,
      (∀ k, (((cycleGenerator.new completeThree 3).setCycleLengthMin 2).setHashBiDirectedCycles
          1).stepBound < k →
        (((cycleGenerator.new completeThree 3).setCycleLengthMin 2).setHashBiDirectedCycles
          1).drain k = some out) ∧
      (∀ c ∈ out, 3 ≤ c.length → CyclicPairs (fun x y => completeThree y x = 1) c →
        (((cycleGenerator.new completeThree 3).setCycleLengthMin 2).setHashBiDirectedCycles
          1).uniqueBiDirCycle c = c ∧ c.getD 1 0 < c.getLastD 0) ∧
      ∀ k, ∃ res gf,
        (((cycleGenerator.new completeThree 3).setCycleLengthMin 2).setHashBiDirectedCycles
          1).nextCycles k = some (res, gf) ∧
        ∀ c ∈ res, 3 ≤ c.length → CyclicPairs (fun x y => completeThree y x = 1) c →
          (((cycleGenerator.new completeThree 3).setCycleLengthMin 2).setHashBiDirectedCycles
            1).uniqueBiDirCycle c = c ∧ c.getD 1 0 < c.getLastD 0 :=
  ⟨by unfold IsZeroOne; decide, by decide,
   dedup_keeps_canonical_orientation_of_safe completeThree 3 (by unfold IsZeroOne; decide) 2
     (by decide)⟩

/-! ### Runs that hash a key outside the buffer of `listToString` -/

theorem nextCycles_succ_none (m : Nat) (g : cycleGenerator) (h : g.nextCycles (m + 1) = none) :
    g.nextCycle = none ∨ ∃ c g1, g.nextCycle = some (c, g1) ∧ g1.nextCycles m = none := by
  unfold cycleGenerator.nextCycles at h
  cases hn : g.nextCycle with
  | none => exact Or.inl rfl
  | some p =>
    obtain ⟨c, g1⟩ := p
    rw [hn] at h
    simp only at h
    cases hm : cycleGenerator.nextCycles m g1 with
    | none => exact Or.inr ⟨c, g1, rfl, hm⟩
    | some q =>
      rw [hm] at h
      exact absurd h (by simp)

/-- When the first `m` calls of `nextCycle` return non-empty lists and the next
call is undefined, the driver loop has no result, however many calls it is
given. -/
theorem drain_none_of_nextCycles (m : Nat) :
    ∀ (g : cycleGenerator) (res : List (List Nat)),
      (g.nextCycles m).map (fun r => r.1) = some res → (∀ c ∈ res, c ≠ []) →
      g.nextCycles (m + 1) = none → ∀ k, g.drain k = none := by
  induction m with
  | zero =>
    intro g res _ _ h k
    cases k with
    | zero => rfl
    | succ k =>
      rcases nextCycles_succ_none 0 g h with h0 | ⟨c, g1, _, h2⟩
      · unfold cycleGenerator.drain
        rw [h0]
      · exact absurd h2 (by unfold cycleGenerator.nextCycles; simp)
  | succ m ih =>
    intro g res hres hne h k
    cases k with
    | zero => rfl
    | succ k =>
      rcases nextCycles_succ_none (m + 1) g h with h0 | ⟨c, g1, h1, h2⟩
      · unfold cycleGenerator.drain
        rw [h0]
      · unfold cycleGenerator.nextCycles at hres
        rw [h1] at hres
        simp only at hres
        cases hm : cycleGenerator.nextCycles m g1 with
        | none =>
          rw [hm] at hres
          exact absurd hres (by simp)
        | some q =>
          rw [hm] at hres
          simp only [Option.map_some', Option.some.injEq] at hres
          have hc : c ≠ [] := hne c (by rw [← hres]; exact List.mem_cons_self _ _)
          have hrec := ih g1 q.1 (by rw [hm]; rfl)
            (fun x hx => hne x (by rw [← hres]; exact List.mem_cons_of_mem _ hx)) h2 k
          unfold cycleGenerator.drain
          rw [h1]
          simp only
          rw [if_neg (by simpa using hc), hrec]

/-- On an exhausted generator `k` further calls of `oneStep` add `k` to the
step counter, as long as the sum fits the `int`. -/
theorem oneSteps_exhausted (k : Nat) :
    ∀ g : cycleGenerator, g.pathQueue = [] → -(2 ^ 31) ≤ g.oneStepCalls →
      g.oneStepCalls + k < 2 ^ 31 →
      g.oneSteps k = some { g with oneStepCalls := g.oneStepCalls + k } := by
  induction k with
  | zero =>
    intro g _ _ _
    simp [cycleGenerator.oneSteps]
  | succ k ih =>
    intro g hq h0 h1
    rw [oneSteps_succ k g 0 _ (oneStep_nil g hq)]
    have hw : wrapInt (g.oneStepCalls + 1) = g.oneStepCalls + 1 :=
      wrapInt_of_fits _ (by omega) (by omega)
    rw [hw]
    have hrec := ih ({ g with oneStepCalls := g.oneStepCalls + 1 } : cycleGenerator) hq
      (show -(2 ^ 31) ≤ g.oneStepCalls + 1 by omega)
      (show g.oneStepCalls + 1 + (k : Int) < 2 ^ 31 by push_cast at h1; omega)
    rw [hrec]
    have he : g.oneStepCalls + 1 + (k : Int) = g.oneStepCalls + ((k + 1 : Nat) : Int) := by
      push_cast
      omega
    simp only [he]


set_option maxRecDepth 100000 in
/-- C5 (failing input): on the 0/1 matrix `farTriangle` (13 nodes, the arcs
join 10, 11 and 12 in both directions) the run without dedup returns the
triangle in both orientations, `[10, 11, 12]` and `[10, 12, 11]`. With
`setHashBiDirectedCycles(1)` the first three `nextCycle` calls return the
cycles of 2 nodes; the fourth call looks up the key `[10, 11, 12]` in the
dedup set, `hashListInt` renders it with `listToString`, and that call writes
outside its buffer: the run to exhaustion has no result, whatever the number
of `nextCycle` calls it is given. -/
theorem dedup_run_hashes_outside_buffer :
    IsZeroOne farTriangle 13 ∧
    (cycleGenerator.new farTriangle 13).drain 6
      = some [[10, 11], [10, 12], [11, 12], [10, 11, 12], [10, 12, 11]] ∧
    (((cycleGenerator.new farTriangle 13).setHashBiDirectedCycles 1).nextCycles 3).map
      (fun r => r.1) = some [[10, 11], [10, 12], [11, 12]] ∧
    ((cycleGenerator.new farTriangle 13).setHashBiDirectedCycles 1).isCycleBiDirected
      [10, 11, 12] = 1 ∧
    hashListInt (((cycleGenerator.new farTriangle 13).setHashBiDirectedCycles 1).uniqueBiDirCycle
      [10, 11, 12]) = none ∧
    ∀ k, ((cycleGenerator.new farTriangle 13).setHashBiDirectedCycles 1).drain k = none :=
  ⟨by unfold IsZeroOne; decide, by decide, by decide, by decide, by decide,
    drain_none_of_nextCycles 3 _ [[10, 11], [10, 12], [11, 12]] (by decide) (by decide) rfl⟩

/-- C15 (failing input): the state `farTriangleAtKey` is reached from the fresh
generator of `farTriangle` with dedup enabled by three `nextCycle` calls; its
frontier is non-empty with the head `P = [10, 11, 12]`, a closed path whose
arcs all have their reverse arc. `oneStep` looks up the key `[10, 11, 12]`,
whose rendering by `listToString` writes outside the buffer, before it
extends the frontier: the call is undefined and no new frontier is produced. -/
theorem oneStep_undefined_on_hashed_head :
    cycleGenerator.Reachable ((cycleGenerator.new farTriangle 13).setHashBiDirectedCycles 1)
      [[10, 11], [10, 12], [11, 12]] farTriangleAtKey ∧
    farTriangleAtKey.pathQueue = [10, 11, 12] :: [[10, 12, 11]] ∧
    farTriangleAtKey.adjMat 12 10 = 1 ∧
    farTriangleAtKey.hashBiDirectedCycles = 1 ∧
    farTriangleAtKey.isCycleBiDirected [10, 11, 12] = 1 ∧
    farTriangleAtKey.uniqueBiDirCycle [10, 11, 12] = [10, 11, 12] ∧
    listToString [10, 11, 12] = none ∧
    farTriangleAtKey.oneStep = none :=
  ⟨reachable_nextCycles _ 3 [] _ [[10, 11], [10, 12], [11, 12]] farTriangleAtKey
      cycleGenerator.Reachable.start rfl,
    rfl, by decide, rfl, by decide, by decide, by decide, rfl⟩

/-- C17 (failing input): 2147483643 further `oneStep` calls on the exhausted
generator of the single arc bring its step counter to `INT_MAX`; the next call
returns 0 and leaves the counter at `-2147483648` (the wrapped value of the
overflowing `int` increment), not at `2147483648`. On `farTriangleAtKey`,
whose frontier is non-empty, `oneStep` does not return 1: it hashes the key
`[10, 11, 12]` outside the buffer of `listToString` and is undefined. -/
theorem oneStep_counter_overflows :
    exhaustedSingleArc.oneSteps 2147483643 = some saturatedSingleArc ∧
    saturatedSingleArc.numOneStepCall = 2147483647 ∧
    saturatedSingleArc.oneStep.map (fun r => (r.1, r.2.numOneStepCall))
      = some (0, -2147483648) ∧
    farTriangleAtKey.pathQueue ≠ [] ∧
    farTriangleAtKey.oneStep.map (fun r => r.1) = none :=
  ⟨oneSteps_exhausted 2147483643 exhaustedSingleArc rfl (by decide) (by decide),
    rfl, by decide, by decide, by decide⟩

end GraphAlg
